import Mathlib

/-!
# RADIUS attribute decoder

A shallow embedding of `src/lib/radius_decode.c`.

Conventions of the embedding.

* A byte is a `Nat` below 256; memory is a `List Nat`; a pointer is an index into it.
  A read outside the list yields 0 (`rd`).
* `ssize_t` results are a `Decoded`: `ok n vps` is a return value `n ≥ 0` together with the
  pair list stored through `pvp`, `error` is a negative return value, `diverge` is a call
  that does not return (a loop that never exits; also an exhausted recursion budget), and
  `fault` is a call that leaves the behaviour C defines: in `decode_wimax`, a `memcpy` whose
  length has wrapped around, or one that writes past the end of the block it fills.
* The dictionary, MD5, the allocators and the constants of the headers are not part of the
  sources; they are the fields of `Env`.
* The `#ifndef NDEBUG` blocks are compiled in.
* `size_t` is 64 bits wide.
-/

namespace RadiusDecode

/-! ## Data model -/

/-- The attribute types the decoder dispatches on; `OTHER` stands for every type that has no
`case` of its own in `fr_radius_decode_pair_value` (boolean, timeval, decimal, ...). -/
inductive PW_TYPE where
  | STRING | INTEGER | IPV4_ADDR | DATE | ABINARY | OCTETS | IFID | IPV6_ADDR | IPV6_PREFIX
  | BYTE | SHORT | ETHERNET | SIGNED | COMBO_IP_ADDR | TLV | EXTENDED | LONG_EXTENDED | EVS
  | INTEGER64 | IPV4_PREFIX | VSA | VENDOR | OTHER
deriving DecidableEq, Repr

/-- The values of `flags.encrypt`. -/
inductive FLAG_ENCRYPT where
  | NONE | USER_PASSWORD | TUNNEL_PASSWORD | ASCEND_SECRET
deriving DecidableEq, Repr

/-- The members of `da->flags` that the decoder reads. -/
structure fr_dict_attr_flags_t where
  has_tag : Bool
  concat : Bool
  encrypt : FLAG_ENCRYPT
  length : Nat
deriving DecidableEq, Repr

/-- One link of the chain of `parent` pointers of a descriptor: the fields of an ancestor. -/
structure da_link where
  vendor : Nat
  attr : Nat
  type : PW_TYPE
  flags : fr_dict_attr_flags_t
deriving DecidableEq, Repr

/-- An attribute descriptor. The `parent` pointer is kept as the list of the ancestors
(parent first), so that `da->parent` is `fr_dict_attr_t.parent`. -/
structure fr_dict_attr_t where
  vendor : Nat
  attr : Nat
  type : PW_TYPE
  flags : fr_dict_attr_flags_t
  lineage : List da_link
deriving DecidableEq, Repr

/-- The descriptor `da->parent`, `none` when the pointer is NULL. -/
def fr_dict_attr_t.parent (da : fr_dict_attr_t) : Option fr_dict_attr_t :=
  match da.lineage with
  | [] => none
  | p :: rest => some ⟨p.vendor, p.attr, p.type, p.flags, rest⟩

/-- A vendor descriptor: `dv->vendorpec`, `dv->type`, `dv->length`, `dv->flags`. -/
structure fr_dict_vendor_t where
  vendorpec : Nat
  type : Nat
  length : Nat
  flags : Nat
deriving DecidableEq, Repr

/-- The value union of a pair, one constructor for each member the decoder stores into. -/
inductive value_data where
  | vp_strvalue (bytes : List Nat)
  | vp_octets (bytes : List Nat)
  | vp_filter (bytes : List Nat)
  | vp_byte (n : Nat)
  | vp_short (n : Nat)
  | vp_integer (n : Nat)
  | vp_integer64 (n : Nat)
  | vp_date (n : Nat)
  | vp_ether (bytes : List Nat)
  | vp_ipaddr (bytes : List Nat)
  | vp_ifid (bytes : List Nat)
  | vp_ipv6addr (bytes : List Nat)
  | vp_ipv6prefix_bytes (bytes : List Nat)
  | vp_ipv4prefix_bytes (bytes : List Nat)
deriving DecidableEq, Repr

/-- A value pair. Modelled from the spec: the tag is `Option<u8>`, `TAG_NONE` is `none`
(the header that defines `TAG_NONE` is not part of the sources). The `next` pointer is the
order of the list the pair stands in. -/
structure VALUE_PAIR where
  da : fr_dict_attr_t
  tag : Option Nat
  vp_length : Nat
  data : value_data
deriving DecidableEq, Repr

/-- The packet fields the decoder reads: the authenticator vector. -/
structure RADIUS_PACKET where
  vector : List Nat
deriving DecidableEq, Repr

/-- The arguments `packet`, `original` and `secret`, each of which may be NULL. -/
structure Request where
  packet : Option RADIUS_PACKET
  original : Option RADIUS_PACKET
  secret : Option (List Nat)
deriving DecidableEq, Repr

/-- What a decoding function hands back: a length and the list stored through `pvp`,
a negative return value, no return at all, or a `memcpy` outside what C defines. -/
inductive Decoded where
  | ok (len : Nat) (vps : List VALUE_PAIR)
  | error
  | diverge
  | fault
deriving DecidableEq, Repr

/-- Everything the decoder consumes that is not defined in `radius_decode.c`. -/
structure Env where
  /-- the MD5 digest of a byte string (`fr_md5_init`, `update`, `final` taken together) -/
  md5 : List Nat → List Nat
  /-- `fr_radius_make_secret (digest, vector, secret, value)`: the digest it writes -/
  fr_radius_make_secret : List Nat → List Nat → List Nat → List Nat
  fr_dict_attr_child_by_num : fr_dict_attr_t → Nat → Option fr_dict_attr_t
  /-- `fr_dict_unknown_afrom_fields (ctx, parent, vendor, attr)`, `none` for NULL -/
  fr_dict_unknown_afrom_fields : Option fr_dict_attr_t → Nat → Nat → Option fr_dict_attr_t
  /-- `fr_dict_unknown_vendor_afrom_num`: the vendor descriptor, `none` for a negative result -/
  fr_dict_unknown_vendor_afrom_num : fr_dict_attr_t → Nat → Option fr_dict_attr_t
  fr_dict_attr_by_type : Nat → Nat → PW_TYPE → Option fr_dict_attr_t
  fr_dict_vendor_by_num : Nat → Option fr_dict_vendor_t
  /-- whether `fr_pair_afrom_da` returns a pair for this descriptor -/
  fr_pair_afrom_da : fr_dict_attr_t → Bool
  /-- whether `malloc` and `talloc_array` return a block of this size -/
  malloc : Nat → Bool
  /-- the value of `sizeof(vp->vp_filter)` -/
  sizeof_vp_filter : Nat
  PW_CHARGEABLE_USER_IDENTITY : Nat
  VENDORPEC_WIMAX : Nat
  /-- the contents of the automatic array `buffer[256]` on entry (it is not initialised) -/
  buffer : List Nat

/-- The length of an authenticator vector: the number of initialisers of `nullvector`. -/
def AUTH_VECTOR_LEN : Nat := 16

/-- Modelled from the spec: password ciphertext comes in blocks of 16 bytes
(`AUTH_PASS_LEN` is defined in a header that is not part of the sources). -/
def AUTH_PASS_LEN : Nat := 16

/-- Modelled from the spec: Vendor-Specific is RFC 2865 attribute 26
(`PW_VENDOR_SPECIFIC` is defined in a header that is not part of the sources). -/
def PW_VENDOR_SPECIFIC : Nat := 26

/-- The value of `nullvector`. -/
def nullvector : List Nat := List.replicate AUTH_VECTOR_LEN 0

/-- The number of values of a `size_t`. -/
def SIZE_MOD : Nat := 2 ^ 64

/-! ## Memory and arithmetic helpers -/

/-- The byte `m[i]`. -/
def rd (m : List Nat) (i : Nat) : Nat := m.getD i 0

/-- The `n` bytes `m[p], ..., m[p + n - 1]`. -/
def memrd (m : List Nat) (p n : Nat) : List Nat := (List.range n).map fun i => rd m (p + i)

/-- The array `dst` after `memcpy (dst, src, src.length)`. -/
def memcpy (dst src : List Nat) : List Nat := src ++ dst.drop src.length

/-- The difference `a - b` of two `size_t` (or of two `int` converted to `size_t`). -/
def sub_sz (a b : Nat) : Nat := if b ≤ a then a - b else SIZE_MOD - (b - a)

/-- The result of `strlen`: the index of the first zero byte. -/
def strlen (m : List Nat) : Nat := m.findIdx fun b => b == 0

/-- The number with the big-endian bytes `bs`. -/
def be_val (bs : List Nat) : Nat := bs.foldl (fun acc b => acc * 256 + b) 0

/-- The `n` big-endian bytes of `v`. -/
def be_bytes : Nat → Nat → List Nat
  | 0, _ => []
  | n + 1, v => be_bytes n (v / 256) ++ [v % 256]

/-- The value of `ntohl` applied to the 4 bytes at `m[p]` (the same for `ntohll` and 8 bytes). -/
def ntoh (m : List Nat) (p n : Nat) : Nat := be_val (memrd m p n)

/-! ## Password decoders -/

/-- The array `passwd` after
`for (i = base; i < block_len; i++) passwd[dst i] = passwd[src i] ^ digest[i]`,
the assignments made one after the other. -/
def xor_block (passwd digest : List Nat) (dst src : Nat → Nat) (base block_len : Nat) : List Nat :=
  (List.range (block_len - base)).foldl
    (fun p k => p.set (dst (base + k)) (rd p (src (base + k)) ^^^ rd digest (base + k))) passwd

/-- The loop `for (n = 0; n < encrypted_len; n += AUTH_PASS_LEN)` of
`fr_radius_decode_tunnel_password`; the MD5 context is the byte string hashed so far.
The result is `none` for `return -1`, else the array and `reallen`. -/
def tunnel_password_loop (E : Env) (secret : List Nat) (pwlen encrypted_len : Nat) :
    Nat → Nat → List Nat → List Nat → Nat → Option (List Nat × Nat)
  | 0, _, _, passwd, reallen => some (passwd, reallen)
  | fuel + 1, n, context, passwd, reallen =>
    if n < encrypted_len then
      let block_len := if n + 2 + AUTH_PASS_LEN > pwlen then pwlen - n - 2 else AUTH_PASS_LEN
      if n = 0 then
        let digest := E.md5 context
        let reallen := rd passwd 2 ^^^ rd digest 0
        if reallen > encrypted_len then none
        else
          let context := secret ++ memrd passwd 2 block_len
          tunnel_password_loop E secret pwlen encrypted_len fuel (n + AUTH_PASS_LEN) context
            (xor_block passwd digest (fun i => n + i - 1) (fun i => n + i + 2) 1 block_len) reallen
      else
        let digest := E.md5 context
        let context := secret ++ memrd passwd (n + 2) block_len
        tunnel_password_loop E secret pwlen encrypted_len fuel (n + AUTH_PASS_LEN) context
          (xor_block passwd digest (fun i => n + i - 1) (fun i => n + i + 2) 0 block_len) reallen
    else some (passwd, reallen)

/-- The function `fr_radius_decode_tunnel_password (passwd, &pwlen, secret, vector)`:
the return value, the array `passwd` and `*pwlen` afterwards. -/
def fr_radius_decode_tunnel_password (E : Env) (passwd : List Nat) (pwlen : Nat)
    (secret vector : List Nat) : Int × List Nat × Nat :=
  let encrypted_len := pwlen
  if encrypted_len < 2 then (-1, passwd, pwlen)
  else if encrypted_len ≤ 3 then (0, passwd.set 0 0, 0)
  else
    let encrypted_len := encrypted_len - 2
    let context := secret ++ memrd vector 0 AUTH_VECTOR_LEN ++ memrd passwd 0 2
    match tunnel_password_loop E secret pwlen encrypted_len encrypted_len 0 context passwd 0 with
    | none => (-1, passwd, pwlen)
    | some (passwd, reallen) => ((reallen : Int), passwd.set reallen 0, reallen)

/-- The loop `for (n = 0; n < pwlen; n += AUTH_PASS_LEN)` of `fr_radius_decode_password`. -/
def password_loop (E : Env) (secret vector : List Nat) (pwlen : Nat) :
    Nat → Nat → List Nat → List Nat → List Nat
  | 0, _, _, passwd => passwd
  | fuel + 1, n, context, passwd =>
    if n < pwlen then
      if n = 0 then
        let digest := E.md5 (context ++ memrd vector 0 AUTH_VECTOR_LEN)
        let context := if pwlen > AUTH_PASS_LEN then secret ++ memrd passwd 0 AUTH_PASS_LEN else secret
        password_loop E secret vector pwlen fuel (n + AUTH_PASS_LEN) context
          (xor_block passwd digest (fun i => i + n) (fun i => i + n) 0 AUTH_PASS_LEN)
      else
        let digest := E.md5 context
        let context :=
          if pwlen > n + AUTH_PASS_LEN then secret ++ memrd passwd n AUTH_PASS_LEN else secret
        password_loop E secret vector pwlen fuel (n + AUTH_PASS_LEN) context
          (xor_block passwd digest (fun i => i + n) (fun i => i + n) 0 AUTH_PASS_LEN)
    else passwd

/-- The function `fr_radius_decode_password (passwd, pwlen, secret, vector)`: the return value
and the array `passwd` afterwards. -/
def fr_radius_decode_password (E : Env) (passwd : List Nat) (pwlen : Nat)
    (secret vector : List Nat) : Nat × List Nat :=
  let pwlen := if pwlen > 128 then 128 else pwlen
  let passwd := if pwlen = 0 then passwd else password_loop E secret vector pwlen pwlen 0 secret passwd
  let passwd := passwd.set pwlen 0
  (strlen passwd, passwd)

/-! ## The TLV shape check -/

/-- The `switch (dv_type)` of `fr_radius_decode_tlv_ok`: `true` when it leaves by `break`,
`false` when it returns -1. -/
def tlv_type_ok (m : List Nat) (data dv_type : Nat) : Bool :=
  if dv_type = 4 then
    if rd m data = 0 ∧ rd m (data + 1) = 0 ∧ rd m (data + 2) = 0 ∧ rd m (data + 3) = 0 then false
    else if rd m data ≠ 0 then false
    else true
  else if dv_type = 2 then
    if rd m data = 0 ∧ rd m (data + 1) = 0 then false else true
  else if dv_type = 1 then true
  else false

/-- The `switch (dv_length)` of `fr_radius_decode_tlv_ok`: the value it returns (`inl`), or the
`attrlen` it leaves with by `break` (`inr`). -/
def tlv_length_switch (m : List Nat) (data dv_type dv_length : Nat) : Sum Int Nat :=
  if dv_length = 0 then Sum.inl 0
  else if dv_length = 2 then
    if rd m (data + dv_type) ≠ 0 then Sum.inl (-1)
    else Sum.inr (rd m (data + dv_type + dv_length - 1))
  else if dv_length = 1 then Sum.inr (rd m (data + dv_type + dv_length - 1))
  else Sum.inl (-1)

/-- The loop `while (data < end)` of `fr_radius_decode_tlv_ok`; the result is the return value.
Every turn that goes on moves `data` forward by at least one byte, so `length` turns suffice;
the budget `fuel` is never used up when it starts at `length` or more. -/
def tlv_ok_loop (m : List Nat) (fin dv_type dv_length : Nat) : Nat → Nat → Nat → Int
  | 0, data, _ => if data < fin then -1 else 0
  | fuel + 1, data, length =>
    if data < fin then
      if data + dv_type + dv_length > fin then -1
      else if ¬ tlv_type_ok m data dv_type then -1
      else
        match tlv_length_switch m data dv_type dv_length with
        | Sum.inl r => r
        | Sum.inr attrlen =>
          if attrlen < dv_type + dv_length then -1
          else if attrlen > length then -1
          else tlv_ok_loop m fin dv_type dv_length fuel (data + attrlen) (length - attrlen)
    else 0

/-- The function `fr_radius_decode_tlv_ok (data, length, dv_type, dv_length)`. -/
def fr_radius_decode_tlv_ok (m : List Nat) (data length dv_type dv_length : Nat) : Int :=
  if dv_length > 2 ∨ dv_type = 0 ∨ dv_type > 4 then -1
  else tlv_ok_loop m (data + length) dv_type dv_length length data length

/-! ## Concatenated attributes -/

/-- The first loop of `decode_concat`: `total` when the loop is left, `none` when it never is.
A turn that does not leave the loop and does not move `ptr` repeats for ever; every other turn
moves `ptr` forward, so the loop is left within `end - ptr` turns or never. -/
def concat_scan (m : List Nat) (fin attr : Nat) : Nat → Nat → Nat → Option Nat
  | 0, ptr, total => if ptr < fin then none else some total
  | fuel + 1, ptr, total =>
    if ptr < fin then
      let total := (total + sub_sz (rd m (ptr + 1)) 2) % SIZE_MOD
      let ptr := ptr + rd m (ptr + 1)
      if rd m ptr ≠ attr then some total
      else concat_scan m fin attr fuel ptr total
    else some total

/-- The second loop of `decode_concat`, `while (total < vp->vp_length)`: the bytes copied to `p`
and `ptr` when the loop is left, `none` when the budget is used up first.
A `memcpy` length that would be negative copies nothing. -/
def concat_copy (m : List Nat) (vp_length : Nat) : Nat → Nat → Nat → List Nat → Option (List Nat × Nat)
  | 0, ptr, total, p => if total < vp_length then none else some (p, ptr)
  | fuel + 1, ptr, total, p =>
    if total < vp_length then
      concat_copy m vp_length fuel (ptr + rd m (ptr + 1))
        ((total + sub_sz (rd m (ptr + 1)) 2) % SIZE_MOD)
        (p ++ memrd m (ptr + 2) (rd m (ptr + 1) - 2))
    else some (p, ptr)

/-- The function `decode_concat (ctx, parent, start, packetlen, pvp)`. The block `p` holds
`vp_length` bytes: what the copy loop writes beyond it is not part of the value. -/
def decode_concat (E : Env) (parent : fr_dict_attr_t) (m : List Nat) (start packetlen : Nat) :
    Decoded :=
  match concat_scan m (start + packetlen) (rd m start) packetlen start 0 with
  | none => Decoded.diverge
  | some total =>
    if ¬ E.fr_pair_afrom_da parent then Decoded.error
    else if ¬ E.malloc total then Decoded.error
    else
      match concat_copy m total (packetlen + 1) start 0 [] with
      | none => Decoded.diverge
      | some (p, ptr) =>
        Decoded.ok (ptr - start) [⟨parent, none, total, value_data.vp_octets (p.take total)⟩]

/-! ## Structural decoders

The functions below call `fr_radius_decode_pair_value`, which calls them; they take it as the
argument `dec` (descriptor, memory, `start`, `attrlen`, `packetlen`). -/

/-- The type of `fr_radius_decode_pair_value` once the environment and the request are fixed. -/
abbrev Decoder := fr_dict_attr_t → List Nat → Nat → Nat → Nat → Decoded

/-- The link that stands for `da` in the lineage of its children. -/
def fr_dict_attr_t.link (da : fr_dict_attr_t) : da_link := ⟨da.vendor, da.attr, da.type, da.flags⟩

/-- The list `head` after a callee has stored `vps` through `tail`; `tail` is the number of
pairs in front of the pointer it addresses. -/
def store_tail (head : List VALUE_PAIR) (tail : Nat) (vps : List VALUE_PAIR) : List VALUE_PAIR :=
  head.take tail ++ vps

/-- The pointer `tail` after `if (*tail) tail = &((*tail)->next)`. -/
def advance_tail (tail : Nat) (vps : List VALUE_PAIR) : Nat :=
  if vps.isEmpty then tail else tail + 1

/-- The child descriptor of `fr_radius_decode_tlv`: the dictionary child, else an unknown
attribute whose `parent` is set to `parent`. -/
def tlv_child (E : Env) (parent : fr_dict_attr_t) (num : Nat) : Option fr_dict_attr_t :=
  match E.fr_dict_attr_child_by_num parent num with
  | some child => some child
  | none =>
    match E.fr_dict_unknown_afrom_fields (some parent) parent.vendor num with
    | none => none
    | some unknown_child => some { unknown_child with lineage := parent.link :: parent.lineage }

/-- The loop `while (data < (start + length))` of `fr_radius_decode_tlv`. -/
def tlv_loop (E : Env) (dec : Decoder) (parent : fr_dict_attr_t) (m : List Nat)
    (fin length : Nat) : Nat → Nat → List VALUE_PAIR → Nat → Decoded
  | 0, data, head, _ => if data < fin then Decoded.diverge else Decoded.ok length head
  | fuel + 1, data, head, tail =>
    if data < fin then
      match tlv_child E parent (rd m data) with
      | none => Decoded.error
      | some child =>
        match dec child m (data + 2) (sub_sz (rd m (data + 1)) 2) (sub_sz (rd m (data + 1)) 2) with
        | Decoded.ok _ vps =>
          tlv_loop E dec parent m fin length fuel (data + rd m (data + 1))
            (store_tail head tail vps) (advance_tail tail vps)
        | Decoded.error => Decoded.error
        | Decoded.diverge => Decoded.diverge
        | Decoded.fault => Decoded.fault
    else Decoded.ok length head

/-- The function `fr_radius_decode_tlv (ctx, packet, original, secret, parent, start, length, pvp)`. -/
def fr_radius_decode_tlv (E : Env) (dec : Decoder) (parent : fr_dict_attr_t) (m : List Nat)
    (start length : Nat) : Decoded :=
  if length < 3 then Decoded.error
  else if fr_radius_decode_tlv_ok m start length 1 1 < 0 then Decoded.error
  else tlv_loop E dec parent m (start + length) length length start [] 0

/-- The variable `attribute` of `decode_vsa_internal`, `none` in the `default` case. -/
def vsa_attribute (m : List Nat) (data dv_type : Nat) : Option Nat :=
  if dv_type = 4 then
    some ((rd m (data + 1) <<< 16) ||| (rd m (data + 2) <<< 8) ||| rd m (data + 3))
  else if dv_type = 2 then some ((rd m data <<< 8) ||| rd m (data + 1))
  else if dv_type = 1 then some (rd m data)
  else none

/-- The variable `attrlen` of `decode_vsa_internal`, `none` in the `default` case. -/
def vsa_attrlen (m : List Nat) (data length dv_type dv_length : Nat) : Option Nat :=
  if dv_length = 2 then some (rd m (data + dv_type + 1))
  else if dv_length = 1 then some (rd m (data + dv_type))
  else if dv_length = 0 then some length
  else none

/-- The dictionary child `number` of `parent`, else the unknown attribute of `vendor`. -/
def child_or_unknown (E : Env) (parent : fr_dict_attr_t) (vendor number : Nat) :
    Option fr_dict_attr_t :=
  match E.fr_dict_attr_child_by_num parent number with
  | some da => some da
  | none => E.fr_dict_unknown_afrom_fields (some parent) vendor number

/-- The function `decode_vsa_internal (ctx, packet, original, secret, dv, parent, data, length, pvp)`. -/
def decode_vsa_internal (E : Env) (dec : Decoder) (dv : fr_dict_vendor_t)
    (parent : fr_dict_attr_t) (m : List Nat) (data length : Nat) : Decoded :=
  if parent.type ≠ PW_TYPE.VENDOR then Decoded.error
  else if length ≤ dv.type + dv.length then Decoded.error
  else
    match vsa_attribute m data dv.type with
    | none => Decoded.error
    | some attrnum =>
      match vsa_attrlen m data length dv.type dv.length with
      | none => Decoded.error
      | some attrlen =>
        match child_or_unknown E parent dv.vendorpec attrnum with
        | none => Decoded.error
        | some da =>
          match dec da m (data + dv.type + dv.length) (sub_sz attrlen (dv.type + dv.length))
              (sub_sz attrlen (dv.type + dv.length)) with
          | Decoded.ok _ vps => Decoded.ok attrlen vps
          | Decoded.error => Decoded.error
          | Decoded.diverge => Decoded.diverge
          | Decoded.fault => Decoded.fault

/-- The first loop of `decode_extended`: `fraglen`, `end` and `fragments` when it is left.
`attr0` and `attr2` are `attr[0]` and `attr[2]`. Every turn that goes on moves `frag` forward by
4 bytes or more. -/
def extended_scan (m : List Nat) (attr0 attr2 : Nat) :
    Nat → Nat → Nat → Nat → Nat → Bool → Option (Nat × Nat × Nat)
  | 0, frag, fin, fraglen, fragments, _ =>
    if frag < fin then none else some (fraglen, fin, fragments)
  | fuel + 1, frag, fin, fraglen, fragments, last_frag =>
    if frag < fin then
      if last_frag ∨ rd m frag ≠ attr0 ∨ rd m (frag + 1) < 4 ∨ rd m (frag + 2) ≠ attr2
          ∨ frag + rd m (frag + 1) > fin then some (fraglen, frag, fragments)
      else
        extended_scan m attr0 attr2 fuel (frag + rd m (frag + 1)) fin
          (fraglen + (rd m (frag + 1) - 4)) (fragments + 1) ((rd m (frag + 3) &&& 0x80) == 0)
    else some (fraglen, fin, fragments)

/-- The byte `p[-k]` for `k` of 1 or 2: the bytes in front of the memory read as 0. -/
def rd_back (m : List Nat) (p k : Nat) : Nat := if k ≤ p then rd m (p - k) else 0

/-- The second loop of `decode_extended`, `while (fragments > 0)`: the bytes written to `tail`.
The pointer `frag` starts at `attr = data - 2`, which may lie in front of the memory; the
argument `frag2` is `frag + 2`. A `memcpy` length that would be negative copies nothing. -/
def extended_copy (m : List Nat) : Nat → Nat → List Nat
  | 0, _ => []
  | fragments + 1, frag2 =>
    memrd m (frag2 + 2) (rd_back m frag2 1 - 4)
      ++ extended_copy m fragments (frag2 + rd_back m frag2 1)

/-- The function `decode_extended (ctx, packet, original, secret, parent, data, attrlen,
packetlen, pvp)`. The block `head` holds `fraglen` bytes. -/
def decode_extended (E : Env) (dec : Decoder) (parent : fr_dict_attr_t) (m : List Nat)
    (data attrlen packetlen : Nat) : Decoded :=
  if attrlen < 3 then Decoded.error
  else
    match extended_scan m (rd_back m data 2) (rd m data) packetlen (data + attrlen)
        (data + packetlen) (attrlen - 2) 1 false with
    | none => Decoded.diverge
    | some (fraglen, fin, fragments) =>
      if ¬ E.malloc fraglen then Decoded.error
      else
        match dec parent ((extended_copy m fragments data).take fraglen) 0 fraglen fraglen with
        | Decoded.ok _ vps => Decoded.ok (fin - data) vps
        | Decoded.error => Decoded.error
        | Decoded.diverge => Decoded.diverge
        | Decoded.fault => Decoded.fault

/-- The first loop of `decode_wimax`: `fraglen` and `end` when it is left. Every turn that goes
on has `frag[7] + 6 == frag[1]` and `frag[1] >= 9`, and moves `frag` forward by `frag[1]`. -/
def wimax_scan (m : List Nat) (data : Nat) : Nat → Nat → Nat → Nat → Bool → Option (Nat × Nat)
  | 0, frag, fin, fraglen, _ => if frag < fin then none else some (fraglen, fin)
  | fuel + 1, frag, fin, fraglen, last_frag =>
    if frag < fin then
      if last_frag ∨ rd m frag ≠ PW_VENDOR_SPECIFIC ∨ rd m (frag + 1) < 9
          ∨ frag + rd m (frag + 1) > fin ∨ memrd m (frag + 2) 4 ≠ memrd m data 4
          ∨ rd m (frag + 6) ≠ rd m (data + 4) ∨ rd m (frag + 7) + 6 ≠ rd m (frag + 1) then
        some (fraglen, frag)
      else
        wimax_scan m data fuel (frag + rd m (frag + 1)) fin (fraglen + (rd m (frag + 7) - 3))
          ((rd m (frag + 8) &&& 0x80) == 0)
    else some (fraglen, fin)

/-- What the copy loop of `decode_wimax` leaves: the bytes it has written from `head` on, in
order (they may be more than the block holds), `fault` when the length of a `memcpy` is below
zero and wraps around in `size_t`, `diverge` when the budget is used up first. -/
inductive Copied where
  | done (tail : List Nat)
  | fault
  | diverge
deriving DecidableEq, Repr

/-- The loop `do ... while (frag < end)` of `decode_wimax`; `tail` holds the bytes written so
far. The body runs before the first test of `frag < end`. The length `frag[7] - 3` of the
`memcpy` is an `int`, below zero when `frag[7] < 3`. -/
def wimax_copy (m : List Nat) (fin : Nat) : Nat → Nat → List Nat → Copied
  | 0, _, _ => Copied.diverge
  | fuel + 1, frag, tail =>
    if rd m (frag + 2 + 4 + 1) < 3 then Copied.fault
    else
      let tail := tail ++ memrd m (frag + 2 + 4 + 3) (rd m (frag + 2 + 4 + 1) - 3)
      let frag := frag + rd m (frag + 1)
      if frag < fin then wimax_copy m fin fuel frag tail else Copied.done tail

/-- The function `decode_wimax (ctx, packet, original, secret, vendor, parent, data, attrlen,
packetlen, pvp)`. The block `head` holds `fraglen` bytes: a copy loop that writes more than
`fraglen` bytes has written past its end. -/
def decode_wimax (E : Env) (dec : Decoder) (vendor : Nat) (parent : fr_dict_attr_t)
    (m : List Nat) (data attrlen packetlen : Nat) : Decoded :=
  if attrlen < 8 then Decoded.error
  else if rd m (data + 5) + 4 ≠ attrlen then Decoded.error
  else
    match child_or_unknown E parent vendor (rd m (data + 4)) with
    | none => Decoded.error
    | some da =>
      if rd m (data + 6) &&& 0x80 = 0 then
        match dec da m (data + 7) (sub_sz (rd m (data + 5)) 3) (sub_sz (rd m (data + 5)) 3) with
        | Decoded.ok rcode vps => Decoded.ok (7 + rcode) vps
        | Decoded.error => Decoded.error
        | Decoded.diverge => Decoded.diverge
        | Decoded.fault => Decoded.fault
      else
        match wimax_scan m data packetlen (data + attrlen) (data + packetlen)
            (sub_sz (rd m (data + 5)) 3) false with
        | none => Decoded.diverge
        | some (fraglen, fin) =>
          if ¬ E.malloc fraglen then Decoded.error
          else
            match wimax_copy m fin (packetlen + 1) (data + attrlen)
                (memrd m (data + 4 + 3) (rd m (data + 4 + 1) - 3)) with
            | Copied.diverge => Decoded.diverge
            | Copied.fault => Decoded.fault
            | Copied.done bytes =>
              if fraglen < bytes.length then Decoded.fault
              else
                match dec da bytes 0 fraglen fraglen with
                | Decoded.ok _ vps => Decoded.ok (fin - data) vps
                | Decoded.error => Decoded.error
                | Decoded.diverge => Decoded.diverge
                | Decoded.fault => Decoded.fault

/-- The loop `while (attrlen > 0)` of `decode_vsa`. -/
def vsa_loop (E : Env) (dec : Decoder) (dv : fr_dict_vendor_t) (vendor_da : fr_dict_attr_t)
    (m : List Nat) : Nat → Nat → Nat → Nat → List VALUE_PAIR → Nat → Decoded
  | 0, _, attrlen, total, head, _ =>
    if attrlen > 0 then Decoded.diverge else Decoded.ok total head
  | fuel + 1, data, attrlen, total, head, tail =>
    if attrlen > 0 then
      match decode_vsa_internal E dec dv vendor_da m data attrlen with
      | Decoded.ok vsa_len vps =>
        vsa_loop E dec dv vendor_da m fuel (data + vsa_len) (sub_sz attrlen vsa_len)
          (total + vsa_len) (store_tail head tail vps) (advance_tail tail vps)
      | Decoded.error => Decoded.error
      | Decoded.diverge => Decoded.diverge
      | Decoded.fault => Decoded.fault
    else Decoded.ok total head

/-- The function `decode_vsa (ctx, packet, original, secret, parent, data, attrlen, packetlen, pvp)`. -/
def decode_vsa (E : Env) (dec : Decoder) (parent : fr_dict_attr_t) (m : List Nat)
    (data attrlen packetlen : Nat) : Decoded :=
  if parent.type ≠ PW_TYPE.VSA then Decoded.error
  else if attrlen > packetlen then Decoded.error
  else if attrlen < 5 then Decoded.error
  else if rd m data ≠ 0 then Decoded.error
  else
    let vendor := ntoh m data 4
    match E.fr_dict_attr_child_by_num parent vendor with
    | none =>
      if fr_radius_decode_tlv_ok m (data + 4) (attrlen - 4) 1 1 < 0 then Decoded.error
      else
        match E.fr_dict_unknown_vendor_afrom_num parent vendor with
        | none => Decoded.error
        | some vendor_da =>
          vsa_loop E dec ⟨vendor, 1, 1, 0⟩ vendor_da m (attrlen - 4) (data + 4) (attrlen - 4) 4 [] 0
    | some vendor_da =>
      match E.fr_dict_vendor_by_num vendor with
      | none => Decoded.error
      | some dv =>
        if vendor = E.VENDORPEC_WIMAX ∧ dv.flags ≠ 0 then
          decode_wimax E dec vendor vendor_da m data attrlen packetlen
        else if fr_radius_decode_tlv_ok m (data + 4) (attrlen - 4) dv.type dv.length < 0 then
          Decoded.error
        else vsa_loop E dec dv vendor_da m (attrlen - 4) (data + 4) (attrlen - 4) 4 [] 0

/-! ## The value decoder -/

/-- The local variables `data`, `datalen`, `tag` and `buffer` of `fr_radius_decode_pair_value`.
The pointer `data` is the index `data` into the array `dmem`, which is the caller's memory
while `data == start` (`at_start`) and the array `buffer` afterwards. -/
structure Locals where
  at_start : Bool
  dmem : List Nat
  data : Nat
  datalen : Nat
  tag : Option Nat
  buffer : List Nat
deriving DecidableEq, Repr

/-- The byte `data[i]`. -/
def Locals.at (l : Locals) (i : Nat) : Nat := rd l.dmem (l.data + i)

/-- The 256 bytes of `buffer` on entry. -/
def buffer_on_entry (E : Env) : List Nat := memrd E.buffer 0 256

/-- The tag block of `fr_radius_decode_pair_value` (the `if` on `flags.has_tag`): the locals
after it, `none` for `return -1`. -/
def tag_stage (E : Env) (parent : fr_dict_attr_t) (m : List Nat) (start attrlen : Nat) :
    Option Locals :=
  let datalen := attrlen
  if parent.flags.has_tag ∧ datalen > 1 ∧
      (rd m start < 0x20 ∨ parent.flags.encrypt = FLAG_ENCRYPT.TUNNEL_PASSWORD) then
    if datalen ≥ 256 then none
    else if parent.type = PW_TYPE.STRING then
      let buffer := memcpy (buffer_on_entry E) (memrd m (start + 1) (datalen - 1))
      some ⟨false, buffer, 0, datalen - 1, some (rd m start), buffer⟩
    else if parent.type = PW_TYPE.INTEGER then
      let buffer := memcpy (buffer_on_entry E) (memrd m start attrlen)
      let tag := rd buffer 0
      let buffer := buffer.set 0 0
      some ⟨false, buffer, 0, datalen, some tag, buffer⟩
    else none
  else some ⟨true, m, start, datalen, none, buffer_on_entry E⟩

/-- The value of `datalen` after `while ((datalen > 0) && (buffer[datalen - 1] == 0)) datalen--`. -/
def strip_zeros (buffer : List Nat) : Nat → Nat
  | 0 => 0
  | datalen + 1 => if rd buffer datalen = 0 then strip_zeros buffer datalen else datalen + 1

/-- Where a block of `fr_radius_decode_pair_value` leaves: it falls through with new locals,
jumps to `raw`, or returns -1. -/
inductive Step where
  | go (l : Locals)
  | raw (l : Locals)
  | fail
deriving DecidableEq, Repr

/-- The decryption block of `fr_radius_decode_pair_value` (the `if` on `flags.encrypt`). -/
def decrypt_stage (E : Env) (R : Request) (parent : fr_dict_attr_t) (attrlen : Nat) (l : Locals) :
    Step :=
  match R.secret, R.packet with
  | some secret, some packet =>
    if parent.flags.encrypt ≠ FLAG_ENCRYPT.NONE then
      if attrlen > 253 then Step.fail
      else
        let buffer := if l.at_start then memcpy l.buffer (memrd l.dmem l.data attrlen) else l.buffer
        match parent.flags.encrypt with
        | FLAG_ENCRYPT.USER_PASSWORD =>
          let vector := match R.original with
            | some original => original.vector
            | none => packet.vector
          let buffer := (fr_radius_decode_password E buffer attrlen secret vector).2
          let buffer := buffer.set 253 0
          let datalen :=
            if parent.flags.length ≠ 0 then
              if l.datalen > parent.flags.length then parent.flags.length else l.datalen
            else strip_zeros buffer l.datalen
          Step.go ⟨false, buffer, 0, datalen, l.tag, buffer⟩
        | FLAG_ENCRYPT.TUNNEL_PASSWORD =>
          let vector := match R.original with
            | some original => original.vector
            | none => nullvector
          let r := fr_radius_decode_tunnel_password E buffer l.datalen secret vector
          if r.1 < 0 then Step.raw ⟨false, r.2.1, 0, r.2.2, l.tag, r.2.1⟩
          else Step.go ⟨false, r.2.1, 0, r.2.2, l.tag, r.2.1⟩
        | FLAG_ENCRYPT.ASCEND_SECRET =>
          match R.original with
          | none => Step.raw ⟨false, buffer, 0, l.datalen, l.tag, buffer⟩
          | some original =>
            let my_digest := E.fr_radius_make_secret original.vector secret buffer
            let buffer := (memcpy buffer (memrd my_digest 0 AUTH_VECTOR_LEN)).set AUTH_VECTOR_LEN 0
            Step.go ⟨false, buffer, 0, strlen buffer, l.tag, buffer⟩
        | FLAG_ENCRYPT.NONE => Step.go ⟨false, buffer, 0, l.datalen, l.tag, buffer⟩
    else Step.go l
  | _, _ => Step.go l

/-- Where the first `switch (parent->type)` of `fr_radius_decode_pair_value` leaves: by `break`
with the descriptor to allocate the pair for (NULL is `none`) and the locals, by a jump to
`raw`, or by `return`. -/
inductive Shape where
  | alloc (parent : Option fr_dict_attr_t) (l : Locals)
  | raw
  | done (r : Decoded)
deriving DecidableEq, Repr

/-- The statement `return k + rcode` after `if (rcode < 0) goto raw`. -/
def ret_plus (k : Nat) : Decoded → Shape
  | Decoded.ok rcode vps => Shape.done (Decoded.ok (k + rcode) vps)
  | Decoded.error => Shape.raw
  | Decoded.diverge => Shape.done Decoded.diverge
  | Decoded.fault => Shape.done Decoded.fault

/-- The unknown child that the `PW_TYPE_LONG_EXTENDED` case builds when the dictionary has
none: `none` is the jump to `raw` (vendor 0), `some none` is a NULL result. -/
def long_extended_unknown (E : Env) (parent : fr_dict_attr_t) (l : Locals) :
    Option (Option fr_dict_attr_t) :=
  if l.at 0 ≠ PW_VENDOR_SPECIFIC ∨ l.datalen < 3 + 4 + 1 then
    some (E.fr_dict_unknown_afrom_fields (some parent) 0 (l.at 0))
  else
    let vendor := ntoh l.dmem (l.data + 3) 4
    if vendor = 0 then none
    else some (E.fr_dict_unknown_afrom_fields (some parent) vendor (l.at 7))

/-- The case `PW_TYPE_LONG_EXTENDED` once `child` is known. -/
def long_extended_child (E : Env) (dec : Decoder) (child : fr_dict_attr_t) (m : List Nat)
    (start attrlen packetlen : Nat) (l : Locals) : Shape :=
  if l.at 1 &&& 0x80 = 0 then
    ret_plus 2 (dec child l.dmem (l.data + 2) (sub_sz attrlen 2) (sub_sz attrlen 2))
  else Shape.done (decode_extended E dec child m start attrlen packetlen)

/-- The case `PW_TYPE_EVS` of the first `switch`. -/
def evs_case (E : Env) (dec : Decoder) (parent : fr_dict_attr_t) (attrlen : Nat) (l : Locals) :
    Shape :=
  if l.datalen < 6 then Shape.raw
  else if l.at 0 ≠ 0 then Shape.raw
  else
    let vendor := ntoh l.dmem l.data 4
    match E.fr_dict_attr_child_by_num parent vendor with
    | none =>
      Shape.alloc (E.fr_dict_unknown_afrom_fields (some parent) vendor (l.at 4))
        { l with at_start := false, data := l.data + 5, datalen := l.datalen - 5 }
    | some vendor_child =>
      match E.fr_dict_attr_child_by_num vendor_child (l.at 4) with
      | none =>
        Shape.alloc (E.fr_dict_unknown_afrom_fields (some parent) vendor (l.at 4))
          { l with at_start := false, data := l.data + 5, datalen := l.datalen - 5 }
      | some child =>
        ret_plus 5 (dec child l.dmem (l.data + 5) (sub_sz attrlen 5) (sub_sz attrlen 5))

/-- The first `switch (parent->type)` of `fr_radius_decode_pair_value`, which checks the
length of the value against the type and recurses for the structural types. -/
def shape_stage (E : Env) (dec : Decoder) (parent : fr_dict_attr_t) (m : List Nat)
    (start attrlen packetlen : Nat) (l : Locals) : Shape :=
  match parent.type with
  | PW_TYPE.STRING => Shape.alloc (some parent) l
  | PW_TYPE.OCTETS => Shape.alloc (some parent) l
  | PW_TYPE.ABINARY =>
    if l.datalen > E.sizeof_vp_filter then Shape.raw else Shape.alloc (some parent) l
  | PW_TYPE.INTEGER => if l.datalen ≠ 4 then Shape.raw else Shape.alloc (some parent) l
  | PW_TYPE.IPV4_ADDR => if l.datalen ≠ 4 then Shape.raw else Shape.alloc (some parent) l
  | PW_TYPE.DATE => if l.datalen ≠ 4 then Shape.raw else Shape.alloc (some parent) l
  | PW_TYPE.SIGNED => if l.datalen ≠ 4 then Shape.raw else Shape.alloc (some parent) l
  | PW_TYPE.INTEGER64 => if l.datalen ≠ 8 then Shape.raw else Shape.alloc (some parent) l
  | PW_TYPE.IFID => if l.datalen ≠ 8 then Shape.raw else Shape.alloc (some parent) l
  | PW_TYPE.IPV6_ADDR => if l.datalen ≠ 16 then Shape.raw else Shape.alloc (some parent) l
  | PW_TYPE.IPV6_PREFIX =>
    if l.datalen < 2 ∨ l.datalen > 18 then Shape.raw
    else if l.at 1 > 128 then Shape.raw
    else Shape.alloc (some parent) l
  | PW_TYPE.BYTE => if l.datalen ≠ 1 then Shape.raw else Shape.alloc (some parent) l
  | PW_TYPE.SHORT => if l.datalen ≠ 2 then Shape.raw else Shape.alloc (some parent) l
  | PW_TYPE.ETHERNET => if l.datalen ≠ 6 then Shape.raw else Shape.alloc (some parent) l
  | PW_TYPE.COMBO_IP_ADDR =>
    if l.datalen = 4 then
      match E.fr_dict_attr_by_type parent.vendor parent.attr PW_TYPE.IPV4_ADDR with
      | none => Shape.raw
      | some child => Shape.alloc (some child) l
    else if l.datalen = 16 then
      match E.fr_dict_attr_by_type parent.vendor parent.attr PW_TYPE.IPV6_ADDR with
      | none => Shape.raw
      | some child => Shape.alloc (some child) l
    else Shape.raw
  | PW_TYPE.IPV4_PREFIX =>
    if l.datalen ≠ 6 then Shape.raw
    else if l.at 1 &&& 0x3f > 32 then Shape.raw
    else Shape.alloc (some parent) l
  | PW_TYPE.EXTENDED =>
    if l.datalen < 2 then Shape.raw
    else
      match E.fr_dict_attr_child_by_num parent (l.at 0) with
      | none => Shape.raw
      | some child =>
        ret_plus 1 (dec child l.dmem (l.data + 1) (sub_sz attrlen 1) (sub_sz attrlen 1))
  | PW_TYPE.LONG_EXTENDED =>
    if l.datalen < 3 then Shape.raw
    else
      match E.fr_dict_attr_child_by_num parent (l.at 0) with
      | some child => long_extended_child E dec child m start attrlen packetlen l
      | none =>
        match long_extended_unknown E parent l with
        | none => Shape.raw
        | some none => Shape.done Decoded.error
        | some (some child) => long_extended_child E dec child m start attrlen packetlen l
  | PW_TYPE.EVS => evs_case E dec parent attrlen l
  | PW_TYPE.TLV =>
    match fr_radius_decode_tlv E dec parent l.dmem l.data attrlen with
    | Decoded.error => Shape.raw
    | r => Shape.done r
  | PW_TYPE.VSA =>
    match decode_vsa E dec parent l.dmem l.data attrlen packetlen with
    | Decoded.error => Shape.raw
    | r => Shape.done r
  | PW_TYPE.VENDOR => Shape.raw
  | PW_TYPE.OTHER => Shape.raw

/-- The dead branch of the `PW_TYPE_IPV4_PREFIX` case of the second `switch`: the 6 stored
bytes with the address masked. The code reads the address through `vp->vp_octets + 2`; it is
taken here from the stored bytes. -/
def ipv4prefix_masked (stored : List Nat) (p : Nat) : List Nat :=
  let addr := be_val (memrd stored 2 4)
  let mask := (2 ^ 32 - 1) - ((1 <<< (32 - p)) % 2 ^ 32 - 1)
  memrd stored 0 2 ++ be_bytes 4 (addr &&& mask)

/-- The value stored by the second `switch (parent->type)` and the final `vp_length`;
`none` is the `default` case. -/
def leaf_value (E : Env) (type : PW_TYPE) (l : Locals) : Option (Nat × value_data) :=
  let vp_length := l.datalen
  match type with
  | PW_TYPE.STRING => some (vp_length, value_data.vp_strvalue (memrd l.dmem l.data vp_length))
  | PW_TYPE.OCTETS => some (vp_length, value_data.vp_octets (memrd l.dmem l.data vp_length))
  | PW_TYPE.ABINARY =>
    let vp_length := if vp_length > E.sizeof_vp_filter then E.sizeof_vp_filter else vp_length
    some (vp_length, value_data.vp_filter (memrd l.dmem l.data vp_length))
  | PW_TYPE.BYTE => some (vp_length, value_data.vp_byte (l.at 0))
  | PW_TYPE.SHORT => some (vp_length, value_data.vp_short (((l.at 0 <<< 8) ||| l.at 1) % 2 ^ 16))
  | PW_TYPE.INTEGER => some (vp_length, value_data.vp_integer (ntoh l.dmem l.data 4))
  | PW_TYPE.INTEGER64 => some (vp_length, value_data.vp_integer64 (ntoh l.dmem l.data 8))
  | PW_TYPE.DATE => some (vp_length, value_data.vp_date (ntoh l.dmem l.data 4))
  | PW_TYPE.ETHERNET => some (vp_length, value_data.vp_ether (memrd l.dmem l.data 6))
  | PW_TYPE.IPV4_ADDR => some (vp_length, value_data.vp_ipaddr (memrd l.dmem l.data 4))
  | PW_TYPE.IFID => some (vp_length, value_data.vp_ifid (memrd l.dmem l.data 8))
  | PW_TYPE.IPV6_ADDR => some (vp_length, value_data.vp_ipv6addr (memrd l.dmem l.data 16))
  | PW_TYPE.IPV6_PREFIX =>
    some (vp_length, value_data.vp_ipv6prefix_bytes
      (memrd l.dmem l.data vp_length ++ List.replicate (18 - vp_length) 0))
  | PW_TYPE.IPV4_PREFIX =>
    let stored := memrd l.dmem l.data vp_length
    if l.at 1 &&& 0x3f > 32 then
      some (vp_length, value_data.vp_ipv4prefix_bytes (ipv4prefix_masked stored (l.at 1 &&& 0x3f)))
    else some (vp_length, value_data.vp_ipv4prefix_bytes stored)
  | PW_TYPE.SIGNED => some (vp_length, value_data.vp_integer (ntoh l.buffer 0 4))
  | _ => none

/-- The code from the label `alloc_cui` to the end of `fr_radius_decode_pair_value`. -/
def alloc_stage (E : Env) (parent : fr_dict_attr_t) (l : Locals) (attrlen : Nat) : Decoded :=
  if ¬ E.fr_pair_afrom_da parent then Decoded.error
  else
    match leaf_value E parent.type l with
    | none => Decoded.error
    | some (vp_length, data) => Decoded.ok attrlen [⟨parent, l.tag, vp_length, data⟩]

/-- The code at the label `raw`, followed by `alloc_cui`. -/
def raw_stage (E : Env) (parent : fr_dict_attr_t) (l : Locals) (attrlen : Nat) : Decoded :=
  match E.fr_dict_unknown_afrom_fields parent.parent parent.vendor parent.attr with
  | none => Decoded.error
  | some unknown =>
    if unknown.type ≠ PW_TYPE.OCTETS then Decoded.error
    else alloc_stage E unknown { l with tag := none } attrlen

/-- The body of `fr_radius_decode_pair_value (ctx, packet, original, secret, parent, start,
attrlen, packetlen, pvp)`, with `dec` for its recursive calls. `parent` is not NULL. -/
def decode_pair_value_body (E : Env) (R : Request) (dec : Decoder) : Decoder :=
  fun parent m start attrlen packetlen =>
  if attrlen > packetlen ∨ (attrlen > 253 ∧ attrlen ≠ packetlen) ∨ attrlen > 128 * 1024 then
    Decoded.error
  else if attrlen = 0 then
    if ¬ (parent.vendor = 0 ∧ parent.attr = E.PW_CHARGEABLE_USER_IDENTITY) then Decoded.ok 0 []
    else if parent.type ≠ PW_TYPE.OCTETS then Decoded.error
    else alloc_stage E parent ⟨false, [], 0, 0, none, buffer_on_entry E⟩ attrlen
  else
    match tag_stage E parent m start attrlen with
    | none => Decoded.error
    | some l =>
      match decrypt_stage E R parent attrlen l with
      | Step.fail => Decoded.error
      | Step.raw l => raw_stage E parent l attrlen
      | Step.go l =>
        match shape_stage E dec parent m start attrlen packetlen l with
        | Shape.done r => r
        | Shape.raw => raw_stage E parent l attrlen
        | Shape.alloc none _ => Decoded.error
        | Shape.alloc (some da) l => alloc_stage E da l attrlen

/-- The function `fr_radius_decode_pair_value`; `fuel` bounds the depth of the recursion. -/
def fr_radius_decode_pair_value (E : Env) (R : Request) : Nat → Decoder
  | 0 => fun _ _ _ _ _ => Decoded.diverge
  | fuel + 1 => decode_pair_value_body E R (fr_radius_decode_pair_value E R fuel)

/-- The function `fr_radius_decode_pair (ctx, packet, original, secret, parent, data, length, pvp)`. -/
def fr_radius_decode_pair (E : Env) (R : Request) (fuel : Nat) (parent : fr_dict_attr_t)
    (m : List Nat) (data length : Nat) : Decoded :=
  if length < 2 ∨ rd m (data + 1) < 2 ∨ rd m (data + 1) > length then Decoded.error
  else
    match child_or_unknown E parent 0 (rd m data) with
    | none => Decoded.error
    | some da =>
      if da.flags.concat then decode_concat E da m data length
      else
        match fr_radius_decode_pair_value E R fuel da m (data + 2) (rd m (data + 1) - 2)
            (length - 2) with
        | Decoded.ok rcode vps => Decoded.ok (2 + rcode) vps
        | Decoded.error => Decoded.error
        | Decoded.diverge => Decoded.diverge
        | Decoded.fault => Decoded.fault


/-! ## A small dictionary for the concrete instances -/

/-- The flags of a descriptor that has none set. -/
def no_flags : fr_dict_attr_flags_t := ⟨false, false, FLAG_ENCRYPT.NONE, 0⟩

/-- The root of the demo dictionary. -/
def demo_root : fr_dict_attr_t := ⟨0, 0, PW_TYPE.TLV, no_flags, []⟩

/-- A top-level attribute of the demo dictionary. -/
def demo_attr (attr : Nat) (type : PW_TYPE) (flags : fr_dict_attr_flags_t) : fr_dict_attr_t :=
  ⟨0, attr, type, flags, [demo_root.link]⟩

/-- The unknown attribute the demo dictionary builds: octets, no flags. -/
def demo_unknown (parent : Option fr_dict_attr_t) (vendor attr : Nat) : fr_dict_attr_t :=
  ⟨vendor, attr, PW_TYPE.OCTETS, no_flags,
    match parent with
    | none => []
    | some p => p.link :: p.lineage⟩

/-- The vendor 9 of the demo dictionary, below Vendor-Specific. -/
def demo_vendor9 : fr_dict_attr_t :=
  ⟨9, 9, PW_TYPE.VENDOR, no_flags, [(demo_attr 26 PW_TYPE.VSA no_flags).link, demo_root.link]⟩

/-- The children of the demo dictionary: 4 signed, 5 integer, 6 ipv4-prefix, 7 tagged integer,
8 ipv6-prefix, 26 Vendor-Specific with vendor 9 whose attribute 1 is an integer. -/
def demo_child (parent : fr_dict_attr_t) (num : Nat) : Option fr_dict_attr_t :=
  if parent = demo_root then
    match num with
    | 4 => some (demo_attr 4 PW_TYPE.SIGNED no_flags)
    | 5 => some (demo_attr 5 PW_TYPE.INTEGER no_flags)
    | 6 => some (demo_attr 6 PW_TYPE.IPV4_PREFIX no_flags)
    | 7 => some (demo_attr 7 PW_TYPE.INTEGER ⟨true, false, FLAG_ENCRYPT.NONE, 0⟩)
    | 8 => some (demo_attr 8 PW_TYPE.IPV6_PREFIX no_flags)
    | 26 => some (demo_attr 26 PW_TYPE.VSA no_flags)
    | _ => none
  else if parent = demo_attr 26 PW_TYPE.VSA no_flags then
    if num = 9 then some demo_vendor9 else none
  else if parent = demo_vendor9 then
    if num = 1 then some ⟨9, 1, PW_TYPE.INTEGER, no_flags, demo_vendor9.link :: demo_vendor9.lineage⟩
    else none
  else none

/-- The demo environment; the array `buffer` holds `fill` in every byte on entry. -/
def demo_env (fill : Nat) : Env where
  md5 := fun _ => List.replicate 16 0
  fr_radius_make_secret := fun _ _ _ => List.replicate 16 0
  fr_dict_attr_child_by_num := demo_child
  fr_dict_unknown_afrom_fields := fun p v a => some (demo_unknown p v a)
  fr_dict_unknown_vendor_afrom_num := fun p v =>
    some ⟨v, v, PW_TYPE.VENDOR, no_flags, p.link :: p.lineage⟩
  fr_dict_attr_by_type := fun v a t => some ⟨v, a, t, no_flags, [demo_root.link]⟩
  fr_dict_vendor_by_num := fun v => if v = 9 then some ⟨9, 1, 1, 0⟩ else none
  fr_pair_afrom_da := fun _ => true
  malloc := fun _ => true
  sizeof_vp_filter := 32
  PW_CHARGEABLE_USER_IDENTITY := 89
  VENDORPEC_WIMAX := 24757
  buffer := List.replicate 256 fill

/-- A request without secret, packet or original packet. -/
def no_request : Request := ⟨none, none, none⟩

/-! ## Concrete data for the password instances -/

/-- A stand-in for MD5 in the concrete instances: 16 bytes that depend on the bytes hashed. -/
def toy_md5 (bs : List Nat) : List Nat :=
  (List.range 16).map fun i => (bs.sum + 7 * i + bs.length) % 256

/-- The demo environment with `toy_md5` for the digest. -/
def crypt_env : Env where
  md5 := toy_md5
  fr_radius_make_secret := fun _ _ _ => List.replicate 16 0
  fr_dict_attr_child_by_num := demo_child
  fr_dict_unknown_afrom_fields := fun p v a => some (demo_unknown p v a)
  fr_dict_unknown_vendor_afrom_num := fun p v =>
    some ⟨v, v, PW_TYPE.VENDOR, no_flags, p.link :: p.lineage⟩
  fr_dict_attr_by_type := fun v a t => some ⟨v, a, t, no_flags, [demo_root.link]⟩
  fr_dict_vendor_by_num := fun v => if v = 9 then some ⟨9, 1, 1, 0⟩ else none
  fr_pair_afrom_da := fun _ => true
  malloc := fun _ => true
  sizeof_vp_filter := 32
  PW_CHARGEABLE_USER_IDENTITY := 89
  VENDORPEC_WIMAX := 24757
  buffer := List.replicate 256 0

/-- The secret of the spec's scenarios, `xyzzy5461`. -/
def demo_secret : List Nat := [120, 121, 122, 122, 121, 53, 52, 54, 49]

/-- A request authenticator of 16 bytes. -/
def demo_vector : List Nat := [15, 64, 63, 148, 115, 151, 128, 87, 189, 131, 213, 203, 152, 244, 34, 122]

/-- A request with the demo secret and a packet with the demo vector, without original. -/
def demo_request : Request := ⟨some ⟨demo_vector⟩, none, some demo_secret⟩

/-- The bytes of `arctangent`. -/
def arctangent : List Nat := [97, 114, 99, 116, 97, 110, 103, 101, 110, 116]

/-- The bytes of `hello`. -/
def hello : List Nat := [104, 101, 108, 108, 111]


/-! ## A dictionary with nested and fragmented attributes for the concrete instances -/

/-- A TLV attribute of the dictionary below: number 10, child of the root. -/
def nest_tlv : fr_dict_attr_t := demo_attr 10 PW_TYPE.TLV no_flags

/-- The child 1 of `nest_tlv`, itself a TLV. -/
def nest_inner : fr_dict_attr_t :=
  ⟨0, 1, PW_TYPE.TLV, no_flags, nest_tlv.link :: nest_tlv.lineage⟩

/-- The child 2 of vendor 9, a TLV. -/
def nest_vendor_tlv : fr_dict_attr_t :=
  ⟨9, 2, PW_TYPE.TLV, no_flags, demo_vendor9.link :: demo_vendor9.lineage⟩

/-- The Long-Extended attribute 241 of the dictionary below. -/
def frag_extended : fr_dict_attr_t := demo_attr 241 PW_TYPE.LONG_EXTENDED no_flags

/-- The vendor 24757 (WiMAX) of the dictionary below, under Vendor-Specific. -/
def frag_wimax : fr_dict_attr_t :=
  ⟨24757, 24757, PW_TYPE.VENDOR, no_flags,
    [(demo_attr 26 PW_TYPE.VSA no_flags).link, demo_root.link]⟩

/-- The children of the dictionary: those of the demo dictionary, and in addition
10 a TLV with the children 1 (a TLV with the integers 1 and 2) and 2 (an integer),
vendor 9 with the child 2 (a TLV with the integers 1 and 2),
241 a Long-Extended attribute with the child 1 (octets),
79 an octets attribute, and vendor 24757 with the child 1 (octets). -/
def nest_child (parent : fr_dict_attr_t) (num : Nat) : Option fr_dict_attr_t :=
  if parent = demo_root then
    if num = 10 then some nest_tlv
    else if num = 241 then some frag_extended
    else if num = 79 then some (demo_attr 79 PW_TYPE.OCTETS ⟨false, true, FLAG_ENCRYPT.NONE, 0⟩)
    else demo_child parent num
  else if parent = nest_tlv then
    if num = 1 then some nest_inner
    else if num = 2 then some ⟨0, 2, PW_TYPE.INTEGER, no_flags, nest_tlv.link :: nest_tlv.lineage⟩
    else none
  else if parent = nest_inner then
    if num = 1 ∨ num = 2 then
      some ⟨0, num, PW_TYPE.INTEGER, no_flags, nest_inner.link :: nest_inner.lineage⟩
    else none
  else if parent = demo_vendor9 then
    if num = 2 then some nest_vendor_tlv else demo_child parent num
  else if parent = nest_vendor_tlv then
    if num = 1 ∨ num = 2 then
      some ⟨9, num, PW_TYPE.INTEGER, no_flags, nest_vendor_tlv.link :: nest_vendor_tlv.lineage⟩
    else none
  else if parent = frag_extended then
    if num = 1 then
      some ⟨0, 1, PW_TYPE.OCTETS, no_flags, frag_extended.link :: frag_extended.lineage⟩
    else none
  else if parent = demo_attr 26 PW_TYPE.VSA no_flags then
    if num = 24757 then some frag_wimax else demo_child parent num
  else if parent = frag_wimax then
    if num = 1 then some ⟨24757, 1, PW_TYPE.OCTETS, no_flags, frag_wimax.link :: frag_wimax.lineage⟩
    else none
  else demo_child parent num

/-- The demo environment with the dictionary `nest_child`; vendor 24757 has the WiMAX flag. -/
def nest_env : Env where
  md5 := fun _ => List.replicate 16 0
  fr_radius_make_secret := fun _ _ _ => List.replicate 16 0
  fr_dict_attr_child_by_num := nest_child
  fr_dict_unknown_afrom_fields := fun p v a => some (demo_unknown p v a)
  fr_dict_unknown_vendor_afrom_num := fun p v =>
    some ⟨v, v, PW_TYPE.VENDOR, no_flags, p.link :: p.lineage⟩
  fr_dict_attr_by_type := fun v a t => some ⟨v, a, t, no_flags, [demo_root.link]⟩
  fr_dict_vendor_by_num := fun v =>
    if v = 9 then some ⟨9, 1, 1, 0⟩ else if v = 24757 then some ⟨24757, 1, 1, 1⟩ else none
  fr_pair_afrom_da := fun _ => true
  malloc := fun _ => true
  sizeof_vp_filter := 32
  PW_CHARGEABLE_USER_IDENTITY := 89
  VENDORPEC_WIMAX := 24757
  buffer := List.replicate 256 0


/-! ## Definitions used to state the properties -/

/-- The locals of `fr_radius_decode_pair_value` when neither the tag block nor the decryption
block has touched them: `data == start`, `datalen == attrlen`, no tag. -/
def entry_locals (E : Env) (m : List Nat) (start attrlen : Nat) : Locals :=
  ⟨true, m, start, attrlen, none, buffer_on_entry E⟩

/-- The arguments pass the first check of `fr_radius_decode_pair_value`. -/
def args_ok (attrlen packetlen : Nat) : Prop :=
  attrlen ≤ packetlen ∧ (attrlen ≤ 253 ∨ attrlen = packetlen) ∧ attrlen ≤ 128 * 1024

instance (attrlen packetlen : Nat) : Decidable (args_ok attrlen packetlen) := by
  unfold args_ok
  infer_instance

/-- The width of the unsigned integer types on the wire. -/
def int_width : PW_TYPE → Option Nat
  | PW_TYPE.BYTE => some 1
  | PW_TYPE.SHORT => some 2
  | PW_TYPE.INTEGER => some 4
  | PW_TYPE.INTEGER64 => some 8
  | PW_TYPE.DATE => some 4
  | _ => none

/-- The union member that holds the number of an unsigned integer type. -/
def int_value : PW_TYPE → Nat → value_data
  | PW_TYPE.BYTE, n => value_data.vp_byte n
  | PW_TYPE.SHORT, n => value_data.vp_short n
  | PW_TYPE.INTEGER64, n => value_data.vp_integer64 n
  | PW_TYPE.DATE, n => value_data.vp_date n
  | _, n => value_data.vp_integer n


/-- Every pair of a result has the property `W`. -/
def Decoded.all (W : VALUE_PAIR → Prop) : Decoded → Prop
  | Decoded.ok _ vps => ∀ vp ∈ vps, W vp
  | _ => True

/-- The width of the value of a fixed-width leaf type. -/
def fixed_width : PW_TYPE → Option Nat
  | PW_TYPE.BYTE => some 1
  | PW_TYPE.SHORT => some 2
  | PW_TYPE.INTEGER => some 4
  | PW_TYPE.DATE => some 4
  | PW_TYPE.SIGNED => some 4
  | PW_TYPE.IPV4_ADDR => some 4
  | PW_TYPE.ETHERNET => some 6
  | PW_TYPE.INTEGER64 => some 8
  | PW_TYPE.IFID => some 8
  | PW_TYPE.IPV6_ADDR => some 16
  | PW_TYPE.IPV4_PREFIX => some 6
  | _ => none

/-- The value length of a pair is the width of its type, when the type has a fixed width. -/
def width_ok (vp : VALUE_PAIR) : Prop :=
  ∀ w, fixed_width vp.da.type = some w → vp.vp_length = w

/-- The contract of `fr_dict_attr_by_type`: the descriptor it finds has the type asked for. -/
def by_type_ok (E : Env) : Prop :=
  ∀ vendor attr type da, E.fr_dict_attr_by_type vendor attr type = some da → da.type = type

/-- An ipv4-prefix pair holds 6 bytes, and the low six bits of its prefix-length byte are at
most 32. -/
def ipv4_prefix_ok (vp : VALUE_PAIR) : Prop :=
  vp.da.type = PW_TYPE.IPV4_PREFIX →
    vp.vp_length = 6 ∧ ∃ bytes, vp.data = value_data.vp_ipv4prefix_bytes bytes ∧
      bytes.length = 6 ∧ rd bytes 1 &&& 0x3f ≤ 32

/-- The contract of `fr_dict_unknown_afrom_fields`: an unknown attribute has type octets. -/
def unknown_octets (E : Env) : Prop :=
  ∀ parent vendor attr da, E.fr_dict_unknown_afrom_fields parent vendor attr = some da →
    da.type = PW_TYPE.OCTETS

/-- The length a result returns, when it returns one, is `k`. -/
def Decoded.len_is (k : Nat) : Decoded → Prop
  | Decoded.ok n _ => n = k
  | _ => True

/-- Whenever `dec` succeeds on a value that fills its window, it returns the length of the
value, and that length has passed the first check of `fr_radius_decode_pair_value`. -/
def len_ok (dec : Decoder) : Prop :=
  ∀ da m s a n vps, dec da m s a a = Decoded.ok n vps → n = a ∧ a ≤ 128 * 1024

/-- The locals that reach the first `switch`: those left by the tag block and the decryption
block, `none` when one of them returns or jumps to `raw`. -/
def seen_locals (E : Env) (R : Request) (D : fr_dict_attr_t) (m : List Nat)
    (start attrlen : Nat) : Option Locals :=
  match tag_stage E D m start attrlen with
  | none => none
  | some l =>
    match decrypt_stage E R D attrlen l with
    | Step.go l2 => some l2
    | _ => none

/-- The value is a Vendor-Specific of a vendor with the WiMAX continuation flag whose
continuation byte has the more bit set. -/
def wimax_continued (E : Env) (l : Locals) : Prop :=
  ntoh l.dmem l.data 4 = E.VENDORPEC_WIMAX ∧ l.at 6 &&& 0x80 ≠ 0 ∧
    ∃ dv, E.fr_dict_vendor_by_num (ntoh l.dmem l.data 4) = some dv ∧ dv.flags ≠ 0

/-- The attribute is of a non-fragmented kind: when its type is long-extended the more bit of
the flags byte is clear, and when its type is vsa it is not a continued WiMAX attribute. The
bytes are those the first `switch` sees (the wire bytes, for an untagged, unencrypted
descriptor). -/
def non_fragmented (E : Env) (R : Request) (D : fr_dict_attr_t) (m : List Nat)
    (start attrlen : Nat) : Prop :=
  ∀ l, seen_locals E R D m start attrlen = some l →
    (D.type = PW_TYPE.LONG_EXTENDED → l.at 1 &&& 0x80 = 0) ∧
    (D.type = PW_TYPE.VSA → ¬ wimax_continued E l)

/-- The decoder `dec` returns on every value that fills its window and is shorter than `N`
bytes or longer than the first check of `fr_radius_decode_pair_value` allows. -/
def terminates_below (dec : Decoder) (N : Nat) : Prop :=
  ∀ da m s a, (a < N ∨ (0 < N ∧ 128 * 1024 < a)) → dec da m s a a ≠ Decoded.diverge

/-- The contract of `fr_dict_unknown_afrom_fields` when the construction succeeds: it returns
an unknown attribute, of type octets. -/
def unknown_succeeds (E : Env) : Prop :=
  ∀ parent vendor attr, ∃ da, E.fr_dict_unknown_afrom_fields parent vendor attr = some da ∧
    da.type = PW_TYPE.OCTETS

/-! ## Definitions used to state the properties of the password decoders, of the decryption
block and of the check of the sub-attributes -/

/-- The key blocks of RFC 2865 in the words of the spec: the key of block `i` (counted from 0)
of the ciphertext `c`, `b₁ = MD5(S ∥ V)` and `bᵢ = MD5(S ∥ cᵢ₋₁)`. -/
def user_password_key (E : Env) (S V c : List Nat) : Nat → List Nat
  | 0 => E.md5 (S ++ V)
  | i + 1 => E.md5 (S ++ memrd c (16 * i) 16)

/-- The plaintext of RFC 2865 in the words of the spec: byte `j` of the plaintext of the
ciphertext `c`, `pᵢ = cᵢ XOR bᵢ`. -/
def user_password_plain (E : Env) (S V c : List Nat) (j : Nat) : Nat :=
  rd c j ^^^ rd (user_password_key E S V c (j / 16)) (j % 16)

/-- One block of ciphertext: the first 16 bytes of `x`, each xor the byte of the key `b`. -/
def xor16 (x b : List Nat) : List Nat := (List.range 16).map fun i => rd x i ^^^ rd b i

/-- The encryption in the words of the spec: the `k` ciphertext blocks of the plaintext `x`
under the secret `S`, `cᵢ = pᵢ XOR bᵢ` with `b` the key of the first block and
`bᵢ = MD5(S ∥ cᵢ₋₁)` after it. -/
def encrypt_blocks (E : Env) (S : List Nat) : Nat → List Nat → List Nat → List Nat
  | 0, _, _ => []
  | k + 1, b, x => xor16 x b ++ encrypt_blocks E S k (E.md5 (S ++ xor16 x b)) (x.drop 16)

/-- The RFC 2865 ciphertext of a plaintext `x` that is padded to whole blocks, in the words of
the spec: `b₁ = MD5(S ∥ V)`. -/
def rfc2865_encrypt (E : Env) (S V x : List Nat) : List Nat :=
  encrypt_blocks E S (x.length / 16) (E.md5 (S ++ V)) x

/-- The key blocks of RFC 2868 in the words of the spec: the key of block `i` (counted from 0)
of a buffer `c` that starts with the 2 bytes of salt, `b₁ = MD5(S ∥ V ∥ salt)` and
`bᵢ = MD5(S ∥ cᵢ₋₁)`. -/
def tunnel_password_key (E : Env) (S V c : List Nat) : Nat → List Nat
  | 0 => E.md5 (S ++ V ++ memrd c 0 2)
  | i + 1 => E.md5 (S ++ memrd c (16 * i + 2) 16)

/-- The plaintext of RFC 2868 in the words of the spec: byte `j` of the plaintext of the
buffer `c`, ciphertext xor key; byte 0 is the declared length. -/
def tunnel_password_plain (E : Env) (S V c : List Nat) (j : Nat) : Nat :=
  rd c (j + 2) ^^^ rd (tunnel_password_key E S V c (j / 16)) (j % 16)

/-- The buffer of RFC 2868 for the plaintext `P` in the words of the spec: the salt followed by
the ciphertext of the declared length, `P` and the padding `pad`, `b₁ = MD5(S ∥ V ∥ salt)`. -/
def rfc2868_encrypt (E : Env) (S V salt P pad : List Nat) : List Nat :=
  salt ++ encrypt_blocks E S ((1 + P.length + pad.length) / 16) (E.md5 (S ++ V ++ salt))
    (P.length :: P ++ pad)

/-- The vector a User-Password is decrypted with: `original->vector` when `original` is not
NULL, else `packet->vector`. -/
def user_password_vector (R : Request) (packet : RADIUS_PACKET) : List Nat :=
  match R.original with
  | some original => original.vector
  | none => packet.vector

/-- The first `n` bytes of the plaintext of the ciphertext `c`. -/
def user_password_plaintext (E : Env) (S V c : List Nat) (n : Nat) : List Nat :=
  (List.range n).map (user_password_plain E S V c)

/-- The union member of a string or octets pair that holds the bytes `b`. -/
def text_value : PW_TYPE → List Nat → value_data
  | PW_TYPE.STRING, b => value_data.vp_strvalue b
  | _, b => value_data.vp_octets b

/-- The array `buffer` after `if (data == start) memcpy(buffer, data, attrlen)` in the
decryption block. -/
def scratch_buffer (l : Locals) (attrlen : Nat) : List Nat :=
  if l.at_start then memcpy l.buffer (memrd l.dmem l.data attrlen) else l.buffer

/-- The sub-attributes that a walk of `length` bytes from `data` by the widths passes: the turns
of the loop `while (attrlen > 0)` of `decode_vsa`, each with its `data` and the `attrlen` that
`decode_vsa_internal` reads there. -/
def vsa_walk (m : List Nat) (dv_type dv_length : Nat) : Nat → Nat → Nat → List (Nat × Nat)
  | 0, _, _ => []
  | fuel + 1, data, length =>
    if length > 0 then
      match vsa_attrlen m data length dv_type dv_length with
      | none => []
      | some attrlen =>
        (data, attrlen) ::
          vsa_walk m dv_type dv_length fuel (data + attrlen) (sub_sz length attrlen)
    else []

/-- The turns of the loop `while (data < (start + length))` of `fr_radius_decode_tlv`, each
with its `data` and the length `data[1]` it moves on by. -/
def tlv_walk (m : List Nat) (fin : Nat) : Nat → Nat → List (Nat × Nat)
  | 0, _ => []
  | fuel + 1, data =>
    if data < fin then (data, rd m (data + 1)) :: tlv_walk m fin fuel (data + rd m (data + 1))
    else []

/-! ## Definitions used to state the properties of the sub-attribute check, of the fragments
and of concatenated attributes -/

/-- What the check asks of the sub-attribute at `data`, with `rem` bytes left in the slice and
`d` the length it declares: the header lies in the bytes left, `d` covers the header and is at
most the bytes left, the high length byte is zero when the length has 2 bytes, the type is not
zero when it has 2 or 4 bytes, and its top byte is zero when it has 4. -/
def sub_attr_ok (m : List Nat) (t l data rem d : Nat) : Prop :=
  t + l ≤ rem ∧ d = rd m (data + t + l - 1) ∧ t + l ≤ d ∧ d ≤ rem ∧
  (l = 2 → rd m (data + t) = 0) ∧
  (t = 2 → ¬ (rd m data = 0 ∧ rd m (data + 1) = 0)) ∧
  (t = 4 → ¬ (rd m data = 0 ∧ rd m (data + 1) = 0 ∧ rd m (data + 2) = 0 ∧ rd m (data + 3) = 0)
    ∧ rd m data = 0)

/-- The `rem` bytes at `data` are a concatenation of sub-attributes with the declared lengths
`ds`, each as the check asks. -/
def sub_attrs (m : List Nat) (t l : Nat) : Nat → Nat → List Nat → Prop
  | _, rem, [] => rem = 0
  | data, rem, d :: ds => sub_attr_ok m t l data rem d ∧ sub_attrs m t l (data + d) (rem - d) ds

/-- The payload of the Long-Extended fragment at `f`: the `f[1] - 4` bytes after the 4-byte
prefix of type, length, extended type and flags. -/
def extended_payload (m : List Nat) (f : Nat) : List Nat := memrd m (f + 4) (rd m (f + 1) - 4)

/-- The successor fragments that the first loop of `decode_extended` accepts, each by the
position of its first byte; the arguments are those of `extended_scan`. -/
def extended_frags (m : List Nat) (attr0 attr2 : Nat) : Nat → Nat → Nat → Bool → List Nat
  | 0, _, _, _ => []
  | fuel + 1, frag, fin, last_frag =>
    if frag < fin then
      if last_frag ∨ rd m frag ≠ attr0 ∨ rd m (frag + 1) < 4 ∨ rd m (frag + 2) ≠ attr2
          ∨ frag + rd m (frag + 1) > fin then []
      else
        frag :: extended_frags m attr0 attr2 fuel (frag + rd m (frag + 1)) fin
          ((rd m (frag + 3) &&& 0x80) == 0)
    else []

/-- The fragments of the Long-Extended attribute at `attr` in a window that ends at `fin`: the
attribute itself and the successors that `decode_extended` accepts. -/
def extended_fragments (m : List Nat) (attr fin : Nat) : List Nat :=
  attr :: extended_frags m (rd m attr) (rd m (attr + 2)) (fin - attr) (attr + rd m (attr + 1)) fin
    false

/-- The fragment at `f` follows the fragment at `prev` and is accepted as its successor: the
more bit of `prev` is set, `f` starts where `prev` ends, its type and extended type are `attr0`
and `attr2`, its length is 4 or more and it ends at or before `fin`. -/
def extended_successor (m : List Nat) (attr0 attr2 fin prev f : Nat) : Prop :=
  rd m (prev + 3) &&& 0x80 ≠ 0 ∧ f = prev + rd m (prev + 1) ∧ rd m f = attr0 ∧ 4 ≤ rd m (f + 1)
    ∧ rd m (f + 2) = attr2 ∧ f + rd m (f + 1) ≤ fin

/-- What `decode_extended` and `decode_wimax` make of the result `r` of the recursive decode of
the reassembled buffer: the pairs of `r` with the return value `ret`, or the failure of `r`. -/
def reassembled (ret : Nat) : Decoded → Decoded
  | Decoded.ok _ vps => Decoded.ok ret vps
  | Decoded.error => Decoded.error
  | Decoded.diverge => Decoded.diverge
  | Decoded.fault => Decoded.fault

/-- The byte after the end of the fragment at `f`, whose length byte is `f[1]`. -/
def frag_end (m : List Nat) (f : Nat) : Nat := f + rd m (f + 1)

/-- The concatenation, in wire order, of the payloads of the fragments of the Long-Extended
attribute at `attr` in a window that ends at `fin`. -/
def extended_buffer (m : List Nat) (attr fin : Nat) : List Nat :=
  (extended_fragments m attr fin).flatMap (extended_payload m)

/-- The successor fragments that the first loop of `decode_wimax` accepts, each by the position
of its first byte; the arguments are those of `wimax_scan`. -/
def wimax_frags (m : List Nat) (data : Nat) : Nat → Nat → Nat → Bool → List Nat
  | 0, _, _, _ => []
  | fuel + 1, frag, fin, last_frag =>
    if frag < fin then
      if last_frag ∨ rd m frag ≠ PW_VENDOR_SPECIFIC ∨ rd m (frag + 1) < 9
          ∨ frag + rd m (frag + 1) > fin ∨ memrd m (frag + 2) 4 ≠ memrd m data 4
          ∨ rd m (frag + 6) ≠ rd m (data + 4) ∨ rd m (frag + 7) + 6 ≠ rd m (frag + 1) then []
      else
        frag :: wimax_frags m data fuel (frag + rd m (frag + 1)) fin
          ((rd m (frag + 8) &&& 0x80) == 0)
    else []

/-- The fragments of the WiMAX attribute at `attr` in a window that ends at `fin`: the
attribute itself and the successors that `decode_wimax` accepts. -/
def wimax_fragments (m : List Nat) (attr fin : Nat) : List Nat :=
  attr :: wimax_frags m (attr + 2) (fin - attr) (attr + rd m (attr + 1)) fin false

/-- The fragment at `f` follows the fragment at `prev` and is accepted as its successor by
`decode_wimax`, whose argument `data` is the value of the first fragment: the continuation bit
of `prev` is set, `f` starts where `prev` ends, it is a Vendor-Specific attribute of 9 bytes or
more that ends at or before `fin`, with the vendor and the WiMAX attribute of the first
fragment, and its WiMAX length fills it. -/
def wimax_successor (m : List Nat) (data fin prev f : Nat) : Prop :=
  rd m (prev + 8) &&& 0x80 ≠ 0 ∧ f = prev + rd m (prev + 1) ∧ rd m f = PW_VENDOR_SPECIFIC
    ∧ 9 ≤ rd m (f + 1) ∧ f + rd m (f + 1) ≤ fin ∧ memrd m (f + 2) 4 = memrd m data 4
    ∧ rd m (f + 6) = rd m (data + 4) ∧ rd m (f + 7) + 6 = rd m (f + 1)

/-- The window of `rem` bytes at `ptr` is well formed: it is a sequence of attributes with the
length bytes `ls`, each of them 2 or more and no more than what is left of the window. -/
def attrs_at (m : List Nat) : Nat → Nat → List Nat → Prop
  | _, rem, [] => rem = 0
  | ptr, rem, l :: ls => l = rd m (ptr + 1) ∧ 2 ≤ l ∧ l ≤ rem ∧ attrs_at m (ptr + l) (rem - l) ls

/-- The maximal run of leading attributes of type `attr` in the window at `ptr` whose
attributes have the length bytes `ls`, each by the position of its first byte. In the words of
the claim: the consecutive leading attributes of that type, up to the first attribute of a
different type or the end of the window. -/
def leading_run (m : List Nat) (attr : Nat) : Nat → List Nat → List Nat
  | _, [] => []
  | ptr, l :: ls => if rd m ptr = attr then ptr :: leading_run m attr (ptr + l) ls else []

/-- The payload of the attribute at `p`: the `p[1] - 2` bytes after the 2-byte header. -/
def attr_payload (m : List Nat) (p : Nat) : List Nat := memrd m (p + 2) (rd m (p + 1) - 2)

instance attrs_at_decidable (m : List Nat) :
    ∀ (ls : List Nat) (ptr rem : Nat), Decidable (attrs_at m ptr rem ls)
  | [], _, rem => inferInstanceAs (Decidable (rem = 0))
  | l :: ls, ptr, rem =>
    have := attrs_at_decidable m ls (ptr + l) (rem - l)
    inferInstanceAs (Decidable (l = rd m (ptr + 1) ∧ 2 ≤ l ∧ l ≤ rem ∧ attrs_at m (ptr + l) (rem - l) ls))

instance sub_attr_ok_decidable (m : List Nat) (t l data rem d : Nat) :
    Decidable (sub_attr_ok m t l data rem d) := by
  unfold sub_attr_ok
  infer_instance

instance sub_attrs_decidable (m : List Nat) (t l : Nat) :
    ∀ (ds : List Nat) (data rem : Nat), Decidable (sub_attrs m t l data rem ds)
  | [], _, rem => inferInstanceAs (Decidable (rem = 0))
  | d :: ds, data, rem =>
    have := sub_attrs_decidable m t l ds (data + d) (rem - d)
    inferInstanceAs (Decidable (sub_attr_ok m t l data rem d ∧ sub_attrs m t l (data + d) (rem - d) ds))


/-! ## The users file: `pairlist_read` of `users_file.c`

The text of a file is a list of characters, and the `fr_sbuff_t` that reads it is the text that
is still to be read. The `fprintf (stderr, ...)` lines and the `fr_assert` statements of the
function have no part in what it returns and are left out, as are the messages of `ERROR`. -/

/-- A template as far as `pairlist_read` looks at it: its text, and the answer of
`tmpl_is_attr`. -/
structure tmpl_t where
  name : List Char
  is_attr : Bool
deriving DecidableEq, Repr

/-- A map: the left template, the operator and the right template. -/
structure map_t where
  lhs : tmpl_t
  op : List Char
  rhs : tmpl_t
deriving DecidableEq, Repr

/-- An entry `PAIR_LIST`; the field `next` is the tail of the list that holds the entry. -/
structure PAIR_LIST where
  name : List Char
  check : List map_t
  reply : List map_t
  order : Nat
  lineno : Nat
deriving DecidableEq, Repr

/-- What `pairlist_read` gives: `ok pl` is `return 0` with `*list = pl`, `fail` is `return -1`,
`diverge` stands for a run that is not over within the budget. -/
inductive Read where
  | ok (pl : List PAIR_LIST)
  | fail
  | diverge
deriving DecidableEq, Repr

/-- What the function takes from outside `users_file.c`: `fopen` gives the text of a file that
can be opened, and `map_afrom_sbuff table s` parses one map at the head of `s` with the
operators of `cond_cmp_op_table` (`table` true) or of `map_assignment_op_table` (`table`
false) and the terminals of `rhs_term`: `none` is a negative return, else the map that was made
(`none` when `*map_tail` is left NULL) with the text behind it. -/
structure FileEnv where
  fopen : List Char → Option (List Char)
  map_afrom_sbuff : Bool → List Char → Option (Option map_t × List Char)

/-- The table `sbuff_char_space`: tab, vertical tab, form feed, space. -/
def sbuff_char_space (c : Char) : Bool := c == '\t' || c == '\x0b' || c == '\x0c' || c == ' '

/-- The terminals `name_terms`: tab, line feed, space, hash. -/
def name_terms (c : Char) : Bool := c == '\t' || c == '\n' || c == ' ' || c == '#'

/-- Modelled from the spec: `fr_sbuff_adv_past_allowed` is not among the sources. It moves
past the longest run of characters of the table and returns their number, which is how the
users-file parser skips blanks. -/
def fr_sbuff_adv_past_allowed (s : List Char) (allowed : Char → Bool) : Nat × List Char :=
  ((s.takeWhile allowed).length, s.dropWhile allowed)

/-- Modelled from the spec: `fr_sbuff_is_char` is not among the sources. The next character
is `c`. -/
def fr_sbuff_is_char (s : List Char) (c : Char) : Bool :=
  match s with
  | [] => false
  | d :: _ => d == c

/-- Modelled from the spec: `fr_sbuff_next_if_char` is not among the sources. When the next
character is `c` it moves past it and returns true. -/
def fr_sbuff_next_if_char (s : List Char) (c : Char) : Bool × List Char :=
  match s with
  | [] => (false, [])
  | d :: r => if d == c then (true, r) else (false, d :: r)

/-- Modelled from the spec: `fr_sbuff_adv_to_chr` is not among the sources. It moves to the
first `c` and returns the number of characters passed; without a `c` in the text it stays
where it is and returns 0. -/
def fr_sbuff_adv_to_chr (s : List Char) (c : Char) : Nat × List Char :=
  if c ∈ s then ((s.takeWhile fun d => d != c).length, s.dropWhile fun d => d != c) else (0, s)

/-- Modelled from the spec: `fr_sbuff_adv_until` and `fr_sbuff_out_abstrncpy_until` are not
among the sources. They move to the first terminal, or to the end of the text; the characters
passed are the bareword (the name of an entry or of a file), which the second copies out. -/
def fr_sbuff_out_abstrncpy_until (s : List Char) (terms : Char → Bool) : List Char × List Char :=
  (s.takeWhile fun d => !terms d, s.dropWhile fun d => !terms d)

/-- Modelled from the spec: `fr_sbuff_is_str` is not among the sources. The text starts with
`str`. -/
def fr_sbuff_is_str (s str : List Char) : Bool := str.isPrefixOf s

/-- The position of the last `c` in `file`, as `strrchr` finds it. -/
def strrchr (file : List Char) (c : Char) : Option Nat :=
  match (file.reverse.indexOf? c) with
  | none => none
  | some i => some (file.length - 1 - i)

/-- The name of the included file: the `$INCLUDE` name itself when it starts with `/` or the
name of the including file holds no `/`, else the directory of the including file, `/`, and
the `$INCLUDE` name. -/
def include_path (file name : List Char) : List Char :=
  if fr_sbuff_is_char name '/' then name
  else
    match strrchr file '/' with
    | none => name
    | some p => file.take p ++ '/' :: name

/-- Where the labels of the check list leave: at `setup_reply`, or by `return -1`. -/
inductive CheckList where
  | reply (t : PAIR_LIST) (s : List Char) (lineno : Nat)
  | fail
  | diverge
deriving DecidableEq, Repr

/-- The label `check_item_end`. Without a line feed the code falls through to `setup_reply`. -/
def check_item_end (t : PAIR_LIST) (s : List Char) (comma : Bool) (lineno : Nat) : CheckList :=
  if (fr_sbuff_next_if_char s '\n').1 then
    if comma then CheckList.fail
    else CheckList.reply t (fr_sbuff_next_if_char s '\n').2 (lineno + 1)
  else CheckList.reply t (fr_sbuff_next_if_char s '\n').2 lineno

/-- The label `check_item_comment`, which goes on into `check_item_end`. -/
def check_item_comment (t : PAIR_LIST) (s : List Char) (comma : Bool) (lineno : Nat) :
    CheckList :=
  if (fr_sbuff_next_if_char s '#').1 then
    check_item_end t (fr_sbuff_adv_to_chr (fr_sbuff_next_if_char s '#').2 '\n').2 comma lineno
  else check_item_end t (fr_sbuff_next_if_char s '#').2 comma lineno

/-- The label `check_item`, up to `setup_reply`; a turn is a `goto check_item`. When the map
parser makes no map both ways out, the extra comma and `add_entry`, are `return -1`. -/
def check_item (E : FileEnv) : Nat → PAIR_LIST → List Char → Bool → Nat → CheckList
  | 0, _, _, _, _ => CheckList.diverge
  | fuel + 1, t, s, comma, lineno =>
    let s := (fr_sbuff_adv_past_allowed s sbuff_char_space).2
    if fr_sbuff_is_char s '#' then check_item_comment t s comma lineno
    else if fr_sbuff_is_char s '\n' then check_item_end t s comma lineno
    else
      match E.map_afrom_sbuff true s with
      | none => CheckList.fail
      | some (none, _) => CheckList.fail
      | some (some map, s) =>
        if !map.lhs.is_attr then CheckList.fail
        else
          let s := (fr_sbuff_adv_past_allowed s sbuff_char_space).2
          if (fr_sbuff_next_if_char s ',').1 then
            check_item E fuel { t with check := t.check ++ [map] } (fr_sbuff_next_if_char s ',').2
              true lineno
          else
            check_item_comment { t with check := t.check ++ [map] } (fr_sbuff_next_if_char s ',').2
              false lineno

/-- Where the labels `reply_item_comment` and `reply_item_end` go: to `reply_item` on the next
line, to `next_reply_item`, or to `fail_entry`. -/
inductive ReplyNext where
  | reply_item (s : List Char) (lineno : Nat)
  | next_reply_item (s : List Char)
  | fail
deriving DecidableEq, Repr

/-- The label `reply_item_end`. -/
def reply_item_end (s : List Char) (comma : Bool) (lineno : Nat) : ReplyNext :=
  if (fr_sbuff_next_if_char s '\n').1 then
    ReplyNext.reply_item (fr_sbuff_next_if_char s '\n').2 (lineno + 1)
  else if comma then ReplyNext.next_reply_item (fr_sbuff_next_if_char s '\n').2
  else ReplyNext.fail

/-- The label `reply_item_comment`, which goes on into `reply_item_end`. -/
def reply_item_comment (s : List Char) (comma : Bool) (lineno : Nat) : ReplyNext :=
  if (fr_sbuff_next_if_char s '#').1 then
    reply_item_end (fr_sbuff_adv_to_chr (fr_sbuff_next_if_char s '#').2 '\n').2 comma lineno
  else reply_item_end (fr_sbuff_next_if_char s '#').2 comma lineno

/-- Where the reply list leaves: the entry `t` is stored through `last` and the loop goes on
(`continue`), or `return -1`. -/
inductive ReplyList where
  | done (t : PAIR_LIST) (s : List Char) (lineno : Nat)
  | fail
  | diverge
deriving DecidableEq, Repr

/-- The labels `reply_item` (`at_line` true) and `next_reply_item` (`at_line` false), up to
the `continue` that ends the entry; a turn is a `goto` to one of the two. -/
def reply_item (E : FileEnv) : Nat → Bool → PAIR_LIST → List Char → Bool → Nat → ReplyList
  | 0, _, _, _, _, _ => ReplyList.diverge
  | fuel + 1, true, t, s, comma, lineno =>
    if (fr_sbuff_adv_past_allowed s sbuff_char_space).1 = 0 then
      if comma then ReplyList.fail
      else ReplyList.done t (fr_sbuff_adv_past_allowed s sbuff_char_space).2 lineno
    else if lineno = t.lineno + 1 then
      reply_item E fuel false t (fr_sbuff_adv_past_allowed s sbuff_char_space).2 comma lineno
    else if !comma then ReplyList.fail
    else reply_item E fuel false t (fr_sbuff_adv_past_allowed s sbuff_char_space).2 comma lineno
  | fuel + 1, false, t, s, comma, lineno =>
    match E.map_afrom_sbuff false s with
    | none => ReplyList.fail
    | some (none, s) =>
      let s := (fr_sbuff_adv_past_allowed s sbuff_char_space).2
      if fr_sbuff_is_char s ',' then ReplyList.fail
      else if (fr_sbuff_next_if_char s '#').1 then
        match reply_item_comment (fr_sbuff_next_if_char s '#').2 comma lineno with
        | ReplyNext.reply_item s lineno => reply_item E fuel true t s comma lineno
        | ReplyNext.next_reply_item s => reply_item E fuel false t s comma lineno
        | ReplyNext.fail => ReplyList.fail
      else if (fr_sbuff_next_if_char s '\n').1 then
        match reply_item_end (fr_sbuff_next_if_char s '\n').2 comma lineno with
        | ReplyNext.reply_item s lineno => reply_item E fuel true t s comma lineno
        | ReplyNext.next_reply_item s => reply_item E fuel false t s comma lineno
        | ReplyNext.fail => ReplyList.fail
      else ReplyList.fail
    | some (some map, s) =>
      if !map.lhs.is_attr then ReplyList.fail
      else
        let s := (fr_sbuff_adv_past_allowed s sbuff_char_space).2
        let comma := (fr_sbuff_next_if_char s ',').1
        let s := if comma then
            (fr_sbuff_adv_past_allowed (fr_sbuff_next_if_char s ',').2 sbuff_char_space).2
          else (fr_sbuff_next_if_char s ',').2
        match reply_item_comment s comma lineno with
        | ReplyNext.reply_item s lineno =>
          reply_item E fuel true { t with reply := t.reply ++ [map] } s comma lineno
        | ReplyNext.next_reply_item s =>
          reply_item E fuel false { t with reply := t.reply ++ [map] } s comma lineno
        | ReplyNext.fail => ReplyList.fail

/-- The entries of an included file with their `order` set anew, from `order` on. -/
def renumber : List PAIR_LIST → Nat → List PAIR_LIST
  | [], _ => []
  | t :: rest, order => { t with order := order } :: renumber rest (order + 1)

/-- The text `$INCLUDE`. -/
def include_word : List Char := ['$', 'I', 'N', 'C', 'L', 'U', 'D', 'E']

/-- The loop `while (true)` of `pairlist_read` for the file `file`: `pl` is the list read so
far, whose end `last` addresses; a turn is a `continue`, and the call of `pairlist_read` for an
included file is the same loop on the text of that file, with one turn less to spend. -/
def read_loop (E : FileEnv) : Nat → List Char → List PAIR_LIST → Nat → Nat → List Char → Read
  | 0, _, _, _, _, _ => Read.diverge
  | fuel + 1, file, pl, order, lineno, s =>
    let leading_spaces := (fr_sbuff_adv_past_allowed s sbuff_char_space).1 > 0
    let s := (fr_sbuff_adv_past_allowed s sbuff_char_space).2
    let s := if (fr_sbuff_next_if_char s '#').1 then
        (fr_sbuff_adv_to_chr (fr_sbuff_next_if_char s '#').2 '\n').2
      else (fr_sbuff_next_if_char s '#').2
    if (fr_sbuff_next_if_char s '\n').1 then
      read_loop E fuel file pl order (lineno + 1) (fr_sbuff_next_if_char s '\n').2
    else if leading_spaces then Read.fail
    else if fr_sbuff_is_str s include_word then
      let s := s.drop 8
      if (fr_sbuff_adv_past_allowed s sbuff_char_space).1 = 0 then Read.fail
      else
        let s := (fr_sbuff_adv_past_allowed s sbuff_char_space).2
        let name := (fr_sbuff_out_abstrncpy_until s name_terms).1
        if name.length = 0 then Read.fail
        else
          let newfile := include_path file name
          let s := (fr_sbuff_adv_past_allowed (fr_sbuff_out_abstrncpy_until s name_terms).2
            sbuff_char_space).2
          let s := if (fr_sbuff_next_if_char s '#').1 then
              (fr_sbuff_adv_to_chr (fr_sbuff_next_if_char s '#').2 '\n').2
            else (fr_sbuff_next_if_char s '#').2
          if !fr_sbuff_is_char s '\n' && (fr_sbuff_adv_to_chr s '\n').1 > 0 then Read.fail
          else
            let s := if fr_sbuff_is_char s '\n' then s else (fr_sbuff_adv_to_chr s '\n').2
            match E.fopen newfile with
            | none => Read.fail
            | some text =>
              match read_loop E fuel newfile [] 0 1 text with
              | Read.ok included =>
                if (fr_sbuff_next_if_char s '\n').1 then
                  read_loop E fuel file (pl ++ renumber included order) (order + included.length)
                    (lineno + 1) (fr_sbuff_next_if_char s '\n').2
                else Read.ok (pl ++ renumber included order)
              | Read.fail => Read.fail
              | Read.diverge => Read.diverge
    else
      let name := (fr_sbuff_out_abstrncpy_until s name_terms).1
      if name.length = 0 then Read.ok pl
      else
        match check_item E fuel ⟨name, [], [], order, lineno⟩
            (fr_sbuff_out_abstrncpy_until s name_terms).2 false lineno with
        | CheckList.fail => Read.fail
        | CheckList.diverge => Read.diverge
        | CheckList.reply t s lineno =>
          match reply_item E fuel true t s false lineno with
          | ReplyList.done t s lineno => read_loop E fuel file (pl ++ [t]) (order + 1) lineno s
          | ReplyList.fail => Read.fail
          | ReplyList.diverge => Read.diverge

/-- The function `pairlist_read (ctx, dict, file, list, complain)`. -/
def pairlist_read (E : FileEnv) (fuel : Nat) (file : List Char) : Read :=
  match E.fopen file with
  | none => Read.fail
  | some text => read_loop E fuel file [] 0 1 text

/-! ## A map parser and files for the concrete instances -/

/-- The terminals of `rhs_term`: tab, line feed, space, hash, comma. -/
def rhs_terms (c : Char) : Bool := c == '\t' || c == '\n' || c == ' ' || c == '#' || c == ','

/-- The characters that operators are made of. -/
def op_char (c : Char) : Bool :=
  c == '=' || c == '!' || c == '<' || c == '>' || c == '~' || c == ':' || c == '+'

/-- The operators of the two tables as the spec lists them: those of check items (`table`
true) and those of reply items. -/
def demo_ops (table : Bool) : List (List Char) :=
  if table then
    ["==".toList, "!=".toList, "<".toList, "<=".toList, ">".toList, ">=".toList, "=~".toList,
      "!~".toList, ":=".toList]
  else ["=".toList, ":=".toList, "+=".toList]

/-- The attribute names of the demo dictionary. -/
def demo_names : List (List Char) :=
  ["Framed-IP-Address".toList, "Reply-Message".toList, "Cleartext-Password".toList,
    "NAS-IP-Address".toList, "Session-Timeout".toList]

/-- The value of a map: a double-quoted string, kept with its quotes, or a bareword that ends
at a terminal; `none` for a quote that is not closed or a value that is missing. -/
def demo_value (s : List Char) : Option (List Char × List Char) :=
  match s with
  | '"' :: r =>
    match r.dropWhile fun c => c != '"' with
    | [] => none
    | _ :: rest => some ('"' :: (r.takeWhile fun c => c != '"') ++ ['"'], rest)
  | _ =>
    if (s.takeWhile fun c => !rhs_terms c) = [] then none
    else some (s.takeWhile fun c => !rhs_terms c, s.dropWhile fun c => !rhs_terms c)

/-- A stand-in for `map_afrom_sbuff` in the concrete instances. It reads an attribute name, an
operator of the table and a value, with blanks between them; at a terminal or at the end of
the text it makes no map and succeeds. The left template is an attribute when the demo
dictionary has the name. -/
def demo_map_afrom_sbuff (table : Bool) (s : List Char) : Option (Option map_t × List Char) :=
  let lhs := s.takeWhile fun c => !rhs_terms c && !op_char c
  let s1 := (s.dropWhile fun c => !rhs_terms c && !op_char c).dropWhile sbuff_char_space
  let op := s1.takeWhile op_char
  let s2 := (s1.dropWhile op_char).dropWhile sbuff_char_space
  if lhs = [] then some (none, s)
  else if op ∉ demo_ops table then none
  else
    match demo_value s2 with
    | none => none
    | some (v, rest) => some (some ⟨⟨lhs, decide (lhs ∈ demo_names)⟩, op, ⟨v, false⟩⟩, rest)

/-- The users file of the spec's example, two lines that each end in a line feed. -/
def bob_file : List Char :=
  "bob  Framed-IP-Address == 10.0.0.2\n     Reply-Message = \"hi\"\n".toList

/-- The users file of the spec's format section without its `$INCLUDE` line, and a second
entry behind it. -/
def alice_file : List Char :=
  ("alice    Cleartext-Password := \"secret\", NAS-IP-Address == 10.0.0.1\n"
    ++ "         Reply-Message = \"Welcome\",\n"
    ++ "         Session-Timeout = 3600\n"
    ++ "bob  Framed-IP-Address == 10.0.0.2\n     Reply-Message = \"hi\"\n").toList

/-- The demo environment of the users file: the file `users` is `bob_file`, the file
`users2` is `alice_file`, no other file can be opened. -/
def users_env : FileEnv where
  fopen := fun file =>
    if file = "users".toList then some bob_file
    else if file = "users2".toList then some alice_file
    else none
  map_afrom_sbuff := demo_map_afrom_sbuff

/-! ## Well-formed users files -/

/-- An item of a well-formed users file: its text and the map it stands for. -/
structure file_item where
  text : List Char
  map : map_t

/-- An entry of a well-formed users file: the name at column 0, the blanks between the name
and the check items, the check items of the first line, and the lines of reply items, each
with its indentation. -/
structure file_entry where
  name : List Char
  gap : List Char
  check : List file_item
  reply : List (List Char × List file_item)

/-- The text of the items that follow the first of a list: each behind a comma and a space. -/
def items_tail (items : List file_item) : List Char :=
  items.flatMap fun i => ',' :: ' ' :: i.text

/-- The text of a comma-separated list of items. -/
def items_text : List file_item → List Char
  | [] => []
  | i :: rest => i.text ++ items_tail rest

/-- The text of the reply lines of an entry: each line is its indentation and its items, a
line that is followed by a further line ends in a comma, and every line ends in a line feed. -/
def reply_text : List (List Char × List file_item) → List Char
  | [] => []
  | [line] => line.1 ++ items_text line.2 ++ ['\n']
  | line :: next :: rest =>
    line.1 ++ items_text line.2 ++ ',' :: '\n' :: reply_text (next :: rest)

/-- The text of an entry: the name, the check items on the same line, then the reply lines. -/
def entry_text (e : file_entry) : List Char :=
  e.name ++ e.gap ++ items_text e.check ++ '\n' :: reply_text e.reply

/-- The text of a users file made of the entries `F`. -/
def file_text (F : List file_entry) : List Char := F.flatMap entry_text

/-- The character is a space or a tab. -/
def blank (c : Char) : Prop := c = ' ' ∨ c = '\t'

/-- The item is well formed for the map parser of `E` and the table `table`: its text starts
with a character that is no blank, hash or line feed; followed by a comma or by a line feed the
parser reads it as the map of the item and stops in front of that character; and the left
side of the map is an attribute. -/
def item_ok (E : FileEnv) (table : Bool) (i : file_item) : Prop :=
  i.map.lhs.is_attr = true ∧
    (∃ c r, i.text = c :: r ∧ sbuff_char_space c = false ∧ c ≠ '#' ∧ c ≠ '\n' ∧ c ≠ ',') ∧
    ∀ rest, E.map_afrom_sbuff table (i.text ++ ',' :: rest) = some (some i.map, ',' :: rest) ∧
      E.map_afrom_sbuff table (i.text ++ '\n' :: rest) = some (some i.map, '\n' :: rest)

/-- The entry is well formed: the name is not empty, holds no blank, terminal or hash and does
not start with `$INCLUDE`; the name and the check items are set apart by spaces or tabs; every
reply line is indented by spaces or tabs and holds an item; and every item is well formed. -/
def entry_ok (E : FileEnv) (e : file_entry) : Prop :=
  e.name ≠ [] ∧ (∀ c ∈ e.name, name_terms c = false ∧ sbuff_char_space c = false) ∧
    fr_sbuff_is_str e.name include_word = false ∧
    (∀ c ∈ e.gap, blank c) ∧ (e.check ≠ [] → e.gap ≠ []) ∧
    (∀ i ∈ e.check, item_ok E true i) ∧
    ∀ line ∈ e.reply, (∀ c ∈ line.1, blank c) ∧ line.1 ≠ [] ∧ line.2 ≠ [] ∧
      ∀ i ∈ line.2, item_ok E false i

/-- The entry that `pairlist_read` is to make of a well-formed entry read at the line `lineno`
as number `order`: the name, the maps of the check items and the maps of the reply items, in
the order of the text. -/
def entry_of (e : file_entry) (order lineno : Nat) : PAIR_LIST :=
  ⟨e.name, e.check.map fun i => i.map, (e.reply.flatMap fun line => line.2).map fun i => i.map,
    order, lineno⟩

/-- The list that `pairlist_read` is to make of the well-formed entries `F`, the first of them
read at the line `lineno` as number `order`. -/
def entries_of : List file_entry → Nat → Nat → List PAIR_LIST
  | [], _, _ => []
  | e :: rest, order, lineno =>
    entry_of e order lineno :: entries_of rest (order + 1) (lineno + 1 + e.reply.length)

instance blank_decidable (c : Char) : Decidable (blank c) :=
  inferInstanceAs (Decidable (c = ' ' ∨ c = '\t'))

/-- The entry of the spec's example as a well-formed entry: the name `bob`, two spaces, one
check item, and one reply line indented by five spaces with one item. -/
def bob_entry : file_entry where
  name := "bob".toList
  gap := "  ".toList
  check := [⟨"Framed-IP-Address == 10.0.0.2".toList,
    ⟨⟨"Framed-IP-Address".toList, true⟩, "==".toList, ⟨"10.0.0.2".toList, false⟩⟩⟩]
  reply := [("     ".toList, [⟨"Reply-Message = \"hi\"".toList,
    ⟨⟨"Reply-Message".toList, true⟩, "=".toList, ⟨"\"hi\"".toList, false⟩⟩⟩])]

/-! ## Definitions used to state the bounds of the return value -/

/-- The length a result returns, when it returns one, is at most `k`. -/
def Decoded.len_le (k : Nat) : Decoded → Prop
  | Decoded.ok n _ => n ≤ k
  | _ => True


/-! ## More files for the concrete instances, and the words of the claims on `$INCLUDE` and
on comment lines -/

/-- A demo environment in which the files of the list `files`, each a name and a text, can
be opened and no other; the map parser is the stand-in. -/
def text_env (files : List (List Char × List Char)) : FileEnv where
  fopen := fun file => (files.find? fun f => f.1 == file).map fun f => f.2
  map_afrom_sbuff := demo_map_afrom_sbuff

/-- The directory part of a path, in the words of the claim: everything before its last
`/`. -/
def dir_part (F : List Char) : List Char :=
  ((F.reverse.dropWhile fun c => c != '/').drop 1).reverse

/-- The path of an included file in the words of the claim: `N` itself when `N` starts with
`/` or `F` holds no `/`, else the directory part of `F`, a `/`, and `N`. -/
def claimed_include_path (F N : List Char) : List Char :=
  if N.head? = some '/' ∨ '/' ∉ F then N else dir_part F ++ '/' :: N

/-- A comment line: blanks of the table `sbuff_char_space`, a hash, a text without line feed,
and the line feed. -/
def comment_line (L : List Char) : Prop :=
  ∃ ws txt, L = ws ++ '#' :: txt ++ ['\n'] ∧ (∀ c ∈ ws, sbuff_char_space c = true) ∧ '\n' ∉ txt

/-- A line that holds blanks of the table `sbuff_char_space` only. -/
def blank_line (L : List Char) : Prop :=
  ∃ ws, L = ws ++ ['\n'] ∧ ∀ c ∈ ws, sbuff_char_space c = true

/-- The name, the check maps and the reply maps of an entry. -/
def PAIR_LIST.fields (t : PAIR_LIST) : List Char × List map_t × List map_t :=
  (t.name, t.check, t.reply)

/-- The name, the check maps and the reply maps that a well-formed entry stands for. -/
def file_entry.fields (e : file_entry) : List Char × List map_t × List map_t :=
  (e.name, e.check.map fun i => i.map, (e.reply.flatMap fun line => line.2).map fun i => i.map)

/-! ## `sql_escape_func` of `rlm_sql.c`

The output buffer is followed through the list of the writes made to it, each an index from
the start of `out` and the byte stored there, in the order of the writes. -/

/-- The upper-case hexadecimal digit that `%X` prints for `d < 16`. -/
def hex_digit (d : Nat) : Nat := if d < 10 then 48 + d else 55 + d

/-- The writes of `snprintf(out, size, "=%02X", v)` at index `pos`, from the C library: the
characters of the text that fit in `size - 1` bytes, then a NUL; nothing when `size` is 0. -/
def snprintf_hex (pos size v : Nat) : List (Nat × Nat) :=
  if size = 0 then []
  else
    let chars := [61, hex_digit (v / 16 % 16), hex_digit (v % 16)].take (size - 1)
    (chars.enumFrom pos) ++ [(pos + chars.length, 0)]

/-- The test `in[0] < 32` on a byte `c` read through `char`, which is signed or not. -/
def char_lt_32 (char_signed : Bool) (c : Nat) : Bool :=
  decide (c < 32) || (char_signed && decide (128 ≤ c))

/-- The test `strchr(allowed_chars, c) == NULL` for a byte `c` that is not NUL: `c` is not
in the string that ends at the first NUL of `allowed`. -/
def strchr_null (allowed : List Nat) (c : Nat) : Bool :=
  !((allowed.map (· % 256)).takeWhile (· != 0)).contains c

/-- The function `sql_escape_func`: `inp` is the input up to its end (a NUL ends it earlier),
`pos` the index of `out` in the buffer, `outlen` and `len` the variables of the source. The
result is the returned length and the writes. -/
def sql_escape_func (char_signed : Bool) (allowed : List Nat) :
    List Nat → Nat → Nat → Nat → Nat × List (Nat × Nat)
  | [], pos, _, len => (len, [(pos, 0)])
  | c :: rest, pos, outlen, len =>
    if c % 256 = 0 then (len, [(pos, 0)])
    else if char_lt_32 char_signed (c % 256) || strchr_null allowed (c % 256) then
      if outlen ≤ 3 then (len, [(pos, 0)])
      else
        let r := sql_escape_func char_signed allowed rest (pos + 3) (outlen - 3) (len + 3)
        (r.1, snprintf_hex pos outlen (c % 256) ++ r.2)
    else
      if outlen ≤ 1 then (len, [(pos, 0)])
      else
        let r := sql_escape_func char_signed allowed rest (pos + 1) (outlen - 1) (len + 1)
        (r.1, (pos, c % 256) :: r.2)

/-- The buffer `buf` after the writes of a list, in their order. -/
def store (buf : Nat → Nat) : List (Nat × Nat) → Nat → Nat
  | [] => buf
  | (i, v) :: w => store (fun j => if j = i then v else buf j) w

/-! ## Definitions for the scanning loop of `decode_concat` and for the code behind the
decryption block -/

/-- The attributes that the first loop of `decode_concat` reaches within `fuel` turns from
`ptr`, each by the position of its first byte: the attribute at `ptr` when `ptr < end`, and
then, when the byte at `ptr + ptr[1]` is `attr`, the attributes reached from there. -/
def concat_reached (m : List Nat) (fin attr : Nat) : Nat → Nat → List Nat
  | 0, _ => []
  | fuel + 1, ptr =>
    if ptr < fin then
      ptr :: (if rd m (ptr + rd m (ptr + 1)) ≠ attr then []
        else concat_reached m fin attr fuel (ptr + rd m (ptr + 1)))
    else []

/-- The code of `fr_radius_decode_pair_value` from the first `switch (parent->type)` to its
end, run on the locals `l`: what every value goes through once the tag block and the
decryption block have fallen through. -/
def from_type_switch (E : Env) (dec : Decoder) (parent : fr_dict_attr_t) (m : List Nat)
    (start attrlen packetlen : Nat) (l : Locals) : Decoded :=
  match shape_stage E dec parent m start attrlen packetlen l with
  | Shape.done r => r
  | Shape.raw => raw_stage E parent l attrlen
  | Shape.alloc none _ => Decoded.error
  | Shape.alloc (some da) l => alloc_stage E da l attrlen


/-! ## Basic facts -/

theorem memrd_length (m : List Nat) (p n : Nat) : (memrd m p n).length = n := by
  simp [memrd]

theorem rd_memrd (m : List Nat) (p n i : Nat) (h : i < n) : rd (memrd m p n) i = rd m (p + i) := by
  simp [memrd, rd, List.getD_eq_getElem?_getD, List.getElem?_map, List.getElem?_range h]

theorem memrd_succ (m : List Nat) (p n : Nat) :
    memrd m p (n + 1) = memrd m p n ++ [rd m (p + n)] := by
  simp [memrd, List.range_succ]

theorem be_val_append (bs : List Nat) (b : Nat) : be_val (bs ++ [b]) = be_val bs * 256 + b := by
  simp [be_val]

theorem be_bytes_be_val (bs : List Nat) (h : ∀ b ∈ bs, b < 256) :
    be_bytes bs.length (be_val bs) = bs := by
  induction bs using List.reverseRecOn with
  | nil => rfl
  | append_singleton bs b ih =>
    have hb : b < 256 := h b (by simp)
    have hbs : ∀ x ∈ bs, x < 256 := fun x hx => h x (by simp [hx])
    rw [be_val_append, List.length_append, List.length_singleton, be_bytes]
    have h1 : (be_val bs * 256 + b) / 256 = be_val bs := by omega
    have h2 : (be_val bs * 256 + b) % 256 = b := by omega
    rw [h1, h2, ih hbs]

theorem memrd_lt (m : List Nat) (p n : Nat) (h : ∀ i < n, rd m (p + i) < 256) :
    ∀ b ∈ memrd m p n, b < 256 := by
  intro b hb
  simp only [memrd, List.mem_map, List.mem_range] at hb
  obtain ⟨i, hi, rfl⟩ := hb
  exact h i hi

theorem tag_stage_untagged (E : Env) (D : fr_dict_attr_t) (m : List Nat) (start attrlen : Nat)
    (htag : D.flags.has_tag = false) :
    tag_stage E D m start attrlen = some (entry_locals E m start attrlen) := by
  simp [tag_stage, htag, entry_locals]

theorem decrypt_stage_unencrypted (E : Env) (R : Request) (D : fr_dict_attr_t) (attrlen : Nat)
    (l : Locals) (henc : D.flags.encrypt = FLAG_ENCRYPT.NONE) :
    decrypt_stage E R D attrlen l = Step.go l := by
  unfold decrypt_stage
  cases R.secret <;> cases R.packet <;> simp [henc]

/-- The body for an untagged, unencrypted descriptor and a non-empty value: the first
`switch`, then `raw` or the allocation. -/
theorem body_plain (E : Env) (R : Request) (dec : Decoder) (D : fr_dict_attr_t) (m : List Nat)
    (start attrlen packetlen : Nat) (htag : D.flags.has_tag = false)
    (henc : D.flags.encrypt = FLAG_ENCRYPT.NONE) (hne : attrlen ≠ 0)
    (hargs : args_ok attrlen packetlen) :
    decode_pair_value_body E R dec D m start attrlen packetlen =
      match shape_stage E dec D m start attrlen packetlen (entry_locals E m start attrlen) with
      | Shape.done r => r
      | Shape.raw => raw_stage E D (entry_locals E m start attrlen) attrlen
      | Shape.alloc none _ => Decoded.error
      | Shape.alloc (some da) l => alloc_stage E da l attrlen := by
  obtain ⟨h1, h2, h3⟩ := hargs
  have hc : ¬ (attrlen > packetlen ∨ (attrlen > 253 ∧ attrlen ≠ packetlen) ∨
      attrlen > 128 * 1024) := by omega
  simp only [decode_pair_value_body, hc, if_false, hne, tag_stage_untagged E D m start attrlen htag,
    decrypt_stage_unencrypted E R D attrlen _ henc]


theorem shl8_or (a b : Nat) (hb : b < 256) : (a <<< 8) ||| b = a * 256 + b := by
  have h := Nat.mul_add_lt_is_or (i := 8) (b := b) (by simpa using hb) a
  rw [Nat.shiftLeft_eq]
  have e : (2:Nat) ^ 8 = 256 := by norm_num
  rw [e] at h
  rw [Nat.mul_comm a 256, ← h]

/-! ## C4 -/

/-- C4. `fr_radius_decode_pair` returns a negative length, and stores no pair, whenever the
window is shorter than 2 bytes, or the length byte `data[1]` is below 2, or `data[1]` exceeds
the length of the window. -/
theorem fr_radius_decode_pair_rejects_bad_header (E : Env) (R : Request) (fuel : Nat)
    (parent : fr_dict_attr_t) (m : List Nat) (data length : Nat)
    (h : length < 2 ∨ rd m (data + 1) < 2 ∨ rd m (data + 1) > length) :
    fr_radius_decode_pair E R fuel parent m data length = Decoded.error := by
  simp [fr_radius_decode_pair, h]

theorem fr_radius_decode_pair_rejects_bad_header_witness :
    (7 < 2 ∨ rd [6, 1, 0, 33, 192, 168, 0] (0 + 1) < 2 ∨ rd [6, 1, 0, 33, 192, 168, 0] (0 + 1) > 7)
    ∧ fr_radius_decode_pair (demo_env 0) no_request 3 demo_root [6, 1, 0, 33, 192, 168, 0] 0 7
      = Decoded.error :=
  ⟨by decide, fr_radius_decode_pair_rejects_bad_header (demo_env 0) no_request 3 demo_root
    [6, 1, 0, 33, 192, 168, 0] 0 7 (by decide)⟩

/-! ## C5 -/

/-- C5. For an untagged, unencrypted descriptor of type byte, short, integer, integer64 or
date and a value of exactly the width of the type, `fr_radius_decode_pair_value` produces one
pair whose number is the big-endian reading of the value bytes, and writing that number back
big-endian gives the value bytes again. -/
theorem integer_value_is_big_endian (E : Env) (R : Request) (fuel : Nat) (D : fr_dict_attr_t)
    (m : List Nat) (start packetlen w : Nat)
    (htag : D.flags.has_tag = false) (henc : D.flags.encrypt = FLAG_ENCRYPT.NONE)
    (hw : int_width D.type = some w) (hlen : w ≤ packetlen)
    (halloc : E.fr_pair_afrom_da D = true)
    (hbytes : ∀ i < w, rd m (start + i) < 256) :
    fr_radius_decode_pair_value E R (fuel + 1) D m start w packetlen
        = Decoded.ok w [⟨D, none, w, int_value D.type (be_val (memrd m start w))⟩]
      ∧ be_bytes w (be_val (memrd m start w)) = memrd m start w := by
  constructor
  · have hw8 : w = 1 ∨ w = 2 ∨ w = 4 ∨ w = 8 := by
      cases hT : D.type <;> simp [int_width, hT] at hw <;> omega
    have hargs : args_ok w packetlen := ⟨hlen, Or.inl (by omega), by omega⟩
    have hne : w ≠ 0 := by omega
    rw [fr_radius_decode_pair_value, body_plain E R _ D m start w packetlen htag henc hne hargs]
    cases hT : D.type <;> simp [int_width, hT] at hw <;> subst hw
    · simp [shape_stage, hT, entry_locals, alloc_stage, leaf_value, halloc, int_value, ntoh]
    · simp [shape_stage, hT, entry_locals, alloc_stage, leaf_value, halloc, int_value, ntoh]
    · simp [shape_stage, hT, entry_locals, alloc_stage, leaf_value, halloc, int_value, ntoh,
        Locals.at, memrd, be_val, List.range_succ]
    · have h0 := hbytes 0 (by omega)
      have h1 := hbytes 1 (by omega)
      simp only [Nat.add_zero] at h0
      simp [shape_stage, hT, entry_locals, alloc_stage, leaf_value, halloc, int_value,
        Locals.at, memrd, be_val, List.range_succ, shl8_or _ _ h1]
      omega
    · simp [shape_stage, hT, entry_locals, alloc_stage, leaf_value, halloc, int_value, ntoh]
  · have h := be_bytes_be_val (memrd m start w) (memrd_lt m start w hbytes)
    rwa [memrd_length] at h

theorem integer_value_is_big_endian_witness :
    fr_radius_decode_pair_value (demo_env 0) no_request 1 (demo_attr 5 PW_TYPE.INTEGER no_flags)
        [5, 6, 1, 2, 3, 4] 2 4 4
        = Decoded.ok 4 [⟨demo_attr 5 PW_TYPE.INTEGER no_flags, none, 4,
            int_value PW_TYPE.INTEGER (be_val (memrd [5, 6, 1, 2, 3, 4] 2 4))⟩]
      ∧ be_bytes 4 (be_val (memrd [5, 6, 1, 2, 3, 4] 2 4)) = memrd [5, 6, 1, 2, 3, 4] 2 4 :=
  integer_value_is_big_endian (demo_env 0) no_request 0 (demo_attr 5 PW_TYPE.INTEGER no_flags)
    [5, 6, 1, 2, 3, 4] 2 4 4 rfl rfl rfl (by decide) rfl (by decide)


/-- What `raw_stage` gives once the unknown descriptor is built and its pair allocated. -/
theorem raw_stage_eq (E : Env) (D U : fr_dict_attr_t) (l : Locals) (attrlen : Nat)
    (hU : E.fr_dict_unknown_afrom_fields D.parent D.vendor D.attr = some U)
    (hUt : U.type = PW_TYPE.OCTETS) (halloc : E.fr_pair_afrom_da U = true) :
    raw_stage E D l attrlen
      = Decoded.ok attrlen [⟨U, none, l.datalen, value_data.vp_octets (memrd l.dmem l.data l.datalen)⟩] := by
  simp [raw_stage, hU, hUt, alloc_stage, halloc, leaf_value]

/-! ## C2 -/

/-- C2 (as amended). When `fr_radius_decode_pair_value` takes the raw fallback for an attribute
of an untagged, unencrypted descriptor, the pair has the unknown octets descriptor, no tag and
the `attrlen` bytes of the wire as its value; decoding the same bytes under that unknown
descriptor gives the same pair. -/
theorem raw_fallback_keeps_wire_bytes (E : Env) (R : Request) (fuel fuel2 : Nat)
    (D U : fr_dict_attr_t) (m : List Nat) (start attrlen packetlen : Nat)
    (htag : D.flags.has_tag = false) (henc : D.flags.encrypt = FLAG_ENCRYPT.NONE)
    (hne : attrlen ≠ 0) (hargs : args_ok attrlen packetlen)
    (hraw : shape_stage E (fr_radius_decode_pair_value E R fuel) D m start attrlen packetlen
      (entry_locals E m start attrlen) = Shape.raw)
    (hU : E.fr_dict_unknown_afrom_fields D.parent D.vendor D.attr = some U)
    (hUt : U.type = PW_TYPE.OCTETS) (hUtag : U.flags.has_tag = false)
    (hUenc : U.flags.encrypt = FLAG_ENCRYPT.NONE) (halloc : E.fr_pair_afrom_da U = true) :
    fr_radius_decode_pair_value E R (fuel + 1) D m start attrlen packetlen
        = Decoded.ok attrlen [⟨U, none, attrlen, value_data.vp_octets (memrd m start attrlen)⟩]
      ∧ fr_radius_decode_pair_value E R (fuel2 + 1) U m start attrlen packetlen
        = Decoded.ok attrlen [⟨U, none, attrlen, value_data.vp_octets (memrd m start attrlen)⟩] := by
  constructor
  · rw [fr_radius_decode_pair_value, body_plain E R _ D m start attrlen packetlen htag henc hne hargs,
      hraw]
    simp [raw_stage_eq E D U _ attrlen hU hUt halloc, entry_locals]
  · rw [fr_radius_decode_pair_value, body_plain E R _ U m start attrlen packetlen hUtag hUenc hne hargs]
    simp [shape_stage, hUt, alloc_stage, halloc, leaf_value, entry_locals]

theorem raw_fallback_keeps_wire_bytes_witness :
    fr_radius_decode_pair_value (demo_env 0) no_request 1 (demo_attr 6 PW_TYPE.IPV4_PREFIX no_flags)
        [6, 5, 0, 33, 192] 2 3 3
        = Decoded.ok 3 [⟨demo_unknown (some demo_root) 0 6, none, 3,
            value_data.vp_octets (memrd [6, 5, 0, 33, 192] 2 3)⟩]
      ∧ fr_radius_decode_pair_value (demo_env 0) no_request 1 (demo_unknown (some demo_root) 0 6)
        [6, 5, 0, 33, 192] 2 3 3
        = Decoded.ok 3 [⟨demo_unknown (some demo_root) 0 6, none, 3,
            value_data.vp_octets (memrd [6, 5, 0, 33, 192] 2 3)⟩] :=
  raw_fallback_keeps_wire_bytes (demo_env 0) no_request 0 0 (demo_attr 6 PW_TYPE.IPV4_PREFIX no_flags)
    (demo_unknown (some demo_root) 0 6) [6, 5, 0, 33, 192] 2 3 3 rfl rfl (by decide)
    (by simp [args_ok]) (by decide) rfl rfl rfl rfl rfl

/-- C2, counterexample. The descriptor 7 of the demo dictionary is a tagged integer. The value
`01 00 00 00 05` has 5 bytes and takes the raw fallback; the octets pair holds `00 00 00 00 05`,
which is not the value on the wire: the tag block has zeroed the first byte. -/
theorem raw_fallback_of_tagged_integer :
    fr_radius_decode_pair_value (demo_env 0) no_request 1
        (demo_attr 7 PW_TYPE.INTEGER ⟨true, false, FLAG_ENCRYPT.NONE, 0⟩) [1, 0, 0, 0, 5] 0 5 5
        = Decoded.ok 5 [⟨demo_unknown (some demo_root) 0 7, none, 5,
            value_data.vp_octets [0, 0, 0, 0, 5]⟩]
      ∧ memrd [1, 0, 0, 0, 5] 0 5 = [1, 0, 0, 0, 5]
      ∧ [0, 0, 0, 0, 5] ≠ memrd [1, 0, 0, 0, 5] 0 5 := by
  decide

/-! ## C6 -/

/-- C6. The code at the failing input: for the signed descriptor 4 of the demo dictionary
(untagged, unencrypted) and the value bytes `00 00 00 05` the pair holds the big-endian reading
of the first 4 bytes of the uninitialised array `buffer`, not of the value: 0 when the array
holds zeros, 0x09090909 when it holds nines. -/
theorem signed_value_comes_from_buffer :
    fr_radius_decode_pair_value (demo_env 0) no_request 1 (demo_attr 4 PW_TYPE.SIGNED no_flags)
        [0, 0, 0, 5] 0 4 4
        = Decoded.ok 4 [⟨demo_attr 4 PW_TYPE.SIGNED no_flags, none, 4, value_data.vp_integer 0⟩]
      ∧ fr_radius_decode_pair_value (demo_env 9) no_request 1 (demo_attr 4 PW_TYPE.SIGNED no_flags)
        [0, 0, 0, 5] 0 4 4
        = Decoded.ok 4 [⟨demo_attr 4 PW_TYPE.SIGNED no_flags, none, 4,
            value_data.vp_integer 0x09090909⟩]
      ∧ be_val [0, 0, 0, 5] = 5 := by
  decide

/-! ## C9 -/

/-- C9 (as amended). With attribute 6 declared as an untagged, unencrypted ipv4-prefix (not
concat), `fr_radius_decode_pair` on the bytes `06 05 00 21 c0 a8 00` returns 5 and produces an
octets pair of 3 bytes, `00 21 c0`, not a prefix pair: the length byte 05 counts the 2 header
bytes, the last 2 bytes belong to the next attribute. -/
theorem malformed_ipv4_prefix_is_raw (E : Env) (R : Request) (fuel : Nat)
    (parent D U : fr_dict_attr_t) (m : List Nat) (data : Nat)
    (hm : memrd m data 7 = [0x06, 0x05, 0x00, 0x21, 0xc0, 0xa8, 0x00])
    (hD : E.fr_dict_attr_child_by_num parent 6 = some D) (hT : D.type = PW_TYPE.IPV4_PREFIX)
    (htag : D.flags.has_tag = false) (henc : D.flags.encrypt = FLAG_ENCRYPT.NONE)
    (hcat : D.flags.concat = false)
    (hU : E.fr_dict_unknown_afrom_fields D.parent D.vendor D.attr = some U)
    (hUt : U.type = PW_TYPE.OCTETS) (halloc : E.fr_pair_afrom_da U = true) :
    fr_radius_decode_pair E R (fuel + 1) parent m data 7
      = Decoded.ok 5 [⟨U, none, 3, value_data.vp_octets [0x00, 0x21, 0xc0]⟩] := by
  have hb : ∀ i, i < 7 → rd m (data + i) = rd [0x06, 0x05, 0x00, 0x21, 0xc0, 0xa8, 0x00] i := by
    intro i hi
    rw [← rd_memrd m data 7 i hi, hm]
  have h0 : rd m data = 6 := by simpa [rd] using hb 0 (by omega)
  have h1 : rd m (data + 1) = 5 := by simpa [rd] using hb 1 (by omega)
  have h2 : rd m (data + 2) = 0 := by simpa [rd] using hb 2 (by omega)
  have h3 : rd m (data + 3) = 33 := by simpa [rd] using hb 3 (by omega)
  have h4 : rd m (data + 4) = 192 := by simpa [rd] using hb 4 (by omega)
  have hv : memrd m (data + 2) 3 = [0x00, 0x21, 0xc0] := by
    simp [memrd, List.range_succ, Nat.add_assoc, h2, h3, h4]
  have hargs : args_ok 3 5 := by simp [args_ok]
  simp only [fr_radius_decode_pair, h1, h0, child_or_unknown, hD, hcat]
  rw [fr_radius_decode_pair_value,
    body_plain E R _ D m (data + 2) 3 5 htag henc (by omega) hargs]
  simp [shape_stage, hT, entry_locals, raw_stage_eq E D U _ 3 hU hUt halloc, hv]

theorem malformed_ipv4_prefix_is_raw_witness :
    fr_radius_decode_pair (demo_env 0) no_request 1 demo_root [6, 5, 0, 33, 192, 168, 0] 0 7
      = Decoded.ok 5 [⟨demo_unknown (some demo_root) 0 6, none, 3,
          value_data.vp_octets [0x00, 0x21, 0xc0]⟩] :=
  malformed_ipv4_prefix_is_raw (demo_env 0) no_request 0 demo_root
    (demo_attr 6 PW_TYPE.IPV4_PREFIX no_flags) (demo_unknown (some demo_root) 0 6)
    [6, 5, 0, 33, 192, 168, 0] 0 (by decide) rfl rfl rfl rfl rfl rfl rfl rfl

/-- C9, counterexample. In the demo dictionary, where attribute 6 is an ipv4-prefix, the bytes
`06 05 00 21 c0 a8 00` decode to one pair whose value has 3 bytes, not 5. -/
theorem malformed_ipv4_prefix_has_three_bytes :
    ∃ vp, fr_radius_decode_pair (demo_env 0) no_request 1 demo_root [6, 5, 0, 33, 192, 168, 0] 0 7
        = Decoded.ok 5 [vp]
      ∧ vp.da.type = PW_TYPE.OCTETS ∧ vp.vp_length = 3 ∧ vp.data = value_data.vp_octets [0, 33, 192]
      ∧ vp.vp_length ≠ 5 :=
  ⟨⟨demo_unknown (some demo_root) 0 6, none, 3, value_data.vp_octets [0, 33, 192]⟩, by decide⟩

/-! ## C10 -/

/-- C10. The code at the failing input: for the ipv6-prefix descriptor 8 of the demo
dictionary and the 2 value bytes `00 80` (reserved byte, prefix length 128) the pair keeps the
type ipv6-prefix with a value of 2 bytes, where a prefix of 128 bits takes 2 + 16; and for the
18 value bytes `00 00 ff ...` (prefix length 0) the bytes behind the first 2 are stored as they
are, not as zeros. -/
theorem ipv6_prefix_length_not_checked :
    fr_radius_decode_pair_value (demo_env 0) no_request 1 (demo_attr 8 PW_TYPE.IPV6_PREFIX no_flags)
        [0, 128] 0 2 2
        = Decoded.ok 2 [⟨demo_attr 8 PW_TYPE.IPV6_PREFIX no_flags, none, 2,
            value_data.vp_ipv6prefix_bytes [0, 128, 0, 0, 0, 0, 0, 0, 0, 0, 0, 0, 0, 0, 0, 0, 0, 0]⟩]
      ∧ fr_radius_decode_pair_value (demo_env 0) no_request 1
        (demo_attr 8 PW_TYPE.IPV6_PREFIX no_flags)
        [0, 0, 255, 255, 255, 255, 255, 255, 255, 255, 255, 255, 255, 255, 255, 255, 255, 255] 0 18 18
        = Decoded.ok 18 [⟨demo_attr 8 PW_TYPE.IPV6_PREFIX no_flags, none, 18,
            value_data.vp_ipv6prefix_bytes
              [0, 0, 255, 255, 255, 255, 255, 255, 255, 255, 255, 255, 255, 255, 255, 255, 255, 255]⟩] := by
  decide

/-! ## Properties of every pair of a result -/

theorem store_tail_all (W : VALUE_PAIR → Prop) (head vps : List VALUE_PAIR) (tail : Nat)
    (hh : ∀ vp ∈ head, W vp) (hv : ∀ vp ∈ vps, W vp) : ∀ vp ∈ store_tail head tail vps, W vp := by
  intro vp hvp
  simp only [store_tail, List.mem_append] at hvp
  rcases hvp with h | h
  · exact hh vp (List.mem_of_mem_take h)
  · exact hv vp h

theorem tlv_loop_all (W : VALUE_PAIR → Prop) (E : Env) (dec : Decoder)
    (hdec : ∀ da m s a p, (dec da m s a p).all W) (parent : fr_dict_attr_t) (m : List Nat)
    (fin length : Nat) : ∀ (fuel data : Nat) (head : List VALUE_PAIR) (tail : Nat),
    (∀ vp ∈ head, W vp) → (tlv_loop E dec parent m fin length fuel data head tail).all W := by
  intro fuel
  induction fuel with
  | zero =>
    intro data head tail hh
    unfold tlv_loop
    split
    · trivial
    · exact hh
  | succ fuel ih =>
    intro data head tail hh
    unfold tlv_loop
    split
    · split
      · trivial
      · rename_i child _
        have hd := hdec child m (data + 2) (sub_sz (rd m (data + 1)) 2) (sub_sz (rd m (data + 1)) 2)
        split
        · rename_i n vps hr
          rw [hr] at hd
          exact ih _ _ _ (store_tail_all W head vps tail hh hd)
        · trivial
        · trivial
        · trivial
    · exact hh

theorem fr_radius_decode_tlv_all (W : VALUE_PAIR → Prop) (E : Env) (dec : Decoder)
    (hdec : ∀ da m s a p, (dec da m s a p).all W) (parent : fr_dict_attr_t) (m : List Nat)
    (start length : Nat) : (fr_radius_decode_tlv E dec parent m start length).all W := by
  unfold fr_radius_decode_tlv
  split
  · trivial
  · split
    · trivial
    · exact tlv_loop_all W E dec hdec parent m _ _ _ _ _ _ (by simp)

/-- The pairs of an `ok` result of `dec` have the property that every result of `dec` has. -/
theorem all_of_ok (W : VALUE_PAIR → Prop) (dec : Decoder)
    (hdec : ∀ da m s a p, (dec da m s a p).all W) (da : fr_dict_attr_t) (m : List Nat)
    (s a p n : Nat) (vps : List VALUE_PAIR) (h : dec da m s a p = Decoded.ok n vps) :
    ∀ vp ∈ vps, W vp := by
  have hd := hdec da m s a p
  rw [h] at hd
  exact hd

theorem decode_vsa_internal_all (W : VALUE_PAIR → Prop) (E : Env) (dec : Decoder)
    (hdec : ∀ da m s a p, (dec da m s a p).all W) (dv : fr_dict_vendor_t)
    (parent : fr_dict_attr_t) (m : List Nat) (data length : Nat) :
    (decode_vsa_internal E dec dv parent m data length).all W := by
  unfold decode_vsa_internal
  repeat' split
  all_goals first
    | trivial
    | (rename_i hr; exact all_of_ok W dec hdec _ _ _ _ _ _ _ hr)

theorem vsa_loop_all (W : VALUE_PAIR → Prop) (E : Env) (dec : Decoder)
    (hdec : ∀ da m s a p, (dec da m s a p).all W) (dv : fr_dict_vendor_t)
    (vendor_da : fr_dict_attr_t) (m : List Nat) :
    ∀ (fuel data attrlen total : Nat) (head : List VALUE_PAIR) (tail : Nat),
    (∀ vp ∈ head, W vp) → (vsa_loop E dec dv vendor_da m fuel data attrlen total head tail).all W := by
  intro fuel
  induction fuel with
  | zero =>
    intro data attrlen total head tail hh
    unfold vsa_loop
    split
    · trivial
    · exact hh
  | succ fuel ih =>
    intro data attrlen total head tail hh
    unfold vsa_loop
    split
    · have hd := decode_vsa_internal_all W E dec hdec dv vendor_da m data attrlen
      split
      · rename_i n vps hr
        rw [hr] at hd
        exact ih _ _ _ _ _ (store_tail_all W head vps tail hh hd)
      · trivial
      · trivial
      · trivial
    · exact hh

theorem decode_extended_all (W : VALUE_PAIR → Prop) (E : Env) (dec : Decoder)
    (hdec : ∀ da m s a p, (dec da m s a p).all W) (parent : fr_dict_attr_t) (m : List Nat)
    (data attrlen packetlen : Nat) :
    (decode_extended E dec parent m data attrlen packetlen).all W := by
  unfold decode_extended
  repeat' split
  all_goals first
    | trivial
    | (rename_i hr; exact all_of_ok W dec hdec _ _ _ _ _ _ _ hr)

theorem decode_wimax_all (W : VALUE_PAIR → Prop) (E : Env) (dec : Decoder)
    (hdec : ∀ da m s a p, (dec da m s a p).all W) (vendor : Nat) (parent : fr_dict_attr_t)
    (m : List Nat) (data attrlen packetlen : Nat) :
    (decode_wimax E dec vendor parent m data attrlen packetlen).all W := by
  unfold decode_wimax
  repeat' split
  all_goals first
    | trivial
    | (rename_i hr; exact all_of_ok W dec hdec _ _ _ _ _ _ _ hr)

theorem decode_vsa_all (W : VALUE_PAIR → Prop) (E : Env) (dec : Decoder)
    (hdec : ∀ da m s a p, (dec da m s a p).all W) (parent : fr_dict_attr_t) (m : List Nat)
    (data attrlen packetlen : Nat) : (decode_vsa E dec parent m data attrlen packetlen).all W := by
  unfold decode_vsa
  dsimp only
  repeat' split
  all_goals first
    | trivial
    | exact decode_wimax_all W E dec hdec _ _ m _ _ _
    | exact vsa_loop_all W E dec hdec _ _ m _ _ _ _ _ _ (by simp)

theorem ret_plus_all (W : VALUE_PAIR → Prop) (k : Nat) (r r2 : Decoded) (hr : r.all W)
    (h : ret_plus k r = Shape.done r2) : r2.all W := by
  cases r with
  | ok n vps =>
    simp only [ret_plus, Shape.done.injEq] at h
    subst h
    exact hr
  | error => simp [ret_plus] at h
  | diverge =>
    simp only [ret_plus, Shape.done.injEq] at h
    subst h
    trivial
  | fault =>
    simp only [ret_plus, Shape.done.injEq] at h
    subst h
    trivial

theorem long_extended_child_all (W : VALUE_PAIR → Prop) (E : Env) (dec : Decoder)
    (hdec : ∀ da m s a p, (dec da m s a p).all W) (child : fr_dict_attr_t) (m : List Nat)
    (start attrlen packetlen : Nat) (l : Locals) (r : Decoded)
    (h : long_extended_child E dec child m start attrlen packetlen l = Shape.done r) :
    r.all W := by
  unfold long_extended_child at h
  split at h
  · exact ret_plus_all W _ _ _ (hdec _ _ _ _ _) h
  · injection h with h
    subst h
    exact decode_extended_all W E dec hdec _ _ _ _ _

theorem evs_case_all (W : VALUE_PAIR → Prop) (E : Env) (dec : Decoder)
    (hdec : ∀ da m s a p, (dec da m s a p).all W) (parent : fr_dict_attr_t) (attrlen : Nat)
    (l : Locals) (r : Decoded) (h : evs_case E dec parent attrlen l = Shape.done r) :
    r.all W := by
  unfold evs_case at h
  dsimp only at h
  repeat' split at h
  all_goals first
    | exact Shape.noConfusion h
    | exact ret_plus_all W _ _ _ (hdec _ _ _ _ _) h

/-- A result that the first `switch` returns holds only pairs that come from `dec`. -/
theorem shape_done_all (W : VALUE_PAIR → Prop) (E : Env) (dec : Decoder)
    (hdec : ∀ da m s a p, (dec da m s a p).all W) (parent : fr_dict_attr_t) (m : List Nat)
    (start attrlen packetlen : Nat) (l : Locals) (r : Decoded)
    (h : shape_stage E dec parent m start attrlen packetlen l = Shape.done r) : r.all W := by
  cases hT : parent.type <;> simp only [shape_stage, hT] at h
  all_goals try (repeat' split at h)
  all_goals try (exact Shape.noConfusion h)
  all_goals first
    | exact ret_plus_all W _ _ _ (hdec _ _ _ _ _) h
    | exact long_extended_child_all W E dec hdec _ _ _ _ _ _ _ h
    | exact evs_case_all W E dec hdec _ _ _ _ h
    | (injection h with h; subst h; trivial)
    | (injection h with h; subst h; exact fr_radius_decode_tlv_all W E dec hdec _ _ _ _)
    | (injection h with h; subst h; exact decode_vsa_all W E dec hdec _ _ _ _ _)

theorem alloc_stage_ok (E : Env) (da : fr_dict_attr_t) (l : Locals) (attrlen n : Nat)
    (vps : List VALUE_PAIR) (h : alloc_stage E da l attrlen = Decoded.ok n vps) :
    n = attrlen ∧ ∃ len data, leaf_value E da.type l = some (len, data) ∧
      vps = [⟨da, l.tag, len, data⟩] := by
  unfold alloc_stage at h
  split at h
  · exact absurd h (by simp)
  · split at h
    · exact absurd h (by simp)
    · rename_i len data hv
      simp only [Decoded.ok.injEq] at h
      exact ⟨h.1.symm, len, data, hv, h.2.symm⟩

theorem raw_stage_ok (E : Env) (D : fr_dict_attr_t) (l : Locals) (attrlen n : Nat)
    (vps : List VALUE_PAIR) (h : raw_stage E D l attrlen = Decoded.ok n vps) :
    n = attrlen ∧ ∃ U, E.fr_dict_unknown_afrom_fields D.parent D.vendor D.attr = some U ∧
      U.type = PW_TYPE.OCTETS ∧
      vps = [⟨U, none, l.datalen, value_data.vp_octets (memrd l.dmem l.data l.datalen)⟩] := by
  unfold raw_stage at h
  split at h
  · exact absurd h (by simp)
  · rename_i U hU
    split at h
    · exact absurd h (by simp)
    · rename_i hT
      have hT2 : U.type = PW_TYPE.OCTETS := by simpa using hT
      obtain ⟨hn, len, data, hv, hvps⟩ := alloc_stage_ok E U _ attrlen n vps h
      simp only [leaf_value, hT2, Option.some.injEq, Prod.mk.injEq] at hv
      refine ⟨hn, U, hU, hT2, ?_⟩
      rw [hvps, ← hv.1, ← hv.2]

theorem leaf_value_length (E : Env) (t : PW_TYPE) (l : Locals) (len : Nat) (data : value_data)
    (h : leaf_value E t l = some (len, data)) (ht : t ≠ PW_TYPE.ABINARY) : len = l.datalen := by
  cases t <;> simp only [leaf_value, Option.some.injEq, Prod.mk.injEq, reduceCtorEq] at h
  all_goals first
    | exact h.1.symm
    | exact absurd rfl ht
    | skip
  split at h <;> simp only [Option.some.injEq, Prod.mk.injEq] at h <;> exact h.1.symm

/-- Every pair of a result of the body has the property `W`, when the pairs of `dec` have it
and the pairs built at `raw`, for a zero-length attribute and after the first `switch` have. -/
theorem body_all (W : VALUE_PAIR → Prop) (E : Env) (R : Request) (dec : Decoder)
    (hdec : ∀ da m s a p, (dec da m s a p).all W)
    (hraw : ∀ D l a, (raw_stage E D l a).all W)
    (hcui : ∀ D l a, D.type = PW_TYPE.OCTETS → (alloc_stage E D l a).all W)
    (hleaf : ∀ D m s a p l da l2, shape_stage E dec D m s a p l = Shape.alloc (some da) l2 →
      (alloc_stage E da l2 a).all W)
    (D : fr_dict_attr_t) (m : List Nat) (start attrlen packetlen : Nat) :
    (decode_pair_value_body E R dec D m start attrlen packetlen).all W := by
  unfold decode_pair_value_body
  repeat' split
  all_goals first
    | trivial
    | (simp [Decoded.all]; done)
    | exact hraw _ _ _
    | (rename_i h; exact hcui _ _ _ (by simpa using h))
    | (rename_i h; exact shape_done_all W E dec hdec _ _ _ _ _ _ _ h)
    | (rename_i h; exact hleaf _ _ _ _ _ _ _ _ h)

/-- Every pair of a result of `fr_radius_decode_pair_value` has the property `W`, when the
pairs built at `raw`, for a zero-length attribute and after the first `switch` have it. -/
theorem decode_all (W : VALUE_PAIR → Prop) (E : Env) (R : Request)
    (hraw : ∀ D l a, (raw_stage E D l a).all W)
    (hcui : ∀ D l a, D.type = PW_TYPE.OCTETS → (alloc_stage E D l a).all W)
    (hleaf : ∀ dec D m s a p l da l2, shape_stage E dec D m s a p l = Shape.alloc (some da) l2 →
      (alloc_stage E da l2 a).all W) :
    ∀ fuel D m start attrlen packetlen,
      (fr_radius_decode_pair_value E R fuel D m start attrlen packetlen).all W := by
  intro fuel
  induction fuel with
  | zero => intro D m start attrlen packetlen; trivial
  | succ fuel ih =>
    intro D m start attrlen packetlen
    exact body_all W E R _ ih hraw hcui (hleaf _) D m start attrlen packetlen

theorem ret_plus_ne_alloc (k : Nat) (r : Decoded) (da : Option fr_dict_attr_t) (l : Locals) :
    ret_plus k r ≠ Shape.alloc da l := by
  cases r <;> simp [ret_plus]

theorem long_extended_child_ne_alloc (E : Env) (dec : Decoder) (child : fr_dict_attr_t)
    (m : List Nat) (start attrlen packetlen : Nat) (l : Locals) (da : Option fr_dict_attr_t)
    (l2 : Locals) : long_extended_child E dec child m start attrlen packetlen l ≠ Shape.alloc da l2 := by
  unfold long_extended_child
  split
  · exact ret_plus_ne_alloc _ _ _ _
  · simp

/-- The descriptor that `evs_case` leaves the `switch` with is an unknown attribute. -/
theorem evs_case_alloc (E : Env) (dec : Decoder) (parent : fr_dict_attr_t) (attrlen : Nat)
    (l : Locals) (da : Option fr_dict_attr_t) (l2 : Locals)
    (h : evs_case E dec parent attrlen l = Shape.alloc da l2) :
    ∃ vendor attr, da = E.fr_dict_unknown_afrom_fields (some parent) vendor attr := by
  unfold evs_case at h
  dsimp only at h
  repeat' split at h
  all_goals first
    | exact Shape.noConfusion h
    | exact absurd h (ret_plus_ne_alloc _ _ _ _)
    | (simp only [Shape.alloc.injEq] at h; exact ⟨_, _, h.1.symm⟩)

/-- What the first `switch` has checked when it leaves by `break`: the descriptor is the
one passed in with the length checks of its type done, or the address child of a combo-ip
descriptor, or an unknown attribute. -/
theorem shape_alloc_cases (E : Env) (dec : Decoder) (D : fr_dict_attr_t) (m : List Nat)
    (start attrlen packetlen : Nat) (l : Locals) (da : fr_dict_attr_t) (l2 : Locals)
    (h : shape_stage E dec D m start attrlen packetlen l = Shape.alloc (some da) l2) :
    (da = D ∧ l2 = l ∧ D.type ≠ PW_TYPE.COMBO_IP_ADDR ∧
        (∀ w, fixed_width D.type = some w → l.datalen = w) ∧
        (D.type = PW_TYPE.IPV4_PREFIX → l.at 1 &&& 0x3f ≤ 32) ∧
        (D.type = PW_TYPE.IPV6_PREFIX → 2 ≤ l.datalen ∧ l.datalen ≤ 18 ∧ l.at 1 ≤ 128) ∧
        (D.type = PW_TYPE.ABINARY → l.datalen ≤ E.sizeof_vp_filter))
      ∨ (D.type = PW_TYPE.COMBO_IP_ADDR ∧ l2 = l ∧ l.datalen = 4 ∧
          E.fr_dict_attr_by_type D.vendor D.attr PW_TYPE.IPV4_ADDR = some da)
      ∨ (D.type = PW_TYPE.COMBO_IP_ADDR ∧ l2 = l ∧ l.datalen = 16 ∧
          E.fr_dict_attr_by_type D.vendor D.attr PW_TYPE.IPV6_ADDR = some da)
      ∨ (D.type = PW_TYPE.EVS ∧
          ∃ vendor attr, some da = E.fr_dict_unknown_afrom_fields (some D) vendor attr) := by
  cases hT : D.type <;> simp only [shape_stage, hT] at h
  all_goals try (repeat' split at h)
  all_goals try (exact Shape.noConfusion h)
  all_goals try (exact absurd h (ret_plus_ne_alloc _ _ _ _))
  all_goals try (exact absurd h (long_extended_child_ne_alloc _ _ _ _ _ _ _ _ _ _))
  all_goals try (exact Or.inr (Or.inr (Or.inr ⟨rfl, evs_case_alloc _ _ _ _ _ _ _ h⟩)))
  all_goals simp only [Shape.alloc.injEq, Option.some.injEq] at h
  all_goals obtain ⟨h1, h2⟩ := h
  all_goals subst h1 h2
  all_goals first
    | (refine Or.inr (Or.inl ⟨rfl, rfl, ?_, ?_⟩) <;> assumption)
    | (refine Or.inr (Or.inr (Or.inl ⟨rfl, rfl, ?_, ?_⟩)) <;> assumption)
    | (refine Or.inl ⟨rfl, rfl, ?_, ?_, ?_, ?_, ?_⟩ <;>
        (simp [fixed_width, hT] <;> omega))

theorem seen_locals_eq (E : Env) (R : Request) (D : fr_dict_attr_t) (m : List Nat)
    (start attrlen : Nat) (l0 l : Locals) (h1 : tag_stage E D m start attrlen = some l0)
    (h2 : decrypt_stage E R D attrlen l0 = Step.go l) :
    seen_locals E R D m start attrlen = some l := by
  simp [seen_locals, h1, h2]

/-- The ways the body of `fr_radius_decode_pair_value` comes to its result. -/
theorem body_cases (E : Env) (R : Request) (dec : Decoder) (D : fr_dict_attr_t) (m : List Nat)
    (start attrlen packetlen : Nat) (r : Decoded)
    (h : decode_pair_value_body E R dec D m start attrlen packetlen = r) :
    r = Decoded.error
      ∨ (args_ok attrlen packetlen ∧
        ((attrlen = 0 ∧ r = Decoded.ok 0 [])
        ∨ (attrlen = 0 ∧ D.type = PW_TYPE.OCTETS ∧ ∃ l, r = alloc_stage E D l attrlen)
        ∨ (attrlen ≠ 0 ∧ ∃ l, r = raw_stage E D l attrlen)
        ∨ (attrlen ≠ 0 ∧ ∃ l, seen_locals E R D m start attrlen = some l ∧
            shape_stage E dec D m start attrlen packetlen l = Shape.done r)
        ∨ (attrlen ≠ 0 ∧ ∃ l da l2, seen_locals E R D m start attrlen = some l ∧
            shape_stage E dec D m start attrlen packetlen l = Shape.alloc (some da) l2 ∧
            r = alloc_stage E da l2 attrlen))) := by
  unfold decode_pair_value_body at h
  split at h
  · exact Or.inl h.symm
  · rename_i hargs
    have hargs2 : args_ok attrlen packetlen := by
      unfold args_ok
      omega
    repeat' split at h
    all_goals subst h
    all_goals first
      | exact Or.inl rfl
      | exact Or.inr ⟨hargs2, Or.inl ⟨by assumption, rfl⟩⟩
      | exact Or.inr ⟨hargs2, Or.inr (Or.inl ⟨by assumption,
          Decidable.of_not_not (by assumption), _, rfl⟩)⟩
      | exact Or.inr ⟨hargs2, Or.inr (Or.inr (Or.inl ⟨by assumption, _, rfl⟩))⟩
      | exact Or.inr ⟨hargs2, Or.inr (Or.inr (Or.inr (Or.inl ⟨by assumption, _,
          seen_locals_eq E R D m start attrlen _ _ (by assumption) (by assumption),
          by assumption⟩)))⟩
      | exact Or.inr ⟨hargs2, Or.inr (Or.inr (Or.inr (Or.inr ⟨by assumption, _, _, _,
          seen_locals_eq E R D m start attrlen _ _ (by assumption) (by assumption),
          by assumption, rfl⟩)))⟩

/-! ## The width of every pair -/

theorem raw_stage_all_octets (E : Env) (D : fr_dict_attr_t) (l : Locals) (attrlen : Nat) :
    (raw_stage E D l attrlen).all fun vp => vp.da.type = PW_TYPE.OCTETS := by
  cases hr : raw_stage E D l attrlen with
  | ok n vps =>
    obtain ⟨_, U, _, hUt, hvps⟩ := raw_stage_ok E D l attrlen n vps hr
    intro vp hvp
    rw [hvps, List.mem_singleton] at hvp
    rw [hvp]
    exact hUt
  | error => trivial
  | diverge => trivial
  | fault => trivial

theorem all_mono (W1 W2 : VALUE_PAIR → Prop) (h : ∀ vp, W1 vp → W2 vp) (r : Decoded)
    (hr : r.all W1) : r.all W2 := by
  cases r with
  | ok n vps => exact fun vp hvp => h vp (hr vp hvp)
  | error => trivial
  | diverge => trivial
  | fault => trivial

theorem alloc_stage_all (W : VALUE_PAIR → Prop) (E : Env) (da : fr_dict_attr_t) (l : Locals)
    (attrlen : Nat)
    (h : ∀ len data, leaf_value E da.type l = some (len, data) → W ⟨da, l.tag, len, data⟩) :
    (alloc_stage E da l attrlen).all W := by
  cases hr : alloc_stage E da l attrlen with
  | ok n vps =>
    obtain ⟨_, len, data, hv, hvps⟩ := alloc_stage_ok E da l attrlen n vps hr
    intro vp hvp
    rw [hvps, List.mem_singleton] at hvp
    rw [hvp]
    exact h len data hv
  | error => trivial
  | diverge => trivial
  | fault => trivial

theorem fixed_width_ne_abinary (t : PW_TYPE) (w : Nat) (h : fixed_width t = some w) :
    t ≠ PW_TYPE.ABINARY := by
  intro e
  rw [e] at h
  exact Option.noConfusion h

/-- The pair allocated after the first `switch` has the width of its type. -/
theorem alloc_width_ok (E : Env) (hby : by_type_ok E) (hunk : unknown_octets E) (dec : Decoder)
    (D : fr_dict_attr_t) (m : List Nat) (start attrlen packetlen : Nat) (l : Locals)
    (da : fr_dict_attr_t) (l2 : Locals)
    (h : shape_stage E dec D m start attrlen packetlen l = Shape.alloc (some da) l2) :
    (alloc_stage E da l2 attrlen).all width_ok := by
  apply alloc_stage_all
  intro len data hv w hw
  have hlen := leaf_value_length E da.type l2 len data hv (fixed_width_ne_abinary _ w hw)
  show len = w
  rw [hlen]
  rcases shape_alloc_cases E dec D m start attrlen packetlen l da l2 h with
    ⟨h1, h2, _, h3, _⟩ | ⟨_, h2, h3, h4⟩ | ⟨_, h2, h3, h4⟩ | ⟨_, vendor, attr, h4⟩
  · subst h1 h2
    exact h3 w hw
  · have ht := hby _ _ _ _ h4
    rw [ht] at hw
    simp only [fixed_width, Option.some.injEq] at hw
    rw [h2, h3, hw]
  · have ht := hby _ _ _ _ h4
    rw [ht] at hw
    simp only [fixed_width, Option.some.injEq] at hw
    rw [h2, h3, hw]
  · have ht := hunk _ _ _ _ h4.symm
    rw [ht] at hw
    exact Option.noConfusion hw

theorem octets_width_ok (vp : VALUE_PAIR) (h : vp.da.type = PW_TYPE.OCTETS) : width_ok vp := by
  intro w hw
  rw [h] at hw
  exact Option.noConfusion hw

/-- Every pair of every result of `fr_radius_decode_pair_value` has the width of its type. -/
theorem decode_all_width_ok (E : Env) (R : Request) (hby : by_type_ok E) (hunk : unknown_octets E)
    (fuel : Nat) (D : fr_dict_attr_t) (m : List Nat) (start attrlen packetlen : Nat) :
    (fr_radius_decode_pair_value E R fuel D m start attrlen packetlen).all width_ok := by
  apply decode_all width_ok E R
  · intro D l a
    exact all_mono _ _ octets_width_ok _ (raw_stage_all_octets E D l a)
  · intro D l a hT
    apply alloc_stage_all
    intro len data _
    exact octets_width_ok _ hT
  · intro dec D m s a p l da l2 h
    exact alloc_width_ok E hby hunk dec D m s a p l da l2 h

theorem shape_fixed_not_done (E : Env) (dec : Decoder) (D : fr_dict_attr_t) (m : List Nat)
    (start attrlen packetlen : Nat) (l : Locals) (r : Decoded) (w : Nat)
    (hw : fixed_width D.type = some w) :
    shape_stage E dec D m start attrlen packetlen l ≠ Shape.done r := by
  intro h
  cases hT : D.type <;> simp only [shape_stage, hT] at h
  all_goals try (repeat' split at h)
  all_goals try (exact Shape.noConfusion h)
  all_goals (rw [hT] at hw; exact Option.noConfusion hw)

theorem demo_by_type_ok (fill : Nat) : by_type_ok (demo_env fill) := by
  intro vendor attr type da h
  simp only [demo_env, Option.some.injEq] at h
  rw [← h]

theorem demo_unknown_octets (fill : Nat) : unknown_octets (demo_env fill) := by
  intro parent vendor attr da h
  simp only [demo_env, Option.some.injEq] at h
  rw [← h]
  rfl


/-! ## C8 -/

/-- The pair allocated after the first `switch`, when it is an ipv4-prefix pair, holds 6 bytes
whose prefix-length byte has low six bits of at most 32. -/
theorem alloc_ipv4_prefix_ok (E : Env) (hby : by_type_ok E) (hunk : unknown_octets E)
    (dec : Decoder) (D : fr_dict_attr_t) (m : List Nat) (start attrlen packetlen : Nat)
    (l : Locals) (da : fr_dict_attr_t) (l2 : Locals)
    (h : shape_stage E dec D m start attrlen packetlen l = Shape.alloc (some da) l2) :
    (alloc_stage E da l2 attrlen).all ipv4_prefix_ok := by
  apply alloc_stage_all
  intro len data hv hT
  change da.type = PW_TYPE.IPV4_PREFIX at hT
  rcases shape_alloc_cases E dec D m start attrlen packetlen l da l2 h with
    ⟨h1, h2, _, h3, h4, _⟩ | ⟨_, _, _, h4⟩ | ⟨_, _, _, h4⟩ | ⟨_, vendor, attr, h4⟩
  · subst h1 h2
    have hlen : l2.datalen = 6 := h3 6 (by rw [hT]; rfl)
    have hmask := h4 hT
    have hnot : ¬ (l2.at 1 &&& 0x3f > 32) := by omega
    simp only [leaf_value, hT, hnot, if_false, Option.some.injEq, Prod.mk.injEq] at hv
    refine ⟨by rw [← hv.1, hlen], memrd l2.dmem l2.data 6, by rw [← hv.2, hlen],
      memrd_length _ _ _, ?_⟩
    rw [rd_memrd _ _ _ _ (by omega)]
    exact hmask
  · rw [hby _ _ _ _ h4] at hT
    exact PW_TYPE.noConfusion hT
  · rw [hby _ _ _ _ h4] at hT
    exact PW_TYPE.noConfusion hT
  · rw [hunk _ _ _ _ h4.symm] at hT
    exact PW_TYPE.noConfusion hT

theorem octets_ipv4_prefix_ok (vp : VALUE_PAIR) (h : vp.da.type = PW_TYPE.OCTETS) :
    ipv4_prefix_ok vp := by
  intro hT
  rw [h] at hT
  exact PW_TYPE.noConfusion hT

/-- C8 (as amended). An ipv4-prefix pair produced by `fr_radius_decode_pair_value` always holds
6 bytes of which the prefix-length byte has low six bits (`byte & 0x3f`) of at most 32. For an
untagged, unencrypted descriptor of type ipv4-prefix, a value of 6 bytes with
`(value[1] & 0x3f) <= 32` gives the prefix pair of those 6 bytes, and every other non-empty
value is demoted to raw: it gives the octets pair of the value bytes. -/
theorem ipv4_prefix_checks_low_six_bits (E : Env) (R : Request) (hby : by_type_ok E)
    (hunk : unknown_octets E) (fuel : Nat) (D : fr_dict_attr_t) (m : List Nat)
    (start attrlen packetlen : Nat) :
    (∀ n vps, fr_radius_decode_pair_value E R fuel D m start attrlen packetlen = Decoded.ok n vps →
        ∀ vp ∈ vps, ipv4_prefix_ok vp)
      ∧ (D.type = PW_TYPE.IPV4_PREFIX → D.flags.has_tag = false →
          D.flags.encrypt = FLAG_ENCRYPT.NONE → attrlen ≠ 0 → args_ok attrlen packetlen →
          ((attrlen = 6 ∧ rd m (start + 1) &&& 0x3f ≤ 32 → E.fr_pair_afrom_da D = true →
              fr_radius_decode_pair_value E R (fuel + 1) D m start attrlen packetlen
                = Decoded.ok 6 [⟨D, none, 6, value_data.vp_ipv4prefix_bytes (memrd m start 6)⟩])
            ∧ (attrlen ≠ 6 ∨ rd m (start + 1) &&& 0x3f > 32 →
              ∀ U, E.fr_dict_unknown_afrom_fields D.parent D.vendor D.attr = some U →
                E.fr_pair_afrom_da U = true →
                fr_radius_decode_pair_value E R (fuel + 1) D m start attrlen packetlen
                  = Decoded.ok attrlen
                      [⟨U, none, attrlen, value_data.vp_octets (memrd m start attrlen)⟩]))) := by
  constructor
  · intro n vps h
    have hall : (fr_radius_decode_pair_value E R fuel D m start attrlen packetlen).all
        ipv4_prefix_ok := by
      apply decode_all ipv4_prefix_ok E R
      · intro D l a
        exact all_mono _ _ octets_ipv4_prefix_ok _ (raw_stage_all_octets E D l a)
      · intro D l a hT
        apply alloc_stage_all
        intro len data _
        exact octets_ipv4_prefix_ok _ hT
      · intro dec D m s a p l da l2 h
        exact alloc_ipv4_prefix_ok E hby hunk dec D m s a p l da l2 h
    rw [h] at hall
    exact hall
  · intro hT htag henc hne hargs
    constructor
    · intro ⟨h6, hmask⟩ halloc
      subst h6
      have hnot : ¬ (rd m (start + 1) &&& 0x3f > 32) := by omega
      rw [fr_radius_decode_pair_value, body_plain E R _ D m start 6 packetlen htag henc hne hargs]
      simp [shape_stage, hT, entry_locals, Locals.at, hnot, alloc_stage, halloc, leaf_value]
    · intro hbad U hU halloc
      have hUt := hunk _ _ _ _ hU
      rw [fr_radius_decode_pair_value,
        body_plain E R _ D m start attrlen packetlen htag henc hne hargs]
      have hs : shape_stage E (fr_radius_decode_pair_value E R fuel) D m start attrlen packetlen
          (entry_locals E m start attrlen) = Shape.raw := by
        simp only [shape_stage, hT, entry_locals, Locals.at]
        rcases hbad with h | h
        · simp [h]
        · simp [h]
      rw [hs]
      simp [raw_stage_eq E D U _ attrlen hU hUt halloc, entry_locals]

/-- C8, counterexample. For the ipv4-prefix descriptor 6 of the demo dictionary the 6 value
bytes `00 40 c0 a8 00 00` give a prefix pair, although the prefix-length byte 0x40 is 64:
the check looks at `0x40 & 0x3f`, which is 0. -/
theorem ipv4_prefix_byte_above_32_accepted :
    fr_radius_decode_pair_value (demo_env 0) no_request 1 (demo_attr 6 PW_TYPE.IPV4_PREFIX no_flags)
        [0x00, 0x40, 0xc0, 0xa8, 0x00, 0x00] 0 6 6
        = Decoded.ok 6 [⟨demo_attr 6 PW_TYPE.IPV4_PREFIX no_flags, none, 6,
            value_data.vp_ipv4prefix_bytes [0x00, 0x40, 0xc0, 0xa8, 0x00, 0x00]⟩]
      ∧ 32 < rd [0x00, 0x40, 0xc0, 0xa8, 0x00, 0x00] 1 := by
  decide

theorem ipv4_prefix_checks_low_six_bits_witness :
    fr_radius_decode_pair_value (demo_env 0) no_request 1 (demo_attr 6 PW_TYPE.IPV4_PREFIX no_flags)
        [0x00, 0x21, 0xc0, 0xa8, 0x00, 0x00] 0 6 6
      = Decoded.ok 6 [⟨demo_unknown (some demo_root) 0 6, none, 6,
          value_data.vp_octets (memrd [0x00, 0x21, 0xc0, 0xa8, 0x00, 0x00] 0 6)⟩] :=
  ((ipv4_prefix_checks_low_six_bits (demo_env 0) no_request (demo_by_type_ok 0)
    (demo_unknown_octets 0) 0 (demo_attr 6 PW_TYPE.IPV4_PREFIX no_flags)
    [0x00, 0x21, 0xc0, 0xa8, 0x00, 0x00] 0 6 6).2 rfl rfl rfl (by decide)
    (by decide)).2 (Or.inr (by decide)) (demo_unknown (some demo_root) 0 6) rfl rfl

/-! ## The length returned -/

theorem sub_sz_of_le (a b : Nat) (h : b ≤ a) : sub_sz a b = a - b := by
  simp [sub_sz, h]

theorem sub_sz_big (a b : Nat) (h : a < b) (hb : b ≤ 2 ^ 32) : 128 * 1024 < sub_sz a b := by
  have h2 : ¬ b ≤ a := by omega
  simp only [sub_sz, h2, if_false, SIZE_MOD]
  omega

theorem tlv_length_switch_inl (m : List Nat) (data t l : Nat) (r : Int)
    (h : tlv_length_switch m data t l = Sum.inl r) : (r = 0 ∧ l = 0) ∨ r = -1 := by
  unfold tlv_length_switch at h
  repeat' split at h
  all_goals first
    | exact Sum.noConfusion h
    | (injection h with h; subst h; exact Or.inl ⟨rfl, by assumption⟩)
    | (injection h with h; subst h; exact Or.inr rfl)

theorem tlv_length_switch_inr (m : List Nat) (data t l a : Nat)
    (h : tlv_length_switch m data t l = Sum.inr a) :
    (l = 1 ∨ l = 2) ∧ a = rd m (data + t + l - 1) := by
  unfold tlv_length_switch at h
  repeat' split at h
  all_goals first
    | exact Sum.noConfusion h
    | (injection h with h; subst h; exact ⟨Or.inl (by assumption), rfl⟩)
    | (injection h with h; subst h; exact ⟨Or.inr (by assumption), rfl⟩)

theorem tlv_ok_loop_vals_aux (m : List Nat) (fin t l : Nat) : ∀ fuel data len (x : Int),
    tlv_ok_loop m fin t l fuel data len = x → x = 0 ∨ x = -1 := by
  intro fuel
  induction fuel with
  | zero =>
    intro data len x h
    unfold tlv_ok_loop at h
    split at h
    · exact Or.inr h.symm
    · exact Or.inl h.symm
  | succ fuel ih =>
    intro data len x h
    unfold tlv_ok_loop at h
    repeat' split at h
    all_goals first
      | exact Or.inl h.symm
      | exact Or.inr h.symm
      | exact ih _ _ _ h
      | (subst h
         rename_i hs
         rcases tlv_length_switch_inl _ _ _ _ _ hs with ⟨h1, _⟩ | h1
         · exact Or.inl h1
         · exact Or.inr h1)

theorem tlv_ok_loop_vals (m : List Nat) (fin t l : Nat) (fuel data len : Nat) :
    tlv_ok_loop m fin t l fuel data len = 0 ∨ tlv_ok_loop m fin t l fuel data len = -1 :=
  tlv_ok_loop_vals_aux m fin t l fuel data len _ rfl

/-- One turn of the loop of `fr_radius_decode_tlv_ok` that ends in success, for a vendor
format with a length field: the header lies in the slice, the length it declares covers the
header and fits in what is left, and the check succeeds on the rest. -/
theorem tlv_ok_loop_step (m : List Nat) (fin t l fuel data len : Nat)
    (h : tlv_ok_loop m fin t l (fuel + 1) data len = 0) (hd : data < fin) (hl : l ≠ 0) :
    (l = 1 ∨ l = 2) ∧ data + t + l ≤ fin ∧
      t + l ≤ rd m (data + t + l - 1) ∧ rd m (data + t + l - 1) ≤ len ∧
      tlv_ok_loop m fin t l fuel (data + rd m (data + t + l - 1))
        (len - rd m (data + t + l - 1)) = 0 := by
  unfold tlv_ok_loop at h
  simp only [hd, if_true] at h
  repeat' split at h
  all_goals first
    | exact absurd h (by decide)
    | (rename_i hs
       rcases tlv_length_switch_inl _ _ _ _ _ hs with ⟨_, h1⟩ | h1
       · exact absurd h1 hl
       · rw [h1] at h
         exact absurd h (by decide))
    | (rename_i hs _ _
       obtain ⟨h1, h2⟩ := tlv_length_switch_inr _ _ _ _ _ hs
       subst h2
       exact ⟨h1, by omega, by omega, by omega, h⟩)

theorem vsa_attrlen_zero (m : List Nat) (data length t : Nat) :
    vsa_attrlen m data length t 0 = some length := by
  simp [vsa_attrlen]

theorem vsa_attrlen_one (m : List Nat) (data length t : Nat) :
    vsa_attrlen m data length t 1 = some (rd m (data + t + 1 - 1)) := by
  simp [vsa_attrlen]

theorem vsa_attrlen_two (m : List Nat) (data length t : Nat) :
    vsa_attrlen m data length t 2 = some (rd m (data + t + 2 - 1)) := by
  simp [vsa_attrlen]

theorem decode_vsa_internal_ok (E : Env) (dec : Decoder) (dv : fr_dict_vendor_t)
    (parent : fr_dict_attr_t) (m : List Nat) (data length n : Nat) (vps : List VALUE_PAIR)
    (h : decode_vsa_internal E dec dv parent m data length = Decoded.ok n vps) :
    vsa_attrlen m data length dv.type dv.length = some n ∧ dv.type + dv.length < length ∧
      ∃ da k, dec da m (data + dv.type + dv.length) (sub_sz n (dv.type + dv.length))
        (sub_sz n (dv.type + dv.length)) = Decoded.ok k vps := by
  unfold decode_vsa_internal at h
  split at h
  · exact Decoded.noConfusion h
  · split at h
    · exact Decoded.noConfusion h
    · rename_i hlen
      split at h
      · exact Decoded.noConfusion h
      · split at h
        · exact Decoded.noConfusion h
        · rename_i attrlen hv
          split at h
          · exact Decoded.noConfusion h
          · rename_i da _
            split at h
            · rename_i k vps2 hr
              simp only [Decoded.ok.injEq] at h
              obtain ⟨h1, h2⟩ := h
              subst h1 h2
              exact ⟨hv, by omega, da, k, hr⟩
            · exact Decoded.noConfusion h
            · exact Decoded.noConfusion h
            · exact Decoded.noConfusion h

theorem vsa_loop_len (E : Env) (dec : Decoder) (dv : fr_dict_vendor_t)
    (vendor_da : fr_dict_attr_t) (m : List Nat) (fin : Nat) :
    ∀ (fuel data rem total : Nat) (head : List VALUE_PAIR) (tail : Nat),
    data + rem = fin →
    (dv.length = 0 ∨ tlv_ok_loop m fin dv.type dv.length fuel data rem = 0) →
    (vsa_loop E dec dv vendor_da m fuel data rem total head tail).len_is (total + rem) := by
  intro fuel
  induction fuel with
  | zero =>
    intro data rem total head tail _ _
    unfold vsa_loop
    split
    · trivial
    · show total = total + rem
      omega
  | succ fuel ih =>
    intro data rem total head tail hfin hok
    unfold vsa_loop
    split
    · rename_i hpos
      split
      · rename_i vsa_len vps hr
        obtain ⟨hv, _, _⟩ := decode_vsa_internal_ok E dec dv vendor_da m data rem vsa_len vps hr
        by_cases hl0 : dv.length = 0
        · rw [hl0, vsa_attrlen_zero] at hv
          have hv := Option.some.inj hv
          subst hv
          have hz : sub_sz rem rem = 0 := by simp [sub_sz]
          rw [hz]
          have := ih (data + rem) 0 (total + rem) (store_tail head tail vps)
            (advance_tail tail vps) (by omega) (Or.inl hl0)
          simpa using this
        · have hok2 : tlv_ok_loop m fin dv.type dv.length (fuel + 1) data rem = 0 := by
            rcases hok with h | h
            · exact absurd h hl0
            · exact h
          obtain ⟨hl, _, h4, h5, h6⟩ :=
            tlv_ok_loop_step m fin dv.type dv.length fuel data rem hok2 (by omega) hl0
          have hn : vsa_len = rd m (data + dv.type + dv.length - 1) := by
            rcases hl with h1 | h2
            · rw [h1, vsa_attrlen_one] at hv
              rw [h1]
              exact (Option.some.inj hv).symm
            · rw [h2, vsa_attrlen_two] at hv
              rw [h2]
              exact (Option.some.inj hv).symm
          subst hn
          rw [sub_sz_of_le _ _ h5]
          have := ih (data + rd m (data + dv.type + dv.length - 1))
            (rem - rd m (data + dv.type + dv.length - 1))
            (total + rd m (data + dv.type + dv.length - 1)) (store_tail head tail vps)
            (advance_tail tail vps) (by omega) (Or.inr h6)
          have e : total + rd m (data + dv.type + dv.length - 1)
              + (rem - rd m (data + dv.type + dv.length - 1)) = total + rem := by omega
          rw [e] at this
          exact this
      · trivial
      · trivial
      · trivial
    · show total = total + rem
      omega

theorem extended_scan_at_end (m : List Nat) (attr0 attr2 fuel frag fin fraglen fragments : Nat)
    (last_frag : Bool) (h : ¬ frag < fin) :
    extended_scan m attr0 attr2 fuel frag fin fraglen fragments last_frag
      = some (fraglen, fin, fragments) := by
  cases fuel <;> simp [extended_scan, h]

theorem wimax_scan_at_end (m : List Nat) (data fuel frag fin fraglen : Nat) (last_frag : Bool)
    (h : ¬ frag < fin) :
    wimax_scan m data fuel frag fin fraglen last_frag = some (fraglen, fin) := by
  cases fuel <;> simp [wimax_scan, h]

theorem decode_extended_len (E : Env) (dec : Decoder) (parent : fr_dict_attr_t) (m : List Nat)
    (data attrlen : Nat) : (decode_extended E dec parent m data attrlen attrlen).len_is attrlen := by
  unfold decode_extended
  rw [extended_scan_at_end _ _ _ _ _ _ _ _ _ (Nat.lt_irrefl _)]
  dsimp only
  repeat' split
  all_goals first
    | trivial
    | (show data + attrlen - data = attrlen; omega)

/-- What `return k + rcode` gives: the length of the whole value, when the recursive call was
made on the value less its first `k` bytes. -/
theorem ret_plus_len (dec : Decoder) (hdec : len_ok dec) (k : Nat) (hk : k ≤ 2 ^ 32)
    (da : fr_dict_attr_t) (m : List Nat) (s a : Nat) (r : Decoded)
    (h : ret_plus k (dec da m s (sub_sz a k) (sub_sz a k)) = Shape.done r) : r.len_is a := by
  cases hr : dec da m s (sub_sz a k) (sub_sz a k) with
  | ok n vps =>
    rw [hr] at h
    simp only [ret_plus, Shape.done.injEq] at h
    subst h
    obtain ⟨h1, h2⟩ := hdec _ _ _ _ _ _ hr
    show k + n = a
    by_cases hak : a < k
    · have := sub_sz_big a k hak hk
      omega
    · rw [sub_sz_of_le a k (by omega)] at h1
      omega
  | error =>
    rw [hr] at h
    exact Shape.noConfusion h
  | diverge =>
    rw [hr] at h
    simp only [ret_plus, Shape.done.injEq] at h
    subst h
    trivial
  | fault =>
    rw [hr] at h
    simp only [ret_plus, Shape.done.injEq] at h
    subst h
    trivial

theorem decode_wimax_len (E : Env) (dec : Decoder) (hdec : len_ok dec) (vendor : Nat)
    (parent : fr_dict_attr_t) (m : List Nat) (data attrlen packetlen : Nat)
    (h : attrlen = packetlen ∨ rd m (data + 6) &&& 0x80 = 0) :
    (decode_wimax E dec vendor parent m data attrlen packetlen).len_is attrlen := by
  unfold decode_wimax
  split
  · trivial
  · rename_i h8
    split
    · trivial
    · rename_i h5
      split
      · trivial
      · split
        · split
          · rename_i n vps hr
            obtain ⟨h1, _⟩ := hdec _ _ _ _ _ _ hr
            rw [sub_sz_of_le _ _ (by omega)] at h1
            show 7 + n = attrlen
            omega
          · trivial
          · trivial
          · trivial
        · rename_i hbit
          rcases h with h | h
          · subst h
            rw [wimax_scan_at_end _ _ _ _ _ _ _ (Nat.lt_irrefl _)]
            dsimp only
            repeat' split
            all_goals first
              | trivial
              | (show data + attrlen - data = attrlen; omega)
          · exact absurd h hbit

theorem tlv_loop_len (E : Env) (dec : Decoder) (parent : fr_dict_attr_t) (m : List Nat)
    (fin length : Nat) : ∀ (fuel data : Nat) (head : List VALUE_PAIR) (tail : Nat),
    (tlv_loop E dec parent m fin length fuel data head tail).len_is length := by
  intro fuel
  induction fuel with
  | zero =>
    intro data head tail
    unfold tlv_loop
    split
    · trivial
    · rfl
  | succ fuel ih =>
    intro data head tail
    unfold tlv_loop
    repeat' split
    all_goals first
      | trivial
      | rfl
      | exact ih _ _ _

theorem fr_radius_decode_tlv_len (E : Env) (dec : Decoder) (parent : fr_dict_attr_t)
    (m : List Nat) (start length : Nat) :
    (fr_radius_decode_tlv E dec parent m start length).len_is length := by
  unfold fr_radius_decode_tlv
  repeat' split
  all_goals first
    | trivial
    | exact tlv_loop_len E dec parent m _ _ _ _ _ _

/-- A successful `fr_radius_decode_tlv_ok` is a successful loop, on a vendor format whose
length field has at most 2 bytes. -/
theorem tlv_ok_success (m : List Nat) (data length t l : Nat)
    (h : ¬ fr_radius_decode_tlv_ok m data length t l < 0) :
    l ≤ 2 ∧ 1 ≤ t ∧ tlv_ok_loop m (data + length) t l length data length = 0 := by
  unfold fr_radius_decode_tlv_ok at h
  split at h
  · exact absurd (by decide) h
  · rename_i hargs
    refine ⟨by omega, by omega, ?_⟩
    rcases tlv_ok_loop_vals m (data + length) t l length data length with h0 | h1
    · exact h0
    · rw [h1] at h
      exact absurd (by decide) h

theorem decode_vsa_len (E : Env) (dec : Decoder) (parent : fr_dict_attr_t) (m : List Nat)
    (hdec : len_ok dec) (data attrlen packetlen : Nat)
    (h : attrlen = packetlen ∨
      (ntoh m data 4 = E.VENDORPEC_WIMAX → ∀ dv, E.fr_dict_vendor_by_num (ntoh m data 4) = some dv →
        dv.flags ≠ 0 → rd m (data + 6) &&& 0x80 = 0)) :
    (decode_vsa E dec parent m data attrlen packetlen).len_is attrlen := by
  unfold decode_vsa
  dsimp only
  split
  · trivial
  · split
    · trivial
    · split
      · trivial
      · rename_i h5
        split
        · trivial
        · split
          · split
            · trivial
            · rename_i hok
              split
              · trivial
              · rename_i vda _
                obtain ⟨hl, _, hloop⟩ := tlv_ok_success _ _ _ _ _ hok
                have hfin : data + 4 + (attrlen - 4) = data + 4 + (attrlen - 4) := rfl
                have := vsa_loop_len E dec ⟨ntoh m data 4, 1, 1, 0⟩ vda m _ (attrlen - 4) (data + 4)
                  (attrlen - 4) 4 [] 0 hfin (Or.inr hloop)
                have e : 4 + (attrlen - 4) = attrlen := by omega
                rw [e] at this
                exact this
          · rename_i vda _
            split
            · trivial
            · rename_i dv hdv
              split
              · rename_i hw
                apply decode_wimax_len E dec hdec
                rcases h with h | h
                · exact Or.inl h
                · exact Or.inr (h hw.1 dv hdv hw.2)
              · split
                · trivial
                · rename_i hok
                  obtain ⟨hl, _, hloop⟩ := tlv_ok_success _ _ _ _ _ hok
                  have hfin : data + 4 + (attrlen - 4) = data + 4 + (attrlen - 4) := rfl
                  have := vsa_loop_len E dec dv vda m _ (attrlen - 4) (data + 4)
                    (attrlen - 4) 4 [] 0 hfin (Or.inr hloop)
                  have e : 4 + (attrlen - 4) = attrlen := by omega
                  rw [e] at this
                  exact this

theorem long_extended_child_len (E : Env) (dec : Decoder) (hdec : len_ok dec)
    (child : fr_dict_attr_t) (m : List Nat) (start attrlen packetlen : Nat) (l : Locals)
    (r : Decoded) (hnf : attrlen = packetlen ∨ l.at 1 &&& 0x80 = 0)
    (h : long_extended_child E dec child m start attrlen packetlen l = Shape.done r) :
    r.len_is attrlen := by
  unfold long_extended_child at h
  split at h
  · exact ret_plus_len dec hdec 2 (by norm_num) _ _ _ _ _ h
  · rename_i hbit
    injection h with h
    subst h
    rcases hnf with h1 | h1
    · subst h1
      exact decode_extended_len E dec child m start attrlen
    · exact absurd h1 hbit

theorem evs_case_len (E : Env) (dec : Decoder) (hdec : len_ok dec) (parent : fr_dict_attr_t)
    (attrlen : Nat) (l : Locals) (r : Decoded)
    (h : evs_case E dec parent attrlen l = Shape.done r) : r.len_is attrlen := by
  unfold evs_case at h
  dsimp only at h
  repeat' split at h
  all_goals first
    | exact Shape.noConfusion h
    | exact ret_plus_len dec hdec 5 (by norm_num) _ _ _ _ _ h

/-- A result that the first `switch` returns has the length `attrlen`, for a value that fills
its window and for a value of a non-fragmented kind. -/
theorem shape_done_len (E : Env) (dec : Decoder) (hdec : len_ok dec) (D : fr_dict_attr_t)
    (m : List Nat) (start attrlen packetlen : Nat) (l : Locals) (r : Decoded)
    (hnf : attrlen = packetlen ∨ ((D.type = PW_TYPE.LONG_EXTENDED → l.at 1 &&& 0x80 = 0) ∧
      (D.type = PW_TYPE.VSA → ¬ wimax_continued E l)))
    (h : shape_stage E dec D m start attrlen packetlen l = Shape.done r) : r.len_is attrlen := by
  have hle : attrlen = packetlen ∨ (D.type = PW_TYPE.LONG_EXTENDED → l.at 1 &&& 0x80 = 0) := by
    rcases hnf with h1 | h1
    · exact Or.inl h1
    · exact Or.inr h1.1
  have hvsa : D.type = PW_TYPE.VSA → (attrlen = packetlen ∨
      (ntoh l.dmem l.data 4 = E.VENDORPEC_WIMAX →
        ∀ dv, E.fr_dict_vendor_by_num (ntoh l.dmem l.data 4) = some dv →
        dv.flags ≠ 0 → rd l.dmem (l.data + 6) &&& 0x80 = 0)) := by
    intro hT
    rcases hnf with h1 | h1
    · exact Or.inl h1
    · refine Or.inr ?_
      intro hv dv hdv hfl
      by_contra hbit
      exact h1.2 hT ⟨hv, hbit, dv, hdv, hfl⟩
  cases hT : D.type <;> simp only [shape_stage, hT] at h
  all_goals try (repeat' split at h)
  all_goals try (exact Shape.noConfusion h)
  all_goals first
    | exact ret_plus_len dec hdec 1 (by norm_num) _ _ _ _ _ h
    | (refine long_extended_child_len E dec hdec _ _ _ _ _ _ _ ?_ h
       rcases hle with h1 | h1
       · exact Or.inl h1
       · exact Or.inr (h1 hT))
    | exact evs_case_len E dec hdec _ _ _ _ h
    | (injection h with h; subst h; trivial)
    | (injection h with h; subst h; exact fr_radius_decode_tlv_len E dec _ _ _ _)
    | (injection h with h; subst h; exact decode_vsa_len E dec _ _ hdec _ _ _ (hvsa hT))

theorem alloc_stage_len (E : Env) (da : fr_dict_attr_t) (l : Locals) (attrlen : Nat) :
    (alloc_stage E da l attrlen).len_is attrlen := by
  cases hr : alloc_stage E da l attrlen with
  | ok n vps => exact (alloc_stage_ok E da l attrlen n vps hr).1
  | error => trivial
  | diverge => trivial
  | fault => trivial

theorem raw_stage_len (E : Env) (D : fr_dict_attr_t) (l : Locals) (attrlen : Nat) :
    (raw_stage E D l attrlen).len_is attrlen := by
  cases hr : raw_stage E D l attrlen with
  | ok n vps => exact (raw_stage_ok E D l attrlen n vps hr).1
  | error => trivial
  | diverge => trivial
  | fault => trivial

/-- The body returns `attrlen` when it succeeds, for a value that fills its window and for a
value of a non-fragmented kind. -/
theorem body_len (E : Env) (R : Request) (dec : Decoder) (hdec : len_ok dec)
    (D : fr_dict_attr_t) (m : List Nat) (start attrlen packetlen n : Nat)
    (vps : List VALUE_PAIR)
    (hnf : attrlen = packetlen ∨ non_fragmented E R D m start attrlen)
    (h : decode_pair_value_body E R dec D m start attrlen packetlen = Decoded.ok n vps) :
    n = attrlen ∧ attrlen ≤ 128 * 1024 := by
  rcases body_cases E R dec D m start attrlen packetlen _ h with
    h1 | ⟨hargs, ⟨h0, h1⟩ | ⟨_, _, l, h1⟩ | ⟨_, l, h1⟩ | ⟨_, l, hs, h1⟩ | ⟨_, l, da, l2, _, _, h1⟩⟩
  · exact Decoded.noConfusion h1
  · simp only [Decoded.ok.injEq] at h1
    exact ⟨by omega, hargs.2.2⟩
  · have := alloc_stage_len E D l attrlen
    rw [← h1] at this
    exact ⟨this, hargs.2.2⟩
  · have := raw_stage_len E D l attrlen
    rw [← h1] at this
    exact ⟨this, hargs.2.2⟩
  · have hnf2 : attrlen = packetlen ∨ ((D.type = PW_TYPE.LONG_EXTENDED → l.at 1 &&& 0x80 = 0) ∧
        (D.type = PW_TYPE.VSA → ¬ wimax_continued E l)) := by
      rcases hnf with h2 | h2
      · exact Or.inl h2
      · exact Or.inr (h2 l hs)
    have := shape_done_len E dec hdec D m start attrlen packetlen l _ hnf2 h1
    exact ⟨this, hargs.2.2⟩
  · have := alloc_stage_len E da l2 attrlen
    rw [← h1] at this
    exact ⟨this, hargs.2.2⟩

theorem decode_len_ok (E : Env) (R : Request) (fuel : Nat) :
    len_ok (fr_radius_decode_pair_value E R fuel) := by
  induction fuel with
  | zero =>
    intro da m s a n vps h
    exact Decoded.noConfusion h
  | succ fuel ih =>
    intro da m s a n vps h
    rw [fr_radius_decode_pair_value] at h
    exact body_len E R _ ih da m s a a n vps (Or.inl rfl) h

/-! ## C3 -/

/-- C3. For every descriptor of a non-fragmented kind (a leaf type, tlv, extended, evs, vsa
that is not a continued WiMAX attribute, long-extended with the more bit clear), whenever
`fr_radius_decode_pair_value` succeeds it returns exactly `attrlen`, also when the value is a
TLV or a VSA made of several sub-attributes. -/
theorem nonfragmented_returns_attrlen (E : Env) (R : Request) (fuel : Nat) (D : fr_dict_attr_t)
    (m : List Nat) (start attrlen packetlen n : Nat) (vps : List VALUE_PAIR)
    (hnf : non_fragmented E R D m start attrlen)
    (h : fr_radius_decode_pair_value E R fuel D m start attrlen packetlen = Decoded.ok n vps) :
    n = attrlen := by
  cases fuel with
  | zero => exact Decoded.noConfusion h
  | succ fuel =>
    rw [fr_radius_decode_pair_value] at h
    exact (body_len E R _ (decode_len_ok E R fuel) D m start attrlen packetlen n vps
      (Or.inr hnf) h).1

/-! ## Termination -/

theorem rd_header_one (m : List Nat) (data : Nat) : rd m (data + 1 + 1 - 1) = rd m (data + 1) := by
  rfl

theorem tlv_loop_returns (E : Env) (dec : Decoder) (N : Nat) (hdec : terminates_below dec N)
    (parent : fr_dict_attr_t) (m : List Nat) (fin length : Nat) :
    ∀ (fuel data rem : Nat) (head : List VALUE_PAIR) (tail : Nat),
    data + rem = fin → rem ≤ fuel → rem ≤ N →
    tlv_ok_loop m fin 1 1 fuel data rem = 0 →
    tlv_loop E dec parent m fin length fuel data head tail ≠ Decoded.diverge := by
  intro fuel
  induction fuel with
  | zero =>
    intro data rem head tail hfin hrem _ _
    unfold tlv_loop
    have : ¬ data < fin := by omega
    simp [this]
  | succ fuel ih =>
    intro data rem head tail hfin hrem hN hok
    unfold tlv_loop
    split
    · rename_i hlt
      obtain ⟨_, _, h3, h4, h5⟩ := tlv_ok_loop_step m fin 1 1 fuel data rem hok hlt (by decide)
      rw [rd_header_one] at h3 h4 h5
      split
      · exact Decoded.noConfusion
      · rename_i child _
        have hsub : sub_sz (rd m (data + 1)) 2 = rd m (data + 1) - 2 := sub_sz_of_le _ _ h3
        have hd := hdec child m (data + 2) (sub_sz (rd m (data + 1)) 2) (Or.inl (by omega))
        split
        · exact ih _ (rem - rd m (data + 1)) _ _ (by omega) (by omega) (by omega) h5
        · exact Decoded.noConfusion
        · rename_i hr
          exact absurd hr hd
        · exact Decoded.noConfusion
    · exact Decoded.noConfusion

theorem fr_radius_decode_tlv_returns (E : Env) (dec : Decoder) (N : Nat)
    (hdec : terminates_below dec N) (parent : fr_dict_attr_t) (m : List Nat)
    (start length : Nat) (hlen : length ≤ N) :
    fr_radius_decode_tlv E dec parent m start length ≠ Decoded.diverge := by
  unfold fr_radius_decode_tlv
  split
  · exact Decoded.noConfusion
  · split
    · exact Decoded.noConfusion
    · rename_i hok
      obtain ⟨_, _, hloop⟩ := tlv_ok_success _ _ _ _ _ hok
      exact tlv_loop_returns E dec N hdec parent m _ _ length start length [] 0 rfl
        (Nat.le_refl _) hlen hloop

theorem decode_vsa_internal_returns (E : Env) (dec : Decoder) (N : Nat)
    (hdec : terminates_below dec N) (dv : fr_dict_vendor_t) (parent : fr_dict_attr_t)
    (m : List Nat) (data length : Nat) (ht : 1 ≤ dv.type) (hN : length ≤ N)
    (h : dv.length = 0 ∨ ∃ a, vsa_attrlen m data length dv.type dv.length = some a ∧
      dv.type + dv.length ≤ a ∧ a ≤ length) :
    decode_vsa_internal E dec dv parent m data length ≠ Decoded.diverge := by
  unfold decode_vsa_internal
  split
  · exact Decoded.noConfusion
  · split
    · exact Decoded.noConfusion
    · rename_i hlen
      split
      · exact Decoded.noConfusion
      · split
        · exact Decoded.noConfusion
        · rename_i attrlen hv
          have hsmall : sub_sz attrlen (dv.type + dv.length) < N := by
            rcases h with h0 | ⟨a, ha, h1, h2⟩
            · rw [h0, vsa_attrlen_zero] at hv
              have hv := Option.some.inj hv
              subst hv
              rw [sub_sz_of_le _ _ (by omega)]
              omega
            · rw [ha] at hv
              have hv := Option.some.inj hv
              subst hv
              rw [sub_sz_of_le _ _ h1]
              omega
          split
          · exact Decoded.noConfusion
          · rename_i da _
            have hd := hdec da m (data + dv.type + dv.length)
              (sub_sz attrlen (dv.type + dv.length)) (Or.inl hsmall)
            split
            · exact Decoded.noConfusion
            · exact Decoded.noConfusion
            · rename_i hr
              exact absurd hr hd
            · exact Decoded.noConfusion

theorem vsa_loop_returns (E : Env) (dec : Decoder) (N : Nat) (hdec : terminates_below dec N)
    (dv : fr_dict_vendor_t) (vendor_da : fr_dict_attr_t) (m : List Nat) (fin : Nat)
    (ht : 1 ≤ dv.type) :
    ∀ (fuel data rem total : Nat) (head : List VALUE_PAIR) (tail : Nat),
    data + rem = fin → rem ≤ fuel → rem ≤ N →
    (dv.length = 0 ∨ tlv_ok_loop m fin dv.type dv.length fuel data rem = 0) →
    vsa_loop E dec dv vendor_da m fuel data rem total head tail ≠ Decoded.diverge := by
  intro fuel
  induction fuel with
  | zero =>
    intro data rem total head tail _ hrem _ _
    unfold vsa_loop
    have : ¬ rem > 0 := by omega
    simp [this]
  | succ fuel ih =>
    intro data rem total head tail hfin hrem hN hok
    unfold vsa_loop
    split
    · rename_i hpos
      by_cases hl0 : dv.length = 0
      · have hi := decode_vsa_internal_returns E dec N hdec dv vendor_da m data rem ht hN
          (Or.inl hl0)
        split
        · rename_i vsa_len vps hr
          obtain ⟨hv, hlt, _⟩ := decode_vsa_internal_ok E dec dv vendor_da m data rem vsa_len vps hr
          rw [hl0, vsa_attrlen_zero] at hv
          have hv := Option.some.inj hv
          subst hv
          have hz : sub_sz rem rem = 0 := by simp [sub_sz]
          rw [hz]
          exact ih _ 0 _ _ _ (by omega) (by omega) (by omega) (Or.inl hl0)
        · exact Decoded.noConfusion
        · rename_i hr
          exact absurd hr hi
        · exact Decoded.noConfusion
      · have hok2 : tlv_ok_loop m fin dv.type dv.length (fuel + 1) data rem = 0 := by
          rcases hok with h | h
          · exact absurd h hl0
          · exact h
        obtain ⟨hl, _, h4, h5, h6⟩ :=
          tlv_ok_loop_step m fin dv.type dv.length fuel data rem hok2 (by omega) hl0
        have hva : vsa_attrlen m data rem dv.type dv.length
            = some (rd m (data + dv.type + dv.length - 1)) := by
          rcases hl with h1 | h2
          · rw [h1, vsa_attrlen_one]
          · rw [h2, vsa_attrlen_two]
        have hi := decode_vsa_internal_returns E dec N hdec dv vendor_da m data rem ht hN
          (Or.inr ⟨_, hva, h4, h5⟩)
        split
        · rename_i vsa_len vps hr
          obtain ⟨hv, _, _⟩ := decode_vsa_internal_ok E dec dv vendor_da m data rem vsa_len vps hr
          rw [hva] at hv
          have hv := Option.some.inj hv
          subst hv
          rw [sub_sz_of_le _ _ h5]
          exact ih _ (rem - rd m (data + dv.type + dv.length - 1)) _ _ _ (by omega) (by omega)
            (by omega) (Or.inr h6)
        · exact Decoded.noConfusion
        · rename_i hr
          exact absurd hr hi
        · exact Decoded.noConfusion
    · exact Decoded.noConfusion

/-- The first loop of `decode_extended` is left, with `end` inside the window and at most as
many payload bytes counted as lie between `frag` and `end`. -/
theorem extended_scan_some (m : List Nat) (attr0 attr2 fin : Nat) :
    ∀ (fuel frag fraglen fragments : Nat) (last_frag : Bool),
    frag ≤ fin → fin - frag ≤ fuel →
    ∃ fraglen2 fin2 fragments2,
      extended_scan m attr0 attr2 fuel frag fin fraglen fragments last_frag
        = some (fraglen2, fin2, fragments2) ∧ fin2 ≤ fin ∧ fraglen2 + frag ≤ fraglen + fin2 := by
  intro fuel
  induction fuel with
  | zero =>
    intro frag fraglen fragments last_frag h1 h2
    have : ¬ frag < fin := by omega
    exact ⟨fraglen, fin, fragments, by simp [extended_scan, this], Nat.le_refl _, by omega⟩
  | succ fuel ih =>
    intro frag fraglen fragments last_frag h1 h2
    unfold extended_scan
    split
    · rename_i hlt
      split
      · exact ⟨fraglen, frag, fragments, rfl, h1, by omega⟩
      · rename_i hc
        have h4 : 4 ≤ rd m (frag + 1) := by omega
        have hfit : frag + rd m (frag + 1) ≤ fin := by omega
        obtain ⟨fl2, fin2, fr2, he, hf1, hf2⟩ := ih (frag + rd m (frag + 1))
          (fraglen + (rd m (frag + 1) - 4)) (fragments + 1) ((rd m (frag + 3) &&& 0x80) == 0)
          hfit (by omega)
        exact ⟨fl2, fin2, fr2, he, hf1, by omega⟩
    · exact ⟨fraglen, fin, fragments, rfl, Nat.le_refl _, by omega⟩

theorem decode_extended_returns (E : Env) (dec : Decoder) (N : Nat)
    (hdec : terminates_below dec N) (parent : fr_dict_attr_t) (m : List Nat)
    (data attrlen packetlen : Nat) (hap : attrlen ≤ packetlen) (hN : packetlen ≤ N) :
    decode_extended E dec parent m data attrlen packetlen ≠ Decoded.diverge := by
  unfold decode_extended
  split
  · exact Decoded.noConfusion
  · rename_i h3
    obtain ⟨fl2, fin2, fr2, he, hf1, hf2⟩ := extended_scan_some m (rd_back m data 2) (rd m data)
      (data + packetlen) packetlen (data + attrlen) (attrlen - 2) 1 false (by omega) (by omega)
    rw [he]
    dsimp only
    split
    · exact Decoded.noConfusion
    · have hd := hdec parent ((extended_copy m fr2 data).take fl2) 0 fl2 (Or.inl (by omega))
      split
      · exact Decoded.noConfusion
      · exact Decoded.noConfusion
      · rename_i hr
        exact absurd hr hd
      · exact Decoded.noConfusion

/-- The first loop of `decode_wimax` is left, with `end` inside the window and at most as many
payload bytes counted as lie between `frag` and `end`. -/
theorem wimax_scan_some (m : List Nat) (data fin : Nat) :
    ∀ (fuel frag fraglen : Nat) (last_frag : Bool),
    frag ≤ fin → fin - frag ≤ fuel →
    ∃ fraglen2 fin2,
      wimax_scan m data fuel frag fin fraglen last_frag = some (fraglen2, fin2) ∧
        fin2 ≤ fin ∧ fraglen2 + frag ≤ fraglen + fin2 := by
  intro fuel
  induction fuel with
  | zero =>
    intro frag fraglen last_frag h1 h2
    have : ¬ frag < fin := by omega
    exact ⟨fraglen, fin, by simp [wimax_scan, this], Nat.le_refl _, by omega⟩
  | succ fuel ih =>
    intro frag fraglen last_frag h1 h2
    unfold wimax_scan
    split
    · rename_i hlt
      split
      · exact ⟨fraglen, frag, rfl, h1, by omega⟩
      · rename_i hc
        have h9 : 9 ≤ rd m (frag + 1) := by omega
        have hfit : frag + rd m (frag + 1) ≤ fin := by omega
        have h7 : rd m (frag + 7) + 6 = rd m (frag + 1) := by
          by_contra hne
          exact hc (Or.inr (Or.inr (Or.inr (Or.inr (Or.inr (Or.inr hne))))))
        obtain ⟨fl2, fin2, he, hf1, hf2⟩ := ih (frag + rd m (frag + 1))
          (fraglen + (rd m (frag + 7) - 3)) ((rd m (frag + 8) &&& 0x80) == 0) hfit (by omega)
        exact ⟨fl2, fin2, he, hf1, by omega⟩
    · exact ⟨fraglen, fin, rfl, Nat.le_refl _, by omega⟩

/-- The `do ... while` loop of `decode_wimax` is left within one turn more than the first loop
has made. -/
theorem wimax_copy_some (m : List Nat) (data fin : Nat) :
    ∀ (fuel frag fraglen : Nat) (last_frag : Bool) (tail : List Nat) (fraglen2 fin2 : Nat),
    frag ≤ fin →
    wimax_scan m data fuel frag fin fraglen last_frag = some (fraglen2, fin2) →
    wimax_copy m fin2 (fuel + 1) frag tail ≠ Copied.diverge := by
  intro fuel
  induction fuel with
  | zero =>
    intro frag fraglen last_frag tail fraglen2 fin2 h1 hs
    unfold wimax_scan at hs
    split at hs
    · exact Option.noConfusion hs
    · simp only [Option.some.injEq, Prod.mk.injEq] at hs
      obtain ⟨_, hfin⟩ := hs
      subst hfin
      unfold wimax_copy
      have : ¬ frag + rd m (frag + 1) < fin := by omega
      split
      · exact Copied.noConfusion
      · simp [this]
  | succ fuel ih =>
    intro frag fraglen last_frag tail fraglen2 fin2 h1 hs
    unfold wimax_scan at hs
    split at hs
    · split at hs
      · simp only [Option.some.injEq, Prod.mk.injEq] at hs
        obtain ⟨_, hfin⟩ := hs
        subst hfin
        unfold wimax_copy
        have : ¬ frag + rd m (frag + 1) < frag := by omega
        split
        · exact Copied.noConfusion
        · simp [this]
      · rename_i hc
        have hfit : frag + rd m (frag + 1) ≤ fin := by omega
        unfold wimax_copy
        split
        · exact Copied.noConfusion
        · dsimp only
          split
          · exact ih _ _ _ _ _ _ hfit hs
          · exact Copied.noConfusion
    · simp only [Option.some.injEq, Prod.mk.injEq] at hs
      obtain ⟨_, hfin⟩ := hs
      subst hfin
      unfold wimax_copy
      have : ¬ frag + rd m (frag + 1) < fin := by omega
      split
      · exact Copied.noConfusion
      · simp [this]

theorem decode_wimax_returns (E : Env) (dec : Decoder) (N : Nat) (hdec : terminates_below dec N)
    (vendor : Nat) (parent : fr_dict_attr_t) (m : List Nat) (data attrlen packetlen : Nat)
    (hap : attrlen ≤ packetlen) (hN : packetlen ≤ N) :
    decode_wimax E dec vendor parent m data attrlen packetlen ≠ Decoded.diverge := by
  unfold decode_wimax
  split
  · exact Decoded.noConfusion
  · rename_i h8
    split
    · exact Decoded.noConfusion
    · rename_i h5
      have hsub : sub_sz (rd m (data + 5)) 3 = rd m (data + 5) - 3 := sub_sz_of_le _ _ (by omega)
      split
      · exact Decoded.noConfusion
      · rename_i da _
        split
        · have hd := hdec da m (data + 7) (sub_sz (rd m (data + 5)) 3) (Or.inl (by omega))
          split
          · exact Decoded.noConfusion
          · exact Decoded.noConfusion
          · rename_i hr
            exact absurd hr hd
          · exact Decoded.noConfusion
        · obtain ⟨fl2, fin2, he, hf1, hf2⟩ := wimax_scan_some m data (data + packetlen) packetlen
            (data + attrlen) (sub_sz (rd m (data + 5)) 3) false (by omega) (by omega)
          have hcopy := wimax_copy_some m data (data + packetlen) packetlen (data + attrlen)
            (sub_sz (rd m (data + 5)) 3) false (memrd m (data + 4 + 3) (rd m (data + 4 + 1) - 3))
            fl2 fin2 (by omega) he
          rw [he]
          dsimp only
          split
          · exact Decoded.noConfusion
          · split
            · rename_i hn
              exact absurd hn hcopy
            · exact Decoded.noConfusion
            · rename_i bytes _
              have hd := hdec da bytes 0 fl2 (Or.inl (by omega))
              split
              · exact Decoded.noConfusion
              · split
                · exact Decoded.noConfusion
                · exact Decoded.noConfusion
                · rename_i hr
                  exact absurd hr hd
                · exact Decoded.noConfusion

theorem decode_vsa_returns (E : Env) (dec : Decoder) (N : Nat) (hdec : terminates_below dec N)
    (parent : fr_dict_attr_t) (m : List Nat) (data attrlen packetlen : Nat) (hN : packetlen ≤ N) :
    decode_vsa E dec parent m data attrlen packetlen ≠ Decoded.diverge := by
  unfold decode_vsa
  dsimp only
  split
  · exact Decoded.noConfusion
  · split
    · exact Decoded.noConfusion
    · rename_i hap
      split
      · exact Decoded.noConfusion
      · rename_i h5
        split
        · exact Decoded.noConfusion
        · split
          · split
            · exact Decoded.noConfusion
            · rename_i hok
              split
              · exact Decoded.noConfusion
              · rename_i vda _
                obtain ⟨_, ht, hloop⟩ := tlv_ok_success _ _ _ _ _ hok
                exact vsa_loop_returns E dec N hdec ⟨ntoh m data 4, 1, 1, 0⟩ vda m _ ht
                  (attrlen - 4) (data + 4) (attrlen - 4) 4 [] 0 rfl (Nat.le_refl _) (by omega)
                  (Or.inr hloop)
          · rename_i vda _
            split
            · exact Decoded.noConfusion
            · rename_i dv _
              split
              · exact decode_wimax_returns E dec N hdec _ _ m _ _ _ (by omega) hN
              · split
                · exact Decoded.noConfusion
                · rename_i hok
                  obtain ⟨_, ht, hloop⟩ := tlv_ok_success _ _ _ _ _ hok
                  exact vsa_loop_returns E dec N hdec dv vda m _ ht
                    (attrlen - 4) (data + 4) (attrlen - 4) 4 [] 0 rfl (Nat.le_refl _) (by omega)
                    (Or.inr hloop)

theorem ret_plus_returns (dec : Decoder) (N : Nat) (hdec : terminates_below dec N) (k : Nat)
    (hk1 : 1 ≤ k) (hk : k ≤ 2 ^ 32) (da : fr_dict_attr_t) (m : List Nat) (s a : Nat)
    (ha : 1 ≤ a) (hN : a ≤ N) (r : Decoded)
    (h : ret_plus k (dec da m s (sub_sz a k) (sub_sz a k)) = Shape.done r) :
    r ≠ Decoded.diverge := by
  have hd : dec da m s (sub_sz a k) (sub_sz a k) ≠ Decoded.diverge := by
    apply hdec
    by_cases hak : a < k
    · exact Or.inr ⟨by omega, sub_sz_big a k hak hk⟩
    · rw [sub_sz_of_le a k (by omega)]
      exact Or.inl (by omega)
  cases hr : dec da m s (sub_sz a k) (sub_sz a k) with
  | ok n vps =>
    rw [hr] at h
    simp only [ret_plus, Shape.done.injEq] at h
    subst h
    exact Decoded.noConfusion
  | error =>
    rw [hr] at h
    exact Shape.noConfusion h
  | diverge => exact absurd hr hd
  | fault =>
    rw [hr] at h
    simp only [ret_plus, Shape.done.injEq] at h
    subst h
    exact Decoded.noConfusion

theorem long_extended_child_returns (E : Env) (dec : Decoder) (N : Nat)
    (hdec : terminates_below dec N) (child : fr_dict_attr_t) (m : List Nat)
    (start attrlen packetlen : Nat) (l : Locals) (r : Decoded) (ha : 1 ≤ attrlen)
    (hap : attrlen ≤ packetlen) (hN : packetlen ≤ N)
    (h : long_extended_child E dec child m start attrlen packetlen l = Shape.done r) :
    r ≠ Decoded.diverge := by
  unfold long_extended_child at h
  split at h
  · exact ret_plus_returns dec N hdec 2 (by norm_num) (by norm_num) _ _ _ _ ha (by omega) _ h
  · injection h with h
    subst h
    exact decode_extended_returns E dec N hdec child m start attrlen packetlen hap hN

theorem evs_case_returns (E : Env) (dec : Decoder) (N : Nat) (hdec : terminates_below dec N)
    (parent : fr_dict_attr_t) (attrlen : Nat) (l : Locals) (r : Decoded) (ha : 1 ≤ attrlen)
    (hN : attrlen ≤ N) (h : evs_case E dec parent attrlen l = Shape.done r) :
    r ≠ Decoded.diverge := by
  unfold evs_case at h
  dsimp only at h
  repeat' split at h
  all_goals first
    | exact Shape.noConfusion h
    | exact ret_plus_returns dec N hdec 5 (by norm_num) (by norm_num) _ _ _ _ ha hN _ h

/-- A result that the first `switch` returns is a return value, when `dec` returns on every
shorter value. -/
theorem shape_done_returns (E : Env) (dec : Decoder) (N : Nat) (hdec : terminates_below dec N)
    (D : fr_dict_attr_t) (m : List Nat) (start attrlen packetlen : Nat) (l : Locals)
    (r : Decoded) (ha : 1 ≤ attrlen) (hap : attrlen ≤ packetlen) (hN : packetlen ≤ N)
    (h : shape_stage E dec D m start attrlen packetlen l = Shape.done r) :
    r ≠ Decoded.diverge := by
  have haN : attrlen ≤ N := by omega
  cases hT : D.type <;> simp only [shape_stage, hT] at h
  all_goals try (repeat' split at h)
  all_goals try (exact Shape.noConfusion h)
  all_goals first
    | exact ret_plus_returns dec N hdec 1 (by norm_num) (by norm_num) _ _ _ _ ha haN _ h
    | exact long_extended_child_returns E dec N hdec _ _ _ _ _ _ _ ha hap hN h
    | exact evs_case_returns E dec N hdec _ _ _ _ ha haN h
    | (injection h with h; subst h; exact Decoded.noConfusion)
    | (injection h with h; subst h; exact fr_radius_decode_tlv_returns E dec N hdec _ _ _ _ haN)
    | (injection h with h; subst h; exact decode_vsa_returns E dec N hdec _ _ _ _ _ hN)

theorem alloc_stage_returns (E : Env) (da : fr_dict_attr_t) (l : Locals) (attrlen : Nat) :
    alloc_stage E da l attrlen ≠ Decoded.diverge := by
  unfold alloc_stage
  repeat' split
  all_goals exact Decoded.noConfusion

theorem raw_stage_returns (E : Env) (D : fr_dict_attr_t) (l : Locals) (attrlen : Nat) :
    raw_stage E D l attrlen ≠ Decoded.diverge := by
  unfold raw_stage
  repeat' split
  all_goals first
    | exact Decoded.noConfusion
    | exact alloc_stage_returns _ _ _ _

/-- The body returns, when `dec` returns on every value shorter than the window. -/
theorem body_returns (E : Env) (R : Request) (dec : Decoder) (N : Nat)
    (hdec : terminates_below dec N) (D : fr_dict_attr_t) (m : List Nat)
    (start attrlen packetlen : Nat) (hN : packetlen ≤ N) :
    decode_pair_value_body E R dec D m start attrlen packetlen ≠ Decoded.diverge := by
  intro h
  rcases body_cases E R dec D m start attrlen packetlen _ h with
    h1 | ⟨hargs, ⟨_, h1⟩ | ⟨_, _, l, h1⟩ | ⟨_, l, h1⟩ | ⟨hne, l, _, h1⟩ | ⟨_, l, da, l2, _, _, h1⟩⟩
  · exact Decoded.noConfusion h1
  · exact Decoded.noConfusion h1
  · exact alloc_stage_returns E D l attrlen h1.symm
  · exact raw_stage_returns E D l attrlen h1.symm
  · exact shape_done_returns E dec N hdec D m start attrlen packetlen l _ (by omega) hargs.1 hN h1 rfl
  · exact alloc_stage_returns E da l2 attrlen h1.symm

/-- The function `fr_radius_decode_pair_value` returns once its recursion budget exceeds the
length of the window (and at once on a value longer than its first check allows). -/
theorem decode_terminates (E : Env) (R : Request) : ∀ (fuel : Nat) (D : fr_dict_attr_t)
    (m : List Nat) (start attrlen packetlen : Nat),
    (packetlen < fuel ∨ (0 < fuel ∧ 128 * 1024 < attrlen)) →
    fr_radius_decode_pair_value E R fuel D m start attrlen packetlen ≠ Decoded.diverge := by
  intro fuel
  induction fuel with
  | zero =>
    intro D m start attrlen packetlen h
    omega
  | succ fuel ih =>
    intro D m start attrlen packetlen h
    rw [fr_radius_decode_pair_value]
    rcases h with h | ⟨_, h⟩
    · exact body_returns E R _ fuel (fun da m s a ha => ih da m s a a ha) D m start attrlen
        packetlen (by omega)
    · have hc : attrlen > packetlen ∨ (attrlen > 253 ∧ attrlen ≠ packetlen) ∨
          attrlen > 128 * 1024 := Or.inr (Or.inr h)
      simp only [decode_pair_value_body, hc, if_true]
      exact Decoded.noConfusion

/-! ## No error -/

theorem unknown_succeeds_octets (E : Env) (h : unknown_succeeds E) : unknown_octets E := by
  intro parent vendor attr da hda
  obtain ⟨u, hu, hut⟩ := h parent vendor attr
  rw [hu] at hda
  rw [← Option.some.inj hda]
  exact hut

theorem ret_plus_ne_error (k : Nat) (r : Decoded) : ret_plus k r ≠ Shape.done Decoded.error := by
  cases r <;> simp [ret_plus]

theorem evs_case_ne_error (E : Env) (dec : Decoder) (parent : fr_dict_attr_t) (attrlen : Nat)
    (l : Locals) : evs_case E dec parent attrlen l ≠ Shape.done Decoded.error := by
  intro h
  unfold evs_case at h
  dsimp only at h
  repeat' split at h
  all_goals first
    | exact Shape.noConfusion h
    | exact ret_plus_ne_error _ _ h

/-- The first `switch` does not return an error, for a type other than long-extended. -/
theorem shape_done_ne_error (E : Env) (dec : Decoder) (D : fr_dict_attr_t) (m : List Nat)
    (start attrlen packetlen : Nat) (l : Locals) (hT : D.type ≠ PW_TYPE.LONG_EXTENDED) :
    shape_stage E dec D m start attrlen packetlen l ≠ Shape.done Decoded.error := by
  intro h
  cases hD : D.type <;> simp only [shape_stage, hD] at h
  all_goals try (repeat' split at h)
  all_goals try (exact Shape.noConfusion h)
  all_goals first
    | exact ret_plus_ne_error _ _ h
    | exact evs_case_ne_error _ _ _ _ _ h
    | exact hT hD
    | (injection h with h
       rename_i hne
       exact hne h)

/-- The descriptor the first `switch` leaves with by `break` has a `case` in the second. -/
theorem shape_alloc_leaf (E : Env) (hby : by_type_ok E) (hunk : unknown_octets E) (dec : Decoder)
    (D : fr_dict_attr_t) (m : List Nat) (start attrlen packetlen : Nat) (l : Locals)
    (da : fr_dict_attr_t) (l2 : Locals)
    (h : shape_stage E dec D m start attrlen packetlen l = Shape.alloc (some da) l2) :
    leaf_value E da.type l2 ≠ none := by
  rcases shape_alloc_cases E dec D m start attrlen packetlen l da l2 h with
    ⟨h1, h2, hnc, _⟩ | ⟨_, _, _, h4⟩ | ⟨_, _, _, h4⟩ | ⟨_, vendor, attr, h4⟩
  · subst h1 h2
    cases hD : da.type <;> simp only [shape_stage, hD] at h
    all_goals try (repeat' split at h)
    all_goals try (exact Shape.noConfusion h)
    all_goals try (exact absurd h (ret_plus_ne_alloc _ _ _ _))
    all_goals try (exact absurd h (long_extended_child_ne_alloc _ _ _ _ _ _ _ _ _ _))
    all_goals try (exact absurd hD hnc)
    all_goals first
      | (simp only [leaf_value]; exact Option.noConfusion)
      | (simp only [leaf_value]; split <;> exact Option.noConfusion)
      | (obtain ⟨v, a, hu⟩ := evs_case_alloc _ _ _ _ _ _ _ h
         have := hunk _ _ _ _ hu.symm
         rw [hD] at this
         exact PW_TYPE.noConfusion this)
  · rw [hby _ _ _ _ h4]
    simp only [leaf_value]
    exact Option.noConfusion
  · rw [hby _ _ _ _ h4]
    simp only [leaf_value]
    exact Option.noConfusion
  · rw [hunk _ _ _ _ h4.symm]
    simp only [leaf_value]
    exact Option.noConfusion

theorem shape_ne_alloc_none (E : Env) (hsucc : unknown_succeeds E) (dec : Decoder)
    (D : fr_dict_attr_t) (m : List Nat) (start attrlen packetlen : Nat) (l l2 : Locals) :
    shape_stage E dec D m start attrlen packetlen l ≠ Shape.alloc none l2 := by
  intro h
  cases hD : D.type <;> simp only [shape_stage, hD] at h
  all_goals try (repeat' split at h)
  all_goals try (exact Shape.noConfusion h)
  all_goals try (exact absurd h (ret_plus_ne_alloc _ _ _ _))
  all_goals try (exact absurd h (long_extended_child_ne_alloc _ _ _ _ _ _ _ _ _ _))
  all_goals try (simp only [Shape.alloc.injEq] at h; exact Option.noConfusion h.1)
  obtain ⟨v, a, hu⟩ := evs_case_alloc _ _ _ _ _ _ _ h
  obtain ⟨u, hu2, _⟩ := hsucc (some D) v a
  rw [hu2] at hu
  exact Option.noConfusion hu

/-! ## No negative length for untagged, unencrypted descriptors -/

/-- For every descriptor that is untagged and unencrypted and of a type other than
long-extended, and every value with `1 <= attrlen <= 253` and `attrlen <= packetlen`, the
result of `fr_radius_decode_pair_value` is never `error` and, with a budget above `packetlen`,
never `diverge`: it is a length, or it is the `fault` of the copy loop of `decode_wimax`. The
construction of unknown descriptors and the allocation of pairs are taken to succeed, and
`fr_dict_attr_by_type` to find a descriptor of the type asked for. -/
theorem untagged_unencrypted_length_or_fault (E : Env) (R : Request) (fuel : Nat)
    (D : fr_dict_attr_t) (m : List Nat) (start attrlen packetlen : Nat)
    (htag : D.flags.has_tag = false) (henc : D.flags.encrypt = FLAG_ENCRYPT.NONE)
    (hT : D.type ≠ PW_TYPE.LONG_EXTENDED)
    (h1 : 1 ≤ attrlen) (h253 : attrlen ≤ 253) (hap : attrlen ≤ packetlen)
    (hsucc : unknown_succeeds E) (halloc : ∀ da, E.fr_pair_afrom_da da = true)
    (hby : by_type_ok E) (hfuel : packetlen < fuel) :
    (∃ n vps, fr_radius_decode_pair_value E R fuel D m start attrlen packetlen = Decoded.ok n vps)
      ∨ fr_radius_decode_pair_value E R fuel D m start attrlen packetlen = Decoded.fault := by
  have hterm := decode_terminates E R fuel D m start attrlen packetlen (Or.inl hfuel)
  have hunk := unknown_succeeds_octets E hsucc
  cases fuel with
  | zero => omega
  | succ fuel =>
    have hargs : args_ok attrlen packetlen := ⟨hap, Or.inl h253, by omega⟩
    rw [fr_radius_decode_pair_value] at hterm ⊢
    rw [body_plain E R _ D m start attrlen packetlen htag henc (by omega) hargs] at hterm ⊢
    cases hs : shape_stage E (fr_radius_decode_pair_value E R fuel) D m start attrlen packetlen
        (entry_locals E m start attrlen) with
    | done r =>
      rw [hs] at hterm
      cases r with
      | ok n vps => exact Or.inl ⟨n, vps, rfl⟩
      | error => exact absurd hs (shape_done_ne_error E _ D m start attrlen packetlen _ hT)
      | diverge => exact absurd rfl hterm
      | fault => exact Or.inr rfl
    | raw =>
      obtain ⟨U, hU, hUt⟩ := hsucc D.parent D.vendor D.attr
      exact Or.inl ⟨_, _, raw_stage_eq E D U _ attrlen hU hUt (halloc U)⟩
    | alloc da l2 =>
      cases da with
      | none => exact absurd hs (shape_ne_alloc_none E hsucc _ D m start attrlen packetlen _ l2)
      | some da =>
        have hleaf := shape_alloc_leaf E hby hunk _ D m start attrlen packetlen _ da l2 hs
        cases hv : leaf_value E da.type l2 with
        | none => exact absurd hv hleaf
        | some v =>
          refine Or.inl ⟨attrlen, [⟨da, l2.tag, v.1, v.2⟩], ?_⟩
          simp [alloc_stage, halloc da, hv]

/-! ## C1 -/

/-- C1. The code at the failing inputs. The descriptor is attribute 26 of type Vendor-Specific,
untagged and unencrypted, in a dictionary where unknown descriptors are always built and pairs
always allocated. The value `00 00 60 b5 01 05 80 aa bb` of 9 bytes, in a window of 23, is a
continued WiMAX attribute with the payload `aa bb`; the attribute of type 1 behind it is not
accepted as its successor. `decode_wimax` sizes its block at 2 bytes, and its loop
`do ... while (frag < end)` runs once all the same. With `frag[7]` = 7 in the attribute behind,
it copies 4 more bytes past the end of the block. With `frag[7]` = 2, in the second window, the
length `frag[7] - 3` of the `memcpy` is below zero. Neither call returns a length, whatever the
budget of the recursion. With `frag[7]` = 3, in the third window, the loop copies nothing and
the call returns 9. -/
theorem continued_wimax_value_returns_no_length :
    (demo_attr 26 PW_TYPE.VSA no_flags).flags.has_tag = false
      ∧ (demo_attr 26 PW_TYPE.VSA no_flags).flags.encrypt = FLAG_ENCRYPT.NONE
      ∧ (demo_attr 26 PW_TYPE.VSA no_flags).type ≠ PW_TYPE.LONG_EXTENDED
      ∧ unknown_succeeds nest_env
      ∧ (∀ da, nest_env.fr_pair_afrom_da da = true)
      ∧ (1 ≤ 9 ∧ 9 ≤ 253 ∧ 9 ≤ 23)
      ∧ (∀ fuel, fr_radius_decode_pair_value nest_env no_request (fuel + 1)
          (demo_attr 26 PW_TYPE.VSA no_flags)
          [26, 11, 0, 0, 0x60, 0xb5, 1, 5, 0x80, 0xaa, 0xbb,
            1, 14, 0x11, 0x12, 0x13, 0x14, 0x15, 7, 0x17, 0x18, 0x19, 0x1a, 0x1b, 0x1c] 2 9 23
          = Decoded.fault)
      ∧ (∀ fuel, fr_radius_decode_pair_value nest_env no_request (fuel + 1)
          (demo_attr 26 PW_TYPE.VSA no_flags)
          [26, 11, 0, 0, 0x60, 0xb5, 1, 5, 0x80, 0xaa, 0xbb,
            1, 14, 0x11, 0x12, 0x13, 0x14, 0x15, 2, 0x17, 0x18, 0x19, 0x1a, 0x1b, 0x1c] 2 9 23
          = Decoded.fault)
      ∧ fr_radius_decode_pair_value nest_env no_request 4 (demo_attr 26 PW_TYPE.VSA no_flags)
          [26, 11, 0, 0, 0x60, 0xb5, 1, 5, 0x80, 0xaa, 0xbb,
            1, 14, 0x11, 0x12, 0x13, 0x14, 0x15, 3, 0x17, 0x18, 0x19, 0x1a, 0x1b, 0x1c] 2 9 23
          = Decoded.ok 9
            [⟨⟨24757, 1, PW_TYPE.OCTETS, no_flags, frag_wimax.link :: frag_wimax.lineage⟩, none, 2,
              value_data.vp_octets [0xaa, 0xbb]⟩] :=
  ⟨rfl, rfl, by decide, fun parent vendor attr => ⟨demo_unknown parent vendor attr, rfl, rfl⟩,
    fun _ => rfl, by decide, fun _ => rfl, fun _ => rfl, by decide⟩


/-! ## Concrete instances for C3 -/

theorem demo_unknown_succeeds (fill : Nat) : unknown_succeeds (demo_env fill) :=
  fun parent vendor attr => ⟨demo_unknown parent vendor attr, rfl, rfl⟩

/-- The locals that reach the first `switch` for an untagged, unencrypted descriptor. -/
theorem seen_locals_plain (E : Env) (R : Request) (D : fr_dict_attr_t) (m : List Nat)
    (start attrlen : Nat) (htag : D.flags.has_tag = false)
    (henc : D.flags.encrypt = FLAG_ENCRYPT.NONE) :
    seen_locals E R D m start attrlen = some (entry_locals E m start attrlen) := by
  simp [seen_locals, tag_stage_untagged E D m start attrlen htag,
    decrypt_stage_unencrypted E R D attrlen _ henc]

theorem demo_vsa_non_fragmented :
    non_fragmented (demo_env 0) no_request (demo_attr 26 PW_TYPE.VSA no_flags)
      [0, 0, 0, 9, 1, 6, 0, 0, 0, 5, 1, 6, 0, 0, 0, 7, 5, 6, 0, 0, 0, 1] 0 16 := by
  intro l hl
  rw [seen_locals_plain _ _ _ _ _ _ rfl rfl] at hl
  have hl := Option.some.inj hl
  subst hl
  refine ⟨fun h => PW_TYPE.noConfusion h, fun _ hw => ?_⟩
  have h1 := hw.1
  revert h1
  decide

theorem nonfragmented_returns_attrlen_witness :
    fr_radius_decode_pair_value (demo_env 0) no_request 3 (demo_attr 26 PW_TYPE.VSA no_flags)
        [0, 0, 0, 9, 1, 6, 0, 0, 0, 5, 1, 6, 0, 0, 0, 7, 5, 6, 0, 0, 0, 1] 0 16 22
        = Decoded.ok 16
            [⟨⟨9, 1, PW_TYPE.INTEGER, no_flags, demo_vendor9.link :: demo_vendor9.lineage⟩, none, 4,
                value_data.vp_integer 5⟩,
              ⟨⟨9, 1, PW_TYPE.INTEGER, no_flags, demo_vendor9.link :: demo_vendor9.lineage⟩, none, 4,
                value_data.vp_integer 7⟩]
      ∧ 16 = 16 :=
  ⟨by decide, nonfragmented_returns_attrlen (demo_env 0) no_request 3
    (demo_attr 26 PW_TYPE.VSA no_flags)
    [0, 0, 0, 9, 1, 6, 0, 0, 0, 5, 1, 6, 0, 0, 0, 7, 5, 6, 0, 0, 0, 1] 0 16 22 16
    [⟨⟨9, 1, PW_TYPE.INTEGER, no_flags, demo_vendor9.link :: demo_vendor9.lineage⟩, none, 4,
        value_data.vp_integer 5⟩,
      ⟨⟨9, 1, PW_TYPE.INTEGER, no_flags, demo_vendor9.link :: demo_vendor9.lineage⟩, none, 4,
        value_data.vp_integer 7⟩]
    demo_vsa_non_fragmented (by decide)⟩

/-! ## Bytes of lists and the inner loops of the password decoders -/

theorem rd_set (l : List Nat) (i v j : Nat) :
    rd (l.set i v) j = if j = i ∧ i < l.length then v else rd l j := by
  unfold rd
  by_cases h : j = i
  · subst h
    by_cases h2 : j < l.length
    · simp [h2, List.getD_eq_getElem?_getD, List.getElem?_set]
    · have h4 : l[j]? = none := List.getElem?_eq_none (by omega)
      simp [h2, h4, List.getD_eq_getElem?_getD, List.getElem?_set]
  · have h3 : ¬ i = j := fun e => h e.symm
    simp [h, h3, List.getD_eq_getElem?_getD, List.getElem?_set]

/-- The inner loop of `fr_radius_decode_password`: it touches the bytes `n .. n + len - 1`. -/
theorem xor_block_same (p d : List Nat) (n len : Nat) :
    (xor_block p d (fun i => i + n) (fun i => i + n) 0 len).length = p.length ∧
    ∀ j, rd (xor_block p d (fun i => i + n) (fun i => i + n) 0 len) j =
      if n ≤ j ∧ j < n + len ∧ j < p.length then rd p j ^^^ rd d (j - n) else rd p j := by
  unfold xor_block
  simp only [Nat.sub_zero, Nat.zero_add]
  induction len with
  | zero =>
    refine ⟨rfl, fun j => ?_⟩
    rw [if_neg (by omega)]
    rfl
  | succ k ih =>
    rw [List.range_succ, List.foldl_append]
    simp only [List.foldl_cons, List.foldl_nil]
    obtain ⟨hl, hr⟩ := ih
    refine ⟨by rw [List.length_set, hl], fun j => ?_⟩
    rw [rd_set, hl, hr j, hr (k + n)]
    rw [if_neg (show ¬ (n ≤ k + n ∧ k + n < n + k ∧ k + n < p.length) by omega)]
    by_cases hj : j = k + n ∧ k + n < p.length
    · rw [if_pos hj, if_pos (show n ≤ j ∧ j < n + (k + 1) ∧ j < p.length by omega)]
      have e1 : k + n = j := by omega
      have e2 : k = j - n := by omega
      rw [e1, ← e2]
    · rw [if_neg hj]
      by_cases c : n ≤ j ∧ j < n + k ∧ j < p.length
      · rw [if_pos c, if_pos (show n ≤ j ∧ j < n + (k + 1) ∧ j < p.length by omega)]
      · rw [if_neg c, if_neg (show ¬ (n ≤ j ∧ j < n + (k + 1) ∧ j < p.length) by omega)]

/-- The inner loop of `fr_radius_decode_tunnel_password`: byte `j` becomes byte `j + 3` xor the
digest, for `n + base - 1 ≤ j < n + len - 1`. -/
theorem xor_block_shift (p d : List Nat) (n base len : Nat) (hb : 1 ≤ n + base) :
    (xor_block p d (fun i => n + i - 1) (fun i => n + i + 2) base len).length = p.length ∧
    ∀ j, rd (xor_block p d (fun i => n + i - 1) (fun i => n + i + 2) base len) j =
      if n + base ≤ j + 1 ∧ j + 1 < n + len ∧ j < p.length then
        rd p (j + 3) ^^^ rd d (j + 1 - n)
      else rd p j := by
  unfold xor_block
  have key : ∀ k, ((List.range k).foldl (fun p k => p.set (n + (base + k) - 1)
        (rd p (n + (base + k) + 2) ^^^ rd d (base + k))) p).length = p.length ∧
      ∀ j, rd ((List.range k).foldl (fun p k => p.set (n + (base + k) - 1)
        (rd p (n + (base + k) + 2) ^^^ rd d (base + k))) p) j =
        if n + base ≤ j + 1 ∧ j + 1 < n + base + k ∧ j < p.length then
          rd p (j + 3) ^^^ rd d (j + 1 - n)
        else rd p j := by
    intro k
    induction k with
    | zero =>
      refine ⟨rfl, fun j => ?_⟩
      rw [if_neg (by omega)]
      rfl
    | succ k ih =>
      rw [List.range_succ, List.foldl_append]
      simp only [List.foldl_cons, List.foldl_nil]
      obtain ⟨hl, hr⟩ := ih
      refine ⟨by rw [List.length_set, hl], fun j => ?_⟩
      rw [rd_set, hl, hr j, hr (n + (base + k) + 2)]
      rw [if_neg (show ¬ (n + base ≤ n + (base + k) + 2 + 1 ∧
          n + (base + k) + 2 + 1 < n + base + k ∧ n + (base + k) + 2 < p.length) by omega)]
      by_cases hj : j = n + (base + k) - 1 ∧ n + (base + k) - 1 < p.length
      · rw [if_pos hj,
          if_pos (show n + base ≤ j + 1 ∧ j + 1 < n + base + (k + 1) ∧ j < p.length by omega)]
        have e1 : n + (base + k) + 2 = j + 3 := by omega
        have e2 : base + k = j + 1 - n := by omega
        rw [e1, e2]
      · rw [if_neg hj]
        by_cases c : n + base ≤ j + 1 ∧ j + 1 < n + base + k ∧ j < p.length
        · rw [if_pos c,
            if_pos (show n + base ≤ j + 1 ∧ j + 1 < n + base + (k + 1) ∧ j < p.length by omega)]
        · rw [if_neg c, if_neg (show ¬ (n + base ≤ j + 1 ∧ j + 1 < n + base + (k + 1) ∧
            j < p.length) by omega)]
  obtain ⟨hl, hr⟩ := key (len - base)
  refine ⟨hl, fun j => ?_⟩
  rw [hr j]
  by_cases c : n + base ≤ j + 1 ∧ j + 1 < n + len ∧ j < p.length
  · rw [if_pos c, if_pos (show n + base ≤ j + 1 ∧ j + 1 < n + base + (len - base) ∧
      j < p.length by omega)]
  · rw [if_neg c, if_neg (show ¬ (n + base ≤ j + 1 ∧ j + 1 < n + base + (len - base) ∧
      j < p.length) by omega)]

theorem memrd_congr (a b : List Nat) (p q n : Nat) (h : ∀ i, i < n → rd a (p + i) = rd b (q + i)) :
    memrd a p n = memrd b q n := by
  unfold memrd
  apply List.map_congr_left
  intro i hi
  exact h i (List.mem_range.mp hi)

theorem rd_of_le (l : List Nat) (j : Nat) (h : l.length ≤ j) : rd l j = 0 := by
  simp [rd, List.getD_eq_getElem?_getD, List.getElem?_eq_none h]

theorem rd_append_left (a b : List Nat) (j : Nat) (h : j < a.length) : rd (a ++ b) j = rd a j := by
  simp [rd, List.getD_eq_getElem?_getD, List.getElem?_append_left h]

theorem rd_append_right (a b : List Nat) (j : Nat) : rd (a ++ b) (a.length + j) = rd b j := by
  simp [rd, List.getD_eq_getElem?_getD, List.getElem?_append_right]

theorem rd_drop (l : List Nat) (n j : Nat) : rd (l.drop n) j = rd l (n + j) := by
  simp [rd, List.getD_eq_getElem?_getD, List.getElem?_drop]

theorem memrd_all (l : List Nat) : memrd l 0 l.length = l := by
  apply List.ext_getElem
  · exact memrd_length _ _ _
  · intro i h1 h2
    simp [memrd, rd, List.getD_eq_getElem?_getD, List.getElem?_eq_getElem h2]

/-! ## The User-Password decoder -/

/-- The loop of `fr_radius_decode_password` from block `k` on, for a buffer that holds the
plaintext below `16 * k` and the ciphertext `c` from there on: when it is left, the bytes below
`16 * K` hold the plaintext and the others are as they were. -/
theorem password_loop_rd (E : Env) (S V c : List Nat) (pwlen K : Nat)
    (hK1 : pwlen ≤ 16 * K) (hK2 : 16 * K < pwlen + 16) :
    ∀ fuel k n ctx p, n = 16 * k → k ≤ K → K ≤ k + fuel → p.length = c.length →
      (∀ j, rd p j = if j < 16 * k ∧ j < c.length then
        user_password_plain E S (memrd V 0 AUTH_VECTOR_LEN) c j else rd c j) →
      (k = 0 → ctx = S) → (k ≠ 0 → 16 * k < pwlen → ctx = S ++ memrd c (16 * (k - 1)) 16) →
      (password_loop E S V pwlen fuel n ctx p).length = c.length ∧
      ∀ j, rd (password_loop E S V pwlen fuel n ctx p) j =
        if j < 16 * K ∧ j < c.length then
          user_password_plain E S (memrd V 0 AUTH_VECTOR_LEN) c j else rd c j := by
  intro fuel
  induction fuel with
  | zero =>
    intro k n ctx p hn hk hK hlen hinv _ _
    have hkK : k = K := by omega
    subst hkK
    unfold password_loop
    exact ⟨hlen, hinv⟩
  | succ fuel ih =>
    intro k n ctx p hn hk hK hlen hinv hc0 hc1
    have hA : AUTH_PASS_LEN = 16 := rfl
    unfold password_loop
    by_cases hlt : n < pwlen
    · rw [if_pos hlt]
      have hkK : k < K := by omega
      have hblock : ∀ (d : List Nat), d = user_password_key E S (memrd V 0 AUTH_VECTOR_LEN) c k →
          ∀ j, rd (xor_block p d (fun i => i + n) (fun i => i + n) 0 AUTH_PASS_LEN) j =
          if j < 16 * (k + 1) ∧ j < c.length then
            user_password_plain E S (memrd V 0 AUTH_VECTOR_LEN) c j else rd c j := by
        intro d hd j
        rw [(xor_block_same p d n AUTH_PASS_LEN).2 j, hlen, hinv j]
        by_cases c1 : n ≤ j ∧ j < n + AUTH_PASS_LEN ∧ j < c.length
        · rw [if_pos c1, if_neg (by omega), if_pos (by omega)]
          have e1 : j / 16 = k := by omega
          have e2 : j % 16 = j - n := by omega
          simp only [user_password_plain, e1, e2, hd]
        · rw [if_neg c1]
          by_cases c2 : j < 16 * k ∧ j < c.length
          · rw [if_pos c2, if_pos (by omega)]
          · rw [if_neg c2, if_neg (by omega)]
      have hm : memrd p n AUTH_PASS_LEN = memrd c (16 * k) 16 := by
        refine memrd_congr _ _ _ _ _ (fun j _ => ?_)
        rw [hinv (n + j), if_neg (by omega), hn]
      have hctx : ∀ ctx2, ctx2 = (if pwlen > n + AUTH_PASS_LEN then S ++ memrd p n AUTH_PASS_LEN
          else S) → k + 1 ≠ 0 → 16 * (k + 1) < pwlen → ctx2 = S ++ memrd c (16 * (k + 1 - 1)) 16 := by
        intro ctx2 h2 _ hlt2
        rw [h2, if_pos (by omega), hm, Nat.add_sub_cancel]
      by_cases h0 : n = 0
      · rw [if_pos h0]
        have hk0 : k = 0 := by omega
        refine ih (k + 1) _ _ _ (by omega) (by omega) (by omega)
          (by rw [(xor_block_same _ _ _ _).1, hlen]) (hblock _ ?_) (by omega) (hctx _ ?_)
        · rw [hc0 hk0, hk0]
          rfl
        · rw [h0, Nat.zero_add]
      · rw [if_neg h0]
        have hk0 : k ≠ 0 := by omega
        refine ih (k + 1) _ _ _ (by omega) (by omega) (by omega)
          (by rw [(xor_block_same _ _ _ _).1, hlen]) (hblock _ ?_) (by omega) (hctx _ rfl)
        rw [hc1 hk0 (by omega)]
        obtain ⟨k2, rfl⟩ : ∃ k2, k = k2 + 1 := ⟨k - 1, by omega⟩
        rfl
    · rw [if_neg hlt]
      have hkK : k = K := by omega
      subst hkK
      exact ⟨hlen, hinv⟩

theorem xor16_length (x b : List Nat) : (xor16 x b).length = 16 := by
  simp [xor16]

theorem rd_xor16 (x b : List Nat) (t : Nat) (h : t < 16) :
    rd (xor16 x b) t = rd x t ^^^ rd b t := by
  simp [xor16, rd, List.getD_eq_getElem?_getD, List.getElem?_map, List.getElem?_range h]

theorem encrypt_blocks_length (E : Env) (S : List Nat) :
    ∀ k b x, (encrypt_blocks E S k b x).length = 16 * k := by
  intro k
  induction k with
  | zero => intro b x; rfl
  | succ k ih =>
    intro b x
    rw [encrypt_blocks, List.length_append, xor16_length, ih]
    omega

theorem memrd_append_left (a b : List Nat) : memrd (a ++ b) 0 a.length = a := by
  have h : memrd (a ++ b) 0 a.length = memrd a 0 a.length :=
    memrd_congr _ _ _ _ _ (fun i hi => by
      rw [Nat.zero_add, rd_append_left _ _ _ hi])
  rw [h, memrd_all]

theorem memrd_append_right (a b : List Nat) (p n : Nat) :
    memrd (a ++ b) (a.length + p) n = memrd b p n :=
  memrd_congr _ _ _ _ _ (fun i _ => by rw [Nat.add_assoc, rd_append_right])

/-- The key of block `i` of a ciphertext `c` whose first key is `b`. -/
theorem encrypt_blocks_rd (E : Env) (S : List Nat) :
    ∀ k b x rest i t, i < k → t < 16 →
      rd (encrypt_blocks E S k b x ++ rest) (16 * i + t) =
        rd x (16 * i + t) ^^^ rd (match i with
          | 0 => b
          | i + 1 => E.md5 (S ++ memrd (encrypt_blocks E S k b x ++ rest) (16 * i) 16)) t := by
  intro k
  induction k with
  | zero => intro b x rest i t hi; omega
  | succ k ih =>
    intro b x rest i t hi ht
    rw [encrypt_blocks, List.append_assoc]
    cases i with
    | zero =>
      rw [Nat.mul_zero, Nat.zero_add, rd_append_left _ _ _ (by rw [xor16_length]; omega)]
      exact rd_xor16 x b t ht
    | succ i =>
      have e : 16 * (i + 1) + t = (xor16 x b).length + (16 * i + t) := by
        rw [xor16_length]; omega
      rw [e, rd_append_right, ih _ _ _ i t (by omega) ht, rd_drop]
      have e2 : 16 + (16 * i + t) = (xor16 x b).length + (16 * i + t) := by rw [xor16_length]
      rw [e2]
      cases i with
      | zero =>
        have hm := memrd_append_left (xor16 x b)
          (encrypt_blocks E S k (E.md5 (S ++ xor16 x b)) (List.drop 16 x) ++ rest)
        rw [xor16_length] at hm
        show _ ^^^ rd (E.md5 (S ++ xor16 x b)) t = _ ^^^ rd (E.md5 (S ++ memrd _ (16 * 0) 16)) t
        rw [Nat.mul_zero, hm]
      | succ i =>
        have hm := memrd_append_right (xor16 x b)
          (encrypt_blocks E S k (E.md5 (S ++ xor16 x b)) (List.drop 16 x) ++ rest) (16 * i) 16
        have e3 : (xor16 x b).length + 16 * i = 16 * (i + 1) := by rw [xor16_length]; omega
        rw [e3] at hm
        show _ ^^^ rd (E.md5 (S ++ memrd _ (16 * i) 16)) t =
          _ ^^^ rd (E.md5 (S ++ memrd _ (16 * (i + 1)) 16)) t
        rw [hm]

/-- The buffer after `fr_radius_decode_password`: the whole blocks that cover the first
`min pwlen 128` bytes hold the plaintext, byte `min pwlen 128` is zero, the others are as they
were. -/
theorem decode_password_rd (E : Env) (S V c : List Nat) (L P : Nat)
    (hP : P = if L > 128 then 128 else L) :
    (fr_radius_decode_password E c L S V).2.length = c.length ∧
    ∀ j, rd (fr_radius_decode_password E c L S V).2 j =
      if j = P ∧ P < c.length then 0
      else if j < 16 * ((P + 15) / 16) ∧ j < c.length then
        user_password_plain E S (memrd V 0 AUTH_VECTOR_LEN) c j
      else rd c j := by
  unfold fr_radius_decode_password
  simp only [← hP]
  by_cases h0 : P = 0
  · rw [if_pos h0]
    refine ⟨by rw [List.length_set], fun j => ?_⟩
    rw [rd_set]
    by_cases c1 : j = P ∧ P < c.length
    · rw [if_pos c1, if_pos c1]
    · rw [if_neg c1, if_neg c1, if_neg (by omega)]
  · rw [if_neg h0]
    obtain ⟨hl, hr⟩ := password_loop_rd E S V c P ((P + 15) / 16) (by omega) (by omega)
      P 0 0 S c rfl (by omega) (by omega) rfl
      (fun j => by rw [if_neg (by omega)]) (fun _ => rfl) (fun h => absurd rfl h)
    refine ⟨by rw [List.length_set, hl], fun j => ?_⟩
    rw [rd_set, hl, hr j]

theorem strlen_cons (a : Nat) (l : List Nat) :
    strlen (a :: l) = if a = 0 then 0 else strlen l + 1 := by
  unfold strlen
  rw [List.findIdx_cons]
  by_cases h : a = 0
  · simp [h]
  · have hb : (a == 0) = false := by simpa using h
    rw [hb, if_neg h]
    rfl

/-- The value of `strlen`: the index of the first zero byte. -/
theorem strlen_eq (l : List Nat) : ∀ n, rd l n = 0 → (∀ j, j < n → rd l j ≠ 0) → strlen l = n := by
  induction l with
  | nil =>
    intro n _ h
    cases n with
    | zero => rfl
    | succ n => exact absurd (rd_of_le [] 0 (Nat.le_refl _)) (h 0 (by omega))
  | cons a l ih =>
    intro n hn h
    rw [strlen_cons]
    cases n with
    | zero =>
      have : a = 0 := hn
      rw [if_pos this]
    | succ n =>
      have ha : a ≠ 0 := h 0 (by omega)
      rw [if_neg ha, ih n hn (fun j hj => h (j + 1) (by omega))]

theorem strlen_spec (l : List Nat) : rd l (strlen l) = 0 ∧ ∀ j, j < strlen l → rd l j ≠ 0 := by
  induction l with
  | nil => exact ⟨rfl, fun j hj => absurd hj (Nat.not_lt_zero _)⟩
  | cons a l ih =>
    rw [strlen_cons]
    by_cases ha : a = 0
    · rw [if_pos ha]
      exact ⟨ha, fun j hj => absurd hj (Nat.not_lt_zero _)⟩
    · rw [if_neg ha]
      refine ⟨ih.1, fun j hj => ?_⟩
      cases j with
      | zero => exact ha
      | succ j => exact ih.2 j (by omega)

theorem strlen_le (l : List Nat) : strlen l ≤ l.length := by
  by_contra h
  exact (strlen_spec l).2 l.length (by omega) (rd_of_le l _ (Nat.le_refl _))

/-! ## The Tunnel-Password decoder -/

/-- The loop of `fr_radius_decode_tunnel_password` from block `k` on, for a declared length
that fits: it is left with the declared length, and byte `j` of the buffer holds byte `j + 1`
of the plaintext for `j + 3 < pwlen`, the others being as they were. -/
theorem tunnel_password_loop_rd (E : Env) (S V c : List Nat) (L K : Nat)
    (hL : 4 ≤ L) (hK1 : L - 2 ≤ 16 * K) (hK2 : 16 * K < L - 2 + 16)
    (hD : tunnel_password_plain E S (memrd V 0 AUTH_VECTOR_LEN) c 0 ≤ L - 2) :
    ∀ fuel k n ctx p rl, n = 16 * k → k ≤ K → K ≤ k + fuel → p.length = c.length →
      (∀ j, rd p j = if j + 1 < 16 * k ∧ j + 3 < L ∧ j < c.length then
        tunnel_password_plain E S (memrd V 0 AUTH_VECTOR_LEN) c (j + 1) else rd c j) →
      (16 * k < L - 2 → E.md5 ctx = tunnel_password_key E S (memrd V 0 AUTH_VECTOR_LEN) c k) →
      (k ≠ 0 → rl = tunnel_password_plain E S (memrd V 0 AUTH_VECTOR_LEN) c 0) →
      ∃ r, tunnel_password_loop E S L (L - 2) fuel n ctx p rl =
          some (r, tunnel_password_plain E S (memrd V 0 AUTH_VECTOR_LEN) c 0) ∧
        r.length = c.length ∧
        ∀ j, rd r j = if j + 3 < L ∧ j < c.length then
          tunnel_password_plain E S (memrd V 0 AUTH_VECTOR_LEN) c (j + 1) else rd c j := by
  have hA : AUTH_PASS_LEN = 16 := rfl
  have hfin : ∀ (p : List Nat), p.length = c.length →
      (∀ j, rd p j = if j + 1 < 16 * K ∧ j + 3 < L ∧ j < c.length then
        tunnel_password_plain E S (memrd V 0 AUTH_VECTOR_LEN) c (j + 1) else rd c j) →
      ∀ j, rd p j = if j + 3 < L ∧ j < c.length then
          tunnel_password_plain E S (memrd V 0 AUTH_VECTOR_LEN) c (j + 1) else rd c j := by
    intro p _ hinv j
    rw [hinv j]
    by_cases c1 : j + 3 < L ∧ j < c.length
    · rw [if_pos c1, if_pos (by omega)]
    · rw [if_neg c1, if_neg (by omega)]
  intro fuel
  induction fuel with
  | zero =>
    intro k n ctx p rl hn hk hK hlen hinv _ hrl
    have hkK : k = K := by omega
    subst hkK
    unfold tunnel_password_loop
    exact ⟨p, by rw [hrl (by omega)], hlen, hfin p hlen hinv⟩
  | succ fuel ih =>
    intro k n ctx p rl hn hk hK hlen hinv hctx hrl
    unfold tunnel_password_loop
    by_cases hlt : n < L - 2
    · rw [if_pos hlt]
      have hkK : k < K := by omega
      have hdig := hctx (by omega)
      -- the block written in this turn
      have hblock : ∀ (bl base : Nat),
          bl = (if n + 2 + AUTH_PASS_LEN > L then L - n - 2 else AUTH_PASS_LEN) →
          1 ≤ n + base → (k = 0 → base = 1) → (k ≠ 0 → base = 0) →
          ∀ j, rd (xor_block p (E.md5 ctx) (fun i => n + i - 1) (fun i => n + i + 2) base bl) j =
          if j + 1 < 16 * (k + 1) ∧ j + 3 < L ∧ j < c.length then
            tunnel_password_plain E S (memrd V 0 AUTH_VECTOR_LEN) c (j + 1) else rd c j := by
        intro bl base hbl hb hb0 hb1 j
        have hbl2 : bl ≤ 16 ∧ n + bl + 2 ≤ L ∧ (n + 18 ≤ L → bl = 16) ∧ (L < n + 18 → n + bl + 2 = L) := by
          rw [hbl]
          split <;> omega
        rw [(xor_block_shift p _ n base bl hb).2 j, hlen, hinv j, hinv (j + 3)]
        by_cases c1 : n + base ≤ j + 1 ∧ j + 1 < n + bl ∧ j < c.length
        · rw [if_pos c1, if_neg (by omega), if_pos (by omega)]
          have e1 : (j + 1) / 16 = k := by omega
          have e2 : (j + 1) % 16 = j + 1 - n := by omega
          simp only [tunnel_password_plain, e1, e2, hdig]
        · rw [if_neg c1]
          by_cases c2 : j + 1 < 16 * k ∧ j + 3 < L ∧ j < c.length
          · rw [if_pos c2, if_pos (by omega)]
          · rw [if_neg c2, if_neg ?_]
            intro c3
            by_cases hk0 : k = 0
            · have := hb0 hk0
              omega
            · have := hb1 hk0
              omega
      have hnext : ∀ bl, bl = (if n + 2 + AUTH_PASS_LEN > L then L - n - 2 else AUTH_PASS_LEN) →
          16 * (k + 1) < L - 2 →
          E.md5 (S ++ memrd p (n + 2) bl) =
            tunnel_password_key E S (memrd V 0 AUTH_VECTOR_LEN) c (k + 1) := by
        intro bl hbl hlt2
        have hbl16 : bl = 16 := by
          rw [hbl, if_neg (by omega)]
          exact hA
        have hm : memrd p (n + 2) bl = memrd c (16 * k + 2) 16 := by
          rw [hbl16]
          refine memrd_congr _ _ _ _ _ (fun j _ => ?_)
          rw [hinv (n + 2 + j), if_neg (by omega), hn]
        rw [hm]
        rfl
      by_cases h0 : n = 0
      · have hk0 : k = 0 := by omega
        simp only [if_pos h0]
        have hp2 : rd p 2 = rd c 2 := by rw [hinv 2, if_neg (by omega)]
        have hreal : rd p 2 ^^^ rd (E.md5 ctx) 0 =
            tunnel_password_plain E S (memrd V 0 AUTH_VECTOR_LEN) c 0 := by
          rw [hp2, hdig, hk0]
          rfl
        rw [hreal, if_neg (by omega)]
        have e2 : ∀ x, memrd p (n + 2) x = memrd p 2 x := fun x => by rw [h0]
        have hnx := hnext _ rfl
        simp only [e2] at hnx
        exact ih (k + 1) _ _ _ _ (by omega) (by omega) (by omega)
          (by rw [(xor_block_shift _ _ _ _ _ (by omega)).1, hlen])
          (hblock _ 1 rfl (by omega) (fun _ => rfl) (fun h => absurd hk0 h)) hnx (fun _ => rfl)
      · have hk0 : k ≠ 0 := by omega
        simp only [if_neg h0]
        exact ih (k + 1) _ _ _ _ (by omega) (by omega) (by omega)
          (by rw [(xor_block_shift _ _ _ _ _ (by omega)).1, hlen])
          (hblock _ 0 rfl (by omega) (fun h => absurd h hk0) (fun _ => rfl)) (hnext _ rfl)
          (fun _ => hrl hk0)
    · rw [if_neg hlt]
      have hkK : k = K := by omega
      subst hkK
      exact ⟨p, by rw [hrl (by omega)], hlen, hfin p hlen hinv⟩

/-! ## C11 and C12: the tag block -/

theorem rd_memcpy_lt (dst src : List Nat) (i : Nat) (h : i < src.length) :
    rd (memcpy dst src) i = rd src i := by
  unfold memcpy
  exact rd_append_left _ _ _ h

theorem memrd_memcpy (dst src : List Nat) : memrd (memcpy dst src) 0 src.length = src := by
  unfold memcpy
  exact memrd_append_left _ _

theorem memcpy_length (dst src : List Nat) (h : src.length ≤ dst.length) :
    (memcpy dst src).length = dst.length := by
  unfold memcpy
  rw [List.length_append, List.length_drop]
  omega

theorem buffer_on_entry_length (E : Env) : (buffer_on_entry E).length = 256 :=
  memrd_length _ _ _

/-- The decryption block does nothing when the secret or the packet is missing or the
descriptor is not encrypted. -/
theorem decrypt_stage_skipped (E : Env) (R : Request) (D : fr_dict_attr_t) (attrlen : Nat)
    (l : Locals)
    (h : R.secret = none ∨ R.packet = none ∨ D.flags.encrypt = FLAG_ENCRYPT.NONE) :
    decrypt_stage E R D attrlen l = Step.go l := by
  unfold decrypt_stage
  rcases h with h | h | h
  · rw [h]
  · rw [h]
    cases R.secret <;> rfl
  · exact decrypt_stage_unencrypted E R D attrlen l h

/-- The body when the tag block and the decryption block fall through and the first `switch`
leaves by `break`. -/
theorem body_of_stages (E : Env) (R : Request) (dec : Decoder) (D : fr_dict_attr_t) (m : List Nat)
    (start attrlen packetlen : Nat) (l l2 l3 : Locals) (da : fr_dict_attr_t)
    (hargs : args_ok attrlen packetlen) (hne : attrlen ≠ 0)
    (htag : tag_stage E D m start attrlen = some l)
    (hdec : decrypt_stage E R D attrlen l = Step.go l2)
    (hshape : shape_stage E dec D m start attrlen packetlen l2 = Shape.alloc (some da) l3) :
    decode_pair_value_body E R dec D m start attrlen packetlen = alloc_stage E da l3 attrlen := by
  obtain ⟨h1, h2, h3⟩ := hargs
  have hc : ¬ (attrlen > packetlen ∨ (attrlen > 253 ∧ attrlen ≠ packetlen) ∨
      attrlen > 128 * 1024) := by omega
  simp only [decode_pair_value_body, hc, if_false, hne, htag, hdec, hshape]

/-- The body when the decryption block jumps to `raw`. -/
theorem body_of_raw (E : Env) (R : Request) (dec : Decoder) (D : fr_dict_attr_t) (m : List Nat)
    (start attrlen packetlen : Nat) (l l2 : Locals)
    (hargs : args_ok attrlen packetlen) (hne : attrlen ≠ 0)
    (htag : tag_stage E D m start attrlen = some l)
    (hdec : decrypt_stage E R D attrlen l = Step.raw l2) :
    decode_pair_value_body E R dec D m start attrlen packetlen = raw_stage E D l2 attrlen := by
  obtain ⟨h1, h2, h3⟩ := hargs
  have hc : ¬ (attrlen > packetlen ∨ (attrlen > 253 ∧ attrlen ≠ packetlen) ∨
      attrlen > 128 * 1024) := by omega
  simp only [decode_pair_value_body, hc, if_false, hne, htag, hdec]

/-- The body when the tag block and the decryption block fall through: the code from the
first `switch` on, run on the locals they leave. -/
theorem body_from_type_switch (E : Env) (R : Request) (dec : Decoder) (D : fr_dict_attr_t)
    (m : List Nat) (start attrlen packetlen : Nat) (l l2 : Locals)
    (hargs : args_ok attrlen packetlen) (hne : attrlen ≠ 0)
    (htag : tag_stage E D m start attrlen = some l)
    (hdec : decrypt_stage E R D attrlen l = Step.go l2) :
    decode_pair_value_body E R dec D m start attrlen packetlen
      = from_type_switch E dec D m start attrlen packetlen l2 := by
  obtain ⟨h1, h2, h3⟩ := hargs
  have hc : ¬ (attrlen > packetlen ∨ (attrlen > 253 ∧ attrlen ≠ packetlen) ∨
      attrlen > 128 * 1024) := by omega
  simp only [decode_pair_value_body, hc, if_false, hne, htag, hdec, from_type_switch]

/-- The first `switch` leaves by `break` for a string or octets descriptor. -/
theorem shape_stage_text (E : Env) (dec : Decoder) (D : fr_dict_attr_t) (m : List Nat)
    (start attrlen packetlen : Nat) (l : Locals)
    (hT : D.type = PW_TYPE.STRING ∨ D.type = PW_TYPE.OCTETS) :
    shape_stage E dec D m start attrlen packetlen l = Shape.alloc (some D) l := by
  rcases hT with hT | hT <;> simp only [shape_stage, hT]

/-- The tag block for a string descriptor that can carry a tag, when the tag byte is taken. -/
theorem tag_stage_string_taken (E : Env) (D : fr_dict_attr_t) (m : List Nat) (start attrlen : Nat)
    (hT : D.type = PW_TYPE.STRING) (hTag : D.flags.has_tag = true)
    (h1 : 1 < attrlen) (h2 : attrlen < 256)
    (hc : rd m start < 0x20 ∨ D.flags.encrypt = FLAG_ENCRYPT.TUNNEL_PASSWORD) :
    tag_stage E D m start attrlen =
      some ⟨false, memcpy (buffer_on_entry E) (memrd m (start + 1) (attrlen - 1)), 0, attrlen - 1,
        some (rd m start), memcpy (buffer_on_entry E) (memrd m (start + 1) (attrlen - 1))⟩ := by
  unfold tag_stage
  have c : D.flags.has_tag = true ∧ attrlen > 1 ∧
      (rd m start < 0x20 ∨ D.flags.encrypt = FLAG_ENCRYPT.TUNNEL_PASSWORD) := ⟨hTag, h1, hc⟩
  simp only [c, and_self, if_true, hT]
  rw [if_neg (by omega)]

/-- The tag block when no tag byte is taken. -/
theorem tag_stage_not_taken (E : Env) (D : fr_dict_attr_t) (m : List Nat) (start attrlen : Nat)
    (hc : ¬ (D.flags.has_tag = true ∧ attrlen > 1 ∧
      (rd m start < 0x20 ∨ D.flags.encrypt = FLAG_ENCRYPT.TUNNEL_PASSWORD))) :
    tag_stage E D m start attrlen = some (entry_locals E m start attrlen) := by
  unfold tag_stage
  simp only [hc, if_false, entry_locals]

/-- The pair allocated for a string or octets descriptor. -/
theorem alloc_stage_text (E : Env) (D : fr_dict_attr_t) (l : Locals) (attrlen : Nat)
    (hT : D.type = PW_TYPE.STRING ∨ D.type = PW_TYPE.OCTETS)
    (halloc : E.fr_pair_afrom_da D = true) :
    alloc_stage E D l attrlen =
      Decoded.ok attrlen [⟨D, l.tag, l.datalen, text_value D.type (memrd l.dmem l.data l.datalen)⟩] := by
  rcases hT with hT | hT <;> simp [alloc_stage, halloc, leaf_value, hT, text_value]

/-- The decryption block keeps the tag when it falls through. -/
theorem decrypt_stage_go_tag (E : Env) (R : Request) (D : fr_dict_attr_t) (attrlen : Nat)
    (l l2 : Locals) (h : decrypt_stage E R D attrlen l = Step.go l2) : l2.tag = l.tag := by
  unfold decrypt_stage at h
  dsimp only at h
  repeat' split at h
  all_goals first
    | exact Step.noConfusion h
    | (injection h with h; subst h; rfl)

/-- C11: for a string descriptor that can carry a tag and a value of `attrlen` bytes,
`1 < attrlen < 256`: when `data[0] < 0x20` or the encryption is Tunnel-Password, the tag block
takes `data[0]` as the tag and leaves the `attrlen - 1` bytes from `data[1]` on as the value;
otherwise it takes no tag and leaves all `attrlen` bytes. When no decryption follows, that tag
and that value are the tag and the value of the pair; when the decryption block falls through,
the pair carries that tag. -/
theorem tagged_string_takes_first_byte (E : Env) (R : Request) (fuel : Nat) (D : fr_dict_attr_t)
    (m : List Nat) (start attrlen packetlen : Nat)
    (hT : D.type = PW_TYPE.STRING) (hTag : D.flags.has_tag = true)
    (h1 : 1 < attrlen) (h2 : attrlen < 256) :
    (∃ l, tag_stage E D m start attrlen = some l ∧
      (if rd m start < 0x20 ∨ D.flags.encrypt = FLAG_ENCRYPT.TUNNEL_PASSWORD then
        l.tag = some (rd m start) ∧ l.datalen = attrlen - 1 ∧
          memrd l.dmem l.data l.datalen = memrd m (start + 1) (attrlen - 1)
      else l.tag = none ∧ l.datalen = attrlen ∧
          memrd l.dmem l.data l.datalen = memrd m start attrlen) ∧
      ∀ l2, decrypt_stage E R D attrlen l = Step.go l2 → args_ok attrlen packetlen →
        E.fr_pair_afrom_da D = true →
        fr_radius_decode_pair_value E R (fuel + 1) D m start attrlen packetlen =
          Decoded.ok attrlen [⟨D, l.tag, l2.datalen,
            value_data.vp_strvalue (memrd l2.dmem l2.data l2.datalen)⟩]) ∧
    (args_ok attrlen packetlen → E.fr_pair_afrom_da D = true →
      (R.secret = none ∨ R.packet = none ∨ D.flags.encrypt = FLAG_ENCRYPT.NONE) →
      fr_radius_decode_pair_value E R (fuel + 1) D m start attrlen packetlen =
        if rd m start < 0x20 ∨ D.flags.encrypt = FLAG_ENCRYPT.TUNNEL_PASSWORD then
          Decoded.ok attrlen [⟨D, some (rd m start), attrlen - 1,
            value_data.vp_strvalue (memrd m (start + 1) (attrlen - 1))⟩]
        else Decoded.ok attrlen [⟨D, none, attrlen,
            value_data.vp_strvalue (memrd m start attrlen)⟩]) := by
  have hmem : memrd (memcpy (buffer_on_entry E) (memrd m (start + 1) (attrlen - 1))) 0
      (attrlen - 1) = memrd m (start + 1) (attrlen - 1) := by
    have h := memrd_memcpy (buffer_on_entry E) (memrd m (start + 1) (attrlen - 1))
    rwa [memrd_length] at h
  have hgo : ∀ l l2, tag_stage E D m start attrlen = some l →
      decrypt_stage E R D attrlen l = Step.go l2 → args_ok attrlen packetlen →
      E.fr_pair_afrom_da D = true →
      fr_radius_decode_pair_value E R (fuel + 1) D m start attrlen packetlen =
        Decoded.ok attrlen [⟨D, l.tag, l2.datalen,
          value_data.vp_strvalue (memrd l2.dmem l2.data l2.datalen)⟩] := by
    intro l l2 ht hd hargs halloc
    rw [fr_radius_decode_pair_value,
      body_of_stages E R _ D m start attrlen packetlen l l2 l2 D hargs (by omega) ht hd
        (shape_stage_text E _ D m start attrlen packetlen _ (Or.inl hT)),
      alloc_stage_text E D l2 attrlen (Or.inl hT) halloc,
      decrypt_stage_go_tag E R D attrlen l l2 hd]
    simp only [hT, text_value]
  by_cases hc : rd m start < 0x20 ∨ D.flags.encrypt = FLAG_ENCRYPT.TUNNEL_PASSWORD
  · have ht := tag_stage_string_taken E D m start attrlen hT hTag h1 h2 hc
    refine ⟨⟨_, ht, ?_, fun l2 => hgo _ l2 ht⟩, fun hargs halloc hskip => ?_⟩
    · rw [if_pos hc]
      exact ⟨rfl, rfl, hmem⟩
    · rw [if_pos hc, hgo _ _ ht (decrypt_stage_skipped E R D attrlen _ hskip) hargs halloc]
      simp only [hmem]
  · have ht := tag_stage_not_taken E D m start attrlen (fun h => hc h.2.2)
    refine ⟨⟨_, ht, ?_, fun l2 => hgo _ l2 ht⟩, fun hargs halloc hskip => ?_⟩
    · rw [if_neg hc]
      exact ⟨rfl, rfl, rfl⟩
    · rw [if_neg hc, hgo _ _ ht (decrypt_stage_skipped E R D attrlen _ hskip) hargs halloc]
      rfl

/-- The tag block for an integer descriptor that can carry a tag, when the tag byte is taken. -/
theorem tag_stage_integer_taken (E : Env) (D : fr_dict_attr_t) (m : List Nat)
    (start attrlen : Nat)
    (hT : D.type = PW_TYPE.INTEGER) (hTag : D.flags.has_tag = true)
    (h1 : 1 < attrlen) (h2 : attrlen < 256)
    (hc : rd m start < 0x20 ∨ D.flags.encrypt = FLAG_ENCRYPT.TUNNEL_PASSWORD) :
    tag_stage E D m start attrlen =
      some ⟨false, (memcpy (buffer_on_entry E) (memrd m start attrlen)).set 0 0, 0, attrlen,
        some (rd m start), (memcpy (buffer_on_entry E) (memrd m start attrlen)).set 0 0⟩ := by
  unfold tag_stage
  have c : D.flags.has_tag = true ∧ attrlen > 1 ∧
      (rd m start < 0x20 ∨ D.flags.encrypt = FLAG_ENCRYPT.TUNNEL_PASSWORD) := ⟨hTag, h1, hc⟩
  have e : rd (memcpy (buffer_on_entry E) (memrd m start attrlen)) 0 = rd m start := by
    rw [rd_memcpy_lt _ _ _ (by rw [memrd_length]; omega), rd_memrd _ _ _ _ (by omega)]
    rfl
  simp only [c, and_self, if_true, hT, e]
  rw [if_neg (by omega)]
  simp

theorem memrd_four (b : List Nat) (p : Nat) :
    memrd b p 4 = [rd b p, rd b (p + 1), rd b (p + 2), rd b (p + 3)] := by
  simp [memrd, List.range_succ]

/-- C12: for an unencrypted integer descriptor that can carry a tag and a value of 4 bytes
whose first byte is below `0x20`, `fr_radius_decode_pair_value` produces one integer pair whose
tag is `data[0]` and whose number is the big-endian reading of `00, data[1], data[2], data[3]`,
which is below `2^24` when the value bytes are bytes. -/
theorem tagged_integer_tag_in_top_byte (E : Env) (R : Request) (fuel : Nat) (D : fr_dict_attr_t)
    (m : List Nat) (start packetlen : Nat)
    (hT : D.type = PW_TYPE.INTEGER) (hTag : D.flags.has_tag = true)
    (hE : D.flags.encrypt = FLAG_ENCRYPT.NONE) (h0 : rd m start < 0x20)
    (hlen : 4 ≤ packetlen) (halloc : E.fr_pair_afrom_da D = true) :
    fr_radius_decode_pair_value E R (fuel + 1) D m start 4 packetlen =
        Decoded.ok 4 [⟨D, some (rd m start), 4, value_data.vp_integer
          (be_val [0, rd m (start + 1), rd m (start + 2), rd m (start + 3)])⟩] ∧
      ((∀ i, i < 4 → rd m (start + i) < 256) →
        be_val [0, rd m (start + 1), rd m (start + 2), rd m (start + 3)] < 2 ^ 24) := by
  constructor
  · have hargs : args_ok 4 packetlen := ⟨hlen, Or.inl (by omega), by omega⟩
    have ht := tag_stage_integer_taken E D m start 4 hT hTag (by omega) (by omega) (Or.inl h0)
    have hlen256 : (memcpy (buffer_on_entry E) (memrd m start 4)).length = 256 := by
      rw [memcpy_length _ _ (by rw [memrd_length, buffer_on_entry_length]; omega),
        buffer_on_entry_length]
    have hb : ∀ i, i < 4 → rd ((memcpy (buffer_on_entry E) (memrd m start 4)).set 0 0) i =
        if i = 0 then 0 else rd m (start + i) := by
      intro i hi
      rw [rd_set, hlen256, rd_memcpy_lt _ _ _ (by rw [memrd_length]; exact hi),
        rd_memrd _ _ _ _ hi]
      by_cases hi0 : i = 0
      · rw [if_pos ⟨hi0, by omega⟩, if_pos hi0]
      · rw [if_neg (fun h => hi0 h.1), if_neg hi0]
    rw [fr_radius_decode_pair_value,
      body_of_stages E R _ D m start 4 packetlen _ _ _ D hargs (by omega) ht
        (decrypt_stage_unencrypted E R D 4 _ hE) (by simp only [shape_stage, hT]; rfl)]
    have h1 := hb 1 (by omega)
    have h2 := hb 2 (by omega)
    have h3 := hb 3 (by omega)
    have h4 := hb 0 (by omega)
    simp only [Nat.one_ne_zero, if_false, if_true, OfNat.ofNat_ne_zero] at h1 h2 h3 h4
    generalize (memcpy (buffer_on_entry E) (memrd m start 4)).set 0 0 = b at h1 h2 h3 h4
    simp [alloc_stage, halloc, leaf_value, hT, ntoh, memrd_four, h1, h2, h3, h4]
  · intro hb
    have h1 := hb 1 (by omega)
    have h2 := hb 2 (by omega)
    have h3 := hb 3 (by omega)
    simp only [be_val, List.foldl_cons, List.foldl_nil]
    omega

/-! ## C13 -/

theorem user_password_key_eq (E : Env) (S V c : List Nat) (i : Nat) :
    user_password_key E S V c i = match i with
      | 0 => E.md5 (S ++ V)
      | i + 1 => E.md5 (S ++ memrd c (16 * i) 16) := by
  cases i <;> rfl

/-- The plaintext of the RFC 2865 ciphertext of `x` is `x`. -/
theorem user_password_plain_encrypt (E : Env) (S V x rest : List Nat) (j : Nat)
    (hj : j < 16 * (x.length / 16)) :
    user_password_plain E S V (rfc2865_encrypt E S V x ++ rest) j = rd x j := by
  have h := encrypt_blocks_rd E S (x.length / 16) (E.md5 (S ++ V)) x rest (j / 16) (j % 16)
    (by omega) (by omega)
  have e : 16 * (j / 16) + j % 16 = j := by omega
  rw [e] at h
  unfold user_password_plain
  rw [user_password_key_eq]
  unfold rfc2865_encrypt
  rw [h, Nat.xor_cancel_right]

/-- C13: with MD5 an arbitrary function, after `fr_radius_decode_password` on a buffer `c` of
length `L`, `1 ≤ L ≤ 128`, every byte `j < L` is `c[j]` xor byte `j mod 16` of the key of its
block, where the first key is `MD5(S ∥ V)` and each later one `MD5(S ∥ previous ciphertext
block)`, taken from the ciphertext as it was on entry. Hence the RFC 2865 ciphertext of a
plaintext `x` of whole blocks decodes to `x`, and the value returned is the length of `x` up to
its first zero byte. -/
theorem user_password_xor_of_keys (E : Env) (S V c : List Nat) (L : Nat)
    (hV : V.length = 16) (h1 : 1 ≤ L) (h2 : L ≤ 128) (hc : L ≤ c.length) :
    (∀ j, j < L →
      rd (fr_radius_decode_password E c L S V).2 j = user_password_plain E S V c j) ∧
    ∀ x rest, x.length = L → L % 16 = 0 → c = rfc2865_encrypt E S V x ++ rest →
      memrd (fr_radius_decode_password E c L S V).2 0 L = x ∧
      (fr_radius_decode_password E c L S V).1 = strlen x := by
  have hVm : memrd V 0 AUTH_VECTOR_LEN = V := by
    rw [show AUTH_VECTOR_LEN = V.length from hV.symm]
    exact memrd_all V
  obtain ⟨hl, hr⟩ := decode_password_rd E S V c L L (by rw [if_neg (by omega)])
  rw [hVm] at hr
  have hplain : ∀ j, j < L →
      rd (fr_radius_decode_password E c L S V).2 j = user_password_plain E S V c j := by
    intro j hj
    rw [hr j, if_neg (by omega), if_pos (by omega)]
  refine ⟨hplain, fun x rest hx h16 hcx => ?_⟩
  have hbytes : ∀ j, j < L → rd (fr_radius_decode_password E c L S V).2 j = rd x j := by
    intro j hj
    rw [hplain j hj, hcx, user_password_plain_encrypt E S V x rest j (by omega)]
  constructor
  · have h : memrd (fr_radius_decode_password E c L S V).2 0 L = memrd x 0 x.length := by
      rw [hx]
      exact memrd_congr _ _ _ _ _ (fun i hi => by rw [Nat.zero_add, hbytes i hi])
    rw [h, memrd_all]
  · show strlen (fr_radius_decode_password E c L S V).2 = strlen x
    have hs := strlen_spec x
    have hle := strlen_le x
    apply strlen_eq
    · by_cases hlt : strlen x < L
      · rw [hbytes _ hlt]
        exact hs.1
      · have e : strlen x = L := by omega
        rw [e, hr L]
        by_cases hcl : L < c.length
        · rw [if_pos ⟨rfl, hcl⟩]
        · rw [if_neg (by omega), if_neg (by omega)]
          exact rd_of_le c L (by omega)
    · intro j hj
      rw [hbytes j (by omega)]
      exact hs.2 j hj

/-! ## C14 and C15: the value of a User-Password pair -/

theorem user_password_plain_congr (E : Env) (S V a b : List Nat) (n j : Nat)
    (h : ∀ i, i < n → rd a i = rd b i) (hj : j < n) :
    user_password_plain E S V a j = user_password_plain E S V b j := by
  unfold user_password_plain
  rw [h j hj, user_password_key_eq, user_password_key_eq]
  cases hi : j / 16 with
  | zero => rfl
  | succ i =>
    have hm : memrd a (16 * i) 16 = memrd b (16 * i) 16 :=
      memrd_congr _ _ _ _ _ (fun t ht => h _ (by omega))
    simp only [hm]

theorem strip_zeros_spec (b : List Nat) : ∀ n, strip_zeros b n ≤ n ∧
    (∀ j, strip_zeros b n ≤ j → j < n → rd b j = 0) ∧
    (strip_zeros b n = 0 ∨ rd b (strip_zeros b n - 1) ≠ 0) := by
  intro n
  induction n with
  | zero => exact ⟨Nat.le_refl _, fun j _ hj => absurd hj (Nat.not_lt_zero _), Or.inl rfl⟩
  | succ n ih =>
    unfold strip_zeros
    by_cases h : rd b n = 0
    · rw [if_pos h]
      refine ⟨by omega, fun j hj1 hj2 => ?_, ih.2.2⟩
      by_cases hjn : j = n
      · rw [hjn]; exact h
      · exact ih.2.1 j hj1 (by omega)
    · rw [if_neg h]
      exact ⟨Nat.le_refl _, fun j hj1 hj2 => absurd hj2 (by omega), Or.inr h⟩

/-- The decryption block for a User-Password descriptor when no tag byte was taken. -/
theorem decrypt_stage_user_password (E : Env) (R : Request) (D : fr_dict_attr_t)
    (m : List Nat) (start attrlen : Nat) (S : List Nat) (packet : RADIUS_PACKET)
    (hS : R.secret = some S) (hP : R.packet = some packet)
    (hE : D.flags.encrypt = FLAG_ENCRYPT.USER_PASSWORD) (h253 : attrlen ≤ 253) (B : List Nat)
    (hB : B = ((fr_radius_decode_password E (memcpy (buffer_on_entry E) (memrd m start attrlen))
      attrlen S (user_password_vector R packet)).2).set 253 0) :
    decrypt_stage E R D attrlen (entry_locals E m start attrlen) =
      Step.go ⟨false, B, 0,
        if D.flags.length ≠ 0 then
          if attrlen > D.flags.length then D.flags.length else attrlen
        else strip_zeros B attrlen, none, B⟩ := by
  subst hB
  unfold decrypt_stage
  rw [hS, hP]
  simp only [hE, entry_locals, user_password_vector]
  rw [if_pos (by decide), if_neg (by omega)]
  rfl

/-- The bytes of the buffer after the decryption of a User-Password of `attrlen` bytes. -/
theorem user_password_buffer (E : Env) (S V m : List Nat) (start attrlen : Nat)
    (h253 : attrlen ≤ 253) (B : List Nat)
    (hB : B = ((fr_radius_decode_password E (memcpy (buffer_on_entry E) (memrd m start attrlen))
      attrlen S V).2).set 253 0) :
    (∀ j, j < attrlen → j < 128 →
      rd B j = user_password_plain E S (memrd V 0 AUTH_VECTOR_LEN) (memrd m start attrlen) j) ∧
    (128 < attrlen → rd B 128 = 0) ∧
    (∀ j, 128 < j → j < attrlen → rd B j = rd m (start + j)) := by
  have hlen0 : (memcpy (buffer_on_entry E) (memrd m start attrlen)).length = 256 := by
    rw [memcpy_length _ _ (by rw [memrd_length, buffer_on_entry_length]; omega),
      buffer_on_entry_length]
  have hc0 : ∀ i, i < attrlen →
      rd (memcpy (buffer_on_entry E) (memrd m start attrlen)) i = rd (memrd m start attrlen) i :=
    fun i hi => rd_memcpy_lt _ _ _ (by rw [memrd_length]; exact hi)
  obtain ⟨hl, hr⟩ := decode_password_rd E S V (memcpy (buffer_on_entry E) (memrd m start attrlen))
    attrlen (if attrlen > 128 then 128 else attrlen) rfl
  rw [hlen0] at hl hr
  refine ⟨fun j hj hj2 => ?_, fun h => ?_, fun j hj hj2 => ?_⟩
  · rw [hB, rd_set, if_neg (by omega), hr j]
    by_cases hbig : attrlen > 128
    · simp only [if_pos hbig]
      rw [if_neg (by omega), if_pos (by omega)]
      exact user_password_plain_congr E S _ _ _ attrlen j hc0 hj
    · simp only [if_neg hbig]
      rw [if_neg (by omega), if_pos (by omega)]
      exact user_password_plain_congr E S _ _ _ attrlen j hc0 hj
  · have hP : (if attrlen > 128 then 128 else attrlen) = 128 := if_pos h
    rw [hP] at hr
    rw [hB, rd_set, if_neg (by omega), hr 128, if_pos ⟨rfl, by omega⟩]
  · have hP : (if attrlen > 128 then 128 else attrlen) = 128 := if_pos (by omega)
    rw [hP] at hr
    rw [hB, rd_set, if_neg (by omega), hr j, if_neg (by omega), if_neg (by omega), hc0 j hj2,
      rd_memrd _ _ _ _ hj2]

/-- The result for a User-Password descriptor of type string or octets when no tag byte is
taken: one pair that holds the first `datalen` bytes of the buffer after the decryption. -/
theorem decode_user_password (E : Env) (R : Request) (fuel : Nat) (D : fr_dict_attr_t)
    (m : List Nat) (start attrlen packetlen : Nat) (S : List Nat) (packet : RADIUS_PACKET)
    (hS : R.secret = some S) (hP : R.packet = some packet)
    (hT : D.type = PW_TYPE.STRING ∨ D.type = PW_TYPE.OCTETS)
    (hE : D.flags.encrypt = FLAG_ENCRYPT.USER_PASSWORD)
    (hno : ¬ (D.flags.has_tag = true ∧ attrlen > 1 ∧ rd m start < 0x20))
    (h1 : 1 ≤ attrlen) (h2 : attrlen ≤ 253) (hlen : attrlen ≤ packetlen)
    (halloc : E.fr_pair_afrom_da D = true) (B : List Nat)
    (hB : B = ((fr_radius_decode_password E (memcpy (buffer_on_entry E) (memrd m start attrlen))
      attrlen S (user_password_vector R packet)).2).set 253 0) (dl : Nat)
    (hdl : dl = if D.flags.length ≠ 0 then
          if attrlen > D.flags.length then D.flags.length else attrlen
        else strip_zeros B attrlen) :
    fr_radius_decode_pair_value E R (fuel + 1) D m start attrlen packetlen =
      Decoded.ok attrlen [⟨D, none, dl, text_value D.type (memrd B 0 dl)⟩] := by
  have hargs : args_ok attrlen packetlen := ⟨hlen, Or.inl h2, by omega⟩
  have ht := tag_stage_not_taken E D m start attrlen (fun h => by
    rcases h with ⟨ha, hb, hc | hc⟩
    · exact hno ⟨ha, hb, hc⟩
    · rw [hE] at hc
      exact FLAG_ENCRYPT.noConfusion hc)
  rw [fr_radius_decode_pair_value,
    body_of_stages E R _ D m start attrlen packetlen _ _ _ D hargs (by omega) ht
      (decrypt_stage_user_password E R D m start attrlen S packet hS hP hE h2 B hB)
      (shape_stage_text E _ D m start attrlen packetlen _ hT),
    alloc_stage_text E D _ attrlen hT halloc, hdl]

/-- C14, amended: for a string or octets descriptor encrypted as User-Password, a value of 1 to
128 bytes from which no tag byte is taken, and a request with secret and packet: when the
descriptor has no length hint, the value of the pair is the first `n` bytes of the plaintext,
where every plaintext byte from `n` on is zero and `n` is 0 or byte `n - 1` is not zero; when
the descriptor has a length hint `h`, nothing is stripped and the value is the first
`min attrlen h` bytes of the plaintext. -/
theorem user_password_value_stripped (E : Env) (R : Request) (fuel : Nat) (D : fr_dict_attr_t)
    (m : List Nat) (start attrlen packetlen : Nat) (S : List Nat) (packet : RADIUS_PACKET)
    (hS : R.secret = some S) (hP : R.packet = some packet)
    (hT : D.type = PW_TYPE.STRING ∨ D.type = PW_TYPE.OCTETS)
    (hE : D.flags.encrypt = FLAG_ENCRYPT.USER_PASSWORD)
    (hno : ¬ (D.flags.has_tag = true ∧ attrlen > 1 ∧ rd m start < 0x20))
    (h1 : 1 ≤ attrlen) (h2 : attrlen ≤ 128) (hlen : attrlen ≤ packetlen)
    (halloc : E.fr_pair_afrom_da D = true) :
    (D.flags.length = 0 → ∃ n, n ≤ attrlen ∧
      fr_radius_decode_pair_value E R (fuel + 1) D m start attrlen packetlen =
        Decoded.ok attrlen [⟨D, none, n, text_value D.type
          (user_password_plaintext E S (memrd (user_password_vector R packet) 0 AUTH_VECTOR_LEN)
            (memrd m start attrlen) n)⟩] ∧
      (∀ j, n ≤ j → j < attrlen →
        user_password_plain E S (memrd (user_password_vector R packet) 0 AUTH_VECTOR_LEN)
          (memrd m start attrlen) j = 0) ∧
      (n = 0 ∨
        user_password_plain E S (memrd (user_password_vector R packet) 0 AUTH_VECTOR_LEN)
          (memrd m start attrlen) (n - 1) ≠ 0)) ∧
    (D.flags.length ≠ 0 →
      fr_radius_decode_pair_value E R (fuel + 1) D m start attrlen packetlen =
        Decoded.ok attrlen [⟨D, none, min attrlen D.flags.length, text_value D.type
          (user_password_plaintext E S (memrd (user_password_vector R packet) 0 AUTH_VECTOR_LEN)
            (memrd m start attrlen) (min attrlen D.flags.length))⟩]) := by
  obtain ⟨hb, _, _⟩ := user_password_buffer E S (user_password_vector R packet) m start attrlen
    (by omega) _ rfl
  have hmem : ∀ n, n ≤ attrlen →
      memrd (((fr_radius_decode_password E (memcpy (buffer_on_entry E) (memrd m start attrlen))
        attrlen S (user_password_vector R packet)).2).set 253 0) 0 n =
      user_password_plaintext E S (memrd (user_password_vector R packet) 0 AUTH_VECTOR_LEN)
        (memrd m start attrlen) n := by
    intro n hn
    unfold memrd user_password_plaintext
    apply List.map_congr_left
    intro i hi
    have hi2 := List.mem_range.mp hi
    rw [Nat.zero_add]
    exact hb i (by omega) (by omega)
  constructor
  · intro h0
    have hd := decode_user_password E R fuel D m start attrlen packetlen S packet hS hP hT hE hno
      h1 (by omega) hlen halloc _ rfl _ rfl
    rw [if_neg (by simp [h0])] at hd
    obtain ⟨s1, s2, s3⟩ := strip_zeros_spec
      (((fr_radius_decode_password E (memcpy (buffer_on_entry E) (memrd m start attrlen))
        attrlen S (user_password_vector R packet)).2).set 253 0) attrlen
    refine ⟨_, s1, ?_, fun j hj1 hj2 => ?_, ?_⟩
    · rw [hd, hmem _ s1]
    · rw [← hb j hj2 (by omega)]
      exact s2 j hj1 hj2
    · rcases s3 with s3 | s3
      · exact Or.inl s3
      · right
        rw [← hb _ (by omega) (by omega)]
        exact s3
  · intro h0
    have hd := decode_user_password E R fuel D m start attrlen packetlen S packet hS hP hT hE hno
      h1 (by omega) hlen halloc _ rfl _ rfl
    rw [if_pos h0] at hd
    have hmin : (if attrlen > D.flags.length then D.flags.length else attrlen) =
        min attrlen D.flags.length := by
      split <;> omega
    rw [hmin] at hd
    rw [hd, hmem _ (Nat.min_le_left _ _)]

theorem strip_zeros_last (b : List Nat) (n : Nat) (h : rd b n ≠ 0) :
    strip_zeros b (n + 1) = n + 1 := by
  unfold strip_zeros
  rw [if_neg h]

/-- A User-Password value of more than 128 bytes whose last byte is not zero: the pair holds
all its bytes, byte 128 is zero and the bytes after it are the bytes of the ciphertext. -/
theorem user_password_tail_kept (E : Env) (R : Request) (fuel : Nat) (D : fr_dict_attr_t)
    (m : List Nat) (start attrlen packetlen : Nat) (S : List Nat) (packet : RADIUS_PACKET)
    (hS : R.secret = some S) (hP : R.packet = some packet)
    (hT : D.type = PW_TYPE.STRING ∨ D.type = PW_TYPE.OCTETS)
    (hE : D.flags.encrypt = FLAG_ENCRYPT.USER_PASSWORD)
    (hno : D.flags.has_tag = false) (hh : D.flags.length = 0)
    (h1 : 129 < attrlen) (h2 : attrlen ≤ 253) (hlen : attrlen ≤ packetlen)
    (halloc : E.fr_pair_afrom_da D = true) (hlast : rd m (start + (attrlen - 1)) ≠ 0) :
    ∃ value, fr_radius_decode_pair_value E R (fuel + 1) D m start attrlen packetlen =
        Decoded.ok attrlen [⟨D, none, attrlen, text_value D.type value⟩] ∧
      value.length = attrlen ∧ rd value 128 = 0 ∧
      ∀ j, 128 < j → j < attrlen → rd value j = rd m (start + j) := by
  obtain ⟨_, hb1, hb2⟩ := user_password_buffer E S (user_password_vector R packet) m start
    attrlen h2 _ rfl
  have hd := decode_user_password E R fuel D m start attrlen packetlen S packet hS hP hT hE
    (fun h => by rw [hno] at h; exact Bool.noConfusion h.1) (by omega) h2 hlen halloc _ rfl _ rfl
  rw [if_neg (by simp [hh])] at hd
  obtain ⟨n, hn⟩ : ∃ n, attrlen = n + 1 := ⟨attrlen - 1, by omega⟩
  have hs : strip_zeros (((fr_radius_decode_password E (memcpy (buffer_on_entry E)
      (memrd m start attrlen)) attrlen S (user_password_vector R packet)).2).set 253 0) attrlen
      = attrlen := by
    rw [hn]
    apply strip_zeros_last
    rw [← hn, hb2 n (by omega) (by omega)]
    rw [show n = attrlen - 1 by omega]
    exact hlast
  rw [hs] at hd
  refine ⟨_, hd, memrd_length _ _ _, ?_, fun j hj1 hj2 => ?_⟩
  · rw [rd_memrd _ _ _ _ (by omega), Nat.zero_add]
    exact hb1 (by omega)
  · rw [rd_memrd _ _ _ _ hj2, Nat.zero_add]
    exact hb2 j hj1 hj2

/-! ## C16 and C17 -/

/-- The first turn of the loop of `fr_radius_decode_tunnel_password` returns -1 when the
declared length is more than the bytes after the salt. -/
theorem tunnel_password_loop_too_long (E : Env) (S : List Nat) (L fuel : Nat) (ctx p : List Nat)
    (rl : Nat) (hL : 4 ≤ L) (hD : rd p 2 ^^^ rd (E.md5 ctx) 0 > L - 2) :
    tunnel_password_loop E S L (L - 2) (fuel + 1) 0 ctx p rl = none := by
  unfold tunnel_password_loop
  rw [if_pos (by omega)]
  simp only [if_true]
  rw [if_pos hD]

/-- The result of `fr_radius_decode_tunnel_password` for a buffer of 4 bytes or more whose
declared length fits. -/
theorem decode_tunnel_password_fits (E : Env) (S V c : List Nat) (L : Nat) (hL : 4 ≤ L)
    (hD : tunnel_password_plain E S (memrd V 0 AUTH_VECTOR_LEN) c 0 ≤ L - 2) :
    ∃ r, fr_radius_decode_tunnel_password E c L S V =
        (((tunnel_password_plain E S (memrd V 0 AUTH_VECTOR_LEN) c 0 : Nat) : Int),
          r.set (tunnel_password_plain E S (memrd V 0 AUTH_VECTOR_LEN) c 0) 0,
          tunnel_password_plain E S (memrd V 0 AUTH_VECTOR_LEN) c 0) ∧
      r.length = c.length ∧
      ∀ j, rd r j = if j + 3 < L ∧ j < c.length then
        tunnel_password_plain E S (memrd V 0 AUTH_VECTOR_LEN) c (j + 1) else rd c j := by
  obtain ⟨r, h1, h2, h3⟩ := tunnel_password_loop_rd E S V c L ((L - 2 + 15) / 16) hL (by omega)
    (by omega) hD (L - 2) 0 0 (S ++ memrd V 0 AUTH_VECTOR_LEN ++ memrd c 0 2) c 0 rfl (by omega)
    (by omega) rfl (fun j => by rw [if_neg (by omega)]) (fun _ => rfl) (fun h => absurd rfl h)
  refine ⟨r, ?_, h2, h3⟩
  unfold fr_radius_decode_tunnel_password
  simp only [if_neg (show ¬ L < 2 by omega), if_neg (show ¬ L ≤ 3 by omega), h1]

/-- C16: `fr_radius_decode_tunnel_password` on a buffer of length `L`, with `D` the declared
length `passwd[2] xor MD5(S ∥ V ∥ salt)[0]`: the value returned is negative exactly when
`L < 2`, or `L ≥ 4` and `D > L - 2`; for `L` 2 or 3 it returns 0 and writes the length 0 back;
in every other case it returns `D` and writes `D` back as the length. -/
theorem tunnel_password_return_value (E : Env) (S V c : List Nat) (L : Nat) :
    ((fr_radius_decode_tunnel_password E c L S V).1 < 0 ↔
      (L < 2 ∨ (4 ≤ L ∧
        rd c 2 ^^^ rd (E.md5 (S ++ memrd V 0 AUTH_VECTOR_LEN ++ memrd c 0 2)) 0 > L - 2))) ∧
    (L = 2 ∨ L = 3 →
      (fr_radius_decode_tunnel_password E c L S V).1 = 0 ∧
      (fr_radius_decode_tunnel_password E c L S V).2.2 = 0) ∧
    (4 ≤ L → rd c 2 ^^^ rd (E.md5 (S ++ memrd V 0 AUTH_VECTOR_LEN ++ memrd c 0 2)) 0 ≤ L - 2 →
      (fr_radius_decode_tunnel_password E c L S V).1 =
        ((rd c 2 ^^^ rd (E.md5 (S ++ memrd V 0 AUTH_VECTOR_LEN ++ memrd c 0 2)) 0 : Nat) : Int) ∧
      (fr_radius_decode_tunnel_password E c L S V).2.2 =
        rd c 2 ^^^ rd (E.md5 (S ++ memrd V 0 AUTH_VECTOR_LEN ++ memrd c 0 2)) 0) := by
  have hplain : tunnel_password_plain E S (memrd V 0 AUTH_VECTOR_LEN) c 0 =
      rd c 2 ^^^ rd (E.md5 (S ++ memrd V 0 AUTH_VECTOR_LEN ++ memrd c 0 2)) 0 := rfl
  have hsmall : L = 2 ∨ L = 3 →
      (fr_radius_decode_tunnel_password E c L S V).1 = 0 ∧
      (fr_radius_decode_tunnel_password E c L S V).2.2 = 0 := by
    intro h
    unfold fr_radius_decode_tunnel_password
    rw [if_neg (show ¬ L < 2 by omega), if_pos (show L ≤ 3 by omega)]
    exact ⟨rfl, rfl⟩
  have hfit : 4 ≤ L →
      rd c 2 ^^^ rd (E.md5 (S ++ memrd V 0 AUTH_VECTOR_LEN ++ memrd c 0 2)) 0 ≤ L - 2 →
      (fr_radius_decode_tunnel_password E c L S V).1 =
        ((rd c 2 ^^^ rd (E.md5 (S ++ memrd V 0 AUTH_VECTOR_LEN ++ memrd c 0 2)) 0 : Nat) : Int) ∧
      (fr_radius_decode_tunnel_password E c L S V).2.2 =
        rd c 2 ^^^ rd (E.md5 (S ++ memrd V 0 AUTH_VECTOR_LEN ++ memrd c 0 2)) 0 := by
    intro hL hD
    obtain ⟨r, h, _, _⟩ := decode_tunnel_password_fits E S V c L hL (hplain ▸ hD)
    rw [h, hplain]
    exact ⟨rfl, rfl⟩
  refine ⟨⟨fun hneg => ?_, fun h => ?_⟩, hsmall, hfit⟩
  · by_cases h2 : L < 2
    · exact Or.inl h2
    · by_cases h3 : L ≤ 3
      · rw [(hsmall (by omega)).1] at hneg
        exact absurd hneg (by decide)
      · by_cases hD : rd c 2 ^^^ rd (E.md5 (S ++ memrd V 0 AUTH_VECTOR_LEN ++ memrd c 0 2)) 0
            ≤ L - 2
        · rw [(hfit (by omega) hD).1] at hneg
          omega
        · exact Or.inr ⟨by omega, by omega⟩
  · unfold fr_radius_decode_tunnel_password
    rcases h with h | ⟨hL, hD⟩
    · simp only [if_pos h]
      decide
    · obtain ⟨f, hf⟩ : ∃ f, L - 2 = f + 1 := ⟨L - 3, by omega⟩
      have hloop := tunnel_password_loop_too_long E S L f
        (S ++ memrd V 0 AUTH_VECTOR_LEN ++ memrd c 0 2) c 0 hL hD
      rw [← hf] at hloop
      simp only [if_neg (show ¬ L < 2 by omega), if_neg (show ¬ L ≤ 3 by omega), hloop]
      decide

theorem tunnel_password_key_eq (E : Env) (S V c : List Nat) (i : Nat) :
    tunnel_password_key E S V c i = match i with
      | 0 => E.md5 (S ++ V ++ memrd c 0 2)
      | i + 1 => E.md5 (S ++ memrd c (16 * i + 2) 16) := by
  cases i <;> rfl

/-- The plaintext of a salt followed by the ciphertext of `x` is `x`. -/
theorem tunnel_password_plain_encrypt (E : Env) (S V salt x rest : List Nat) (k j : Nat)
    (hs : salt.length = 2) (hj : j < 16 * k) :
    tunnel_password_plain E S V
      (salt ++ encrypt_blocks E S k (E.md5 (S ++ V ++ salt)) x ++ rest) j = rd x j := by
  have h := encrypt_blocks_rd E S k (E.md5 (S ++ V ++ salt)) x rest (j / 16) (j % 16)
    (by omega) (by omega)
  have e : 16 * (j / 16) + j % 16 = j := by omega
  rw [e] at h
  have hsalt : memrd (salt ++ encrypt_blocks E S k (E.md5 (S ++ V ++ salt)) x ++ rest) 0 2
      = salt := by
    rw [List.append_assoc, ← hs]
    exact memrd_append_left _ _
  have hblk : ∀ i, memrd (salt ++ encrypt_blocks E S k (E.md5 (S ++ V ++ salt)) x ++ rest)
      (16 * i + 2) 16 = memrd (encrypt_blocks E S k (E.md5 (S ++ V ++ salt)) x ++ rest)
        (16 * i) 16 := by
    intro i
    rw [List.append_assoc, show 16 * i + 2 = salt.length + 16 * i by omega]
    exact memrd_append_right _ _ _ _
  have hrd : rd (salt ++ encrypt_blocks E S k (E.md5 (S ++ V ++ salt)) x ++ rest) (j + 2)
      = rd (encrypt_blocks E S k (E.md5 (S ++ V ++ salt)) x ++ rest) j := by
    rw [List.append_assoc, show j + 2 = salt.length + j by omega]
    exact rd_append_right _ _ _
  unfold tunnel_password_plain
  rw [tunnel_password_key_eq, hrd, h]
  cases hi : j / 16 with
  | zero =>
    simp only [hsalt]
    exact Nat.xor_cancel_right _ _
  | succ i =>
    simp only [hblk]
    exact Nat.xor_cancel_right _ _

/-- C17: with MD5 an arbitrary function, for a secret `S`, a vector `V` of 16 bytes, a salt
of 2 bytes and a plaintext `P`: when the buffer holds the salt followed by the RFC 2868
ciphertext of the length of `P`, `P` and padding up to whole blocks,
`fr_radius_decode_tunnel_password` returns the length of `P`, writes it back as the length and
leaves `P` in the first bytes of the buffer, followed by a zero byte. -/
theorem tunnel_password_round_trip (E : Env) (S V salt P pad rest : List Nat)
    (hV : V.length = 16) (hs : salt.length = 2) (hpad : (1 + P.length + pad.length) % 16 = 0) :
    (fr_radius_decode_tunnel_password E (rfc2868_encrypt E S V salt P pad ++ rest)
        (2 + (1 + P.length + pad.length)) S V).1 = (P.length : Int) ∧
    (fr_radius_decode_tunnel_password E (rfc2868_encrypt E S V salt P pad ++ rest)
        (2 + (1 + P.length + pad.length)) S V).2.2 = P.length ∧
    memrd (fr_radius_decode_tunnel_password E (rfc2868_encrypt E S V salt P pad ++ rest)
        (2 + (1 + P.length + pad.length)) S V).2.1 0 P.length = P ∧
    rd (fr_radius_decode_tunnel_password E (rfc2868_encrypt E S V salt P pad ++ rest)
        (2 + (1 + P.length + pad.length)) S V).2.1 P.length = 0 := by
  have hVm : memrd V 0 AUTH_VECTOR_LEN = V := by
    rw [show AUTH_VECTOR_LEN = V.length from hV.symm]
    exact memrd_all V
  have hk : 16 * ((1 + P.length + pad.length) / 16) = 1 + P.length + pad.length := by omega
  have hplain : ∀ j, j < 1 + P.length + pad.length →
      tunnel_password_plain E S (memrd V 0 AUTH_VECTOR_LEN)
        (rfc2868_encrypt E S V salt P pad ++ rest) j = rd (P.length :: P ++ pad) j := by
    intro j hj
    rw [hVm]
    exact tunnel_password_plain_encrypt E S V salt _ rest _ j hs (by omega)
  have hclen : 2 + (1 + P.length + pad.length) ≤
      (rfc2868_encrypt E S V salt P pad ++ rest).length := by
    unfold rfc2868_encrypt
    rw [List.length_append, List.length_append, encrypt_blocks_length, hk, hs]
    omega
  have hD := hplain 0 (by omega)
  have hD0 : rd (P.length :: P ++ pad) 0 = P.length := rfl
  rw [hD0] at hD
  obtain ⟨r, h, hl, hr⟩ := decode_tunnel_password_fits E S V
    (rfc2868_encrypt E S V salt P pad ++ rest) (2 + (1 + P.length + pad.length)) (by omega)
    (by rw [hD]; omega)
  rw [h, hD]
  refine ⟨rfl, rfl, ?_, ?_⟩
  · show memrd (r.set P.length 0) 0 P.length = P
    have hm : memrd (r.set P.length 0) 0 P.length = memrd P 0 P.length := by
      refine memrd_congr _ _ _ _ _ (fun i hi => ?_)
      rw [Nat.zero_add, rd_set, if_neg (by omega), hr i, if_pos (by omega),
        hplain (i + 1) (by omega)]
      show rd (P ++ pad) i = rd P i
      exact rd_append_left _ _ _ hi
    rw [hm, memrd_all]
  · show rd (r.set P.length 0) P.length = 0
    rw [rd_set, if_pos ⟨rfl, by omega⟩]

/-! ## C18 -/

/-- The locals after the tag block: `data` is still `start`, or it is `buffer`. -/
theorem tag_stage_locals (E : Env) (D : fr_dict_attr_t) (m : List Nat) (start attrlen : Nat)
    (l : Locals) (h : tag_stage E D m start attrlen = some l) :
    (l.at_start = true ∧ l.dmem = m ∧ l.data = start ∧ l.datalen = attrlen) ∨
    (l.at_start = false ∧ l.dmem = l.buffer ∧ l.data = 0) := by
  unfold tag_stage at h
  dsimp only at h
  repeat' split at h
  all_goals first
    | exact Option.noConfusion h
    | (injection h with h; subst h; exact Or.inr ⟨rfl, rfl, rfl⟩)
    | (injection h with h; subst h; exact Or.inl ⟨rfl, rfl, rfl, rfl⟩)

/-- The bytes that `data` points to are the first bytes of the scratch buffer. -/
theorem scratch_buffer_value (E : Env) (D : fr_dict_attr_t) (m : List Nat) (start attrlen : Nat)
    (l : Locals) (h : tag_stage E D m start attrlen = some l) :
    memrd (scratch_buffer l attrlen) 0 l.datalen = memrd l.dmem l.data l.datalen := by
  unfold scratch_buffer
  rcases tag_stage_locals E D m start attrlen l h with ⟨h1, h2, h3, h4⟩ | ⟨h1, h2, h3⟩
  · rw [h1, if_pos rfl, h4]
    have hm := memrd_memcpy l.buffer (memrd l.dmem l.data attrlen)
    rwa [memrd_length] at hm
  · rw [h1, h2, h3]
    rfl

/-- The decryption block for Ascend-Secret without the original packet: a jump to `raw`. -/
theorem decrypt_stage_ascend_no_original (E : Env) (R : Request) (D : fr_dict_attr_t)
    (attrlen : Nat) (l : Locals) (S : List Nat) (packet : RADIUS_PACKET)
    (hS : R.secret = some S) (hP : R.packet = some packet) (hO : R.original = none)
    (hE : D.flags.encrypt = FLAG_ENCRYPT.ASCEND_SECRET) (h253 : attrlen ≤ 253) :
    decrypt_stage E R D attrlen l =
      Step.raw ⟨false, scratch_buffer l attrlen, 0, l.datalen, l.tag,
        scratch_buffer l attrlen⟩ := by
  unfold decrypt_stage
  rw [hS, hP]
  simp only [hE, hO]
  rw [if_pos (by decide), if_neg (by omega)]
  rfl

/-- The decryption block for Tunnel-Password without the original packet: the password
decoder runs with `nullvector`. -/
theorem decrypt_stage_tunnel_no_original (E : Env) (R : Request) (D : fr_dict_attr_t)
    (attrlen : Nat) (l : Locals) (S : List Nat) (packet : RADIUS_PACKET)
    (hS : R.secret = some S) (hP : R.packet = some packet) (hO : R.original = none)
    (hE : D.flags.encrypt = FLAG_ENCRYPT.TUNNEL_PASSWORD) (h253 : attrlen ≤ 253) :
    decrypt_stage E R D attrlen l =
      if (fr_radius_decode_tunnel_password E (scratch_buffer l attrlen) l.datalen S nullvector).1
          < 0 then
        Step.raw ⟨false,
          (fr_radius_decode_tunnel_password E (scratch_buffer l attrlen) l.datalen S nullvector).2.1,
          0,
          (fr_radius_decode_tunnel_password E (scratch_buffer l attrlen) l.datalen S nullvector).2.2,
          l.tag,
          (fr_radius_decode_tunnel_password E (scratch_buffer l attrlen) l.datalen S nullvector).2.1⟩
      else
        Step.go ⟨false,
          (fr_radius_decode_tunnel_password E (scratch_buffer l attrlen) l.datalen S nullvector).2.1,
          0,
          (fr_radius_decode_tunnel_password E (scratch_buffer l attrlen) l.datalen S nullvector).2.2,
          l.tag,
          (fr_radius_decode_tunnel_password E (scratch_buffer l attrlen) l.datalen S nullvector).2.1⟩ := by
  unfold decrypt_stage
  rw [hS, hP]
  simp only [hE, hO]
  rw [if_pos (by decide), if_neg (by omega)]
  rfl

/-- A failed `fr_radius_decode_tunnel_password` leaves the buffer and the length alone. -/
theorem decode_tunnel_password_failed (E : Env) (S V c : List Nat) (L : Nat)
    (h : (fr_radius_decode_tunnel_password E c L S V).1 < 0) :
    (fr_radius_decode_tunnel_password E c L S V).2 = (c, L) := by
  unfold fr_radius_decode_tunnel_password at h ⊢
  dsimp only at h ⊢
  split
  · rfl
  · split
    · rename_i h1 h2
      rw [if_neg h1, if_pos h2] at h
      exact absurd h (Int.lt_irrefl 0)
    · rename_i h1 h2
      rw [if_neg h1, if_neg h2] at h
      split
      · rfl
      · rename_i p rl heq
        rw [heq] at h
        exact absurd h (by simp)

/-- The pair built at the label `raw`. -/
theorem raw_stage_pair (E : Env) (D U : fr_dict_attr_t) (l : Locals) (attrlen : Nat)
    (hU : E.fr_dict_unknown_afrom_fields D.parent D.vendor D.attr = some U)
    (hT : U.type = PW_TYPE.OCTETS) (halloc : E.fr_pair_afrom_da U = true) :
    raw_stage E D l attrlen =
      Decoded.ok attrlen [⟨U, none, l.datalen,
        value_data.vp_octets (memrd l.dmem l.data l.datalen)⟩] := by
  unfold raw_stage
  rw [hU]
  simp [hT, alloc_stage, halloc, leaf_value]

/-- C18 (as amended). When `original` is absent and the secret and the packet are there, for
a value of 1 to 253 bytes that passes the tag block: an Ascend-Secret attribute is decoded as
a raw octets pair that holds the value bytes. A Tunnel-Password attribute is decrypted with
`nullvector`. When that fails it is a raw octets pair of the value bytes. When it succeeds,
the decrypted bytes and the declared length go through the code from the first `switch` on
like any other value, whatever the type of the descriptor; for a string or octets descriptor
the result is one pair of the descriptor that holds the decrypted value. -/
theorem no_original_ascend_raw_tunnel_nullvector (E : Env) (R : Request) (fuel : Nat)
    (D : fr_dict_attr_t) (m : List Nat) (start attrlen packetlen : Nat) (S : List Nat)
    (packet : RADIUS_PACKET) (l : Locals)
    (hS : R.secret = some S) (hP : R.packet = some packet) (hO : R.original = none)
    (h1 : 1 ≤ attrlen) (h253 : attrlen ≤ 253) (hlen : attrlen ≤ packetlen)
    (hl : tag_stage E D m start attrlen = some l) :
    (D.flags.encrypt = FLAG_ENCRYPT.ASCEND_SECRET →
      ∀ U, E.fr_dict_unknown_afrom_fields D.parent D.vendor D.attr = some U →
        U.type = PW_TYPE.OCTETS → E.fr_pair_afrom_da U = true →
        fr_radius_decode_pair_value E R (fuel + 1) D m start attrlen packetlen =
          Decoded.ok attrlen [⟨U, none, l.datalen,
            value_data.vp_octets (memrd l.dmem l.data l.datalen)⟩]) ∧
    (D.flags.encrypt = FLAG_ENCRYPT.TUNNEL_PASSWORD →
      (fr_radius_decode_tunnel_password E (scratch_buffer l attrlen) l.datalen S nullvector).1
        < 0 →
      ∀ U, E.fr_dict_unknown_afrom_fields D.parent D.vendor D.attr = some U →
        U.type = PW_TYPE.OCTETS → E.fr_pair_afrom_da U = true →
        fr_radius_decode_pair_value E R (fuel + 1) D m start attrlen packetlen =
          Decoded.ok attrlen [⟨U, none, l.datalen,
            value_data.vp_octets (memrd (scratch_buffer l attrlen) 0 l.datalen)⟩]) ∧
    (D.flags.encrypt = FLAG_ENCRYPT.TUNNEL_PASSWORD →
      0 ≤ (fr_radius_decode_tunnel_password E (scratch_buffer l attrlen) l.datalen S
        nullvector).1 →
      fr_radius_decode_pair_value E R (fuel + 1) D m start attrlen packetlen =
        from_type_switch E (fr_radius_decode_pair_value E R fuel) D m start attrlen packetlen
          ⟨false,
            (fr_radius_decode_tunnel_password E (scratch_buffer l attrlen) l.datalen S
              nullvector).2.1,
            0,
            (fr_radius_decode_tunnel_password E (scratch_buffer l attrlen) l.datalen S
              nullvector).2.2,
            l.tag,
            (fr_radius_decode_tunnel_password E (scratch_buffer l attrlen) l.datalen S
              nullvector).2.1⟩) ∧
    (D.flags.encrypt = FLAG_ENCRYPT.TUNNEL_PASSWORD →
      0 ≤ (fr_radius_decode_tunnel_password E (scratch_buffer l attrlen) l.datalen S
        nullvector).1 →
      D.type = PW_TYPE.STRING ∨ D.type = PW_TYPE.OCTETS → E.fr_pair_afrom_da D = true →
      fr_radius_decode_pair_value E R (fuel + 1) D m start attrlen packetlen =
        Decoded.ok attrlen [⟨D, l.tag,
          (fr_radius_decode_tunnel_password E (scratch_buffer l attrlen) l.datalen S
            nullvector).2.2,
          text_value D.type (memrd
            (fr_radius_decode_tunnel_password E (scratch_buffer l attrlen) l.datalen S
              nullvector).2.1 0
            (fr_radius_decode_tunnel_password E (scratch_buffer l attrlen) l.datalen S
              nullvector).2.2)⟩]) := by
  have hargs : args_ok attrlen packetlen := ⟨hlen, Or.inl h253, by omega⟩
  refine ⟨fun hE U hU hT halloc => ?_, fun hE hr U hU hT halloc => ?_, fun hE hr => ?_,
    fun hE hr hT halloc => ?_⟩
  · rw [fr_radius_decode_pair_value,
      body_of_raw E R _ D m start attrlen packetlen l _ hargs (by omega) hl
        (decrypt_stage_ascend_no_original E R D attrlen l S packet hS hP hO hE h253),
      raw_stage_pair E D U _ attrlen hU hT halloc]
    simp only [scratch_buffer_value E D m start attrlen l hl]
  · have hd := decrypt_stage_tunnel_no_original E R D attrlen l S packet hS hP hO hE h253
    rw [if_pos hr] at hd
    rw [fr_radius_decode_pair_value,
      body_of_raw E R _ D m start attrlen packetlen l _ hargs (by omega) hl hd,
      raw_stage_pair E D U _ attrlen hU hT halloc]
    have hf := decode_tunnel_password_failed E S nullvector (scratch_buffer l attrlen)
      l.datalen hr
    simp only [hf]
  · have hd := decrypt_stage_tunnel_no_original E R D attrlen l S packet hS hP hO hE h253
    rw [if_neg (by omega)] at hd
    rw [fr_radius_decode_pair_value,
      body_from_type_switch E R _ D m start attrlen packetlen l _ hargs (by omega) hl hd]
  · have hd := decrypt_stage_tunnel_no_original E R D attrlen l S packet hS hP hO hE h253
    rw [if_neg (by omega)] at hd
    rw [fr_radius_decode_pair_value,
      body_of_stages E R _ D m start attrlen packetlen l _ _ D hargs (by omega) hl hd
        (shape_stage_text E _ D m start attrlen packetlen _ hT),
      alloc_stage_text E D _ attrlen hT halloc]


/-! ## C19 and C20: the check of the sub-attributes -/

/-- A turn of the loop of `fr_radius_decode_tlv_ok` that ends in success: the header lies in
the slice and the type field passed the `switch (dv_type)`. -/
theorem tlv_ok_loop_head (m : List Nat) (fin t l fuel data len : Nat)
    (h : tlv_ok_loop m fin t l (fuel + 1) data len = 0) (hd : data < fin) :
    data + t + l ≤ fin ∧ tlv_type_ok m data t = true := by
  unfold tlv_ok_loop at h
  rw [if_pos hd] at h
  by_cases h1 : data + t + l > fin
  · rw [if_pos h1] at h
    exact absurd h (by decide)
  · rw [if_neg h1] at h
    by_cases h2 : tlv_type_ok m data t = true
    · exact ⟨by omega, h2⟩
    · rw [if_pos h2] at h
      exact absurd h (by decide)

theorem vsa_walk_zero (m : List Nat) (t l fuel data : Nat) : vsa_walk m t l fuel data 0 = [] := by
  cases fuel with
  | zero => rfl
  | succ fuel =>
    unfold vsa_walk
    rw [if_neg (by omega)]

/-- After a successful check the walk by the widths stays in the slice, every type field in it
passed the check, and the lengths add up to the length of the slice. -/
theorem tlv_ok_walk (m : List Nat) (t l : Nat) (ht : 1 ≤ t) :
    ∀ fuel data len, len ≤ fuel → tlv_ok_loop m (data + len) t l fuel data len = 0 →
      (∀ seg ∈ vsa_walk m t l fuel data len, data ≤ seg.1 ∧ seg.1 + t + l ≤ data + len ∧
        t + l ≤ seg.2 ∧ seg.1 + seg.2 ≤ data + len ∧ tlv_type_ok m seg.1 t = true) ∧
      ((vsa_walk m t l fuel data len).map Prod.snd).sum = len := by
  intro fuel
  induction fuel with
  | zero =>
    intro data len hlen _
    have : len = 0 := by omega
    subst this
    exact ⟨fun seg hseg => by simp [vsa_walk] at hseg, rfl⟩
  | succ fuel ih =>
    intro data len hlen h
    by_cases h0 : len = 0
    · subst h0
      rw [vsa_walk_zero]
      exact ⟨fun seg hseg => by simp at hseg, rfl⟩
    · have hd : data < data + len := by omega
      obtain ⟨hhead, htype⟩ := tlv_ok_loop_head m _ t l fuel data len h hd
      by_cases hl0 : l = 0
      · subst hl0
        unfold vsa_walk
        rw [if_pos (by omega), vsa_attrlen_zero]
        dsimp only
        rw [sub_sz_of_le _ _ (Nat.le_refl _), Nat.sub_self, vsa_walk_zero]
        refine ⟨fun seg hseg => ?_, by simp⟩
        have hs : seg = (data, len) := by simpa using hseg
        subst hs
        exact ⟨Nat.le_refl _, hhead, by omega, Nat.le_refl _, htype⟩
      · obtain ⟨hl12, h1, h2, h3, h4⟩ := tlv_ok_loop_step m _ t l fuel data len h hd hl0
        have ha : vsa_attrlen m data len t l = some (rd m (data + t + l - 1)) := by
          rcases hl12 with rfl | rfl
          · exact vsa_attrlen_one m data len t
          · exact vsa_attrlen_two m data len t
        have hfin : data + rd m (data + t + l - 1) + (len - rd m (data + t + l - 1)) =
            data + len := by omega
        rw [← hfin] at h4
        obtain ⟨ih1, ih2⟩ := ih (data + rd m (data + t + l - 1)) (len - rd m (data + t + l - 1))
          (by omega) h4
        unfold vsa_walk
        rw [if_pos (by omega), ha]
        dsimp only
        rw [sub_sz_of_le _ _ h3]
        refine ⟨fun seg hseg => ?_, ?_⟩
        · rcases List.mem_cons.mp hseg with hs | hs
          · subst hs
            exact ⟨Nat.le_refl _, h1, h2, by omega, htype⟩
          · obtain ⟨a1, a2, a3, a4, a5⟩ := ih1 seg hs
            exact ⟨by omega, by omega, a3, by omega, a5⟩
        · rw [List.map_cons, List.sum_cons, ih2]
          show rd m (data + t + l - 1) + (len - rd m (data + t + l - 1)) = len
          omega

/-- After a successful check with the widths (1, 1) the loop of `fr_radius_decode_tlv` makes
the turns of the walk. -/
theorem tlv_walk_eq (m : List Nat) :
    ∀ fuel data len, len ≤ fuel → tlv_ok_loop m (data + len) 1 1 fuel data len = 0 →
      tlv_walk m (data + len) fuel data = vsa_walk m 1 1 fuel data len := by
  intro fuel
  induction fuel with
  | zero => intro data len _ _; rfl
  | succ fuel ih =>
    intro data len hlen h
    by_cases h0 : len = 0
    · subst h0
      rw [vsa_walk_zero]
      unfold tlv_walk
      rw [if_neg (by omega)]
    · have hd : data < data + len := by omega
      obtain ⟨_, h1, h2, h3, h4⟩ := tlv_ok_loop_step m _ 1 1 fuel data len h hd (by omega)
      have e : data + 1 + 1 - 1 = data + 1 := by omega
      rw [e] at h2 h3 h4
      have hfin : data + rd m (data + 1) + (len - rd m (data + 1)) = data + len := by omega
      unfold tlv_walk vsa_walk
      rw [if_pos hd, if_pos (by omega), vsa_attrlen_one, e]
      dsimp only
      rw [sub_sz_of_le _ _ h3]
      rw [← hfin] at h4
      have := ih (data + rd m (data + 1)) (len - rd m (data + 1)) (by omega) h4
      rw [hfin] at this
      rw [this]

theorem tlv_ok_zero (m : List Nat) (data length t l : Nat)
    (h : fr_radius_decode_tlv_ok m data length t l = 0) :
    l ≤ 2 ∧ 1 ≤ t ∧ tlv_ok_loop m (data + length) t l length data length = 0 :=
  tlv_ok_success m data length t l (by rw [h]; decide)

/-- C19: for a slice of `length` bytes at `data` and widths `t` and `l` (the check accepts none
but `t` from 1 to 4 and `l` from 0 to 2): when `fr_radius_decode_tlv_ok` succeeds, the walk by
those widths passes sub-attributes whose header and payload lie in the slice and whose lengths
add up to `length`; and for the widths (1, 1) the loop of `fr_radius_decode_tlv` makes those
turns, so that `data[0]`, `data[1]` and the payload of every turn lie in the slice and the loop
stops at its end. -/
theorem tlv_ok_walk_stays_in_slice (m : List Nat) (data length t l : Nat)
    (hok : fr_radius_decode_tlv_ok m data length t l = 0) :
    (∀ seg ∈ vsa_walk m t l length data length,
      data ≤ seg.1 ∧ seg.1 + t + l ≤ data + length ∧ t + l ≤ seg.2 ∧
      seg.1 + seg.2 ≤ data + length) ∧
    ((vsa_walk m t l length data length).map Prod.snd).sum = length ∧
    (t = 1 → l = 1 →
      (∀ seg ∈ tlv_walk m (data + length) length data,
        data ≤ seg.1 ∧ seg.1 + 2 ≤ data + length ∧ 2 ≤ seg.2 ∧ seg.1 + seg.2 ≤ data + length) ∧
      ((tlv_walk m (data + length) length data).map Prod.snd).sum = length) := by
  obtain ⟨_, ht1, hloop⟩ := tlv_ok_zero m data length t l hok
  obtain ⟨w1, w2⟩ := tlv_ok_walk m t l ht1 length data length (Nat.le_refl _) hloop
  refine ⟨fun seg hseg => ?_, w2, fun h1 h2 => ?_⟩
  · obtain ⟨a1, a2, a3, a4, _⟩ := w1 seg hseg
    exact ⟨a1, a2, a3, a4⟩
  · subst h1 h2
    rw [tlv_walk_eq m length data length (Nat.le_refl _) hloop]
    refine ⟨fun seg hseg => ?_, w2⟩
    obtain ⟨a1, a2, a3, a4, _⟩ := w1 seg hseg
    exact ⟨a1, by omega, by omega, a4⟩

theorem tlv_ok_values (m : List Nat) (data length t l : Nat) :
    fr_radius_decode_tlv_ok m data length t l = 0 ∨
    fr_radius_decode_tlv_ok m data length t l = -1 := by
  unfold fr_radius_decode_tlv_ok
  split
  · exact Or.inr rfl
  · exact tlv_ok_loop_vals _ _ _ _ _ _ _

/-- C20, amended: for a slice in which the walk passes a sub-attribute whose type field is all
zero bytes, `fr_radius_decode_tlv_ok` returns -1 when the type width is 2 or 4; when the type
width is 1 the `switch (dv_type)` lets the zero type pass. -/
theorem tlv_ok_rejects_zero_type (m : List Nat) (data length t l : Nat) (seg : Nat × Nat)
    (hseg : seg ∈ vsa_walk m t l length data length)
    (hz : ∀ i, i < t → rd m (seg.1 + i) = 0) :
    (t = 2 ∨ t = 4 → fr_radius_decode_tlv_ok m data length t l = -1) ∧
    (t = 1 → tlv_type_ok m seg.1 t = true) := by
  refine ⟨fun ht => ?_, fun h1 => by simp [tlv_type_ok, h1]⟩
  rcases tlv_ok_values m data length t l with h0 | h1
  · obtain ⟨_, ht1, hloop⟩ := tlv_ok_zero m data length t l h0
    obtain ⟨w1, _⟩ := tlv_ok_walk m t l ht1 length data length (Nat.le_refl _) hloop
    obtain ⟨_, _, _, _, htype⟩ := w1 seg hseg
    have z0 := hz 0 (by omega)
    have z1 := hz 1 (by omega)
    rw [Nat.add_zero] at z0
    rcases ht with rfl | rfl
    · simp [tlv_type_ok, z0, z1] at htype
    · have z2 := hz 2 (by omega)
      have z3 := hz 3 (by omega)
      simp [tlv_type_ok, z0, z1, z2, z3] at htype
  · exact h1

/-! ## Concrete instances for C11 to C20 -/

theorem tagged_string_takes_first_byte_witness :
    fr_radius_decode_pair_value (demo_env 0) no_request 1
        (demo_attr 64 PW_TYPE.STRING ⟨true, false, FLAG_ENCRYPT.NONE, 0⟩) [1, 104, 105] 0 3 3 =
      Decoded.ok 3 [⟨demo_attr 64 PW_TYPE.STRING ⟨true, false, FLAG_ENCRYPT.NONE, 0⟩, some 1, 2,
        value_data.vp_strvalue [104, 105]⟩] :=
  ((tagged_string_takes_first_byte (demo_env 0) no_request 0
    (demo_attr 64 PW_TYPE.STRING ⟨true, false, FLAG_ENCRYPT.NONE, 0⟩) [1, 104, 105] 0 3 3
    rfl rfl (by decide) (by decide)).2 (by decide) rfl (Or.inl rfl)).trans (by decide)

theorem tagged_integer_tag_in_top_byte_witness :
    fr_radius_decode_pair_value (demo_env 0) no_request 1
        (demo_attr 7 PW_TYPE.INTEGER ⟨true, false, FLAG_ENCRYPT.NONE, 0⟩) [3, 1, 2, 5] 0 4 4 =
      Decoded.ok 4 [⟨demo_attr 7 PW_TYPE.INTEGER ⟨true, false, FLAG_ENCRYPT.NONE, 0⟩, some 3, 4,
        value_data.vp_integer 66053⟩] ∧ 66053 < 2 ^ 24 :=
  ⟨(tagged_integer_tag_in_top_byte (demo_env 0) no_request 0
    (demo_attr 7 PW_TYPE.INTEGER ⟨true, false, FLAG_ENCRYPT.NONE, 0⟩) [3, 1, 2, 5] 0 4
    rfl rfl rfl (by decide) (by decide) rfl).1.trans (by decide), by decide⟩

theorem user_password_xor_of_keys_witness :
    memrd (fr_radius_decode_password crypt_env
        (rfc2865_encrypt crypt_env demo_secret demo_vector (arctangent ++ List.replicate 6 0) ++
          List.replicate 240 0) 16 demo_secret demo_vector).2 0 16 =
        arctangent ++ List.replicate 6 0 ∧
      (fr_radius_decode_password crypt_env
        (rfc2865_encrypt crypt_env demo_secret demo_vector (arctangent ++ List.replicate 6 0) ++
          List.replicate 240 0) 16 demo_secret demo_vector).1 =
        strlen (arctangent ++ List.replicate 6 0) :=
  (user_password_xor_of_keys crypt_env demo_secret demo_vector
    (rfc2865_encrypt crypt_env demo_secret demo_vector (arctangent ++ List.replicate 6 0) ++
      List.replicate 240 0) 16 rfl (by decide) (by decide)
    (by rw [List.length_append, List.length_replicate]; omega)).2
    (arctangent ++ List.replicate 6 0) (List.replicate 240 0) rfl rfl rfl

/-- C14, the claim at a tagged descriptor: a string descriptor that can carry a tag, encrypted
as User-Password with the length hint 24, and the 3 value bytes `01 41 42`. The tag byte is
taken, so the value of the pair has 2 bytes, not `min 3 24 = 3`. -/
theorem user_password_hint_of_tagged_string :
    fr_radius_decode_pair_value crypt_env demo_request 1
        (demo_attr 2 PW_TYPE.STRING ⟨true, false, FLAG_ENCRYPT.USER_PASSWORD, 24⟩) [1, 65, 66]
        0 3 3 =
      Decoded.ok 3 [⟨demo_attr 2 PW_TYPE.STRING ⟨true, false, FLAG_ENCRYPT.USER_PASSWORD, 24⟩,
        some 1, 2, value_data.vp_strvalue [19, 27]⟩] ∧ 2 ≠ min 3 24 := by
  decide

theorem user_password_value_stripped_witness :
    fr_radius_decode_pair_value crypt_env demo_request 1
        (demo_attr 2 PW_TYPE.STRING ⟨false, false, FLAG_ENCRYPT.USER_PASSWORD, 0⟩)
        [51, 43, 3, 19, 15, 27, 27, 230, 228, 229, 152, 159, 166, 173, 180, 187] 0 16 16 =
      Decoded.ok 16 [⟨demo_attr 2 PW_TYPE.STRING ⟨false, false, FLAG_ENCRYPT.USER_PASSWORD, 0⟩,
        none, 10, value_data.vp_strvalue arctangent⟩] ∧
    ∃ n, n ≤ 16 ∧
      fr_radius_decode_pair_value crypt_env demo_request 1
        (demo_attr 2 PW_TYPE.STRING ⟨false, false, FLAG_ENCRYPT.USER_PASSWORD, 0⟩)
        [51, 43, 3, 19, 15, 27, 27, 230, 228, 229, 152, 159, 166, 173, 180, 187] 0 16 16 =
        Decoded.ok 16 [⟨demo_attr 2 PW_TYPE.STRING ⟨false, false, FLAG_ENCRYPT.USER_PASSWORD, 0⟩,
          none, n, text_value PW_TYPE.STRING
            (user_password_plaintext crypt_env demo_secret
              (memrd (user_password_vector demo_request ⟨demo_vector⟩) 0 AUTH_VECTOR_LEN)
              (memrd [51, 43, 3, 19, 15, 27, 27, 230, 228, 229, 152, 159, 166, 173, 180, 187]
                0 16) n)⟩] ∧
      (∀ j, n ≤ j → j < 16 →
        user_password_plain crypt_env demo_secret
          (memrd (user_password_vector demo_request ⟨demo_vector⟩) 0 AUTH_VECTOR_LEN)
          (memrd [51, 43, 3, 19, 15, 27, 27, 230, 228, 229, 152, 159, 166, 173, 180, 187]
            0 16) j = 0) ∧
      (n = 0 ∨
        user_password_plain crypt_env demo_secret
          (memrd (user_password_vector demo_request ⟨demo_vector⟩) 0 AUTH_VECTOR_LEN)
          (memrd [51, 43, 3, 19, 15, 27, 27, 230, 228, 229, 152, 159, 166, 173, 180, 187]
            0 16) (n - 1) ≠ 0) :=
  ⟨by decide, (user_password_value_stripped crypt_env demo_request 0
    (demo_attr 2 PW_TYPE.STRING ⟨false, false, FLAG_ENCRYPT.USER_PASSWORD, 0⟩)
    [51, 43, 3, 19, 15, 27, 27, 230, 228, 229, 152, 159, 166, 173, 180, 187] 0 16 16 demo_secret
    ⟨demo_vector⟩ rfl rfl (Or.inl rfl) rfl (by decide) (by decide) (by decide) (by decide)
    rfl).1 rfl⟩

/-- C15. The code at the failing input: a string descriptor encrypted as User-Password, no
tag, no length hint, and a value of 130 bytes, 129 times `41` and then `07`. The pair holds 130
bytes; byte 128 is zero and byte 129 is the last byte of the ciphertext, `07`. -/
theorem user_password_over_128_keeps_ciphertext :
    ∃ value, fr_radius_decode_pair_value crypt_env demo_request 1
        (demo_attr 2 PW_TYPE.STRING ⟨false, false, FLAG_ENCRYPT.USER_PASSWORD, 0⟩)
        (List.replicate 129 65 ++ [7]) 0 130 130 =
      Decoded.ok 130 [⟨demo_attr 2 PW_TYPE.STRING ⟨false, false, FLAG_ENCRYPT.USER_PASSWORD, 0⟩,
        none, 130, value_data.vp_strvalue value⟩] ∧
      value.length = 130 ∧ 128 < value.length ∧ rd value 128 = 0 ∧
      rd value 129 = rd (List.replicate 129 65 ++ [7]) 129 ∧
      rd (List.replicate 129 65 ++ [7]) 129 = 7 := by
  obtain ⟨value, h1, h2, h3, h4⟩ := user_password_tail_kept crypt_env demo_request 0
    (demo_attr 2 PW_TYPE.STRING ⟨false, false, FLAG_ENCRYPT.USER_PASSWORD, 0⟩)
    (List.replicate 129 65 ++ [7]) 0 130 130 demo_secret ⟨demo_vector⟩ rfl rfl (Or.inl rfl) rfl
    rfl rfl (by decide) (by decide) (by decide) rfl (by decide)
  refine ⟨value, h1, h2, by omega, h3, ?_, by decide⟩
  have := h4 129 (by omega) (by omega)
  rwa [Nat.zero_add] at this

theorem tunnel_password_round_trip_witness :
    (fr_radius_decode_tunnel_password crypt_env
        (rfc2868_encrypt crypt_env demo_secret demo_vector [128, 1] hello (List.replicate 10 0)
          ++ List.replicate 238 0) (2 + (1 + hello.length + (List.replicate 10 0).length))
        demo_secret demo_vector).1 = 5 ∧
    memrd (fr_radius_decode_tunnel_password crypt_env
        (rfc2868_encrypt crypt_env demo_secret demo_vector [128, 1] hello (List.replicate 10 0)
          ++ List.replicate 238 0) (2 + (1 + hello.length + (List.replicate 10 0).length))
        demo_secret demo_vector).2.1 0 hello.length = [104, 101, 108, 108, 111] :=
  ⟨(tunnel_password_round_trip crypt_env demo_secret demo_vector [128, 1] hello
      (List.replicate 10 0) (List.replicate 238 0) rfl rfl (by decide)).1,
    (tunnel_password_round_trip crypt_env demo_secret demo_vector [128, 1] hello
      (List.replicate 10 0) (List.replicate 238 0) rfl rfl (by decide)).2.2.1⟩

/-- C18, the claim at a Tunnel-Password attribute: a string descriptor encrypted as
Tunnel-Password, a request without original packet, and the salt `80 01` followed by the
ciphertext of `hello` under the vector of 16 zero bytes. The pair is a string pair of the
descriptor that holds `hello`, not an octets pair of an unknown attribute. -/
theorem tunnel_password_decrypted_without_original :
    demo_request.original = none ∧
    fr_radius_decode_pair_value crypt_env demo_request 1
        (demo_attr 69 PW_TYPE.STRING ⟨false, false, FLAG_ENCRYPT.TUNNEL_PASSWORD, 0⟩)
        [128, 1, 207, 185, 189, 179, 138, 130, 244, 251, 2, 9, 16, 23, 30, 37, 44, 51] 0 18 18 =
      Decoded.ok 18 [⟨demo_attr 69 PW_TYPE.STRING ⟨false, false, FLAG_ENCRYPT.TUNNEL_PASSWORD, 0⟩,
        none, 5, value_data.vp_strvalue hello⟩] ∧
    rfc2868_encrypt crypt_env demo_secret nullvector [128, 1] hello (List.replicate 10 0) =
      [128, 1, 207, 185, 189, 179, 138, 130, 244, 251, 2, 9, 16, 23, 30, 37, 44, 51] := by
  decide

theorem no_original_ascend_raw_tunnel_nullvector_witness :
    fr_radius_decode_pair_value crypt_env demo_request 1
        (demo_attr 214 PW_TYPE.STRING ⟨false, false, FLAG_ENCRYPT.ASCEND_SECRET, 0⟩)
        [1, 2, 3, 4] 0 4 4 =
      Decoded.ok 4 [⟨demo_unknown (some demo_root) 0 214, none, 4,
        value_data.vp_octets [1, 2, 3, 4]⟩]
    ∧ fr_radius_decode_pair_value crypt_env demo_request 1
        (demo_attr 69 PW_TYPE.INTEGER ⟨false, false, FLAG_ENCRYPT.TUNNEL_PASSWORD, 0⟩)
        [128, 1, 207, 185, 189, 179, 138, 130, 244, 251, 2, 9, 16, 23, 30, 37, 44, 51] 0 18 18 =
      Decoded.ok 18 [⟨demo_unknown (some demo_root) 0 69, none, 5, value_data.vp_octets hello⟩] :=
  ⟨((no_original_ascend_raw_tunnel_nullvector crypt_env demo_request 0
      (demo_attr 214 PW_TYPE.STRING ⟨false, false, FLAG_ENCRYPT.ASCEND_SECRET, 0⟩)
      [1, 2, 3, 4] 0 4 4 demo_secret ⟨demo_vector⟩
      (entry_locals crypt_env [1, 2, 3, 4] 0 4) rfl rfl rfl (by decide) (by decide) (by decide)
      (tag_stage_untagged _ _ _ _ _ rfl)).1 rfl (demo_unknown (some demo_root) 0 214) rfl rfl
      rfl).trans (by decide),
    ((no_original_ascend_raw_tunnel_nullvector crypt_env demo_request 0
      (demo_attr 69 PW_TYPE.INTEGER ⟨false, false, FLAG_ENCRYPT.TUNNEL_PASSWORD, 0⟩)
      [128, 1, 207, 185, 189, 179, 138, 130, 244, 251, 2, 9, 16, 23, 30, 37, 44, 51] 0 18 18
      demo_secret ⟨demo_vector⟩
      (entry_locals crypt_env
        [128, 1, 207, 185, 189, 179, 138, 130, 244, 251, 2, 9, 16, 23, 30, 37, 44, 51] 0 18)
      rfl rfl rfl (by decide) (by decide) (by decide)
      (tag_stage_untagged _ _ _ _ _ rfl)).2.2.1 rfl (by decide)).trans (by decide)⟩

theorem tlv_ok_walk_stays_in_slice_witness :
    fr_radius_decode_tlv_ok [1, 6, 0, 0, 0, 5, 2, 3, 9] 0 9 1 1 = 0 ∧
    tlv_walk [1, 6, 0, 0, 0, 5, 2, 3, 9] (0 + 9) 9 0 = [(0, 6), (6, 3)] ∧
    ((tlv_walk [1, 6, 0, 0, 0, 5, 2, 3, 9] (0 + 9) 9 0).map Prod.snd).sum = 9 :=
  ⟨by decide, by decide,
    ((tlv_ok_walk_stays_in_slice [1, 6, 0, 0, 0, 5, 2, 3, 9] 0 9 1 1 (by decide)).2.2
      rfl rfl).2⟩

/-- C20, the claim at the type width 1: the slice `00 02` with the widths (1, 1) holds one
sub-attribute whose type field is zero, and `fr_radius_decode_tlv_ok` returns 0 for it. -/
theorem tlv_ok_accepts_zero_type_of_width_one :
    vsa_walk [0, 2] 1 1 2 0 2 = [(0, 2)] ∧ rd [0, 2] 0 = 0 ∧
    fr_radius_decode_tlv_ok [0, 2] 0 2 1 1 = 0 := by
  decide

theorem tlv_ok_rejects_zero_type_witness :
    (0, 4) ∈ vsa_walk [0, 0, 4, 9] 2 1 4 0 4 ∧ fr_radius_decode_tlv_ok [0, 0, 4, 9] 0 4 2 1 = -1 :=
  ⟨by decide, (tlv_ok_rejects_zero_type [0, 0, 4, 9] 0 4 2 1 (0, 4) (by decide)
    (by decide)).1 (Or.inl rfl)⟩

/-! ## C21 -/

theorem tlv_type_ok_iff (m : List Nat) (data t : Nat) (ht : t = 1 ∨ t = 2 ∨ t = 4) :
    tlv_type_ok m data t = true ↔
      ((t = 2 → ¬ (rd m data = 0 ∧ rd m (data + 1) = 0)) ∧
      (t = 4 → ¬ (rd m data = 0 ∧ rd m (data + 1) = 0 ∧ rd m (data + 2) = 0 ∧
        rd m (data + 3) = 0) ∧ rd m data = 0)) := by
  rcases ht with rfl | rfl | rfl
  · simp [tlv_type_ok]
  · by_cases h0 : rd m data = 0 <;> by_cases h1 : rd m (data + 1) = 0 <;>
      simp [tlv_type_ok, h0, h1]
  · by_cases h0 : rd m data = 0
    · by_cases h1 : rd m (data + 1) = 0 ∧ rd m (data + 2) = 0 ∧ rd m (data + 3) = 0
      · simp [tlv_type_ok, h0, h1]
      · simp [tlv_type_ok, h0, h1]
    · simp [tlv_type_ok, h0]

/-- One turn of the loop of `fr_radius_decode_tlv_ok` for a length field of 1 or 2 bytes: it
ends in success exactly when the sub-attribute at `data` is as the check asks and the check
succeeds on the rest. -/
theorem tlv_ok_loop_succ_iff (m : List Nat) (fin t l fuel data len : Nat) (hd : data < fin)
    (hl : l = 1 ∨ l = 2) :
    tlv_ok_loop m fin t l (fuel + 1) data len = 0 ↔
      (data + t + l ≤ fin ∧ tlv_type_ok m data t = true ∧ (l = 2 → rd m (data + t) = 0) ∧
        t + l ≤ rd m (data + t + l - 1) ∧ rd m (data + t + l - 1) ≤ len ∧
        tlv_ok_loop m fin t l fuel (data + rd m (data + t + l - 1))
          (len - rd m (data + t + l - 1)) = 0) := by
  have hsw : tlv_length_switch m data t l =
      if l = 2 ∧ rd m (data + t) ≠ 0 then Sum.inl (-1)
      else Sum.inr (rd m (data + t + l - 1)) := by
    rcases hl with rfl | rfl
    · simp [tlv_length_switch]
    · by_cases h : rd m (data + t) = 0 <;> simp [tlv_length_switch, h]
  rw [tlv_ok_loop, if_pos hd, hsw]
  by_cases h1 : data + t + l > fin
  · rw [if_pos h1]
    constructor
    · intro h; exact absurd h (by decide)
    · intro h; omega
  · rw [if_neg h1]
    by_cases h2 : tlv_type_ok m data t = true
    · rw [if_neg (by simp [h2])]
      by_cases h3 : l = 2 ∧ rd m (data + t) ≠ 0
      · rw [if_pos h3]
        dsimp only
        constructor
        · intro h; exact absurd h (by decide)
        · intro h; exact absurd (h.2.2.1 h3.1) h3.2
      · rw [if_neg h3]
        dsimp only
        by_cases h4 : rd m (data + t + l - 1) < t + l
        · rw [if_pos h4]
          constructor
          · intro h; exact absurd h (by decide)
          · intro h; omega
        · rw [if_neg h4]
          by_cases h5 : rd m (data + t + l - 1) > len
          · rw [if_pos h5]
            constructor
            · intro h; exact absurd h (by decide)
            · intro h; omega
          · rw [if_neg h5]
            constructor
            · intro h
              refine ⟨by omega, h2, fun hl2 => ?_, by omega, by omega, h⟩
              by_contra hne
              exact h3 ⟨hl2, hne⟩
            · intro h; exact h.2.2.2.2.2
    · rw [if_pos (by simp [h2])]
      constructor
      · intro h; exact absurd h (by decide)
      · intro h; exact absurd h.2.1 h2

/-- The loop of `fr_radius_decode_tlv_ok` ends in success exactly for a concatenation of
sub-attributes as the check asks. -/
theorem tlv_ok_loop_iff (m : List Nat) (t l : Nat) (ht : t = 1 ∨ t = 2 ∨ t = 4)
    (hl : l = 1 ∨ l = 2) :
    ∀ fuel data len, len ≤ fuel →
      (tlv_ok_loop m (data + len) t l fuel data len = 0 ↔ ∃ ds, sub_attrs m t l data len ds) := by
  intro fuel
  induction fuel with
  | zero =>
    intro data len hlen
    have h0 : len = 0 := by omega
    subst h0
    unfold tlv_ok_loop
    rw [if_neg (by omega)]
    exact ⟨fun _ => ⟨[], rfl⟩, fun _ => rfl⟩
  | succ fuel ih =>
    intro data len hlen
    by_cases h0 : len = 0
    · subst h0
      unfold tlv_ok_loop
      rw [if_neg (by omega)]
      exact ⟨fun _ => ⟨[], rfl⟩, fun _ => rfl⟩
    · rw [tlv_ok_loop_succ_iff m _ t l fuel data len (by omega) hl, tlv_type_ok_iff m data t ht]
      constructor
      · rintro ⟨a1, ⟨a2, a3⟩, a4, a5, a6, a7⟩
        have hfin : data + rd m (data + t + l - 1) + (len - rd m (data + t + l - 1)) =
            data + len := by omega
        rw [← hfin] at a7
        obtain ⟨ds, hds⟩ := (ih (data + rd m (data + t + l - 1))
          (len - rd m (data + t + l - 1)) (by omega)).mp a7
        exact ⟨rd m (data + t + l - 1) :: ds, ⟨by omega, rfl, a5, a6, a4, a2, a3⟩, hds⟩
      · rintro ⟨ds, hds⟩
        cases ds with
        | nil => exact absurd hds h0
        | cons d ds =>
          obtain ⟨⟨b1, b2, b3, b4, b5, b6, b7⟩, hrest⟩ := hds
          subst b2
          have hfin : data + rd m (data + t + l - 1) + (len - rd m (data + t + l - 1)) =
              data + len := by omega
          refine ⟨by omega, ⟨b6, b7⟩, b5, b3, b4, ?_⟩
          have := (ih (data + rd m (data + t + l - 1)) (len - rd m (data + t + l - 1))
            (by omega)).mpr ⟨ds, hrest⟩
          rwa [hfin] at this

/-- C21: for the widths `t` in 1, 2, 4 and `l` in 1, 2, `fr_radius_decode_tlv_ok` succeeds on
the `length` bytes at `data` exactly when they are a concatenation of sub-attributes, each with
its header in the bytes left, a declared length of at least `t + l` and at most the bytes left,
a zero high length byte when `l = 2`, a type that is not zero when `t` is 2 or 4, and a zero
top type byte when `t = 4`; the empty slice is accepted. -/
theorem tlv_ok_iff_sub_attrs (m : List Nat) (data length t l : Nat)
    (ht : t = 1 ∨ t = 2 ∨ t = 4) (hl : l = 1 ∨ l = 2) :
    (fr_radius_decode_tlv_ok m data length t l = 0 ↔ ∃ ds, sub_attrs m t l data length ds) ∧
    fr_radius_decode_tlv_ok m data 0 t l = 0 := by
  have h : ∀ len, fr_radius_decode_tlv_ok m data len t l =
      tlv_ok_loop m (data + len) t l len data len := by
    intro len
    unfold fr_radius_decode_tlv_ok
    rw [if_neg (by omega)]
  refine ⟨?_, ?_⟩
  · rw [h]
    exact tlv_ok_loop_iff m t l ht hl length data length (Nat.le_refl _)
  · rw [h]
    exact (tlv_ok_loop_iff m t l ht hl 0 data 0 (Nat.le_refl _)).mpr ⟨[], rfl⟩

theorem tlv_ok_iff_sub_attrs_witness :
    fr_radius_decode_tlv_ok [1, 6, 0, 0, 0, 5, 2, 3, 9] 0 9 1 1 = 0
      ∧ sub_attrs [1, 6, 0, 0, 0, 5, 2, 3, 9] 1 1 0 9 [6, 3]
      ∧ fr_radius_decode_tlv_ok [1, 6, 0, 0, 0, 5, 2, 3, 9] 0 0 1 1 = 0 := by
  have h := tlv_ok_iff_sub_attrs [1, 6, 0, 0, 0, 5, 2, 3, 9] 0 9 1 1 (Or.inl rfl) (Or.inl rfl)
  exact ⟨h.1.mpr ⟨[6, 3], by decide⟩, by decide, h.2⟩

/-! ## C22 -/

/-- C22. The code at the failing input. The value of the TLV attribute 10 holds two
sub-attributes: number 1, itself a TLV with the integers 1 and 2, and number 2, the integer 3.
Decoded alone the first gives two pairs and the second one pair, yet `fr_radius_decode_tlv`
returns two pairs, the integers 1 and 3: `tail` moves on by one pair only, so the pair that
follows overwrites the second pair of the nested list. The same happens in `decode_vsa` with a
nested TLV of vendor 9 that is followed by a further sub-attribute. -/
theorem nested_tlv_loses_second_pair :
    fr_radius_decode_pair_value nest_env no_request 2 nest_inner
        [1, 14, 1, 6, 0, 0, 0, 1, 2, 6, 0, 0, 0, 2, 2, 6, 0, 0, 0, 3] 2 12 12
        = Decoded.ok 12
          [⟨⟨0, 1, PW_TYPE.INTEGER, no_flags, nest_inner.link :: nest_inner.lineage⟩, none, 4,
              value_data.vp_integer 1⟩,
            ⟨⟨0, 2, PW_TYPE.INTEGER, no_flags, nest_inner.link :: nest_inner.lineage⟩, none, 4,
              value_data.vp_integer 2⟩]
      ∧ fr_radius_decode_pair_value nest_env no_request 2
          ⟨0, 2, PW_TYPE.INTEGER, no_flags, nest_tlv.link :: nest_tlv.lineage⟩
        [1, 14, 1, 6, 0, 0, 0, 1, 2, 6, 0, 0, 0, 2, 2, 6, 0, 0, 0, 3] 16 4 4
        = Decoded.ok 4
          [⟨⟨0, 2, PW_TYPE.INTEGER, no_flags, nest_tlv.link :: nest_tlv.lineage⟩, none, 4,
              value_data.vp_integer 3⟩]
      ∧ fr_radius_decode_tlv nest_env (fr_radius_decode_pair_value nest_env no_request 2) nest_tlv
        [1, 14, 1, 6, 0, 0, 0, 1, 2, 6, 0, 0, 0, 2, 2, 6, 0, 0, 0, 3] 0 20
        = Decoded.ok 20
          [⟨⟨0, 1, PW_TYPE.INTEGER, no_flags, nest_inner.link :: nest_inner.lineage⟩, none, 4,
              value_data.vp_integer 1⟩,
            ⟨⟨0, 2, PW_TYPE.INTEGER, no_flags, nest_tlv.link :: nest_tlv.lineage⟩, none, 4,
              value_data.vp_integer 3⟩]
      ∧ decode_vsa nest_env (fr_radius_decode_pair_value nest_env no_request 3)
          (demo_attr 26 PW_TYPE.VSA no_flags)
        [0, 0, 0, 9, 2, 14, 1, 6, 0, 0, 0, 1, 2, 6, 0, 0, 0, 2, 1, 6, 0, 0, 0, 3] 0 24 24
        = Decoded.ok 24
          [⟨⟨9, 1, PW_TYPE.INTEGER, no_flags, nest_vendor_tlv.link :: nest_vendor_tlv.lineage⟩,
              none, 4, value_data.vp_integer 1⟩,
            ⟨⟨9, 1, PW_TYPE.INTEGER, no_flags, demo_vendor9.link :: demo_vendor9.lineage⟩,
              none, 4, value_data.vp_integer 3⟩] := by
  decide

/-! ## C23 -/

/-- C23. The code at the failing input. For vendor 9 (widths 1 and 1) the sub-attribute
sequence `01 06 00 00 00 05 01 02` passes `fr_radius_decode_tlv_ok`, yet `decode_vsa` fails on
it: when the loop reaches the header-only sub-attribute `01 02` the check
`length <= dv->type + dv->length` of `decode_vsa_internal` refuses it, and
`fr_radius_decode_pair_value` demotes the Vendor-Specific attribute to a raw octets pair. With
the header-only sub-attribute in front, `01 02 01 06 00 00 00 05`, the decode succeeds and the
sub-attribute contributes no pair. -/
theorem trailing_empty_sub_vsa_is_refused :
    fr_radius_decode_tlv_ok [0, 0, 0, 9, 1, 6, 0, 0, 0, 5, 1, 2] 4 8 1 1 = 0
      ∧ decode_vsa nest_env (fr_radius_decode_pair_value nest_env no_request 3)
          (demo_attr 26 PW_TYPE.VSA no_flags) [0, 0, 0, 9, 1, 6, 0, 0, 0, 5, 1, 2] 0 12 12
        = Decoded.error
      ∧ decode_vsa_internal nest_env (fr_radius_decode_pair_value nest_env no_request 3)
          ⟨9, 1, 1, 0⟩ demo_vendor9 [0, 0, 0, 9, 1, 6, 0, 0, 0, 5, 1, 2] 10 2
        = Decoded.error
      ∧ fr_radius_decode_pair_value nest_env no_request 4 (demo_attr 26 PW_TYPE.VSA no_flags)
          [0, 0, 0, 9, 1, 6, 0, 0, 0, 5, 1, 2] 0 12 12
        = Decoded.ok 12 [⟨demo_unknown (some demo_root) 0 26, none, 12,
            value_data.vp_octets [0, 0, 0, 9, 1, 6, 0, 0, 0, 5, 1, 2]⟩]
      ∧ decode_vsa nest_env (fr_radius_decode_pair_value nest_env no_request 3)
          (demo_attr 26 PW_TYPE.VSA no_flags) [0, 0, 0, 9, 1, 2, 1, 6, 0, 0, 0, 5] 0 12 12
        = Decoded.ok 12
          [⟨⟨9, 1, PW_TYPE.INTEGER, no_flags, demo_vendor9.link :: demo_vendor9.lineage⟩,
              none, 4, value_data.vp_integer 5⟩] := by
  decide

/-! ## C27 -/

/-- C27. The code at the failing input. The window holds the continued WiMAX attribute
`1a 0b 00 00 60 b5 01 05 80 aa bb`, whose payload is `aa bb`, and then an attribute of type 1
and length 14. The scan accepts no successor: it leaves `fraglen` at 2 and `end` at the start
of the second attribute. The loop `do ... while (frag < end)` still runs once and copies
`frag[7] - 3` = 4 bytes of the second attribute behind the payload: 6 bytes are written to the
block of 2 bytes, and the call has written past the end of the block. -/
theorem wimax_copy_without_successor :
    wimax_scan [26, 11, 0, 0, 0x60, 0xb5, 1, 5, 0x80, 0xaa, 0xbb,
          1, 14, 0x11, 0x12, 0x13, 0x14, 0x15, 7, 0x17, 0x18, 0x19, 0x1a, 0x1b, 0x1c]
        2 23 (2 + 9) (2 + 23) (sub_sz 5 3) false = some (2, 11)
      ∧ memrd [26, 11, 0, 0, 0x60, 0xb5, 1, 5, 0x80, 0xaa, 0xbb,
          1, 14, 0x11, 0x12, 0x13, 0x14, 0x15, 7, 0x17, 0x18, 0x19, 0x1a, 0x1b, 0x1c]
        (2 + 4 + 3) (5 - 3) = [0xaa, 0xbb]
      ∧ wimax_copy [26, 11, 0, 0, 0x60, 0xb5, 1, 5, 0x80, 0xaa, 0xbb,
          1, 14, 0x11, 0x12, 0x13, 0x14, 0x15, 7, 0x17, 0x18, 0x19, 0x1a, 0x1b, 0x1c]
        11 (23 + 1) (2 + 9) [0xaa, 0xbb] = Copied.done [0xaa, 0xbb, 0x18, 0x19, 0x1a, 0x1b]
      ∧ fr_radius_decode_pair nest_env no_request 4 demo_root
          [26, 11, 0, 0, 0x60, 0xb5, 1, 5, 0x80, 0xaa, 0xbb,
            1, 14, 0x11, 0x12, 0x13, 0x14, 0x15, 7, 0x17, 0x18, 0x19, 0x1a, 0x1b, 0x1c] 0 25
        = Decoded.fault := by
  decide

/-! ## C29 -/

/-- C29. The code at the failing input. Attribute 79 is concat-flagged. In the window
`4f 03 aa 4f 02` the run of attributes of type 79 fills the 5 bytes, and the first loop of
`decode_concat` walks all of it; the second loop stops as soon as the one payload byte is
copied, so the function returns 3, not 5. On the window `4f 02` it returns 0. When the empty
attribute is followed by a further attribute of the run, `4f 03 aa 4f 02 4f 04 01 02` in front
of an attribute of type 5, the return value is 9, the whole run of three attributes. -/
theorem concat_return_leaves_out_empty_tail :
    concat_scan [79, 3, 0xaa, 79, 2] (0 + 5) 79 5 0 0 = some 1
      ∧ fr_radius_decode_pair nest_env no_request 4 demo_root [79, 3, 0xaa, 79, 2] 0 5
        = Decoded.ok 3 [⟨demo_attr 79 PW_TYPE.OCTETS ⟨false, true, FLAG_ENCRYPT.NONE, 0⟩, none, 1,
            value_data.vp_octets [0xaa]⟩]
      ∧ fr_radius_decode_pair nest_env no_request 4 demo_root [79, 2] 0 2
        = Decoded.ok 0 [⟨demo_attr 79 PW_TYPE.OCTETS ⟨false, true, FLAG_ENCRYPT.NONE, 0⟩, none, 0,
            value_data.vp_octets []⟩]
      ∧ fr_radius_decode_pair nest_env no_request 4 demo_root
          [79, 3, 0xaa, 79, 2, 79, 4, 1, 2, 5, 6, 0, 0, 0, 1] 0 15
        = Decoded.ok 9 [⟨demo_attr 79 PW_TYPE.OCTETS ⟨false, true, FLAG_ENCRYPT.NONE, 0⟩, none, 3,
            value_data.vp_octets [0xaa, 1, 2]⟩] := by
  decide

/-! ## Long-Extended fragments -/

theorem extended_frags_fuel (m : List Nat) (a0 a2 fin : Nat) :
    ∀ fuel fuel2 frag last, fin - frag ≤ fuel → fin - frag ≤ fuel2 →
      extended_frags m a0 a2 fuel frag fin last = extended_frags m a0 a2 fuel2 frag fin last := by
  intro fuel
  induction fuel with
  | zero =>
    intro fuel2 frag last h1 h2
    cases fuel2 with
    | zero => rfl
    | succ k =>
      rw [extended_frags, extended_frags, if_neg (by omega)]
  | succ n ih =>
    intro fuel2 frag last h1 h2
    cases fuel2 with
    | zero => rw [extended_frags, extended_frags, if_neg (by omega)]
    | succ k =>
      rw [extended_frags, extended_frags]
      by_cases hlt : frag < fin
      · rw [if_pos hlt, if_pos hlt]
        by_cases hc : last = true ∨ rd m frag ≠ a0 ∨ rd m (frag + 1) < 4 ∨ rd m (frag + 2) ≠ a2
            ∨ frag + rd m (frag + 1) > fin
        · rw [if_pos hc, if_pos hc]
        · rw [if_neg hc, if_neg hc]
          have h4 : 4 ≤ rd m (frag + 1) := by
            by_contra h; exact hc (Or.inr (Or.inr (Or.inl (by omega))))
          rw [ih k _ _ (by omega) (by omega)]
      · rw [if_neg hlt, if_neg hlt]

theorem extended_frags_chain (m : List Nat) (a0 a2 fin : Nat) :
    ∀ fuel prev frag last, frag = prev + rd m (prev + 1) →
      last = ((rd m (prev + 3) &&& 0x80) == 0) →
      List.Chain (extended_successor m a0 a2 fin) prev
        (extended_frags m a0 a2 fuel frag fin last) := by
  intro fuel
  induction fuel with
  | zero => intro prev frag last _ _; rw [extended_frags]; exact List.Chain.nil
  | succ n ih =>
    intro prev frag last hf hl
    rw [extended_frags]
    by_cases hlt : frag < fin
    · rw [if_pos hlt]
      by_cases hc : last = true ∨ rd m frag ≠ a0 ∨ rd m (frag + 1) < 4 ∨ rd m (frag + 2) ≠ a2
          ∨ frag + rd m (frag + 1) > fin
      · rw [if_pos hc]; exact List.Chain.nil
      · rw [if_neg hc]
        simp only [not_or, not_lt, not_not, gt_iff_lt, Bool.not_eq_true] at hc
        obtain ⟨c1, c2, c3, c4, c5⟩ := hc
        refine List.Chain.cons ⟨?_, hf, c2, c3, c4, c5⟩ (ih frag _ _ rfl rfl)
        rw [hl] at c1
        simpa using c1
    · rw [if_neg hlt]; exact List.Chain.nil

theorem extended_scan_frags (m : List Nat) (a0 a2 fin : Nat) :
    ∀ fuel frag fraglen fragments last, frag ≤ fin → fin - frag ≤ fuel →
      extended_scan m a0 a2 fuel frag fin fraglen fragments last
        = some (fraglen + ((extended_frags m a0 a2 fuel frag fin last).map
              fun f => rd m (f + 1) - 4).sum,
            frag + ((extended_frags m a0 a2 fuel frag fin last).map fun f => rd m (f + 1)).sum,
            fragments + (extended_frags m a0 a2 fuel frag fin last).length) := by
  intro fuel
  induction fuel with
  | zero =>
    intro frag fraglen fragments last h1 h2
    rw [extended_scan, extended_frags, if_neg (by omega)]
    have : frag = fin := by omega
    simp [this]
  | succ n ih =>
    intro frag fraglen fragments last h1 h2
    rw [extended_scan, extended_frags]
    by_cases hlt : frag < fin
    · rw [if_pos hlt, if_pos hlt]
      by_cases hc : last = true ∨ rd m frag ≠ a0 ∨ rd m (frag + 1) < 4 ∨ rd m (frag + 2) ≠ a2
          ∨ frag + rd m (frag + 1) > fin
      · rw [if_pos hc, if_pos hc]; simp
      · rw [if_neg hc, if_neg hc]
        have h4 : 4 ≤ rd m (frag + 1) := by
          by_contra h; exact hc (Or.inr (Or.inr (Or.inl (by omega))))
        have h5 : frag + rd m (frag + 1) ≤ fin := by
          by_contra h; exact hc (Or.inr (Or.inr (Or.inr (Or.inr (by omega)))))
        rw [ih _ _ _ _ h5 (by omega)]
        simp only [List.map_cons, List.sum_cons, List.length_cons, Option.some.injEq,
          Prod.mk.injEq]
        refine ⟨by omega, by omega, by omega⟩
    · rw [if_neg hlt, if_neg hlt]
      have : frag = fin := by omega
      simp [this]

theorem extended_copy_frags (m : List Nat) (a0 a2 fin : Nat) :
    ∀ fuel frag last,
      extended_copy m (extended_frags m a0 a2 fuel frag fin last).length (frag + 2)
        = (extended_frags m a0 a2 fuel frag fin last).flatMap (extended_payload m) := by
  intro fuel
  induction fuel with
  | zero => intro frag last; rw [extended_frags]; rfl
  | succ n ih =>
    intro frag last
    rw [extended_frags]
    by_cases hlt : frag < fin
    · rw [if_pos hlt]
      by_cases hc : last = true ∨ rd m frag ≠ a0 ∨ rd m (frag + 1) < 4 ∨ rd m (frag + 2) ≠ a2
          ∨ frag + rd m (frag + 1) > fin
      · rw [if_pos hc]; rfl
      · rw [if_neg hc, List.length_cons, extended_copy, List.flatMap_cons]
        have hb : rd_back m (frag + 2) 1 = rd m (frag + 1) := by
          rw [rd_back, if_pos (by omega)]; rfl
        rw [hb, ← ih (frag + rd m (frag + 1)) ((rd m (frag + 3) &&& 0x80) == 0)]
        have e1 : frag + 2 + rd m (frag + 1) = frag + rd m (frag + 1) + 2 := by omega
        rw [e1]
        rfl
    · rw [if_neg hlt]; rfl

theorem extended_payload_length (m : List Nat) (f : Nat) :
    (extended_payload m f).length = rd m (f + 1) - 4 := by
  rw [extended_payload, memrd_length]

theorem extended_payloads_length (m : List Nat) (fs : List Nat) :
    (fs.flatMap (extended_payload m)).length = (fs.map fun f => rd m (f + 1) - 4).sum := by
  induction fs with
  | nil => rfl
  | cons f fs ih =>
    rw [List.flatMap_cons, List.length_append, ih, extended_payload_length, List.map_cons,
      List.sum_cons]

theorem decode_extended_fragments (E : Env) (dec : Decoder) (parent : fr_dict_attr_t)
    (m : List Nat) (attr attrlen packetlen : Nat)
    (h1 : rd m (attr + 1) = attrlen + 2) (h3 : 3 ≤ attrlen) (hp : attrlen ≤ packetlen)
    (hm : ∀ n, E.malloc n = true) :
    decode_extended E dec parent m (attr + 2) attrlen packetlen
      = reassembled
          (((extended_fragments m attr (attr + 2 + packetlen)).map fun f => rd m (f + 1)).sum - 2)
          (dec parent ((extended_fragments m attr (attr + 2 + packetlen)).flatMap
              (extended_payload m)) 0
            ((extended_fragments m attr (attr + 2 + packetlen)).flatMap
              (extended_payload m)).length
            ((extended_fragments m attr (attr + 2 + packetlen)).flatMap
              (extended_payload m)).length) := by
  have hb2 : rd_back m (attr + 2) 2 = rd m attr := by
    rw [rd_back, if_pos (by omega)]; rfl
  have hb1 : rd_back m (attr + 2) 1 = rd m (attr + 1) := by
    rw [rd_back, if_pos (by omega)]; rfl
  have hfuel : extended_frags m (rd m attr) (rd m (attr + 2)) packetlen (attr + 2 + attrlen)
      (attr + 2 + packetlen) false
      = extended_frags m (rd m attr) (rd m (attr + 2)) (attr + 2 + packetlen - attr)
        (attr + rd m (attr + 1)) (attr + 2 + packetlen) false := by
    have e : attr + rd m (attr + 1) = attr + 2 + attrlen := by omega
    rw [e]
    exact extended_frags_fuel m _ _ _ _ _ _ _ (by omega) (by omega)
  rw [decode_extended, if_neg (by omega), hb2,
    extended_scan_frags m _ _ _ _ _ _ _ _ (by omega) (by omega), hfuel]
  dsimp only
  rw [if_neg (by simp [hm])]
  generalize hfs : extended_frags m (rd m attr) (rd m (attr + 2)) (attr + 2 + packetlen - attr)
    (attr + rd m (attr + 1)) (attr + 2 + packetlen) false = fs
  have hcopy : extended_copy m (1 + fs.length) (attr + 2)
      = (attr :: fs).flatMap (extended_payload m) := by
    rw [Nat.add_comm, extended_copy, hb1, List.flatMap_cons]
    have e : attr + 2 + rd m (attr + 1) = attr + rd m (attr + 1) + 2 := by omega
    rw [e, ← hfs, extended_copy_frags]
    rfl
  have hlen : ((attr :: fs).flatMap (extended_payload m)).length
      = attrlen - 2 + (fs.map fun f => rd m (f + 1) - 4).sum := by
    rw [extended_payloads_length, List.map_cons, List.sum_cons, h1]
    omega
  have hfr : extended_fragments m attr (attr + 2 + packetlen) = attr :: fs := by
    rw [extended_fragments, hfs]
  rw [hfr, hcopy, ← hlen, List.take_length]
  have hret : attr + 2 + attrlen + (fs.map fun f => rd m (f + 1)).sum - (attr + 2)
      = ((attr :: fs).map fun f => rd m (f + 1)).sum - 2 := by
    rw [List.map_cons, List.sum_cons, h1]; omega
  rw [hret]
  cases dec parent ((attr :: fs).flatMap (extended_payload m)) 0
    ((attr :: fs).flatMap (extended_payload m)).length
    ((attr :: fs).flatMap (extended_payload m)).length <;> rfl

theorem shape_stage_long_extended (E : Env) (dec : Decoder) (D child : fr_dict_attr_t)
    (m : List Nat) (start attrlen packetlen : Nat)
    (hty : D.type = PW_TYPE.LONG_EXTENDED) (h3 : 3 ≤ attrlen)
    (hch : E.fr_dict_attr_child_by_num D (rd m start) = some child)
    (hmore : rd m (start + 1) &&& 0x80 ≠ 0) :
    shape_stage E dec D m start attrlen packetlen (entry_locals E m start attrlen)
      = Shape.done (decode_extended E dec child m start attrlen packetlen) := by
  have h0 : (entry_locals E m start attrlen).at 0 = rd m start := rfl
  have h1 : (entry_locals E m start attrlen).at 1 = rd m (start + 1) := rfl
  have hd : (entry_locals E m start attrlen).datalen = attrlen := rfl
  rw [shape_stage, hty]
  dsimp only
  rw [hd, if_neg (by omega), h0, hch]
  dsimp only
  rw [long_extended_child, h1, if_neg hmore]

/-- The function `fr_radius_decode_pair` on a Long-Extended attribute that is untagged,
unencrypted, not concat, has a child in the dictionary and has its more bit set: the result of
`decode_extended`, plus 2. -/
theorem decode_pair_long_extended (E : Env) (R : Request) (fuel : Nat)
    (parent da child : fr_dict_attr_t) (m : List Nat) (data length : Nat)
    (h5 : 5 ≤ rd m (data + 1)) (hbyte : rd m (data + 1) ≤ 255) (hfit : rd m (data + 1) ≤ length)
    (hda : child_or_unknown E parent 0 (rd m data) = some da)
    (hty : da.type = PW_TYPE.LONG_EXTENDED) (hcat : da.flags.concat = false)
    (htag : da.flags.has_tag = false) (henc : da.flags.encrypt = FLAG_ENCRYPT.NONE)
    (hch : E.fr_dict_attr_child_by_num da (rd m (data + 2)) = some child)
    (hmore : rd m (data + 3) &&& 0x80 ≠ 0) :
    fr_radius_decode_pair E R (fuel + 1) parent m data length
      = match decode_extended E (fr_radius_decode_pair_value E R fuel) child m (data + 2)
          (rd m (data + 1) - 2) (length - 2) with
        | Decoded.ok rcode vps => Decoded.ok (2 + rcode) vps
        | Decoded.error => Decoded.error
        | Decoded.diverge => Decoded.diverge
        | Decoded.fault => Decoded.fault := by
  rw [fr_radius_decode_pair, if_neg (by omega), hda]
  dsimp only
  rw [hcat, if_neg (by simp), fr_radius_decode_pair_value,
    body_plain E R _ da m (data + 2) _ _ htag henc (by omega) ⟨by omega, Or.inl (by omega), by omega⟩,
    shape_stage_long_extended E _ da child m (data + 2) _ _ hty (by omega) hch hmore]

theorem chain_last_end (m : List Nat) (R : Nat → Nat → Prop)
    (hR : ∀ p f, R p f → f = p + rd m (p + 1)) :
    ∀ (fs : List Nat) (a : Nat), List.Chain R a fs →
      frag_end m ((a :: fs).getLast (List.cons_ne_nil a fs))
        = a + ((a :: fs).map fun f => rd m (f + 1)).sum := by
  intro fs
  induction fs with
  | nil => intro a _; simp [frag_end]
  | cons b fs ih =>
    intro a h
    cases h with
    | cons hab hrest =>
      rw [List.getLast_cons (List.cons_ne_nil b fs), ih b hrest]
      have e : ((a :: b :: fs).map fun f => rd m (f + 1)).sum
          = rd m (a + 1) + ((b :: fs).map fun f => rd m (f + 1)).sum := rfl
      rw [e, hR a b hab]
      omega

theorem chain_drop_last (R : Nat → Nat → Prop) (P : Nat → Prop) (hR : ∀ p f, R p f → P p) :
    ∀ (fs : List Nat) (a : Nat), List.Chain R a fs → ∀ f ∈ (a :: fs).dropLast, P f := by
  intro fs
  induction fs with
  | nil => intro a _ f hf; simp at hf
  | cons b fs ih =>
    intro a h f hf
    cases h with
    | cons hab hrest =>
      rw [List.dropLast_cons_of_ne_nil (List.cons_ne_nil b fs)] at hf
      rcases List.mem_cons.mp hf with h1 | h1
      · rw [h1]; exact hR a b hab
      · exact ih b hrest f h1

theorem extended_fragments_chain (m : List Nat) (attr fin : Nat)
    (hmore : rd m (attr + 3) &&& 0x80 ≠ 0) :
    List.Chain (extended_successor m (rd m attr) (rd m (attr + 2)) fin) attr
      (extended_fragments m attr fin).tail := by
  rw [extended_fragments, List.tail_cons]
  refine extended_frags_chain m _ _ fin _ attr _ false rfl ?_
  symm
  simpa using hmore

theorem chain_last_some (m : List Nat) (R : Nat → Nat → Prop)
    (hR : ∀ p f, R p f → f = p + rd m (p + 1)) (fs t : List Nat) (a : Nat) (h : fs = a :: t)
    (hc : List.Chain R a t) :
    ∃ f, fs.getLast? = some f ∧ frag_end m f = a + (fs.map fun f => rd m (f + 1)).sum := by
  subst h
  exact ⟨_, List.getLast?_eq_getLast _ (List.cons_ne_nil _ _), chain_last_end m R hR t a hc⟩

/-! ## C24 -/

/-- C24, counterexample. The two attributes as the spec writes them, `f1 06 01 80 aa bb cc dd`
and `f1 06 01 00 ee ff 11 22`, have the length byte 6, so the first fragment ends after
`aa bb` and the byte that follows, `cc`, is not the type 241: no successor is accepted. The
reassembled payload is `aa bb`, not `aa bb cc dd ee ff 11 22`, and `fr_radius_decode_pair`
returns 6. -/
theorem extended_example_of_length_six :
    extended_fragments
        [0xf1, 6, 1, 0x80, 0xaa, 0xbb, 0xcc, 0xdd, 0xf1, 6, 1, 0, 0xee, 0xff, 0x11, 0x22] 0 16
        = [0]
      ∧ extended_buffer
        [0xf1, 6, 1, 0x80, 0xaa, 0xbb, 0xcc, 0xdd, 0xf1, 6, 1, 0, 0xee, 0xff, 0x11, 0x22] 0 16
        = [0xaa, 0xbb]
      ∧ extended_buffer
        [0xf1, 6, 1, 0x80, 0xaa, 0xbb, 0xcc, 0xdd, 0xf1, 6, 1, 0, 0xee, 0xff, 0x11, 0x22] 0 16
        ≠ [0xaa, 0xbb, 0xcc, 0xdd, 0xee, 0xff, 0x11, 0x22]
      ∧ fr_radius_decode_pair nest_env no_request 2 demo_root
        [0xf1, 6, 1, 0x80, 0xaa, 0xbb, 0xcc, 0xdd, 0xf1, 6, 1, 0, 0xee, 0xff, 0x11, 0x22] 0 16
        = Decoded.ok 6
          [⟨⟨0, 1, PW_TYPE.OCTETS, no_flags, frag_extended.link :: frag_extended.lineage⟩, none, 2,
            value_data.vp_octets [0xaa, 0xbb]⟩] := by
  decide

/-- C24 (as amended). For a Long-Extended attribute at `attr` whose length byte agrees with
`attrlen`, whatever the recursive decoder `dec`, `decode_extended` is the recursive decode of
the buffer `extended_buffer`, the concatenation in wire order of the payloads (`f[1] - 4` bytes
after the 4-byte prefix) of the first fragment and of every accepted successor; the size it
passes is the sum of those payload lengths. For the two attributes `f1 08 01 80 aa bb cc dd`
and `f1 08 01 00 ee ff 11 22` the buffer is `aa bb cc dd ee ff 11 22`. -/
theorem extended_buffer_is_payloads (E : Env) (dec : Decoder) (parent : fr_dict_attr_t)
    (m : List Nat) (attr attrlen packetlen : Nat)
    (h1 : rd m (attr + 1) = attrlen + 2) (h3 : 3 ≤ attrlen) (hp : attrlen ≤ packetlen)
    (hm : ∀ n, E.malloc n = true) :
    decode_extended E dec parent m (attr + 2) attrlen packetlen
        = reassembled
          (((extended_fragments m attr (attr + 2 + packetlen)).map fun f => rd m (f + 1)).sum - 2)
          (dec parent (extended_buffer m attr (attr + 2 + packetlen)) 0
            (extended_buffer m attr (attr + 2 + packetlen)).length
            (extended_buffer m attr (attr + 2 + packetlen)).length)
      ∧ (extended_buffer m attr (attr + 2 + packetlen)).length
        = ((extended_fragments m attr (attr + 2 + packetlen)).map fun f => rd m (f + 1) - 4).sum
      ∧ extended_fragments
        [0xf1, 8, 1, 0x80, 0xaa, 0xbb, 0xcc, 0xdd, 0xf1, 8, 1, 0, 0xee, 0xff, 0x11, 0x22] 0 16
        = [0, 8]
      ∧ extended_buffer
        [0xf1, 8, 1, 0x80, 0xaa, 0xbb, 0xcc, 0xdd, 0xf1, 8, 1, 0, 0xee, 0xff, 0x11, 0x22] 0 16
        = [0xaa, 0xbb, 0xcc, 0xdd, 0xee, 0xff, 0x11, 0x22] :=
  ⟨decode_extended_fragments E dec parent m attr attrlen packetlen h1 h3 hp hm,
    extended_payloads_length m _, by decide, by decide⟩

theorem extended_buffer_is_payloads_witness :
    decode_extended nest_env (fr_radius_decode_pair_value nest_env no_request 1)
          ⟨0, 1, PW_TYPE.OCTETS, no_flags, frag_extended.link :: frag_extended.lineage⟩
          [0xf1, 8, 1, 0x80, 0xaa, 0xbb, 0xcc, 0xdd, 0xf1, 8, 1, 0, 0xee, 0xff, 0x11, 0x22]
          (0 + 2) 6 14
        = Decoded.ok 14
          [⟨⟨0, 1, PW_TYPE.OCTETS, no_flags, frag_extended.link :: frag_extended.lineage⟩, none, 8,
            value_data.vp_octets [0xaa, 0xbb, 0xcc, 0xdd, 0xee, 0xff, 0x11, 0x22]⟩]
      ∧ (extended_buffer
          [0xf1, 8, 1, 0x80, 0xaa, 0xbb, 0xcc, 0xdd, 0xf1, 8, 1, 0, 0xee, 0xff, 0x11, 0x22]
          0 (0 + 2 + 14)).length = 8 := by
  have h := extended_buffer_is_payloads nest_env (fr_radius_decode_pair_value nest_env no_request 1)
    ⟨0, 1, PW_TYPE.OCTETS, no_flags, frag_extended.link :: frag_extended.lineage⟩
    [0xf1, 8, 1, 0x80, 0xaa, 0xbb, 0xcc, 0xdd, 0xf1, 8, 1, 0, 0xee, 0xff, 0x11, 0x22]
    0 6 14 (by decide) (by decide) (by decide) (fun _ => rfl)
  exact ⟨h.1.trans (by decide), h.2.1.trans (by decide)⟩

/-! ## C25 -/

/-- C25. For a Long-Extended attribute at `data` (untagged, unencrypted, not concat, with a
child in the dictionary) whose more bit is set, when the decode of the reassembled buffer
succeeds: `decode_extended` returns the distance from the start of the first fragment's value,
`data + 2`, to the end of the last accepted fragment; `fr_radius_decode_pair` returns the sum
of the length bytes of all accepted fragments; and every accepted successor follows a fragment
whose more bit is set, starts where that one ends, has the type and extended type of the first
fragment, a length of 4 or more, and ends inside the window. -/
theorem extended_return_is_wire_length (E : Env) (R : Request) (fuel : Nat)
    (parent da child : fr_dict_attr_t) (m : List Nat) (data length rcode : Nat)
    (vps : List VALUE_PAIR)
    (h5 : 5 ≤ rd m (data + 1)) (hbyte : rd m (data + 1) ≤ 255) (hfit : rd m (data + 1) ≤ length)
    (hda : child_or_unknown E parent 0 (rd m data) = some da)
    (hty : da.type = PW_TYPE.LONG_EXTENDED) (hcat : da.flags.concat = false)
    (htag : da.flags.has_tag = false) (henc : da.flags.encrypt = FLAG_ENCRYPT.NONE)
    (hch : E.fr_dict_attr_child_by_num da (rd m (data + 2)) = some child)
    (hmore : rd m (data + 3) &&& 0x80 ≠ 0) (hm : ∀ n, E.malloc n = true)
    (hrec : fr_radius_decode_pair_value E R fuel child (extended_buffer m data (data + length)) 0
      (extended_buffer m data (data + length)).length
      (extended_buffer m data (data + length)).length = Decoded.ok rcode vps) :
    (∃ f, (extended_fragments m data (data + length)).getLast? = some f ∧
        decode_extended E (fr_radius_decode_pair_value E R fuel) child m (data + 2)
          (rd m (data + 1) - 2) (length - 2) = Decoded.ok (frag_end m f - (data + 2)) vps)
      ∧ fr_radius_decode_pair E R (fuel + 1) parent m data length
        = Decoded.ok ((extended_fragments m data (data + length)).map fun f => rd m (f + 1)).sum
          vps
      ∧ List.Chain (extended_successor m (rd m data) (rd m (data + 2)) (data + length)) data
        (extended_fragments m data (data + length)).tail := by
  have hchain := extended_fragments_chain m data (data + length) hmore
  have hfin : data + 2 + (length - 2) = data + length := by omega
  have hext := decode_extended_fragments E (fr_radius_decode_pair_value E R fuel) child m data
    (rd m (data + 1) - 2) (length - 2) (by omega) (by omega) (by omega) hm
  rw [hfin] at hext
  change decode_extended _ _ _ _ _ _ _ = reassembled _
    (fr_radius_decode_pair_value E R fuel child (extended_buffer m data (data + length)) 0
      (extended_buffer m data (data + length)).length
      (extended_buffer m data (data + length)).length) at hext
  rw [hrec] at hext
  have hcons : extended_fragments m data (data + length)
      = data :: (extended_fragments m data (data + length)).tail := rfl
  obtain ⟨f, hf1, hf2⟩ := chain_last_some m _ (fun p f h => h.2.1) _ _ data hcons hchain
  have hsum : rd m (data + 1)
      ≤ ((extended_fragments m data (data + length)).map fun f => rd m (f + 1)).sum := by
    rw [hcons, List.map_cons, List.sum_cons]; omega
  refine ⟨⟨f, hf1, ?_⟩, ?_, hchain⟩
  · rw [hext, reassembled, hf2]
    congr 1
    omega
  · rw [decode_pair_long_extended E R fuel parent da child m data length h5 hbyte hfit hda hty hcat
      htag henc hch hmore, hext, reassembled]
    dsimp only
    congr 1
    omega

/-! ## WiMAX fragments -/

theorem wimax_frags_fuel (m : List Nat) (data fin : Nat) :
    ∀ fuel fuel2 frag last, fin - frag ≤ fuel → fin - frag ≤ fuel2 →
      wimax_frags m data fuel frag fin last = wimax_frags m data fuel2 frag fin last := by
  intro fuel
  induction fuel with
  | zero =>
    intro fuel2 frag last h1 h2
    cases fuel2 with
    | zero => rfl
    | succ k => rw [wimax_frags, wimax_frags, if_neg (by omega)]
  | succ n ih =>
    intro fuel2 frag last h1 h2
    cases fuel2 with
    | zero => rw [wimax_frags, wimax_frags, if_neg (by omega)]
    | succ k =>
      rw [wimax_frags, wimax_frags]
      by_cases hlt : frag < fin
      · rw [if_pos hlt, if_pos hlt]
        by_cases hc : last = true ∨ rd m frag ≠ PW_VENDOR_SPECIFIC ∨ rd m (frag + 1) < 9
            ∨ frag + rd m (frag + 1) > fin ∨ memrd m (frag + 2) 4 ≠ memrd m data 4
            ∨ rd m (frag + 6) ≠ rd m (data + 4) ∨ rd m (frag + 7) + 6 ≠ rd m (frag + 1)
        · rw [if_pos hc, if_pos hc]
        · rw [if_neg hc, if_neg hc]
          have h9 : 9 ≤ rd m (frag + 1) := by
            by_contra h; exact hc (Or.inr (Or.inr (Or.inl (by omega))))
          rw [ih k _ _ (by omega) (by omega)]
      · rw [if_neg hlt, if_neg hlt]

theorem wimax_frags_chain (m : List Nat) (data fin : Nat) :
    ∀ fuel prev frag last, frag = prev + rd m (prev + 1) →
      last = ((rd m (prev + 8) &&& 0x80) == 0) →
      List.Chain (wimax_successor m data fin) prev (wimax_frags m data fuel frag fin last) := by
  intro fuel
  induction fuel with
  | zero => intro prev frag last _ _; rw [wimax_frags]; exact List.Chain.nil
  | succ n ih =>
    intro prev frag last hf hl
    rw [wimax_frags]
    by_cases hlt : frag < fin
    · rw [if_pos hlt]
      by_cases hc : last = true ∨ rd m frag ≠ PW_VENDOR_SPECIFIC ∨ rd m (frag + 1) < 9
          ∨ frag + rd m (frag + 1) > fin ∨ memrd m (frag + 2) 4 ≠ memrd m data 4
          ∨ rd m (frag + 6) ≠ rd m (data + 4) ∨ rd m (frag + 7) + 6 ≠ rd m (frag + 1)
      · rw [if_pos hc]; exact List.Chain.nil
      · rw [if_neg hc]
        simp only [not_or, not_lt, not_not, gt_iff_lt, Bool.not_eq_true] at hc
        obtain ⟨c1, c2, c3, c4, c5, c6, c7⟩ := hc
        refine List.Chain.cons ⟨?_, hf, c2, c3, c4, c5, c6, c7⟩ (ih frag _ _ rfl rfl)
        rw [hl] at c1
        simpa using c1
    · rw [if_neg hlt]; exact List.Chain.nil

theorem wimax_scan_frags (m : List Nat) (data fin : Nat) :
    ∀ fuel frag fraglen last, frag ≤ fin → fin - frag ≤ fuel →
      wimax_scan m data fuel frag fin fraglen last
        = some (fraglen + ((wimax_frags m data fuel frag fin last).map
              fun f => rd m (f + 7) - 3).sum,
            frag + ((wimax_frags m data fuel frag fin last).map fun f => rd m (f + 1)).sum) := by
  intro fuel
  induction fuel with
  | zero =>
    intro frag fraglen last h1 h2
    rw [wimax_scan, wimax_frags, if_neg (by omega)]
    have : frag = fin := by omega
    simp [this]
  | succ n ih =>
    intro frag fraglen last h1 h2
    rw [wimax_scan, wimax_frags]
    by_cases hlt : frag < fin
    · rw [if_pos hlt, if_pos hlt]
      by_cases hc : last = true ∨ rd m frag ≠ PW_VENDOR_SPECIFIC ∨ rd m (frag + 1) < 9
          ∨ frag + rd m (frag + 1) > fin ∨ memrd m (frag + 2) 4 ≠ memrd m data 4
          ∨ rd m (frag + 6) ≠ rd m (data + 4) ∨ rd m (frag + 7) + 6 ≠ rd m (frag + 1)
      · rw [if_pos hc, if_pos hc]; simp
      · rw [if_neg hc, if_neg hc]
        have h9 : 9 ≤ rd m (frag + 1) := by
          by_contra h; exact hc (Or.inr (Or.inr (Or.inl (by omega))))
        have h5 : frag + rd m (frag + 1) ≤ fin := by
          by_contra h; exact hc (Or.inr (Or.inr (Or.inr (Or.inl (by omega)))))
        rw [ih _ _ _ h5 (by omega)]
        simp only [List.map_cons, List.sum_cons, Option.some.injEq, Prod.mk.injEq]
        refine ⟨by omega, by omega⟩
    · rw [if_neg hlt, if_neg hlt]
      have : frag = fin := by omega
      simp [this]

theorem wimax_fragments_chain (m : List Nat) (attr fin : Nat)
    (hmore : rd m (attr + 8) &&& 0x80 ≠ 0) :
    List.Chain (wimax_successor m (attr + 2) fin) attr (wimax_fragments m attr fin).tail := by
  rw [wimax_fragments, List.tail_cons]
  refine wimax_frags_chain m _ fin _ attr _ false rfl ?_
  symm
  simpa using hmore

theorem extended_return_is_wire_length_witness :
    fr_radius_decode_pair nest_env no_request (1 + 1) demo_root
        [0xf1, 8, 1, 0x80, 0xaa, 0xbb, 0xcc, 0xdd, 0xf1, 8, 1, 0, 0xee, 0xff, 0x11, 0x22] 0 16
        = Decoded.ok 16
          [⟨⟨0, 1, PW_TYPE.OCTETS, no_flags, frag_extended.link :: frag_extended.lineage⟩, none, 8,
            value_data.vp_octets [0xaa, 0xbb, 0xcc, 0xdd, 0xee, 0xff, 0x11, 0x22]⟩]
      ∧ List.Chain (extended_successor
          [0xf1, 8, 1, 0x80, 0xaa, 0xbb, 0xcc, 0xdd, 0xf1, 8, 1, 0, 0xee, 0xff, 0x11, 0x22]
          0xf1 1 16) 0 [8] := by
  have h := extended_return_is_wire_length nest_env no_request 1 demo_root frag_extended
    ⟨0, 1, PW_TYPE.OCTETS, no_flags, frag_extended.link :: frag_extended.lineage⟩
    [0xf1, 8, 1, 0x80, 0xaa, 0xbb, 0xcc, 0xdd, 0xf1, 8, 1, 0, 0xee, 0xff, 0x11, 0x22] 0 16 8
    [⟨⟨0, 1, PW_TYPE.OCTETS, no_flags, frag_extended.link :: frag_extended.lineage⟩, none, 8,
      value_data.vp_octets [0xaa, 0xbb, 0xcc, 0xdd, 0xee, 0xff, 0x11, 0x22]⟩]
    (by decide) (by decide) (by decide) (by decide) rfl rfl rfl rfl (by decide) (by decide)
    (fun _ => rfl) (by decide)
  exact ⟨h.2.1.trans (by decide), h.2.2⟩

/-! ## C26 -/

/-- C26, counterexample. The window holds the one Long-Extended attribute `f1 06 01 80 aa bb`,
whose more bit is set. The reassembly succeeds with this fragment alone: the chain ends at the
end of the window, and the last fragment of the value has its more bit set. The same holds for
two WiMAX fragments that both have the continuation bit set. -/
theorem last_fragment_with_more_bit :
    fr_radius_decode_pair nest_env no_request 2 demo_root [0xf1, 6, 1, 0x80, 0xaa, 0xbb] 0 6
        = Decoded.ok 6
          [⟨⟨0, 1, PW_TYPE.OCTETS, no_flags, frag_extended.link :: frag_extended.lineage⟩, none, 2,
            value_data.vp_octets [0xaa, 0xbb]⟩]
      ∧ extended_fragments [0xf1, 6, 1, 0x80, 0xaa, 0xbb] 0 6 = [0]
      ∧ rd [0xf1, 6, 1, 0x80, 0xaa, 0xbb] (0 + 3) &&& 0x80 ≠ 0
      ∧ fr_radius_decode_pair nest_env no_request 3 demo_root
          [26, 11, 0, 0, 0x60, 0xb5, 1, 5, 0x80, 0xaa, 0xbb,
            26, 13, 0, 0, 0x60, 0xb5, 1, 7, 0x80, 0xcc, 0xdd, 0xee, 0xff] 0 24
        = Decoded.ok 24
          [⟨⟨24757, 1, PW_TYPE.OCTETS, no_flags, frag_wimax.link :: frag_wimax.lineage⟩, none, 6,
            value_data.vp_octets [0xaa, 0xbb, 0xcc, 0xdd, 0xee, 0xff]⟩]
      ∧ wimax_fragments [26, 11, 0, 0, 0x60, 0xb5, 1, 5, 0x80, 0xaa, 0xbb,
            26, 13, 0, 0, 0x60, 0xb5, 1, 7, 0x80, 0xcc, 0xdd, 0xee, 0xff] 0 24 = [0, 11]
      ∧ rd [26, 11, 0, 0, 0x60, 0xb5, 1, 5, 0x80, 0xaa, 0xbb,
            26, 13, 0, 0, 0x60, 0xb5, 1, 7, 0x80, 0xcc, 0xdd, 0xee, 0xff] (11 + 8) &&& 0x80 ≠ 0 := by
  decide

/-- C26 (as amended). In a fragment reassembly every fragment other than the last has its more
bit set. For the Long-Extended attribute at `attr` of the memory `m` the first loop of
`decode_extended` counts the fragments `extended_fragments`, and when the more bit of the first
is set (the case in which the function is called) each of them but the last has the bit 0x80
of its flags byte `f[3]` set. For the WiMAX attribute at `attr` of the memory `w` the first
loop of `decode_wimax` stops behind the fragments `wimax_fragments`, and when the continuation
bit of the first is set each of them but the last has the bit 0x80 of its byte `f[8]` set. The
last fragment may have the bit set or clear. -/
theorem fragments_before_last_have_more_bit (m : List Nat) (attr attrlen packetlen : Nat)
    (w : List Nat) (wattr wattrlen wpacketlen fraglen : Nat)
    (h1 : rd m (attr + 1) = attrlen + 2) (hp : attrlen ≤ packetlen)
    (hmore : rd m (attr + 3) &&& 0x80 ≠ 0)
    (hw1 : rd w (wattr + 1) = wattrlen + 2) (hwp : wattrlen ≤ wpacketlen)
    (hwmore : rd w (wattr + 8) &&& 0x80 ≠ 0) :
    (extended_scan m (rd m attr) (rd m (attr + 2)) packetlen (attr + 2 + attrlen)
          (attr + 2 + packetlen) (attrlen - 2) 1 false
        = some (((extended_fragments m attr (attr + 2 + packetlen)).map
              fun f => rd m (f + 1) - 4).sum,
            attr + ((extended_fragments m attr (attr + 2 + packetlen)).map
              fun f => rd m (f + 1)).sum,
            (extended_fragments m attr (attr + 2 + packetlen)).length)
        ∧ ∀ f ∈ (extended_fragments m attr (attr + 2 + packetlen)).dropLast,
          rd m (f + 3) &&& 0x80 ≠ 0)
      ∧ (wimax_scan w (wattr + 2) wpacketlen (wattr + 2 + wattrlen) (wattr + 2 + wpacketlen)
          fraglen false
        = some (fraglen + ((wimax_fragments w wattr (wattr + 2 + wpacketlen)).tail.map
              fun f => rd w (f + 7) - 3).sum,
            wattr + ((wimax_fragments w wattr (wattr + 2 + wpacketlen)).map
              fun f => rd w (f + 1)).sum)
        ∧ ∀ f ∈ (wimax_fragments w wattr (wattr + 2 + wpacketlen)).dropLast,
          rd w (f + 8) &&& 0x80 ≠ 0) := by
  refine ⟨⟨?_, ?_⟩, ⟨?_, ?_⟩⟩
  · have hfuel : extended_frags m (rd m attr) (rd m (attr + 2)) packetlen (attr + 2 + attrlen)
        (attr + 2 + packetlen) false
        = extended_frags m (rd m attr) (rd m (attr + 2)) (attr + 2 + packetlen - attr)
          (attr + rd m (attr + 1)) (attr + 2 + packetlen) false := by
      have e : attr + rd m (attr + 1) = attr + 2 + attrlen := by omega
      rw [e]
      exact extended_frags_fuel m _ _ _ _ _ _ _ (by omega) (by omega)
    rw [extended_scan_frags m _ _ _ _ _ _ _ _ (by omega) (by omega), hfuel, extended_fragments]
    simp only [List.map_cons, List.sum_cons, List.length_cons, Option.some.injEq, Prod.mk.injEq]
    refine ⟨by omega, by omega, by omega⟩
  · have hc := extended_fragments_chain m attr (attr + 2 + packetlen) hmore
    exact chain_drop_last _ (fun f => rd m (f + 3) &&& 0x80 ≠ 0) (fun p f h => h.1) _ attr hc
  · have hfuel : wimax_frags w (wattr + 2) wpacketlen (wattr + 2 + wattrlen)
        (wattr + 2 + wpacketlen) false
        = wimax_frags w (wattr + 2) (wattr + 2 + wpacketlen - wattr)
          (wattr + rd w (wattr + 1)) (wattr + 2 + wpacketlen) false := by
      have e : wattr + rd w (wattr + 1) = wattr + 2 + wattrlen := by omega
      rw [e]
      exact wimax_frags_fuel w _ _ _ _ _ _ (by omega) (by omega)
    rw [wimax_scan_frags w _ _ _ _ _ _ (by omega) (by omega), hfuel, wimax_fragments]
    simp only [List.map_cons, List.sum_cons, List.tail_cons, Option.some.injEq, Prod.mk.injEq]
    refine ⟨trivial, by omega⟩
  · have hc := wimax_fragments_chain w wattr (wattr + 2 + wpacketlen) hwmore
    exact chain_drop_last _ (fun f => rd w (f + 8) &&& 0x80 ≠ 0) (fun p f h => h.1) _ wattr hc

theorem fragments_before_last_have_more_bit_witness :
    (∀ f ∈ (extended_fragments
          [0xf1, 6, 1, 0x80, 0xaa, 0xbb, 0xf1, 6, 1, 0x80, 0xcc, 0xdd, 5, 6, 0, 0, 0, 1]
          0 (0 + 2 + 16)).dropLast,
        rd [0xf1, 6, 1, 0x80, 0xaa, 0xbb, 0xf1, 6, 1, 0x80, 0xcc, 0xdd, 5, 6, 0, 0, 0, 1] (f + 3)
          &&& 0x80 ≠ 0)
      ∧ (extended_fragments
          [0xf1, 6, 1, 0x80, 0xaa, 0xbb, 0xf1, 6, 1, 0x80, 0xcc, 0xdd, 5, 6, 0, 0, 0, 1]
          0 (0 + 2 + 16)).dropLast = [0]
      ∧ (∀ f ∈ (wimax_fragments
          [26, 11, 0, 0, 0x60, 0xb5, 1, 5, 0x80, 0xaa, 0xbb,
            26, 13, 0, 0, 0x60, 0xb5, 1, 7, 0, 0xcc, 0xdd, 0xee, 0xff] 0 (0 + 2 + 22)).dropLast,
        rd [26, 11, 0, 0, 0x60, 0xb5, 1, 5, 0x80, 0xaa, 0xbb,
            26, 13, 0, 0, 0x60, 0xb5, 1, 7, 0, 0xcc, 0xdd, 0xee, 0xff] (f + 8) &&& 0x80 ≠ 0)
      ∧ (wimax_fragments
          [26, 11, 0, 0, 0x60, 0xb5, 1, 5, 0x80, 0xaa, 0xbb,
            26, 13, 0, 0, 0x60, 0xb5, 1, 7, 0, 0xcc, 0xdd, 0xee, 0xff] 0 (0 + 2 + 22)).dropLast
        = [0] := by
  have h := fragments_before_last_have_more_bit
    [0xf1, 6, 1, 0x80, 0xaa, 0xbb, 0xf1, 6, 1, 0x80, 0xcc, 0xdd, 5, 6, 0, 0, 0, 1] 0 4 16
    [26, 11, 0, 0, 0x60, 0xb5, 1, 5, 0x80, 0xaa, 0xbb,
      26, 13, 0, 0, 0x60, 0xb5, 1, 7, 0, 0xcc, 0xdd, 0xee, 0xff] 0 9 22 2
    (by decide) (by decide) (by decide) (by decide) (by decide) (by decide)
  exact ⟨h.1.2, by decide, h.2.2, by decide⟩

/-! ## Concatenated attributes -/

theorem leading_run_of_ne (m : List Nat) (a ptr : Nat) (ls : List Nat) (h : rd m ptr ≠ a) :
    leading_run m a ptr ls = [] := by
  cases ls with
  | nil => rfl
  | cons l ls => rw [leading_run, if_neg h]

theorem concat_scan_run (m : List Nat) (a : Nat) :
    ∀ (ls : List Nat) (fuel ptr rem total : Nat), attrs_at m ptr rem ls → rem ≤ fuel →
      (rem = 0 ∨ rd m ptr = a) → total + rem < SIZE_MOD →
      concat_scan m (ptr + rem) a fuel ptr total
        = some (total + ((leading_run m a ptr ls).map fun p => rd m (p + 1) - 2).sum) := by
  intro ls
  induction ls with
  | nil =>
    intro fuel ptr rem total hw _ _ _
    have h0 : rem = 0 := hw
    subst h0
    cases fuel with
    | zero => rw [concat_scan, if_neg (by omega)]; rfl
    | succ k => rw [concat_scan, if_neg (by omega)]; rfl
  | cons l ls ih =>
    intro fuel ptr rem total hw hfuel hty hsz
    obtain ⟨hl, h2, hrem, hrest⟩ := hw
    have ha : rd m ptr = a := by
      rcases hty with h | h
      · omega
      · exact h
    cases fuel with
    | zero => omega
    | succ k =>
      rw [concat_scan, if_pos (by omega)]
      dsimp only
      rw [← hl, sub_sz_of_le _ _ h2, Nat.mod_eq_of_lt (by omega), leading_run, if_pos ha,
        List.map_cons, List.sum_cons, ← hl]
      by_cases hn : rd m (ptr + l) ≠ a
      · rw [if_pos hn, leading_run_of_ne m a _ ls hn]
        rfl
      · rw [if_neg hn]
        have e : ptr + rem = ptr + l + (rem - l) := by omega
        rw [e, ih k (ptr + l) (rem - l) _ hrest (by omega) (Or.inr (not_not.mp hn)) (by omega)]
        rw [Nat.add_assoc]

theorem attr_payloads_length (m : List Nat) (ps : List Nat) :
    (ps.flatMap (attr_payload m)).length = (ps.map fun p => rd m (p + 1) - 2).sum := by
  induction ps with
  | nil => rfl
  | cons p ps ih =>
    rw [List.flatMap_cons, List.length_append, ih, attr_payload, memrd_length, List.map_cons,
      List.sum_cons]

theorem concat_copy_run (m : List Nat) (a vp_length : Nat) (hsz : vp_length < SIZE_MOD) :
    ∀ (ls : List Nat) (fuel ptr rem total : Nat) (p : List Nat), attrs_at m ptr rem ls →
      vp_length = total + ((leading_run m a ptr ls).map fun p => rd m (p + 1) - 2).sum →
      ls.length ≤ fuel →
      ∃ q, concat_copy m vp_length fuel ptr total p
        = some (p ++ (leading_run m a ptr ls).flatMap (attr_payload m), q) := by
  intro ls
  induction ls with
  | nil =>
    intro fuel ptr rem total p _ hv _
    have hv2 : vp_length = total := by rw [hv]; rfl
    refine ⟨ptr, ?_⟩
    cases fuel with
    | zero => rw [concat_copy, if_neg (by omega)]; simp [leading_run]
    | succ k => rw [concat_copy, if_neg (by omega)]; simp [leading_run]
  | cons l ls ih =>
    intro fuel ptr rem total p hw hv hfuel
    obtain ⟨hl, h2, hrem, hrest⟩ := hw
    by_cases hlt : total < vp_length
    · by_cases ha : rd m ptr = a
      · rw [leading_run, if_pos ha, List.map_cons, List.sum_cons, ← hl] at hv
        cases fuel with
        | zero => simp at hfuel
        | succ k =>
          rw [concat_copy, if_pos hlt, ← hl, sub_sz_of_le _ _ h2, Nat.mod_eq_of_lt (by omega)]
          obtain ⟨q, hq⟩ := ih k (ptr + l) (rem - l) (total + (l - 2))
            (p ++ memrd m (ptr + 2) (l - 2)) hrest (by omega) (by simpa using hfuel)
          refine ⟨q, ?_⟩
          rw [hq, leading_run, if_pos ha, List.flatMap_cons, attr_payload, ← hl,
            List.append_assoc]
      · rw [leading_run, if_neg ha] at hv
        have : vp_length = total := by rw [hv]; rfl
        omega
    · have hsum : ((leading_run m a ptr (l :: ls)).map fun p => rd m (p + 1) - 2).sum = 0 := by
        omega
      have hnil : (leading_run m a ptr (l :: ls)).flatMap (attr_payload m) = [] := by
        apply List.eq_nil_of_length_eq_zero
        rw [attr_payloads_length, hsum]
      refine ⟨ptr, ?_⟩
      rw [hnil, List.append_nil]
      cases fuel with
      | zero => rw [concat_copy, if_neg hlt]
      | succ k => rw [concat_copy, if_neg hlt]

theorem attrs_at_length (m : List Nat) :
    ∀ (ls : List Nat) (ptr rem : Nat), attrs_at m ptr rem ls → 2 * ls.length ≤ rem := by
  intro ls
  induction ls with
  | nil => intro ptr rem _; simp
  | cons l ls ih =>
    intro ptr rem hw
    obtain ⟨_, h2, hrem, hrest⟩ := hw
    have := ih _ _ hrest
    rw [List.length_cons]
    omega

theorem leading_run_sum_le (m : List Nat) (a : Nat) :
    ∀ (ls : List Nat) (ptr rem : Nat), attrs_at m ptr rem ls →
      ((leading_run m a ptr ls).map fun p => rd m (p + 1) - 2).sum ≤ rem := by
  intro ls
  induction ls with
  | nil => intro ptr rem _; simp [leading_run]
  | cons l ls ih =>
    intro ptr rem hw
    obtain ⟨hl, h2, hrem, hrest⟩ := hw
    rw [leading_run]
    by_cases ha : rd m ptr = a
    · rw [if_pos ha, List.map_cons, List.sum_cons, ← hl]
      have := ih _ _ hrest
      omega
    · rw [if_neg ha]; simp

theorem decode_concat_run (E : Env) (parent : fr_dict_attr_t) (m : List Nat)
    (start packetlen : Nat) (ls : List Nat) (hw : attrs_at m start packetlen ls)
    (hsz : packetlen < SIZE_MOD) (hvp : E.fr_pair_afrom_da parent = true)
    (hm : ∀ n, E.malloc n = true) :
    ∃ rcode, decode_concat E parent m start packetlen
      = Decoded.ok rcode [⟨parent, none,
          ((leading_run m (rd m start) start ls).flatMap (attr_payload m)).length,
          value_data.vp_octets ((leading_run m (rd m start) start ls).flatMap (attr_payload m))⟩] := by
  have hscan := concat_scan_run m (rd m start) ls packetlen start packetlen 0 hw (Nat.le_refl _)
    (Or.inr rfl) (by omega)
  have hle := leading_run_sum_le m (rd m start) ls start packetlen hw
  have hlen := attrs_at_length m ls start packetlen hw
  rw [Nat.zero_add] at hscan
  obtain ⟨q, hq⟩ := concat_copy_run m (rd m start)
    ((leading_run m (rd m start) start ls).map fun p => rd m (p + 1) - 2).sum (by omega) ls
    (packetlen + 1) start packetlen 0 [] hw (by rw [Nat.zero_add]) (by omega)
  refine ⟨q - start, ?_⟩
  rw [decode_concat, hscan]
  dsimp only
  rw [if_neg (by simp [hvp]), if_neg (by simp [hm]), hq]
  dsimp only
  rw [List.nil_append, ← attr_payloads_length, List.take_length]

/-! ## C28 -/

/-- C28. For a well-formed window (a sequence of attributes with the length bytes `ls`, each 2
or more and inside the window) whose first attribute has a concat-flagged descriptor `da`,
when the pair and its value can be allocated, `fr_radius_decode_pair` (through `decode_concat`)
produces one pair of `da` whose value is the concatenation, in wire order, of the payloads of
the maximal run of leading attributes of the type of the first, and whose length is the sum of
their payload lengths. -/
theorem concat_joins_leading_run (E : Env) (R : Request) (fuel : Nat)
    (parent da : fr_dict_attr_t) (m : List Nat) (data length : Nat) (ls : List Nat)
    (hw : attrs_at m data length ls) (hne : 0 < length) (hsz : length < SIZE_MOD)
    (hda : child_or_unknown E parent 0 (rd m data) = some da) (hcat : da.flags.concat = true)
    (hvp : E.fr_pair_afrom_da da = true) (hm : ∀ n, E.malloc n = true) :
    (∃ rcode, fr_radius_decode_pair E R fuel parent m data length
        = Decoded.ok rcode [⟨da, none,
            ((leading_run m (rd m data) data ls).flatMap (attr_payload m)).length,
            value_data.vp_octets ((leading_run m (rd m data) data ls).flatMap (attr_payload m))⟩])
      ∧ ((leading_run m (rd m data) data ls).flatMap (attr_payload m)).length
        = ((leading_run m (rd m data) data ls).map fun p => rd m (p + 1) - 2).sum := by
  refine ⟨?_, attr_payloads_length m _⟩
  cases ls with
  | nil =>
    have h0 : length = 0 := hw
    omega
  | cons l ls =>
    have hw2 := hw
    obtain ⟨hl, h2, hrem, _⟩ := hw2
    rw [fr_radius_decode_pair, if_neg (by omega), hda]
    dsimp only
    rw [if_pos hcat]
    exact decode_concat_run E da m data length (l :: ls) hw hsz hvp hm

theorem concat_joins_leading_run_witness :
    (∃ rcode, fr_radius_decode_pair nest_env no_request 1 demo_root
        [79, 3, 0xaa, 79, 4, 1, 2, 5, 6, 0, 0, 0, 1] 0 13
        = Decoded.ok rcode [⟨demo_attr 79 PW_TYPE.OCTETS ⟨false, true, FLAG_ENCRYPT.NONE, 0⟩, none,
            3, value_data.vp_octets [0xaa, 1, 2]⟩])
      ∧ leading_run [79, 3, 0xaa, 79, 4, 1, 2, 5, 6, 0, 0, 0, 1] 79 0 [3, 4, 6] = [0, 3] := by
  have h := concat_joins_leading_run nest_env no_request 1 demo_root
    (demo_attr 79 PW_TYPE.OCTETS ⟨false, true, FLAG_ENCRYPT.NONE, 0⟩)
    [79, 3, 0xaa, 79, 4, 1, 2, 5, 6, 0, 0, 0, 1] 0 13 [3, 4, 6] (by decide) (by decide)
    (by decide) (by decide) rfl rfl (fun _ => rfl)
  exact ⟨h.1, by decide⟩

/-! ## The users file: well-formed files are read -/

theorem blank_space (c : Char) (h : blank c) : sbuff_char_space c = true := by
  rcases h with h | h <;> subst h <;> rfl

theorem blank_term (c : Char) (h : blank c) : name_terms c = true := by
  rcases h with h | h <;> subst h <;> rfl

theorem adv_past_blanks (ws : List Char) (c : Char) (r : List Char) (hw : ∀ d ∈ ws, blank d)
    (hc : sbuff_char_space c = false) :
    fr_sbuff_adv_past_allowed (ws ++ c :: r) sbuff_char_space = (ws.length, c :: r) := by
  induction ws with
  | nil => simp [fr_sbuff_adv_past_allowed, List.takeWhile_cons, List.dropWhile_cons, hc]
  | cons d ws ih =>
    have hd : sbuff_char_space d = true := blank_space d (hw d (List.mem_cons_self _ _))
    have ih2 := ih fun x hx => hw x (List.mem_cons_of_mem _ hx)
    simp only [fr_sbuff_adv_past_allowed, Prod.mk.injEq] at ih2 ⊢
    simp [List.takeWhile_cons, List.dropWhile_cons, hd, ih2.1, ih2.2]

theorem adv_past_blanks_nil (ws : List Char) (hw : ∀ d ∈ ws, blank d) :
    fr_sbuff_adv_past_allowed ws sbuff_char_space = (ws.length, []) := by
  induction ws with
  | nil => rfl
  | cons d ws ih =>
    have hd : sbuff_char_space d = true := blank_space d (hw d (List.mem_cons_self _ _))
    have ih2 := ih fun x hx => hw x (List.mem_cons_of_mem _ hx)
    simp only [fr_sbuff_adv_past_allowed, Prod.mk.injEq] at ih2 ⊢
    simp [List.takeWhile_cons, List.dropWhile_cons, hd, ih2.1, ih2.2]

theorem adv_past_none (c : Char) (r : List Char) (hc : sbuff_char_space c = false) :
    fr_sbuff_adv_past_allowed (c :: r) sbuff_char_space = (0, c :: r) :=
  adv_past_blanks [] c r (fun _ h => absurd h (List.not_mem_nil _)) hc

theorem next_if_char_ne (c d : Char) (r : List Char) (h : c ≠ d) :
    fr_sbuff_next_if_char (c :: r) d = (false, c :: r) := by
  simp [fr_sbuff_next_if_char, h]

theorem next_if_char_eq (c : Char) (r : List Char) :
    fr_sbuff_next_if_char (c :: r) c = (true, r) := by
  simp [fr_sbuff_next_if_char]

theorem is_char_ne (c d : Char) (r : List Char) (h : c ≠ d) :
    fr_sbuff_is_char (c :: r) d = false := by
  simp [fr_sbuff_is_char, h]

theorem is_char_eq (c : Char) (r : List Char) : fr_sbuff_is_char (c :: r) c = true := by
  simp [fr_sbuff_is_char]

theorem until_name (name : List Char) (c : Char) (r : List Char)
    (hn : ∀ d ∈ name, name_terms d = false) (hc : name_terms c = true) :
    fr_sbuff_out_abstrncpy_until (name ++ c :: r) name_terms = (name, c :: r) := by
  induction name with
  | nil => simp [fr_sbuff_out_abstrncpy_until, List.takeWhile_cons, List.dropWhile_cons, hc]
  | cons d name ih =>
    have hd : name_terms d = false := hn d (List.mem_cons_self _ _)
    have ih2 := ih fun x hx => hn x (List.mem_cons_of_mem _ hx)
    simp only [fr_sbuff_out_abstrncpy_until, Prod.mk.injEq] at ih2 ⊢
    simp [List.takeWhile_cons, List.dropWhile_cons, hd, ih2.1, ih2.2]

theorem is_prefix_append (w : List Char) :
    ∀ (n : List Char) (c : Char) (r : List Char), w.isPrefixOf (n ++ c :: r) = true →
      w.isPrefixOf n = true ∨ c ∈ w := by
  induction w with
  | nil => intro n c r _; left; simp
  | cons a w ih =>
    intro n c r h
    cases n with
    | nil =>
      simp only [List.nil_append, List.isPrefixOf, Bool.and_eq_true, beq_iff_eq] at h
      right; rw [h.1]; exact List.mem_cons_self _ _
    | cons b n =>
      simp only [List.cons_append, List.isPrefixOf, Bool.and_eq_true, beq_iff_eq] at h
      rcases ih n c r h.2 with h2 | h2
      · left; simp [List.isPrefixOf, h.1, h2]
      · right; exact List.mem_cons_of_mem _ h2

theorem not_include (name : List Char) (c : Char) (r : List Char)
    (hn : fr_sbuff_is_str name include_word = false) (hc : name_terms c = true) :
    fr_sbuff_is_str (name ++ c :: r) include_word = false := by
  cases h : fr_sbuff_is_str (name ++ c :: r) include_word with
  | false => rfl
  | true =>
    exfalso
    rcases is_prefix_append include_word name c r h with h2 | h2
    · rw [fr_sbuff_is_str] at hn; rw [hn] at h2; exact Bool.noConfusion h2
    · have hall : ∀ d ∈ include_word, name_terms d = false := by decide
      rw [hall c h2] at hc
      exact Bool.noConfusion hc

theorem check_item_end_line (t : PAIR_LIST) (after : List Char) (lineno : Nat) :
    check_item_comment t ('\n' :: after) false lineno = CheckList.reply t after (lineno + 1) := by
  rw [check_item_comment, next_if_char_ne '\n' '#' after (by decide)]
  simp only [Bool.false_eq_true, if_false]
  rw [check_item_end, next_if_char_eq]
  simp

theorem check_item_items (E : FileEnv) :
    ∀ (rest : List file_item) (i : file_item) (fuel : Nat) (t : PAIR_LIST)
      (ws after : List Char) (comma : Bool) (lineno : Nat),
      item_ok E true i → (∀ j ∈ rest, item_ok E true j) → (∀ d ∈ ws, blank d) →
      rest.length + 1 ≤ fuel →
      check_item E fuel t (ws ++ items_text (i :: rest) ++ '\n' :: after) comma lineno
        = CheckList.reply { t with check := t.check ++ (i :: rest).map fun i => i.map } after
            (lineno + 1) := by
  intro rest
  induction rest with
  | nil =>
    intro i fuel t ws after comma lineno hi _ hw hfuel
    obtain ⟨hattr, ⟨c, r0, htext, hc1, hc2, hc3, hc4⟩, hparse⟩ := hi
    cases fuel with
    | zero => simp at hfuel
    | succ k =>
      have hs : ws ++ items_text [i] ++ '\n' :: after = ws ++ c :: (r0 ++ '\n' :: after) := by
        simp [items_text, items_tail, htext]
      have hp : c :: (r0 ++ '\n' :: after) = i.text ++ '\n' :: after := by simp [htext]
      rw [hs, check_item]
      simp only [adv_past_blanks ws c _ hw hc1, is_char_ne c '#' _ hc2, is_char_ne c '\n' _ hc3,
        Bool.false_eq_true, if_false]
      rw [hp, (hparse after).2]
      simp only [hattr, Bool.not_true, Bool.false_eq_true, if_false,
        adv_past_none '\n' after (by decide), next_if_char_ne '\n' ',' after (by decide)]
      rw [check_item_end_line]
      simp
  | cons j rest ih =>
    intro i fuel t ws after comma lineno hi hrest hw hfuel
    obtain ⟨hattr, ⟨c, r0, htext, hc1, hc2, hc3, hc4⟩, hparse⟩ := hi
    cases fuel with
    | zero => simp at hfuel
    | succ k =>
      have hs : ws ++ items_text (i :: j :: rest) ++ '\n' :: after
          = ws ++ c :: (r0 ++ ',' :: ([' '] ++ items_text (j :: rest) ++ '\n' :: after)) := by
        simp [items_text, items_tail, htext]
      have hp : c :: (r0 ++ ',' :: ([' '] ++ items_text (j :: rest) ++ '\n' :: after))
          = i.text ++ ',' :: ([' '] ++ items_text (j :: rest) ++ '\n' :: after) := by
        simp [htext]
      rw [hs, check_item]
      simp only [adv_past_blanks ws c _ hw hc1, is_char_ne c '#' _ hc2, is_char_ne c '\n' _ hc3,
        Bool.false_eq_true, if_false]
      rw [hp, (hparse _).1]
      simp only [hattr, Bool.not_true, Bool.false_eq_true, if_false,
        adv_past_none ',' _ (by decide), next_if_char_eq, if_true]
      rw [ih j k _ [' '] after true lineno (hrest j (List.mem_cons_self _ _))
        (fun x hx => hrest x (List.mem_cons_of_mem _ hx))
        (fun d hd => by rw [List.mem_singleton.mp hd]; exact Or.inl rfl)
        (by simpa using hfuel)]
      simp

theorem check_item_none (E : FileEnv) (fuel : Nat) (t : PAIR_LIST) (ws after : List Char)
    (lineno : Nat) (hw : ∀ d ∈ ws, blank d) :
    check_item E (fuel + 1) t (ws ++ '\n' :: after) false lineno
      = CheckList.reply t after (lineno + 1) := by
  rw [check_item]
  simp only [adv_past_blanks ws '\n' _ hw (by decide), is_char_ne '\n' '#' _ (by decide),
    is_char_eq, Bool.false_eq_true, if_false, if_true]
  rw [check_item_end, next_if_char_eq]
  simp

theorem reply_item_comment_line (X : List Char) (comma : Bool) (lineno : Nat) :
    reply_item_comment ('\n' :: X) comma lineno = ReplyNext.reply_item X (lineno + 1) := by
  rw [reply_item_comment, next_if_char_ne '\n' '#' X (by decide)]
  simp only [Bool.false_eq_true, if_false]
  rw [reply_item_end, next_if_char_eq]
  simp

theorem reply_item_comment_next (c : Char) (r : List Char) (lineno : Nat) (h1 : c ≠ '#')
    (h2 : c ≠ '\n') :
    reply_item_comment (c :: r) true lineno = ReplyNext.next_reply_item (c :: r) := by
  rw [reply_item_comment, next_if_char_ne c '#' r h1]
  simp only [Bool.false_eq_true, if_false]
  rw [reply_item_end, next_if_char_ne c '\n' r h2]
  simp

/-- The items of one reply line, from `next_reply_item` at the first of them to `reply_item`
at the start of the next line; `more` says that the line ends in a comma. -/
theorem reply_line_items (E : FileEnv) :
    ∀ (rest : List file_item) (i : file_item) (fuel : Nat) (t : PAIR_LIST) (X : List Char)
      (more comma : Bool) (lineno : Nat),
      item_ok E false i → (∀ j ∈ rest, item_ok E false j) → rest.length + 1 ≤ fuel →
      reply_item E fuel false t
          (items_text (i :: rest) ++ ((if more then [',', '\n'] else ['\n']) ++ X)) comma lineno
        = reply_item E (fuel - (rest.length + 1)) true
            { t with reply := t.reply ++ (i :: rest).map fun i => i.map } X more (lineno + 1) := by
  intro rest
  induction rest with
  | nil =>
    intro i fuel t X more comma lineno hi _ hfuel
    obtain ⟨hattr, _, hparse⟩ := hi
    cases fuel with
    | zero => simp at hfuel
    | succ k =>
      cases more with
      | true =>
        have hs : items_text [i] ++ ((if true = true then [',', '\n'] else ['\n']) ++ X)
            = i.text ++ ',' :: ('\n' :: X) := by
          simp [items_text, items_tail]
        rw [hs, reply_item, (hparse _).1]
        simp only [hattr, Bool.not_true, Bool.false_eq_true, if_false,
          adv_past_none ',' _ (by decide), next_if_char_eq, if_true,
          adv_past_none '\n' X (by decide), reply_item_comment_line]
        simp
      | false =>
        have hs : items_text [i] ++ ((if false = true then [',', '\n'] else ['\n']) ++ X)
            = i.text ++ '\n' :: X := by
          simp [items_text, items_tail]
        rw [hs, reply_item, (hparse _).2]
        simp only [hattr, Bool.not_true, Bool.false_eq_true, if_false,
          adv_past_none '\n' X (by decide), next_if_char_ne '\n' ',' X (by decide),
          reply_item_comment_line]
        simp
  | cons j rest ih =>
    intro i fuel t X more comma lineno hi hrest hfuel
    obtain ⟨hattr, _, hparse⟩ := hi
    have hj := hrest j (List.mem_cons_self _ _)
    obtain ⟨c, r0, htext, hc1, hc2, hc3, hc4⟩ := hj.2.1
    cases fuel with
    | zero => simp at hfuel
    | succ k =>
      have hs : items_text (i :: j :: rest) ++ ((if more then [',', '\n'] else ['\n']) ++ X)
          = i.text ++ ',' :: ([' '] ++ c ::
              (r0 ++ items_tail rest ++ ((if more then [',', '\n'] else ['\n']) ++ X))) := by
        simp [items_text, items_tail, htext]
      have hp : c :: (r0 ++ items_tail rest ++ ((if more then [',', '\n'] else ['\n']) ++ X))
          = items_text (j :: rest) ++ ((if more then [',', '\n'] else ['\n']) ++ X) := by
        simp [items_text, htext]
      rw [hs, reply_item, (hparse _).1]
      simp only [hattr, Bool.not_true, Bool.false_eq_true, if_false,
        adv_past_none ',' _ (by decide), next_if_char_eq, if_true,
        adv_past_blanks [' '] c _ (fun d hd => by
          rw [List.mem_singleton.mp hd]; exact Or.inl rfl) hc1,
        reply_item_comment_next c _ lineno hc2 hc3]
      rw [hp, ih j k _ X more true lineno hj (fun x hx => hrest x (List.mem_cons_of_mem _ hx))
        (by simpa using hfuel)]
      have e : k + 1 - ((j :: rest).length + 1) = k - (rest.length + 1) := by
        simp
      rw [e]
      simp

theorem reply_line_last (E : FileEnv) (rest : List file_item) (i : file_item) (fuel : Nat)
    (t : PAIR_LIST) (X : List Char) (comma : Bool) (lineno : Nat) (hi : item_ok E false i)
    (hrest : ∀ j ∈ rest, item_ok E false j) (hfuel : rest.length + 1 ≤ fuel) :
    reply_item E fuel false t (items_text (i :: rest) ++ '\n' :: X) comma lineno
      = reply_item E (fuel - (rest.length + 1)) true
          { t with reply := t.reply ++ (i :: rest).map fun i => i.map } X false (lineno + 1) := by
  have h := reply_line_items E rest i fuel t X false comma lineno hi hrest hfuel
  simpa using h

theorem reply_line_more (E : FileEnv) (rest : List file_item) (i : file_item) (fuel : Nat)
    (t : PAIR_LIST) (X : List Char) (comma : Bool) (lineno : Nat) (hi : item_ok E false i)
    (hrest : ∀ j ∈ rest, item_ok E false j) (hfuel : rest.length + 1 ≤ fuel) :
    reply_item E fuel false t (items_text (i :: rest) ++ ',' :: '\n' :: X) comma lineno
      = reply_item E (fuel - (rest.length + 1)) true
          { t with reply := t.reply ++ (i :: rest).map fun i => i.map } X true (lineno + 1) := by
  have h := reply_line_items E rest i fuel t X true comma lineno hi hrest hfuel
  simpa using h

theorem adv_past_after (after : List Char)
    (h : after = [] ∨ ∃ c r, after = c :: r ∧ sbuff_char_space c = false) :
    fr_sbuff_adv_past_allowed after sbuff_char_space = (0, after) := by
  rcases h with h | ⟨c, r, h, hc⟩
  · rw [h]; rfl
  · rw [h]; exact adv_past_none c r hc

theorem reply_item_done (E : FileEnv) (fuel : Nat) (t : PAIR_LIST) (after : List Char)
    (lineno : Nat) (h : after = [] ∨ ∃ c r, after = c :: r ∧ sbuff_char_space c = false) :
    reply_item E (fuel + 1) true t after false lineno = ReplyList.done t after lineno := by
  rw [reply_item, adv_past_after after h]
  simp

/-- The label `reply_item` at the start of an indented line: the way to `next_reply_item` is
open on the line after the name and after a comma. -/
theorem reply_item_indented (E : FileEnv) (fuel : Nat) (t : PAIR_LIST) (ind : List Char)
    (c : Char) (r : List Char) (comma : Bool) (lineno : Nat) (hind : ∀ d ∈ ind, blank d)
    (hne : ind ≠ []) (hc : sbuff_char_space c = false)
    (hcond : lineno = t.lineno + 1 ∨ comma = true) :
    reply_item E (fuel + 1) true t (ind ++ c :: r) comma lineno
      = reply_item E fuel false t (c :: r) comma lineno := by
  have hlen : ¬ ind.length = 0 := by
    intro h; exact hne (List.length_eq_zero.mp h)
  rw [reply_item]
  simp only [adv_past_blanks ind c _ hind hc, hlen, if_false]
  by_cases hl : lineno = t.lineno + 1
  · rw [if_pos hl]
  · rcases hcond with h | h
    · exact absurd h hl
    · rw [if_neg hl, h]
      simp

theorem reply_item_lines (E : FileEnv) (after : List Char)
    (hafter : after = [] ∨ ∃ c r, after = c :: r ∧ sbuff_char_space c = false) :
    ∀ (rest : List (List Char × List file_item)) (line : List Char × List file_item),
      (∀ l ∈ line :: rest, (∀ c ∈ l.1, blank c) ∧ l.1 ≠ [] ∧ l.2 ≠ [] ∧
        ∀ i ∈ l.2, item_ok E false i) →
      ∃ N, ∀ (fuel : Nat) (t : PAIR_LIST) (comma : Bool) (lineno : Nat), N ≤ fuel →
        (lineno = t.lineno + 1 ∨ comma = true) →
        reply_item E fuel true t (reply_text (line :: rest) ++ after) comma lineno
          = ReplyList.done
              { t with reply := t.reply
                  ++ ((line :: rest).flatMap fun l => l.2).map fun i => i.map }
              after (lineno + (line :: rest).length) := by
  intro rest
  induction rest with
  | nil =>
    intro line hok
    obtain ⟨hind, hne, hitems, hall⟩ := hok line (List.mem_cons_self _ _)
    obtain ⟨ind, items⟩ := line
    cases items with
    | nil => exact absurd rfl hitems
    | cons i irest =>
      refine ⟨irest.length + 3, ?_⟩
      intro fuel t comma lineno hfuel hcond
      obtain ⟨c, r0, htext, hc1, hc2, hc3, hc4⟩ := (hall i (List.mem_cons_self _ _)).2.1
      cases fuel with
      | zero => omega
      | succ f =>
        have hs : reply_text [(ind, i :: irest)] ++ after
            = ind ++ c :: (r0 ++ items_tail irest ++ '\n' :: after) := by
          simp [reply_text, items_text, htext]
        have hp : c :: (r0 ++ items_tail irest ++ '\n' :: after)
            = items_text (i :: irest) ++ '\n' :: after := by
          simp [items_text, htext]
        have e : f - (irest.length + 1) = (f - (irest.length + 1) - 1) + 1 := by omega
        rw [hs, reply_item_indented E f t ind c _ comma lineno hind hne hc1 hcond, hp,
          reply_line_last E irest i f t after comma lineno (hall i (List.mem_cons_self _ _))
            (fun x hx => hall x (List.mem_cons_of_mem _ hx)) (by omega),
          e, reply_item_done E _ _ after _ hafter]
        simp
  | cons next rest ih =>
    intro line hok
    obtain ⟨hind, hne, hitems, hall⟩ := hok line (List.mem_cons_self _ _)
    obtain ⟨N, hN⟩ := ih next fun l hl => hok l (List.mem_cons_of_mem _ hl)
    obtain ⟨ind, items⟩ := line
    cases items with
    | nil => exact absurd rfl hitems
    | cons i irest =>
      refine ⟨N + irest.length + 2, ?_⟩
      intro fuel t comma lineno hfuel hcond
      obtain ⟨c, r0, htext, hc1, hc2, hc3, hc4⟩ := (hall i (List.mem_cons_self _ _)).2.1
      cases fuel with
      | zero => omega
      | succ f =>
        have hs : reply_text ((ind, i :: irest) :: next :: rest) ++ after
            = ind ++ c :: (r0 ++ items_tail irest
                ++ ',' :: '\n' :: (reply_text (next :: rest) ++ after)) := by
          simp [reply_text, items_text, htext]
        have hp : c :: (r0 ++ items_tail irest
              ++ ',' :: '\n' :: (reply_text (next :: rest) ++ after))
            = items_text (i :: irest) ++ ',' :: '\n' :: (reply_text (next :: rest) ++ after) := by
          simp [items_text, htext]
        rw [hs, reply_item_indented E f t ind c _ comma lineno hind hne hc1 hcond, hp,
          reply_line_more E irest i f t _ comma lineno (hall i (List.mem_cons_self _ _))
            (fun x hx => hall x (List.mem_cons_of_mem _ hx)) (by omega),
          hN _ _ true (lineno + 1) (by omega) (Or.inr rfl)]
        simp [Nat.add_assoc, Nat.add_comm 1]

theorem check_part (E : FileEnv) (e : file_entry) (he : entry_ok E e) (fuel order lineno : Nat)
    (R : List Char) (hfuel : e.check.length + 1 ≤ fuel) :
    check_item E fuel ⟨e.name, [], [], order, lineno⟩
        (e.gap ++ items_text e.check ++ '\n' :: R) false lineno
      = CheckList.reply ⟨e.name, e.check.map fun i => i.map, [], order, lineno⟩ R
          (lineno + 1) := by
  obtain ⟨_, _, _, hgap, _, hcheck, _⟩ := he
  cases hc : e.check with
  | nil =>
    cases fuel with
    | zero => omega
    | succ f =>
      have h := check_item_none E f ⟨e.name, [], [], order, lineno⟩ e.gap R lineno hgap
      simpa [items_text] using h
  | cons i rest =>
    rw [hc] at hcheck hfuel
    have h := check_item_items E rest i fuel ⟨e.name, [], [], order, lineno⟩ e.gap R false lineno
      (hcheck i (List.mem_cons_self _ _)) (fun x hx => hcheck x (List.mem_cons_of_mem _ hx))
      hgap (by simp only [List.length_cons] at hfuel; omega)
    simpa using h

theorem reply_part (E : FileEnv) (e : file_entry) (he : entry_ok E e) (after : List Char)
    (hafter : after = [] ∨ ∃ c r, after = c :: r ∧ sbuff_char_space c = false) :
    ∃ N, ∀ (fuel : Nat) (t : PAIR_LIST) (lineno : Nat), N ≤ fuel → lineno = t.lineno + 1 →
      reply_item E fuel true t (reply_text e.reply ++ after) false lineno
        = ReplyList.done
            { t with reply := t.reply ++ (e.reply.flatMap fun l => l.2).map fun i => i.map }
            after (lineno + e.reply.length) := by
  obtain ⟨_, _, _, _, _, _, hreply⟩ := he
  cases hr : e.reply with
  | nil =>
    refine ⟨1, ?_⟩
    intro fuel t lineno hfuel _
    cases fuel with
    | zero => omega
    | succ f =>
      have h := reply_item_done E f t after lineno hafter
      simpa [reply_text] using h
  | cons line rest =>
    rw [hr] at hreply
    obtain ⟨N, hN⟩ := reply_item_lines E after hafter rest line hreply
    exact ⟨N, fun fuel t lineno hfuel hl => hN fuel t false lineno hfuel (Or.inl hl)⟩

theorem file_text_start (E : FileEnv) (F : List file_entry) (hF : ∀ e ∈ F, entry_ok E e) :
    file_text F = [] ∨ ∃ c r, file_text F = c :: r ∧ sbuff_char_space c = false := by
  cases F with
  | nil => left; rfl
  | cons e F =>
    right
    obtain ⟨hne, hname, _⟩ := hF e (List.mem_cons_self _ _)
    cases hn : e.name with
    | nil => exact absurd hn hne
    | cons c n0 =>
      refine ⟨c, n0 ++ e.gap ++ items_text e.check ++ '\n' :: reply_text e.reply ++ file_text F,
        ?_, ?_⟩
      · simp [file_text, entry_text, hn]
      · exact (hname c (by rw [hn]; exact List.mem_cons_self _ _)).2

/-- The text behind the name of a well-formed entry starts with a terminal of `name_terms`. -/
theorem after_name (E : FileEnv) (e : file_entry) (he : entry_ok E e) (R : List Char) :
    ∃ c r, e.gap ++ items_text e.check ++ '\n' :: R = c :: r ∧ name_terms c = true := by
  obtain ⟨_, _, _, hgap, hcg, _, _⟩ := he
  cases hg : e.gap with
  | nil =>
    have hc : e.check = [] := by
      by_contra h; exact hcg h hg
    exact ⟨'\n', R, by simp [hc, items_text], rfl⟩
  | cons g gs =>
    exact ⟨g, gs ++ items_text e.check ++ '\n' :: R, by simp,
      blank_term g (hgap g (by rw [hg]; exact List.mem_cons_self _ _))⟩

/-- One turn of the loop of `pairlist_read` at the name of a well-formed entry. -/
theorem read_loop_entry (E : FileEnv) (file : List Char) (e : file_entry) (he : entry_ok E e)
    (after : List Char)
    (hafter : after = [] ∨ ∃ c r, after = c :: r ∧ sbuff_char_space c = false) :
    ∃ N, ∀ (fuel : Nat) (pl : List PAIR_LIST) (order lineno : Nat), N ≤ fuel →
      read_loop E (fuel + 1) file pl order lineno (entry_text e ++ after)
        = read_loop E fuel file (pl ++ [entry_of e order lineno]) (order + 1)
            (lineno + 1 + e.reply.length) after := by
  obtain ⟨N, hN⟩ := reply_part E e he after hafter
  refine ⟨N + e.check.length + 1, ?_⟩
  intro fuel pl order lineno hfuel
  have he2 := he
  obtain ⟨hne, hname, hinc, _⟩ := he2
  obtain ⟨t0, r0, hrest, hterm⟩ := after_name E e he (reply_text e.reply ++ after)
  obtain ⟨c, n0, hn⟩ : ∃ c n0, e.name = c :: n0 := by
    cases h : e.name with
    | nil => exact absurd h hne
    | cons c n0 => exact ⟨c, n0, rfl⟩
  have hcn := hname c (by rw [hn]; exact List.mem_cons_self _ _)
  have hc1 : c ≠ '#' := by
    intro h; rw [h] at hcn; exact Bool.noConfusion hcn.1
  have hc2 : c ≠ '\n' := by
    intro h; rw [h] at hcn; exact Bool.noConfusion hcn.1
  have hs : entry_text e ++ after = e.name ++ t0 :: r0 := by
    rw [← hrest]; simp [entry_text]
  have hs2 : e.name ++ t0 :: r0 = c :: (n0 ++ t0 :: r0) := by rw [hn]; rfl
  have huntil := until_name e.name t0 r0 (fun d hd => (hname d hd).1) hterm
  have hnot := not_include e.name t0 r0 hinc hterm
  have hlen : ¬ e.name.length = 0 := by
    intro h; exact hne (List.length_eq_zero.mp h)
  rw [hs, read_loop]
  simp only [hs2, adv_past_none c _ hcn.2, next_if_char_ne c '#' _ hc1,
    next_if_char_ne c '\n' _ hc2, Bool.false_eq_true, if_false, gt_iff_lt, Nat.lt_irrefl,
    decide_False]
  simp only [← hs2, hnot, huntil, hlen, Bool.false_eq_true, if_false]
  rw [hrest.symm, check_part E e he fuel order lineno _ (by omega)]
  simp only []
  rw [hN fuel _ (lineno + 1) (by omega) rfl]
  simp [entry_of]

theorem read_loop_entries (E : FileEnv) (file : List Char) :
    ∀ (F : List file_entry), (∀ e ∈ F, entry_ok E e) →
      ∃ N, ∀ (fuel : Nat) (pl : List PAIR_LIST) (order lineno : Nat), N ≤ fuel →
        read_loop E fuel file pl order lineno (file_text F)
          = Read.ok (pl ++ entries_of F order lineno) := by
  intro F
  induction F with
  | nil =>
    intro _
    refine ⟨1, ?_⟩
    intro fuel pl order lineno hfuel
    cases fuel with
    | zero => omega
    | succ f =>
      simp [read_loop, file_text, fr_sbuff_adv_past_allowed, fr_sbuff_next_if_char,
        fr_sbuff_is_str, include_word, fr_sbuff_out_abstrncpy_until, entries_of]
  | cons e F ih =>
    intro hF
    obtain ⟨N, hN⟩ := ih fun x hx => hF x (List.mem_cons_of_mem _ hx)
    obtain ⟨M, hM⟩ := read_loop_entry E file e (hF e (List.mem_cons_self _ _)) (file_text F)
      (file_text_start E F fun x hx => hF x (List.mem_cons_of_mem _ hx))
    refine ⟨N + M + 1, ?_⟩
    intro fuel pl order lineno hfuel
    cases fuel with
    | zero => omega
    | succ f =>
      have hs : file_text (e :: F) = entry_text e ++ file_text F := by
        simp [file_text]
      rw [hs, hM f pl order lineno (by omega), hN f _ _ _ (by omega)]
      simp [entries_of]

theorem entries_of_fields :
    ∀ (F : List file_entry) (order lineno : Nat),
      (entries_of F order lineno).map (fun t => (t.name, t.check, t.reply))
        = F.map fun e => (e.name, e.check.map fun i => i.map,
            (e.reply.flatMap fun line => line.2).map fun i => i.map) := by
  intro F
  induction F with
  | nil => intro _ _; rfl
  | cons e F ih =>
    intro order lineno
    rw [entries_of, List.map_cons, List.map_cons, ih]
    rfl

theorem bob_entry_ok : entry_ok users_env bob_entry := by
  refine ⟨by decide, by decide, by decide, by decide, fun _ => by decide, ?_, ?_⟩
  · intro i hi
    rw [List.mem_singleton.mp hi]
    exact ⟨rfl, ⟨'F', _, rfl, rfl, by decide, by decide, by decide⟩, fun rest => ⟨rfl, rfl⟩⟩
  · intro line hl
    rw [List.mem_singleton.mp hl]
    refine ⟨by decide, by decide, List.cons_ne_nil _ _, ?_⟩
    intro i hi
    rw [List.mem_singleton.mp hi]
    exact ⟨rfl, ⟨'R', _, rfl, rfl, by decide, by decide, by decide⟩, fun rest => ⟨rfl, rfl⟩⟩

/-! ## C30 -/

/-- C30. For every users file whose text is that of a list `F` of well-formed entries (a name
at column 0, on the same line the comma-separated check items, then indented lines of
comma-separated reply items, a line that is followed by a further reply line ending in a
comma, every line ending in a line feed), `pairlist_read` with a large enough budget returns 0
and the list `entries_of F 0 1`: one entry for each entry of `F`, in the order of the file,
with its name, the maps of its check items and the maps of its reply items in the order of
the text. The two-line file for bob gives one entry named `bob` with the check map
(Framed-IP-Address, ==, 10.0.0.2) and the reply map (Reply-Message, =, "hi"). -/
theorem pairlist_read_well_formed (E : FileEnv) (file : List Char) (F : List file_entry)
    (hF : ∀ e ∈ F, entry_ok E e) (hopen : E.fopen file = some (file_text F)) :
    (∃ N, ∀ fuel, N ≤ fuel → pairlist_read E fuel file = Read.ok (entries_of F 0 1))
      ∧ (entries_of F 0 1).map (fun t => (t.name, t.check, t.reply))
        = F.map (fun e => (e.name, e.check.map fun i => i.map,
            (e.reply.flatMap fun line => line.2).map fun i => i.map))
      ∧ pairlist_read users_env 4 "users".toList
        = Read.ok [⟨"bob".toList,
            [⟨⟨"Framed-IP-Address".toList, true⟩, "==".toList, ⟨"10.0.0.2".toList, false⟩⟩],
            [⟨⟨"Reply-Message".toList, true⟩, "=".toList, ⟨"\"hi\"".toList, false⟩⟩], 0, 1⟩] := by
  refine ⟨?_, entries_of_fields F 0 1, by decide⟩
  obtain ⟨N, hN⟩ := read_loop_entries E file F hF
  refine ⟨N, fun fuel hfuel => ?_⟩
  rw [pairlist_read, hopen]
  simpa using hN fuel [] 0 1 hfuel

theorem pairlist_read_well_formed_witness :
    (∃ N, ∀ fuel, N ≤ fuel → pairlist_read users_env fuel "users".toList
        = Read.ok [⟨"bob".toList,
            [⟨⟨"Framed-IP-Address".toList, true⟩, "==".toList, ⟨"10.0.0.2".toList, false⟩⟩],
            [⟨⟨"Reply-Message".toList, true⟩, "=".toList, ⟨"\"hi\"".toList, false⟩⟩], 0, 1⟩])
      ∧ file_text [bob_entry] = bob_file :=
  ⟨(pairlist_read_well_formed users_env "users".toList [bob_entry]
      (fun e he => by rw [List.mem_singleton.mp he]; exact bob_entry_ok) (by decide)).1,
    by decide⟩

/-! ## C35 -/

/-- C35. The code at the failing input. Attribute 6 is an ipv4-prefix. The value
`00 18 c0 a8 01 ff` has the prefix length 24 and the address 192.168.1.255. The pair keeps the
six bytes as they are, the last address byte `ff` included: the branch that masks the address
is entered for a prefix length above 32 only, which the first `switch` has sent to `raw`, so
no host bit is ever cleared. Masked to 24 bits the stored bytes would be `00 18 c0 a8 01 00`. -/
theorem ipv4_prefix_host_bits_kept :
    fr_radius_decode_pair (demo_env 0) no_request 1 demo_root
        [6, 8, 0, 24, 192, 168, 1, 255] 0 8
        = Decoded.ok 8 [⟨demo_attr 6 PW_TYPE.IPV4_PREFIX no_flags, none, 6,
            value_data.vp_ipv4prefix_bytes [0, 24, 192, 168, 1, 255]⟩]
      ∧ ipv4prefix_masked [0, 24, 192, 168, 1, 255] 24 = [0, 24, 192, 168, 1, 0]
      ∧ ¬ (24 &&& 0x3f > 32) := by
  decide

/-! ## C37 -/

/-- C37. The code at the failing input. With the demo secret and vector and the salt `80 01`
the first digest byte is 213, so the buffer `80 01 d7 55` of length 4 declares the length
`d7 xor d5` = 2. The check `reallen > encrypted_len` lets it pass, 2 being the length without
the salt; the loop decrypts the one byte `passwd[0]`; the function returns 2, and the second
returned byte `passwd[1]` is the salt byte `01` of the input. For the buffer
`80 01 d1 55 66 77` of length 6 the declared length is 4 and the fourth returned byte is the
input byte `55`. -/
theorem tunnel_password_declared_length_too_long :
    rd (toy_md5 (demo_secret ++ memrd demo_vector 0 AUTH_VECTOR_LEN ++ [0x80, 1])) 0 = 213
      ∧ fr_radius_decode_tunnel_password crypt_env [0x80, 1, 0xd7, 0x55] 4 demo_secret demo_vector
        = (2, [137, 1, 0, 0x55], 2)
      ∧ ¬ (2 ≤ 4 - 3)
      ∧ rd [137, 1, 0, 0x55] 1 = rd [0x80, 1, 0xd7, 0x55] 1
      ∧ fr_radius_decode_tunnel_password crypt_env [0x80, 1, 0xd1, 0x55, 0x66, 0x77] 6
          demo_secret demo_vector
        = (4, [137, 133, 157, 0x55, 0, 0x77], 4)
      ∧ rd [137, 133, 157, 0x55, 0, 0x77] 3 = rd [0x80, 1, 0xd1, 0x55, 0x66, 0x77] 3 := by
  decide

/-! ## C34 -/

/-- C34, counterexample. With a secret and a packet, a value of 6 bytes is decoded for a
descriptor of type extended and for one of type long-extended that are declared encrypted with
the User-Password method: the value is decrypted and the first `switch` goes on with the
decrypted bytes, which here end in an octets pair. Neither call returns a negative length. -/
theorem encrypted_extended_is_decoded :
    fr_radius_decode_pair_value crypt_env demo_request 2
        (demo_attr 241 PW_TYPE.EXTENDED ⟨false, false, FLAG_ENCRYPT.USER_PASSWORD, 0⟩)
        [1, 2, 3, 4, 5, 6] 0 6 6
        = Decoded.ok 6 [⟨demo_unknown (some demo_root) 0 241, none, 6,
            value_data.vp_octets [83, 91, 99, 99, 107, 115]⟩]
      ∧ fr_radius_decode_pair_value crypt_env demo_request 2
        (demo_attr 241 PW_TYPE.LONG_EXTENDED ⟨false, false, FLAG_ENCRYPT.USER_PASSWORD, 0⟩)
        [1, 2, 3, 4, 5, 6] 0 6 6
        = Decoded.ok 6 [⟨demo_unknown
            (some (demo_attr 241 PW_TYPE.LONG_EXTENDED ⟨false, false, FLAG_ENCRYPT.USER_PASSWORD, 0⟩))
            0 83, none, 4, value_data.vp_octets [99, 99, 107, 115]⟩] := by
  decide

/-! ## C36 -/

/-- C36, counterexample. Attribute 79 is concat-flagged. On the window `4f 02` of length 2
`fr_radius_decode_pair` succeeds and returns 0, less than the 2 bytes of the header. On the
window `4f 03 aa 4f 05` of length 5, whose second attribute claims 5 bytes where 2 are left,
it succeeds and returns 8, more than the window holds. -/
theorem concat_return_outside_bounds :
    fr_radius_decode_pair nest_env no_request 1 demo_root [79, 2] 0 2
        = Decoded.ok 0 [⟨demo_attr 79 PW_TYPE.OCTETS ⟨false, true, FLAG_ENCRYPT.NONE, 0⟩, none, 0,
            value_data.vp_octets []⟩]
      ∧ fr_radius_decode_pair nest_env no_request 1 demo_root
          [79, 3, 0xaa, 79, 5, 0xbb, 0xcc, 0xdd, 0xee] 0 5
        = Decoded.ok 8 [⟨demo_attr 79 PW_TYPE.OCTETS ⟨false, true, FLAG_ENCRYPT.NONE, 0⟩, none, 4,
            value_data.vp_octets [0xaa, 0xbb, 0xcc, 0xdd]⟩] := by
  decide

/-! ## C38 -/

theorem concat_scan_stuck (fin attr : Nat) (m : List Nat) (ptr : Nat) (h0 : rd m (ptr + 1) = 0)
    (ha : rd m ptr = attr) (hlt : ptr < fin) :
    ∀ fuel total, concat_scan m fin attr fuel ptr total = none := by
  intro fuel
  induction fuel with
  | zero => intro total; rw [concat_scan, if_pos hlt]
  | succ k ih =>
    intro total
    rw [concat_scan, if_pos hlt]
    dsimp only
    rw [h0, Nat.add_zero, if_neg (by simp [ha])]
    exact ih _

/-- C38, counterexample. Attribute 79 is concat-flagged. The window `4f 03 aa 4f 00` of
length 5 passes the header check of `fr_radius_decode_pair`: its first attribute has the
length 3. The second attribute has the type 79 and the length byte 0, so the scanning loop of
`decode_concat` adds 0 to `ptr`, finds the type 79 again and never leaves: no number of turns
gives it a result. -/
theorem concat_scan_never_ends :
    ¬ (5 < 2 ∨ rd [79, 3, 0xaa, 79, 0] (0 + 1) < 2 ∨ rd [79, 3, 0xaa, 79, 0] (0 + 1) > 5)
      ∧ (¬ ∃ fuel total, concat_scan [79, 3, 0xaa, 79, 0] (0 + 5) 79 fuel 0 0 = some total)
      ∧ fr_radius_decode_pair nest_env no_request 1 demo_root [79, 3, 0xaa, 79, 0] 0 5
        = Decoded.diverge := by
  refine ⟨by decide, ?_, by decide⟩
  rintro ⟨fuel, total, h⟩
  cases fuel with
  | zero =>
    have h0 : concat_scan [79, 3, 0xaa, 79, 0] (0 + 5) 79 0 0 0 = none := by decide
    rw [h0] at h
    exact Option.noConfusion h
  | succ k =>
    have hs : concat_scan [79, 3, 0xaa, 79, 0] (0 + 5) 79 (k + 1) 0 0
        = concat_scan [79, 3, 0xaa, 79, 0] (0 + 5) 79 k 3 1 := by
      rw [concat_scan]
      rfl
    rw [hs, concat_scan_stuck (0 + 5) 79 [79, 3, 0xaa, 79, 0] 3 rfl rfl (by decide) k 1] at h
    exact Option.noConfusion h

/-! ## The return value stays inside the window -/

theorem len_le_of_is (r : Decoded) (a k : Nat) (h : r.len_is a) (hle : a ≤ k) : r.len_le k := by
  cases r with
  | ok n vps =>
    have h1 : n = a := h
    show n ≤ k
    omega
  | error => trivial
  | diverge => trivial
  | fault => trivial

theorem decode_extended_le (E : Env) (dec : Decoder) (parent : fr_dict_attr_t) (m : List Nat)
    (data attrlen packetlen : Nat) (hargs : attrlen ≤ packetlen) :
    (decode_extended E dec parent m data attrlen packetlen).len_le packetlen := by
  unfold decode_extended
  split
  · trivial
  · obtain ⟨fl2, fin2, fr2, he, hf1, _⟩ := extended_scan_some m (rd_back m data 2) (rd m data)
      (data + packetlen) packetlen (data + attrlen) (attrlen - 2) 1 false (by omega) (by omega)
    rw [he]
    dsimp only
    repeat' split
    all_goals first
      | trivial
      | (show fin2 - data ≤ packetlen; omega)

theorem decode_wimax_le (E : Env) (dec : Decoder) (hdec : len_ok dec) (vendor : Nat)
    (parent : fr_dict_attr_t) (m : List Nat) (data attrlen packetlen : Nat)
    (hargs : attrlen ≤ packetlen) :
    (decode_wimax E dec vendor parent m data attrlen packetlen).len_le packetlen := by
  by_cases hbit : rd m (data + 6) &&& 0x80 = 0
  · exact len_le_of_is _ attrlen packetlen
      (decode_wimax_len E dec hdec vendor parent m data attrlen packetlen (Or.inr hbit)) hargs
  · unfold decode_wimax
    split
    · trivial
    · split
      · trivial
      · split
        · trivial
        · try rw [if_neg hbit]
          obtain ⟨fl2, fin2, he, hf1, _⟩ := wimax_scan_some m data (data + packetlen) packetlen
            (data + attrlen) (sub_sz (rd m (data + 5)) 3) false (by omega) (by omega)
          rw [he]
          dsimp only
          repeat' split
          all_goals first
            | trivial
            | (show fin2 - data ≤ packetlen; omega)

theorem decode_vsa_le (E : Env) (dec : Decoder) (parent : fr_dict_attr_t) (m : List Nat)
    (hdec : len_ok dec) (data attrlen packetlen : Nat) :
    (decode_vsa E dec parent m data attrlen packetlen).len_le packetlen := by
  unfold decode_vsa
  dsimp only
  split
  · trivial
  · split
    · trivial
    · rename_i hargs
      split
      · trivial
      · rename_i h5
        split
        · trivial
        · split
          · split
            · trivial
            · rename_i hok
              split
              · trivial
              · rename_i vda _
                obtain ⟨hl, _, hloop⟩ := tlv_ok_success _ _ _ _ _ hok
                have hfin : data + 4 + (attrlen - 4) = data + 4 + (attrlen - 4) := rfl
                have := vsa_loop_len E dec ⟨ntoh m data 4, 1, 1, 0⟩ vda m _ (attrlen - 4) (data + 4)
                  (attrlen - 4) 4 [] 0 hfin (Or.inr hloop)
                exact len_le_of_is _ _ _ this (by omega)
          · rename_i vda _
            split
            · trivial
            · rename_i dv hdv
              split
              · exact decode_wimax_le E dec hdec _ _ _ _ _ _ (by omega)
              · split
                · trivial
                · rename_i hok
                  obtain ⟨hl, _, hloop⟩ := tlv_ok_success _ _ _ _ _ hok
                  have hfin : data + 4 + (attrlen - 4) = data + 4 + (attrlen - 4) := rfl
                  have := vsa_loop_len E dec dv vda m _ (attrlen - 4) (data + 4)
                    (attrlen - 4) 4 [] 0 hfin (Or.inr hloop)
                  exact len_le_of_is _ _ _ this (by omega)

theorem long_extended_child_le (E : Env) (dec : Decoder) (hdec : len_ok dec)
    (child : fr_dict_attr_t) (m : List Nat) (start attrlen packetlen : Nat) (l : Locals)
    (r : Decoded) (hargs : attrlen ≤ packetlen)
    (h : long_extended_child E dec child m start attrlen packetlen l = Shape.done r) :
    r.len_le packetlen := by
  by_cases hbit : l.at 1 &&& 0x80 = 0
  · exact len_le_of_is _ attrlen packetlen
      (long_extended_child_len E dec hdec child m start attrlen packetlen l r (Or.inr hbit) h) hargs
  · unfold long_extended_child at h
    rw [if_neg hbit] at h
    injection h with h
    subst h
    exact decode_extended_le E dec child m start attrlen packetlen hargs

theorem shape_done_le (E : Env) (dec : Decoder) (hdec : len_ok dec) (D : fr_dict_attr_t)
    (m : List Nat) (start attrlen packetlen : Nat) (l : Locals) (r : Decoded)
    (hargs : attrlen ≤ packetlen)
    (h : shape_stage E dec D m start attrlen packetlen l = Shape.done r) :
    r.len_le packetlen := by
  cases hT : D.type <;> simp only [shape_stage, hT] at h
  all_goals try (repeat' split at h)
  all_goals try (exact Shape.noConfusion h)
  all_goals first
    | exact len_le_of_is _ attrlen packetlen (ret_plus_len dec hdec 1 (by norm_num) _ _ _ _ _ h)
        hargs
    | exact long_extended_child_le E dec hdec _ _ _ _ _ _ _ hargs h
    | exact len_le_of_is _ attrlen packetlen (evs_case_len E dec hdec _ _ _ _ h) hargs
    | (injection h with h; subst h; trivial)
    | (injection h with h; subst h
       exact len_le_of_is _ attrlen packetlen (fr_radius_decode_tlv_len E dec _ _ _ _) hargs)
    | (injection h with h; subst h; exact decode_vsa_le E dec _ _ hdec _ _ _)

theorem body_le (E : Env) (R : Request) (dec : Decoder) (hdec : len_ok dec)
    (D : fr_dict_attr_t) (m : List Nat) (start attrlen packetlen : Nat) :
    (decode_pair_value_body E R dec D m start attrlen packetlen).len_le packetlen := by
  rcases body_cases E R dec D m start attrlen packetlen _ rfl with
    h1 | ⟨hargs, ⟨h0, h1⟩ | ⟨_, _, l, h1⟩ | ⟨_, l, h1⟩ | ⟨_, l, hs, h1⟩ | ⟨_, l, da, l2, _, _, h1⟩⟩
  · rw [h1]; trivial
  · rw [h1]; exact Nat.zero_le _
  · rw [h1]; exact len_le_of_is _ _ _ (alloc_stage_len E D l attrlen) hargs.1
  · rw [h1]; exact len_le_of_is _ _ _ (raw_stage_len E D l attrlen) hargs.1
  · exact shape_done_le E dec hdec D m start attrlen packetlen l _ hargs.1 h1
  · rw [h1]; exact len_le_of_is _ _ _ (alloc_stage_len E da l2 attrlen) hargs.1

theorem decode_le (E : Env) (R : Request) (fuel : Nat) (D : fr_dict_attr_t) (m : List Nat)
    (start attrlen packetlen : Nat) :
    (fr_radius_decode_pair_value E R fuel D m start attrlen packetlen).len_le packetlen := by
  cases fuel with
  | zero => trivial
  | succ k =>
    rw [fr_radius_decode_pair_value]
    exact body_le E R _ (decode_len_ok E R k) D m start attrlen packetlen

/-- C34 (as amended). When a secret and a packet are given, `fr_radius_decode_pair_value`
rejects every attribute whose descriptor is declared encrypted and whose length is above
253, whatever the type of the descriptor, extended and long-extended included: such a length
is the only sign of an extended attribute that the decryption block looks at. -/
theorem encrypted_over_253_is_rejected (E : Env) (R : Request) (fuel : Nat) (D : fr_dict_attr_t)
    (m : List Nat) (start attrlen packetlen : Nat) (secret : List Nat) (packet : RADIUS_PACKET)
    (hs : R.secret = some secret) (hp : R.packet = some packet)
    (henc : D.flags.encrypt ≠ FLAG_ENCRYPT.NONE) (hlen : 253 < attrlen) :
    fr_radius_decode_pair_value E R (fuel + 1) D m start attrlen packetlen = Decoded.error := by
  rw [fr_radius_decode_pair_value, decode_pair_value_body]
  split
  · rfl
  · rw [if_neg (by omega)]
    cases ht : tag_stage E D m start attrlen with
    | none => rfl
    | some l =>
      have hd : decrypt_stage E R D attrlen l = Step.fail := by
        unfold decrypt_stage
        rw [hs, hp]
        dsimp only
        rw [if_pos henc, if_pos hlen]
      dsimp only
      rw [hd]

theorem encrypted_over_253_is_rejected_witness :
    fr_radius_decode_pair_value crypt_env demo_request (0 + 1)
        (demo_attr 241 PW_TYPE.LONG_EXTENDED ⟨false, false, FLAG_ENCRYPT.USER_PASSWORD, 0⟩)
        [] 0 254 254 = Decoded.error :=
  encrypted_over_253_is_rejected crypt_env demo_request 0
    (demo_attr 241 PW_TYPE.LONG_EXTENDED ⟨false, false, FLAG_ENCRYPT.USER_PASSWORD, 0⟩)
    [] 0 254 254 demo_secret ⟨demo_vector⟩ rfl rfl (by decide) (by decide)

theorem concat_copy_end (m : List Nat) (a vp_length : Nat) (hsz : vp_length < SIZE_MOD) :
    ∀ (ls : List Nat) (fuel ptr rem total : Nat) (p p2 : List Nat) (q : Nat),
      attrs_at m ptr rem ls →
      vp_length = total + ((leading_run m a ptr ls).map fun p => rd m (p + 1) - 2).sum →
      concat_copy m vp_length fuel ptr total p = some (p2, q) → q ≤ ptr + rem := by
  intro ls
  induction ls with
  | nil =>
    intro fuel ptr rem total p p2 q _ hv h
    have hv2 : vp_length = total := by rw [hv]; rfl
    cases fuel with
    | zero =>
      rw [concat_copy, if_neg (by omega)] at h
      injection h with h
      injection h with _ h
      omega
    | succ k =>
      rw [concat_copy, if_neg (by omega)] at h
      injection h with h
      injection h with _ h
      omega
  | cons l ls ih =>
    intro fuel ptr rem total p p2 q hw hv h
    obtain ⟨hl, h2, hrem, hrest⟩ := hw
    by_cases hlt : total < vp_length
    · by_cases ha : rd m ptr = a
      · rw [leading_run, if_pos ha, List.map_cons, List.sum_cons, ← hl] at hv
        cases fuel with
        | zero =>
          rw [concat_copy, if_pos hlt] at h
          exact Option.noConfusion h
        | succ k =>
          rw [concat_copy, if_pos hlt, ← hl, sub_sz_of_le _ _ h2, Nat.mod_eq_of_lt (by omega)] at h
          have := ih k (ptr + l) (rem - l) (total + (l - 2)) _ p2 q hrest (by omega) h
          omega
      · rw [leading_run, if_neg ha] at hv
        have : vp_length = total := by rw [hv]; rfl
        omega
    · cases fuel with
      | zero =>
        rw [concat_copy, if_neg hlt] at h
        injection h with h
        injection h with _ h
        omega
      | succ k =>
        rw [concat_copy, if_neg hlt] at h
        injection h with h
        injection h with _ h
        omega

theorem decode_concat_le (E : Env) (parent : fr_dict_attr_t) (m : List Nat)
    (start packetlen : Nat) (ls : List Nat) (hw : attrs_at m start packetlen ls)
    (hsz : packetlen < SIZE_MOD) :
    (decode_concat E parent m start packetlen).len_le packetlen := by
  have hscan := concat_scan_run m (rd m start) ls packetlen start packetlen 0 hw (Nat.le_refl _)
    (Or.inr rfl) (by omega)
  have hle := leading_run_sum_le m (rd m start) ls start packetlen hw
  rw [Nat.zero_add] at hscan
  rw [decode_concat, hscan]
  dsimp only
  repeat' split
  all_goals first
    | trivial
    | (rename_i p ptr hc
       have := concat_copy_end m (rd m start) _ (by omega) ls (packetlen + 1) start packetlen 0 []
         p ptr hw (by rw [Nat.zero_add]) hc
       show ptr - start ≤ packetlen
       omega)

/-! ## C36 -/

/-- C36 (as amended). Whenever `fr_radius_decode_pair` succeeds on a window of length `n`
whose first attribute has the descriptor `da`: when `da` is not concat-flagged the value `r`
it returns has `2 ≤ r ≤ n`; when `da` is concat-flagged and the window is a well-formed
sequence of attributes, `r ≤ n`. -/
theorem decode_pair_return_in_window (E : Env) (R : Request) (fuel : Nat)
    (parent da : fr_dict_attr_t) (m : List Nat) (data n r : Nat) (vps : List VALUE_PAIR)
    (ls : List Nat) (hda : child_or_unknown E parent 0 (rd m data) = some da)
    (h : fr_radius_decode_pair E R fuel parent m data n = Decoded.ok r vps) :
    (da.flags.concat = false → 2 ≤ r ∧ r ≤ n)
      ∧ (da.flags.concat = true → attrs_at m data n ls → n < SIZE_MOD → r ≤ n) := by
  unfold fr_radius_decode_pair at h
  split at h
  · exact Decoded.noConfusion h
  · rename_i hhdr
    rw [hda] at h
    dsimp only at h
    refine ⟨fun hcat => ?_, fun hcat hw hsz => ?_⟩
    · rw [hcat] at h
      simp only [Bool.false_eq_true, if_false] at h
      have hle := decode_le E R fuel da m (data + 2) (rd m (data + 1) - 2) (n - 2)
      cases hr : fr_radius_decode_pair_value E R fuel da m (data + 2) (rd m (data + 1) - 2)
          (n - 2) with
      | ok rcode vps2 =>
        rw [hr] at h hle
        simp only [Decoded.ok.injEq] at h
        have h3 : rcode ≤ n - 2 := hle
        omega
      | error => rw [hr] at h; exact Decoded.noConfusion h
      | diverge => rw [hr] at h; exact Decoded.noConfusion h
      | fault => rw [hr] at h; exact Decoded.noConfusion h
    · rw [if_pos hcat] at h
      have hle := decode_concat_le E da m data n ls hw hsz
      rw [h] at hle
      exact hle

theorem decode_pair_return_in_window_witness :
    (2 ≤ 16 ∧ 16 ≤ 16) ∧ 9 ≤ 15 :=
  ⟨(decode_pair_return_in_window nest_env no_request 2 demo_root frag_extended
      [0xf1, 8, 1, 0x80, 0xaa, 0xbb, 0xcc, 0xdd, 0xf1, 8, 1, 0, 0xee, 0xff, 0x11, 0x22] 0 16 16
      [⟨⟨0, 1, PW_TYPE.OCTETS, no_flags, frag_extended.link :: frag_extended.lineage⟩, none, 8,
        value_data.vp_octets [0xaa, 0xbb, 0xcc, 0xdd, 0xee, 0xff, 0x11, 0x22]⟩]
      [] (by decide) (by decide)).1 rfl,
    (decode_pair_return_in_window nest_env no_request 1 demo_root
      (demo_attr 79 PW_TYPE.OCTETS ⟨false, true, FLAG_ENCRYPT.NONE, 0⟩)
      [79, 3, 0xaa, 79, 2, 79, 4, 1, 2, 5, 6, 0, 0, 0, 1] 0 15 9
      [⟨demo_attr 79 PW_TYPE.OCTETS ⟨false, true, FLAG_ENCRYPT.NONE, 0⟩, none, 3,
        value_data.vp_octets [0xaa, 1, 2]⟩]
      [3, 2, 4, 6] (by decide) (by decide)).2 rfl (by decide) (by decide)⟩

/-! ## C38 (as amended) -/

theorem concat_reached_ge (m : List Nat) (fin attr : Nat) :
    ∀ (k ptr p : Nat), p ∈ concat_reached m fin attr k ptr → ptr ≤ p ∧ p < fin := by
  intro k
  induction k with
  | zero => intro ptr p hp; simp [concat_reached] at hp
  | succ k ih =>
    intro ptr p hp
    rw [concat_reached] at hp
    by_cases hlt : ptr < fin
    · rw [if_pos hlt] at hp
      rcases List.mem_cons.mp hp with h | h
      · subst h; exact ⟨Nat.le_refl _, hlt⟩
      · by_cases hn : rd m (ptr + rd m (ptr + 1)) ≠ attr
        · rw [if_pos hn] at h; exact absurd h (List.not_mem_nil _)
        · rw [if_neg hn] at h
          have := ih _ _ h
          omega
    · rw [if_neg hlt] at hp; exact absurd hp (List.not_mem_nil _)

/-- The scanning loop is left within `end - ptr` turns when every attribute it reaches has a
length byte other than 0. -/
theorem concat_scan_ends (m : List Nat) (fin a : Nat) :
    ∀ (fuel ptr total : Nat), fin - ptr ≤ fuel →
      (∀ k, ∀ p ∈ concat_reached m fin a k ptr, rd m (p + 1) ≠ 0) →
      ∃ t, concat_scan m fin a fuel ptr total = some t := by
  intro fuel
  induction fuel with
  | zero =>
    intro ptr total hfuel _
    exact ⟨total, by rw [concat_scan, if_neg (by omega)]⟩
  | succ k ih =>
    intro ptr total hfuel hnz
    rw [concat_scan]
    by_cases hlt : ptr < fin
    · rw [if_pos hlt]
      dsimp only
      have h1 : rd m (ptr + 1) ≠ 0 :=
        hnz 1 ptr (by rw [concat_reached, if_pos hlt]; exact List.mem_cons_self _ _)
      by_cases hn : rd m (ptr + rd m (ptr + 1)) ≠ a
      · rw [if_pos hn]; exact ⟨_, rfl⟩
      · rw [if_neg hn]
        refine ih _ _ (by omega) (fun j p hp => hnz (j + 1) p ?_)
        rw [concat_reached, if_pos hlt, if_neg hn]
        exact List.mem_cons_of_mem _ hp
    · rw [if_neg hlt]; exact ⟨_, rfl⟩

/-- The scanning loop is never left when it reaches an attribute with the length byte 0. -/
theorem concat_scan_stuck_at (m : List Nat) (fin a : Nat) :
    ∀ (k ptr p : Nat), (ptr < fin → rd m ptr = a) → p ∈ concat_reached m fin a k ptr →
      rd m (p + 1) = 0 → ∀ fuel total, concat_scan m fin a fuel ptr total = none := by
  intro k
  induction k with
  | zero => intro ptr p _ hp; simp [concat_reached] at hp
  | succ k ih =>
    intro ptr p hty hp h0 fuel total
    rw [concat_reached] at hp
    by_cases hlt : ptr < fin
    · rw [if_pos hlt] at hp
      rcases List.mem_cons.mp hp with h | h
      · subst h
        exact concat_scan_stuck fin a m p h0 (hty hlt) hlt fuel total
      · by_cases hn : rd m (ptr + rd m (ptr + 1)) ≠ a
        · rw [if_pos hn] at h; exact absurd h (List.not_mem_nil _)
        · rw [if_neg hn] at h
          cases fuel with
          | zero => rw [concat_scan, if_pos hlt]
          | succ f =>
            rw [concat_scan, if_pos hlt]
            dsimp only
            rw [if_neg hn]
            exact ih _ p (fun _ => not_not.mp hn) h h0 f _
    · rw [if_neg hlt] at hp; exact absurd hp (List.not_mem_nil _)

/-- C38 (as amended). For every window that passes the header check of
`fr_radius_decode_pair`, the scanning loop of `decode_concat` is left, within `length` turns,
when no attribute that it reaches behind the first has the length byte 0; the attributes it
reaches are the first one and, as long as the type byte found where an attribute ends is the
type of the first and lies inside the window, the attribute that starts there. Bytes that the
loop does not reach as the header of such an attribute, and length bytes 1, do not matter.
Conversely, when the loop is left at all, no attribute it reaches has the length byte 0. -/
theorem concat_scan_terminates (m : List Nat) (data length : Nat)
    (hhdr : ¬ (length < 2 ∨ rd m (data + 1) < 2 ∨ rd m (data + 1) > length)) :
    ((∀ k, ∀ p ∈ concat_reached m (data + length) (rd m data) k data,
          p ≠ data → rd m (p + 1) ≠ 0) →
        ∃ total, concat_scan m (data + length) (rd m data) length data 0 = some total)
      ∧ ((∃ fuel total, concat_scan m (data + length) (rd m data) fuel data 0 = some total) →
        ∀ k, ∀ p ∈ concat_reached m (data + length) (rd m data) k data, rd m (p + 1) ≠ 0) := by
  constructor
  · intro hnz
    refine concat_scan_ends m (data + length) (rd m data) length data 0 (by omega) ?_
    intro k p hp
    by_cases hpd : p = data
    · rw [hpd]; omega
    · exact hnz k p hp hpd
  · rintro ⟨fuel, total, h⟩ k p hp h0
    rw [concat_scan_stuck_at m (data + length) (rd m data) k data p (fun _ => rfl) hp h0 fuel 0]
      at h
    exact Option.noConfusion h

theorem concat_scan_terminates_witness :
    ∃ total, concat_scan [79, 3, 0xaa, 79, 1, 5, 4, 79, 0] (0 + 9)
      (rd [79, 3, 0xaa, 79, 1, 5, 4, 79, 0] 0) 9 0 0 = some total :=
  (concat_scan_terminates [79, 3, 0xaa, 79, 1, 5, 4, 79, 0] 0 9 (by decide)).1 (by
    intro k p hp _
    have h4 : concat_reached [79, 3, 0xaa, 79, 1, 5, 4, 79, 0] (0 + 9)
        (rd [79, 3, 0xaa, 79, 1, 5, 4, 79, 0] 0) k 0 ⊆ [0, 3, 4] := by
      match k with
      | 0 => intro x hx; simp [concat_reached] at hx
      | 1 => decide
      | 2 => decide
      | k + 3 =>
        have e : concat_reached [79, 3, 0xaa, 79, 1, 5, 4, 79, 0] (0 + 9)
            (rd [79, 3, 0xaa, 79, 1, 5, 4, 79, 0] 0) (k + 3) 0 = [0, 3] := rfl
        rw [e]; decide
    have hp2 := h4 hp
    simp only [List.mem_cons, List.mem_singleton, List.not_mem_nil, or_false] at hp2
    rcases hp2 with rfl | rfl | rfl <;> decide)

/-! ## C31 -/

/-- C31. The code at the failing inputs. When the text ends behind the name of an entry
(`bob`, or `bob` and two spaces), behind the indentation of a reply line, or behind a reply
line that has no line feed, `pairlist_read` returns -1: the label `add_entry` is
`return -1`, and the lines `*last = t; break;` behind it are never reached. Only a text that
ends right behind a check item is read with success, through the fall from `check_item_end`
into `setup_reply`. -/
theorem end_of_input_in_entry_fails :
    pairlist_read (text_env [("users".toList, "bob".toList)]) 9 "users".toList = Read.fail
      ∧ pairlist_read (text_env [("users".toList, "bob  ".toList)]) 9 "users".toList = Read.fail
      ∧ pairlist_read (text_env [("users".toList,
          "bob  Framed-IP-Address == 10.0.0.2\n     ".toList)]) 9 "users".toList = Read.fail
      ∧ pairlist_read (text_env [("users".toList,
          "bob  Framed-IP-Address == 10.0.0.2\n     Reply-Message = \"hi\",\n     ".toList)]) 9
          "users".toList = Read.fail
      ∧ pairlist_read (text_env [("users".toList,
          "bob  Framed-IP-Address == 10.0.0.2\n     Reply-Message = \"hi\"".toList)]) 9
          "users".toList = Read.fail
      ∧ pairlist_read (text_env [("users".toList,
          "bob  Framed-IP-Address == 10.0.0.2".toList)]) 9 "users".toList
        = Read.ok [⟨"bob".toList,
            [⟨⟨"Framed-IP-Address".toList, true⟩, "==".toList, ⟨"10.0.0.2".toList, false⟩⟩],
            [], 0, 1⟩] := by
  decide

/-! ## C33 -/

/-- C33, counterexample. The file of the spec's example is read with success. With the
comment line `# note` behind the check line, with an empty line behind the check line, with
either between the two reply lines of an entry, and with a comment line that starts with a
space behind the last reply line, `pairlist_read` returns -1. -/
theorem comment_inside_entry_fails :
    pairlist_read (text_env [("users".toList,
          "bob  Framed-IP-Address == 10.0.0.2\n     Reply-Message = \"hi\"\n".toList)]) 9
          "users".toList
        = Read.ok [⟨"bob".toList,
            [⟨⟨"Framed-IP-Address".toList, true⟩, "==".toList, ⟨"10.0.0.2".toList, false⟩⟩],
            [⟨⟨"Reply-Message".toList, true⟩, "=".toList, ⟨"\"hi\"".toList, false⟩⟩], 0, 1⟩]
      ∧ pairlist_read (text_env [("users".toList,
          "bob  Framed-IP-Address == 10.0.0.2\n# note\n     Reply-Message = \"hi\"\n".toList)]) 9
          "users".toList = Read.fail
      ∧ pairlist_read (text_env [("users".toList,
          "bob  Framed-IP-Address == 10.0.0.2\n\n     Reply-Message = \"hi\"\n".toList)]) 9
          "users".toList = Read.fail
      ∧ pairlist_read (text_env [("users".toList,
          ("bob  Framed-IP-Address == 10.0.0.2\n     Reply-Message = \"hi\",\n"
            ++ "     Session-Timeout = 3\n").toList)]) 9 "users".toList
        = Read.ok [⟨"bob".toList,
            [⟨⟨"Framed-IP-Address".toList, true⟩, "==".toList, ⟨"10.0.0.2".toList, false⟩⟩],
            [⟨⟨"Reply-Message".toList, true⟩, "=".toList, ⟨"\"hi\"".toList, false⟩⟩,
              ⟨⟨"Session-Timeout".toList, true⟩, "=".toList, ⟨"3".toList, false⟩⟩], 0, 1⟩]
      ∧ pairlist_read (text_env [("users".toList,
          ("bob  Framed-IP-Address == 10.0.0.2\n     Reply-Message = \"hi\",\n# note\n"
            ++ "     Session-Timeout = 3\n").toList)]) 9 "users".toList = Read.fail
      ∧ pairlist_read (text_env [("users".toList,
          ("bob  Framed-IP-Address == 10.0.0.2\n     Reply-Message = \"hi\",\n\n"
            ++ "     Session-Timeout = 3\n").toList)]) 9 "users".toList = Read.fail
      ∧ pairlist_read (text_env [("users".toList,
          "bob  Framed-IP-Address == 10.0.0.2\n     Reply-Message = \"hi\"\n # note\n".toList)]) 9
          "users".toList = Read.fail := by
  decide

/-! ## C39 -/

theorem check_item_end_order (t t2 : PAIR_LIST) (s s2 : List Char) (comma : Bool)
    (lineno l2 : Nat) (h : check_item_end t s comma lineno = CheckList.reply t2 s2 l2) :
    t2 = t := by
  unfold check_item_end at h
  repeat' split at h
  all_goals first
    | exact CheckList.noConfusion h
    | (injection h with h1 _ _; exact h1.symm)

theorem check_item_comment_order (t t2 : PAIR_LIST) (s s2 : List Char) (comma : Bool)
    (lineno l2 : Nat) (h : check_item_comment t s comma lineno = CheckList.reply t2 s2 l2) :
    t2 = t := by
  unfold check_item_comment at h
  split at h
  · exact check_item_end_order _ _ _ _ _ _ _ h
  · exact check_item_end_order _ _ _ _ _ _ _ h

/-- The check list leaves the fields `order` and `lineno` and the name of the entry alone. -/
theorem check_item_order (E : FileEnv) :
    ∀ (fuel : Nat) (t t2 : PAIR_LIST) (s s2 : List Char) (comma : Bool) (lineno l2 : Nat),
      check_item E fuel t s comma lineno = CheckList.reply t2 s2 l2 → t2.order = t.order := by
  intro fuel
  induction fuel with
  | zero =>
    intro t t2 s s2 comma lineno l2 h
    exact CheckList.noConfusion h
  | succ k ih =>
    intro t t2 s s2 comma lineno l2 h
    rw [check_item] at h
    dsimp only at h
    repeat' split at h
    all_goals first
      | exact CheckList.noConfusion h
      | (rw [check_item_comment_order _ _ _ _ _ _ _ h])
      | (rw [check_item_end_order _ _ _ _ _ _ _ h])
      | (rw [ih _ _ _ _ _ _ _ h])

/-- The reply list leaves the field `order` of the entry alone. -/
theorem reply_item_order (E : FileEnv) :
    ∀ (fuel : Nat) (b : Bool) (t t2 : PAIR_LIST) (s s2 : List Char) (comma : Bool)
      (lineno l2 : Nat),
      reply_item E fuel b t s comma lineno = ReplyList.done t2 s2 l2 → t2.order = t.order := by
  intro fuel
  induction fuel with
  | zero =>
    intro b t t2 s s2 comma lineno l2 h
    cases b <;> exact ReplyList.noConfusion h
  | succ k ih =>
    intro b t t2 s s2 comma lineno l2 h
    cases b with
    | true =>
      rw [reply_item] at h
      repeat' split at h
      all_goals first
        | exact ReplyList.noConfusion h
        | (injection h with h1 _ _; rw [← h1])
        | exact ih _ _ _ _ _ _ _ _ h
    | false =>
      rw [reply_item] at h
      dsimp only at h
      repeat' split at h
      all_goals first
        | exact ReplyList.noConfusion h
        | exact ih _ _ _ _ _ _ _ _ h
        | (rw [ih _ _ _ _ _ _ _ _ h])

theorem renumber_order :
    ∀ (pl : List PAIR_LIST) (order : Nat),
      (renumber pl order).map (fun t => t.order) = List.range' order pl.length := by
  intro pl
  induction pl with
  | nil => intro _; rfl
  | cons t pl ih =>
    intro order
    rw [renumber, List.map_cons, ih, List.length_cons, List.range'_succ]

theorem renumber_length :
    ∀ (pl : List PAIR_LIST) (order : Nat), (renumber pl order).length = pl.length := by
  intro pl
  induction pl with
  | nil => intro _; rfl
  | cons t pl ih => intro order; rw [renumber, List.length_cons, ih, List.length_cons]

/-- What the loop adds to the list `pl` is numbered from `order` on. -/
theorem read_loop_order (E : FileEnv) :
    ∀ (fuel : Nat) (file : List Char) (pl : List PAIR_LIST) (order lineno : Nat)
      (s : List Char) (res : List PAIR_LIST),
      read_loop E fuel file pl order lineno s = Read.ok res →
      ∃ extra, res = pl ++ extra ∧
        extra.map (fun t => t.order) = List.range' order extra.length := by
  intro fuel
  induction fuel with
  | zero =>
    intro file pl order lineno s res h
    exact Read.noConfusion h
  | succ k ih =>
    intro file pl order lineno s res h
    rw [read_loop] at h
    generalize hA : fr_sbuff_adv_past_allowed s sbuff_char_space = A at h
    generalize hS : (if (fr_sbuff_next_if_char A.2 '#').1 = true then
        (fr_sbuff_adv_to_chr (fr_sbuff_next_if_char A.2 '#').2 '\n').2
      else (fr_sbuff_next_if_char A.2 '#').2) = S at h
    by_cases h1 : (fr_sbuff_next_if_char S '\n').1 = true
    · rw [if_pos h1] at h
      exact ih _ _ _ _ _ _ h
    · rw [if_neg h1] at h
      by_cases h2 : A.1 > 0
      · rw [if_pos h2] at h
        exact Read.noConfusion h
      · rw [if_neg h2] at h
        by_cases h3 : fr_sbuff_is_str S include_word = true
        · rw [if_pos h3] at h
          dsimp only at h
          generalize hB : fr_sbuff_adv_past_allowed (List.drop 8 S) sbuff_char_space = B at h
          by_cases h4 : B.1 = 0
          · rw [if_pos h4] at h
            exact Read.noConfusion h
          · rw [if_neg h4] at h
            generalize hC : fr_sbuff_out_abstrncpy_until B.2 name_terms = C at h
            by_cases h5 : C.1.length = 0
            · rw [if_pos h5] at h
              exact Read.noConfusion h
            · rw [if_neg h5] at h
              generalize hD : fr_sbuff_adv_past_allowed C.2 sbuff_char_space = D at h
              generalize hT : (if (fr_sbuff_next_if_char D.2 '#').1 = true then
                  (fr_sbuff_adv_to_chr (fr_sbuff_next_if_char D.2 '#').2 '\n').2
                else (fr_sbuff_next_if_char D.2 '#').2) = T at h
              split at h
              · exact Read.noConfusion h
              · generalize hU : (if fr_sbuff_is_char T '\n' = true then T
                  else (fr_sbuff_adv_to_chr T '\n').2) = U at h
                split at h
                · exact Read.noConfusion h
                · rename_i text _
                  split at h
                  · rename_i included _
                    have hinc : ∃ extra, res = (pl ++ renumber included order) ++ extra ∧
                        extra.map (fun t => t.order)
                          = List.range' (order + included.length) extra.length := by
                      split at h
                      · exact ih _ _ _ _ _ _ h
                      · injection h with h
                        exact ⟨[], by rw [h, List.append_nil], rfl⟩
                    obtain ⟨extra, he1, he2⟩ := hinc
                    refine ⟨renumber included order ++ extra, by rw [he1, List.append_assoc], ?_⟩
                    have hr := List.range'_append order included.length extra.length 1
                    rw [Nat.one_mul, Nat.add_comm extra.length] at hr
                    rw [List.map_append, renumber_order, he2, List.length_append, renumber_length,
                      hr]
                  · exact Read.noConfusion h
                  · exact Read.noConfusion h
        · rw [if_neg h3] at h
          dsimp only at h
          generalize hN : fr_sbuff_out_abstrncpy_until S name_terms = Nm at h
          by_cases h4 : Nm.1.length = 0
          · rw [if_pos h4] at h
            injection h with h
            exact ⟨[], by rw [h, List.append_nil], rfl⟩
          · rw [if_neg h4] at h
            split at h
            · exact Read.noConfusion h
            · exact Read.noConfusion h
            · rename_i t s1 l1 hc
              split at h
              · rename_i t2 s2 l2 hr
                obtain ⟨extra, he1, he2⟩ := ih _ _ _ _ _ _ h
                have ho : t2.order = order := by
                  rw [reply_item_order E _ _ _ _ _ _ _ _ _ hr, check_item_order E _ _ _ _ _ _ _ _ hc]
                refine ⟨t2 :: extra, by rw [he1, List.append_assoc]; rfl, ?_⟩
                rw [List.map_cons, he2, ho, List.length_cons, List.range'_succ]
              · exact Read.noConfusion h
              · exact Read.noConfusion h

/-- C39. Whenever `pairlist_read` succeeds, the fields `order` of the entries it returns are
0, 1, ..., n-1 in the order of the list; the entries of an included file take their numbers
in that sequence, at the place of the `$INCLUDE` line. -/
theorem pairlist_read_orders (E : FileEnv) (fuel : Nat) (file : List Char)
    (res : List PAIR_LIST) (h : pairlist_read E fuel file = Read.ok res) :
    res.map (fun t => t.order) = List.range res.length := by
  unfold pairlist_read at h
  split at h
  · exact Read.noConfusion h
  · obtain ⟨extra, he1, he2⟩ := read_loop_order E _ _ _ _ _ _ _ h
    rw [List.nil_append] at he1
    rw [he1, he2, List.range_eq_range']

theorem pairlist_read_orders_witness :
    pairlist_read (text_env [("a/users".toList, "a\n$INCLUDE more\nc\n".toList),
          ("a/more".toList, "x\ny\n".toList)]) 9 "a/users".toList
        = Read.ok [⟨"a".toList, [], [], 0, 1⟩, ⟨"x".toList, [], [], 1, 1⟩,
            ⟨"y".toList, [], [], 2, 2⟩, ⟨"c".toList, [], [], 3, 3⟩]
      ∧ [0, 1, 2, 3] = List.range 4 :=
  ⟨by decide,
    pairlist_read_orders (text_env [("a/users".toList, "a\n$INCLUDE more\nc\n".toList),
        ("a/more".toList, "x\ny\n".toList)]) 9 "a/users".toList
      [⟨"a".toList, [], [], 0, 1⟩, ⟨"x".toList, [], [], 1, 1⟩,
        ⟨"y".toList, [], [], 2, 2⟩, ⟨"c".toList, [], [], 3, 3⟩] (by decide)⟩

/-! ## C32 -/

theorem strrchr_none (file : List Char) (c : Char) (h : c ∉ file) : strrchr file c = none := by
  have h2 : List.indexOf? c file.reverse = none := by
    rw [List.indexOf?, List.findIdx?_eq_none_iff]
    intro x hx
    have hx2 : x ∈ file := List.mem_reverse.mp hx
    simp only [beq_eq_false_iff_ne, ne_eq]
    intro hxc
    exact h (hxc ▸ hx2)
  rw [strrchr, h2]

theorem index_first (A B : List Char) (c : Char) (h : c ∉ A) :
    List.indexOf? c (A ++ c :: B) = some A.length := by
  induction A with
  | nil => simp [List.indexOf?, List.findIdx?_cons]
  | cons a A ih =>
    have ha : a ≠ c := fun hac => h (hac ▸ List.mem_cons_self _ _)
    have ih2 := ih fun hc => h (List.mem_cons_of_mem _ hc)
    rw [List.indexOf?] at ih2 ⊢
    rw [List.cons_append, List.findIdx?_cons, if_neg (by simpa using ha), List.findIdx?_succ, ih2]
    rfl

theorem drop_to_first (A B : List Char) (c : Char) (h : c ∉ A) :
    (A ++ c :: B).dropWhile (fun d => d != c) = c :: B := by
  rw [List.dropWhile_append_of_pos]
  · simp [List.dropWhile_cons]
  · intro a ha
    have : a ≠ c := fun hac => h (hac ▸ ha)
    simpa using this

theorem strrchr_some (file : List Char) (c : Char) (h : c ∈ file) :
    ∃ p, strrchr file c = some p ∧
      file.take p = ((file.reverse.dropWhile fun d => d != c).drop 1).reverse := by
  obtain ⟨A, B, hR, hA⟩ := List.eq_append_cons_of_mem (List.mem_reverse.mpr h)
  have hfile : file = B.reverse ++ c :: A.reverse := by
    have := congrArg List.reverse hR
    simpa using this
  refine ⟨B.length, ?_, ?_⟩
  · rw [strrchr, hR, index_first A B c hA]
    have hl : (A ++ c :: B).reverse.length = A.length + B.length + 1 := by simp; omega
    have hl2 : file.length = A.length + B.length + 1 := by
      rw [← hl, ← hR, List.reverse_reverse]
    simp only [hl2]
    congr 1
    omega
  · rw [hR, drop_to_first A B c hA, List.drop_one, List.tail_cons, hfile]
    exact List.take_left' (List.length_reverse B)

theorem include_path_claimed (F N : List Char) :
    include_path F N = claimed_include_path F N := by
  unfold include_path claimed_include_path
  by_cases hN : fr_sbuff_is_char N '/' = true
  · have h1 : N.head? = some '/' := by
      cases N with
      | nil => exact Bool.noConfusion hN
      | cons c r =>
        simp only [fr_sbuff_is_char, beq_iff_eq] at hN
        rw [hN]; rfl
    rw [if_pos hN, if_pos (Or.inl h1)]
  · have h1 : ¬ N.head? = some '/' := by
      intro h
      cases N with
      | nil => exact Option.noConfusion h
      | cons c r =>
        simp only [List.head?_cons, Option.some.injEq] at h
        exact hN (by simp [fr_sbuff_is_char, h])
    rw [if_neg hN]
    by_cases hF : '/' ∈ F
    · obtain ⟨p, hp1, hp2⟩ := strrchr_some F '/' hF
      rw [hp1, if_neg (by simp [h1, hF])]
      dsimp only
      rw [hp2, dir_part]
    · rw [strrchr_none F '/' hF, if_pos (Or.inr hF)]

theorem adv_to_chr_here (rest : List Char) :
    fr_sbuff_adv_to_chr ('\n' :: rest) '\n' = (0, '\n' :: rest) := by
  simp [fr_sbuff_adv_to_chr, List.takeWhile_cons, List.dropWhile_cons]

/-- The turn of the loop of `pairlist_read` at an `$INCLUDE` line: the file that is opened is
`include_path file N`. -/
theorem read_loop_include (E : FileEnv) (fuel : Nat) (file : List Char) (pl : List PAIR_LIST)
    (order lineno : Nat) (ws N rest : List Char) (hws : ws ≠ [] ∧ ∀ c ∈ ws, blank c)
    (hN : N ≠ [] ∧ ∀ c ∈ N, name_terms c = false ∧ sbuff_char_space c = false) :
    read_loop E (fuel + 1) file pl order lineno (include_word ++ ws ++ N ++ '\n' :: rest)
      = match E.fopen (include_path file N) with
        | none => Read.fail
        | some text =>
          match read_loop E fuel (include_path file N) [] 0 1 text with
          | Read.ok included =>
            read_loop E fuel file (pl ++ renumber included order) (order + included.length)
              (lineno + 1) rest
          | Read.fail => Read.fail
          | Read.diverge => Read.diverge := by
  obtain ⟨c, n0, hn⟩ : ∃ c n0, N = c :: n0 := by
    cases h : N with
    | nil => exact absurd h hN.1
    | cons c n0 => exact ⟨c, n0, rfl⟩
  have hc := hN.2 c (by rw [hn]; exact List.mem_cons_self _ _)
  have hs : include_word ++ ws ++ N ++ '\n' :: rest
      = '$' :: (['I', 'N', 'C', 'L', 'U', 'D', 'E'] ++ ws ++ N ++ '\n' :: rest) := by
    simp [include_word]
  have hstr : fr_sbuff_is_str ('$' :: (['I', 'N', 'C', 'L', 'U', 'D', 'E'] ++ ws ++ N
      ++ '\n' :: rest)) include_word = true := by
    simp [fr_sbuff_is_str, include_word, List.isPrefixOf]
  have hdrop : List.drop 8 ('$' :: (['I', 'N', 'C', 'L', 'U', 'D', 'E'] ++ ws ++ N
      ++ '\n' :: rest)) = ws ++ c :: (n0 ++ '\n' :: rest) := by
    simp [hn]
  have hname : c :: (n0 ++ '\n' :: rest) = N ++ '\n' :: rest := by rw [hn]; rfl
  have huntil := until_name N '\n' rest (fun d hd => (hN.2 d hd).1) rfl
  have hlen : ¬ ws.length = 0 := fun h => hws.1 (List.length_eq_zero.mp h)
  have hlen2 : ¬ N.length = 0 := fun h => hN.1 (List.length_eq_zero.mp h)
  rw [hs, read_loop]
  simp only [adv_past_none '$' _ (by decide), next_if_char_ne '$' '#' _ (by decide),
    next_if_char_ne '$' '\n' _ (by decide), Bool.false_eq_true, if_false, gt_iff_lt,
    Nat.lt_irrefl, hstr, if_true, hdrop]
  simp only [adv_past_blanks ws c _ hws.2 hc.2, hlen, if_false]
  simp only [hname, huntil, hlen2, if_false, adv_past_none '\n' rest (by decide),
    next_if_char_ne '\n' '#' rest (by decide), Bool.false_eq_true, is_char_eq, Bool.not_true,
    Bool.false_and, if_true, next_if_char_eq]

/-- C32. For every path `F` of an including file and every `$INCLUDE` name `N`, the path
that `pairlist_read` builds for the include, `include_path F N`, is `N` itself when `N`
starts with `/` or `F` holds no `/`, and else the directory part of `F` (everything before
its last `/`), a `/`, and `N`; and at a line `$INCLUDE N` the loop opens that path and reads
the file behind it. -/
theorem include_path_is_claimed_path (E : FileEnv) (fuel : Nat) (F : List Char)
    (pl : List PAIR_LIST) (order lineno : Nat) (ws N rest : List Char)
    (hws : ws ≠ [] ∧ ∀ c ∈ ws, blank c)
    (hN : N ≠ [] ∧ ∀ c ∈ N, name_terms c = false ∧ sbuff_char_space c = false) :
    include_path F N = claimed_include_path F N
      ∧ read_loop E (fuel + 1) F pl order lineno (include_word ++ ws ++ N ++ '\n' :: rest)
        = match E.fopen (claimed_include_path F N) with
          | none => Read.fail
          | some text =>
            match read_loop E fuel (claimed_include_path F N) [] 0 1 text with
            | Read.ok included =>
              read_loop E fuel F (pl ++ renumber included order) (order + included.length)
                (lineno + 1) rest
            | Read.fail => Read.fail
            | Read.diverge => Read.diverge := by
  refine ⟨include_path_claimed F N, ?_⟩
  rw [← include_path_claimed F N]
  exact read_loop_include E fuel F pl order lineno ws N rest hws hN

theorem include_path_is_claimed_path_witness :
    include_path "a/b/users".toList "more".toList = "a/b/more".toList
      ∧ include_path "users".toList "more".toList = "more".toList
      ∧ include_path "a/b/users".toList "/etc/more".toList = "/etc/more".toList
      ∧ dir_part "a/b/users".toList = "a/b".toList :=
  ⟨(include_path_is_claimed_path users_env 0 "a/b/users".toList [] 0 1 " ".toList "more".toList
      [] (by decide) (by decide)).1.trans (by decide),
    (include_path_is_claimed_path users_env 0 "users".toList [] 0 1 " ".toList "more".toList
      [] (by decide) (by decide)).1.trans (by decide),
    (include_path_is_claimed_path users_env 0 "a/b/users".toList [] 0 1 " ".toList
      "/etc/more".toList [] (by decide) (by decide)).1.trans (by decide),
    by decide⟩

/-! ## C33 (as amended) -/

theorem adv_past_spaces (ws : List Char) (c : Char) (r : List Char)
    (hw : ∀ d ∈ ws, sbuff_char_space d = true) (hc : sbuff_char_space c = false) :
    fr_sbuff_adv_past_allowed (ws ++ c :: r) sbuff_char_space = (ws.length, c :: r) := by
  induction ws with
  | nil => simp [fr_sbuff_adv_past_allowed, List.takeWhile_cons, List.dropWhile_cons, hc]
  | cons d ws ih =>
    have hd : sbuff_char_space d = true := hw d (List.mem_cons_self _ _)
    have ih2 := ih fun x hx => hw x (List.mem_cons_of_mem _ hx)
    simp only [fr_sbuff_adv_past_allowed, Prod.mk.injEq] at ih2 ⊢
    simp [List.takeWhile_cons, List.dropWhile_cons, hd, ih2.1, ih2.2]

theorem adv_to_chr_line (txt rest : List Char) (h : '\n' ∉ txt) :
    (fr_sbuff_adv_to_chr (txt ++ '\n' :: rest) '\n').2 = '\n' :: rest := by
  have hm : '\n' ∈ txt ++ '\n' :: rest := by simp
  rw [fr_sbuff_adv_to_chr, if_pos hm]
  exact drop_to_first txt rest '\n' h

/-- One turn of the loop of `pairlist_read` at a comment line or at a line of blanks: the
line is passed and counted. -/
theorem read_loop_skips_line (E : FileEnv) (fuel : Nat) (file : List Char)
    (pl : List PAIR_LIST) (order lineno : Nat) (L rest : List Char)
    (hL : comment_line L ∨ blank_line L) :
    read_loop E (fuel + 1) file pl order lineno (L ++ rest)
      = read_loop E fuel file pl order (lineno + 1) rest := by
  rcases hL with ⟨ws, txt, hL, hws, htxt⟩ | ⟨ws, hL, hws⟩
  · have hs : L ++ rest = ws ++ '#' :: (txt ++ '\n' :: rest) := by
      rw [hL]; simp
    rw [hs, read_loop]
    simp only [adv_past_spaces ws '#' _ hws (by decide), next_if_char_eq, if_true,
      adv_to_chr_line txt rest htxt]
  · have hs : L ++ rest = ws ++ '\n' :: rest := by
      rw [hL]; simp
    rw [hs, read_loop]
    simp only [adv_past_spaces ws '\n' _ hws (by decide),
      next_if_char_ne '\n' '#' rest (by decide), Bool.false_eq_true, if_false, next_if_char_eq,
      if_true]

theorem read_loop_skips_lines (E : FileEnv) (file : List Char) :
    ∀ (Ls : List (List Char)), (∀ L ∈ Ls, comment_line L ∨ blank_line L) →
      ∀ (fuel : Nat) (pl : List PAIR_LIST) (order lineno : Nat) (rest : List Char),
        read_loop E (fuel + Ls.length) file pl order lineno (Ls.flatten ++ rest)
          = read_loop E fuel file pl order (lineno + Ls.length) rest := by
  intro Ls
  induction Ls with
  | nil => intro _ fuel pl order lineno rest; rfl
  | cons L Ls ih =>
    intro hLs fuel pl order lineno rest
    have hs : (L :: Ls).flatten ++ rest = L ++ (Ls.flatten ++ rest) := by simp
    have hf : fuel + (L :: Ls).length = (fuel + Ls.length) + 1 := by simp; omega
    rw [hs, hf, read_loop_skips_line E _ file pl order lineno L _ (hLs L (List.mem_cons_self _ _)),
      ih (fun x hx => hLs x (List.mem_cons_of_mem _ hx))]
    congr 1
    simp; omega

/-- The loop of `pairlist_read` over the well-formed entries `F` when a text `after` follows
that does not start with a blank. -/
theorem read_loop_prefix (E : FileEnv) (file : List Char) (after : List Char)
    (hafter : after = [] ∨ ∃ c r, after = c :: r ∧ sbuff_char_space c = false) :
    ∀ (F : List file_entry), (∀ e ∈ F, entry_ok E e) →
      ∃ N, ∀ (fuel : Nat) (pl : List PAIR_LIST) (order lineno : Nat), N ≤ fuel →
        ∃ lineno2, read_loop E (fuel + F.length) file pl order lineno (file_text F ++ after)
          = read_loop E fuel file (pl ++ entries_of F order lineno) (order + F.length) lineno2
              after := by
  intro F
  induction F with
  | nil =>
    intro _
    refine ⟨0, fun fuel pl order lineno _ => ⟨lineno, ?_⟩⟩
    simp [file_text, entries_of]
  | cons e F ih =>
    intro hF
    have hFr : ∀ x ∈ F, entry_ok E x := fun x hx => hF x (List.mem_cons_of_mem _ hx)
    obtain ⟨N, hN⟩ := ih hFr
    have hstart : file_text F ++ after = [] ∨
        ∃ c r, file_text F ++ after = c :: r ∧ sbuff_char_space c = false := by
      rcases file_text_start E F hFr with h0 | ⟨c, r, h1, h2⟩
      · rw [h0, List.nil_append]; exact hafter
      · exact Or.inr ⟨c, r ++ after, by rw [h1]; rfl, h2⟩
    obtain ⟨M, hM⟩ := read_loop_entry E file e (hF e (List.mem_cons_self _ _))
      (file_text F ++ after) hstart
    refine ⟨N + M, fun fuel pl order lineno hfuel => ?_⟩
    obtain ⟨l2, hl2⟩ := hN fuel (pl ++ [entry_of e order lineno]) (order + 1)
      (lineno + 1 + e.reply.length) (by omega)
    refine ⟨l2, ?_⟩
    have hs : file_text (e :: F) ++ after = entry_text e ++ (file_text F ++ after) := by
      simp [file_text]
    have hf : fuel + (e :: F).length = (fuel + F.length) + 1 := by simp; omega
    rw [hs, hf, hM (fuel + F.length) pl order lineno (by omega), hl2]
    congr 1
    · simp [entries_of]
    · simp; omega

theorem entries_of_field_list :
    ∀ (F : List file_entry) (order lineno : Nat),
      (entries_of F order lineno).map PAIR_LIST.fields = F.map file_entry.fields := by
  intro F
  induction F with
  | nil => intro _ _; rfl
  | cons e F ih =>
    intro order lineno
    rw [entries_of, List.map_cons, List.map_cons, ih]
    rfl

/-- C33 (as amended). Comment lines and lines of blanks are ignored where `pairlist_read`
looks for the name of an entry. For well-formed entries `F1` and `F2` and comment or blank
lines `Ls` between them, of which the first does not start with a blank when an entry
precedes it, the file is read with success and gives the entries of `F1` and `F2` with their
names and maps, as it does without the lines. -/
theorem comment_lines_between_entries (E : FileEnv) (file : List Char)
    (F1 F2 : List file_entry) (Ls : List (List Char))
    (hF1 : ∀ e ∈ F1, entry_ok E e) (hF2 : ∀ e ∈ F2, entry_ok E e)
    (hLs : ∀ L ∈ Ls, comment_line L ∨ blank_line L)
    (hcol : F1 = [] ∨ Ls.flatten = [] ∨ ∃ c r, Ls.flatten = c :: r ∧ sbuff_char_space c = false)
    (hopen : E.fopen file = some (file_text F1 ++ Ls.flatten ++ file_text F2)) :
    ∃ N, ∀ fuel, N ≤ fuel →
      ∃ pl, pairlist_read E fuel file = Read.ok pl ∧
        pl.map PAIR_LIST.fields = (F1 ++ F2).map file_entry.fields := by
  obtain ⟨N2, hN2⟩ := read_loop_entries E file F2 hF2
  have hskip := read_loop_skips_lines E file Ls hLs
  rcases hcol with h1 | hcol
  · subst h1
    refine ⟨N2 + Ls.length, fun fuel hfuel => ?_⟩
    have hf : fuel = (fuel - Ls.length) + Ls.length := by omega
    refine ⟨_, ?_, entries_of_field_list F2 0 (1 + Ls.length)⟩
    rw [pairlist_read, hopen]
    dsimp only
    have h0 : file_text ([] : List file_entry) = [] := rfl
    rw [hf, h0, List.nil_append, hskip, hN2 _ _ _ _ (by omega), List.nil_append]
  · have hafter : Ls.flatten ++ file_text F2 = [] ∨
        ∃ c r, Ls.flatten ++ file_text F2 = c :: r ∧ sbuff_char_space c = false := by
      rcases hcol with h0 | ⟨c, r, h1, h2⟩
      · rw [h0, List.nil_append]; exact file_text_start E F2 hF2
      · exact Or.inr ⟨c, r ++ file_text F2, by rw [h1]; rfl, h2⟩
    obtain ⟨N1, hN1⟩ := read_loop_prefix E file _ hafter F1 hF1
    refine ⟨N1 + N2 + Ls.length + F1.length, fun fuel hfuel => ?_⟩
    obtain ⟨l2, hl2⟩ := hN1 (fuel - F1.length) [] 0 1 (by omega)
    have hf : fuel = (fuel - F1.length) + F1.length := by omega
    have hf2 : fuel - F1.length = (fuel - F1.length - Ls.length) + Ls.length := by omega
    refine ⟨entries_of F1 0 1 ++ entries_of F2 (0 + F1.length) (l2 + Ls.length), ?_, ?_⟩
    · rw [pairlist_read, hopen]
      dsimp only
      rw [List.append_assoc, hf, hl2, hf2, hskip, hN2 _ _ _ _ (by omega), List.nil_append]
    · rw [List.map_append, List.map_append, entries_of_field_list, entries_of_field_list]

theorem comment_lines_between_entries_witness :
    ∃ N, ∀ fuel, N ≤ fuel →
      ∃ pl, pairlist_read (text_env [("users".toList,
            ("bob  Framed-IP-Address == 10.0.0.2\n     Reply-Message = \"hi\"\n"
              ++ "# note\n   \n"
              ++ "bob  Framed-IP-Address == 10.0.0.2\n     Reply-Message = \"hi\"\n").toList)])
          fuel "users".toList = Read.ok pl ∧
        pl.map PAIR_LIST.fields = ([bob_entry] ++ [bob_entry]).map file_entry.fields :=
  comment_lines_between_entries _ "users".toList [bob_entry] [bob_entry]
    ["# note\n".toList, "   \n".toList]
    (fun e he => by rw [List.mem_singleton.mp he]; exact bob_entry_ok)
    (fun e he => by rw [List.mem_singleton.mp he]; exact bob_entry_ok)
    (fun L hL => by
      rcases List.mem_cons.mp hL with h | h
      · exact Or.inl ⟨[], " note".toList, by rw [h]; rfl, by decide, by decide⟩
      · rw [List.mem_singleton.mp h]
        exact Or.inr ⟨"   ".toList, rfl, by decide⟩)
    (Or.inr (Or.inr ⟨'#', _, rfl, rfl⟩)) (by decide)

/-! ## C40 -/

theorem hex_digit_ne_zero (d : Nat) : hex_digit d ≠ 0 := by
  unfold hex_digit
  split <;> omega

theorem snprintf_hex_fits (pos size v : Nat) (h : 3 < size) :
    snprintf_hex pos size v
      = [(pos, 61), (pos + 1, hex_digit (v / 16 % 16)), (pos + 2, hex_digit (v % 16)),
          (pos + 3, 0)] := by
  obtain ⟨n, rfl⟩ : ∃ n, size = n + 4 := ⟨size - 4, by omega⟩
  simp [snprintf_hex, List.enumFrom]

theorem store_append (w1 w2 : List (Nat × Nat)) :
    ∀ buf : Nat → Nat, store buf (w1 ++ w2) = store (store buf w1) w2 := by
  induction w1 with
  | nil => intro buf; rfl
  | cons x w1 ih =>
    intro buf
    obtain ⟨i, v⟩ := x
    exact ih _

/-- The invariant of the loop of `sql_escape_func`: from a state with `outlen ≥ 1`, the
function adds `k ≤ outlen - 1` to `len`, writes only at the indices `pos .. pos + outlen - 1`,
and leaves `k` bytes other than NUL from `pos` on, followed by a NUL. -/
theorem sql_escape_func_loop (char_signed : Bool) (allowed : List Nat) :
    ∀ (inp : List Nat) (pos outlen len : Nat), 1 ≤ outlen →
      ∃ k, k ≤ outlen - 1 ∧
        (sql_escape_func char_signed allowed inp pos outlen len).1 = len + k ∧
        (∀ x ∈ (sql_escape_func char_signed allowed inp pos outlen len).2,
          pos ≤ x.1 ∧ x.1 < pos + outlen) ∧
        ∀ buf : Nat → Nat,
          store buf (sql_escape_func char_signed allowed inp pos outlen len).2 (pos + k) = 0 ∧
          (∀ i, pos ≤ i → i < pos + k →
            store buf (sql_escape_func char_signed allowed inp pos outlen len).2 i ≠ 0) ∧
          (∀ i, i < pos →
            store buf (sql_escape_func char_signed allowed inp pos outlen len).2 i = buf i) := by
  have hstop : ∀ (pos outlen len : Nat), 1 ≤ outlen →
      ∃ k, k ≤ outlen - 1 ∧ ((len, [(pos, 0)]) : Nat × List (Nat × Nat)).1 = len + k ∧
        (∀ x ∈ ((len, [(pos, 0)]) : Nat × List (Nat × Nat)).2, pos ≤ x.1 ∧ x.1 < pos + outlen) ∧
        ∀ buf : Nat → Nat,
          store buf ((len, [(pos, 0)]) : Nat × List (Nat × Nat)).2 (pos + k) = 0 ∧
          (∀ i, pos ≤ i → i < pos + k →
            store buf ((len, [(pos, 0)]) : Nat × List (Nat × Nat)).2 i ≠ 0) ∧
          (∀ i, i < pos → store buf ((len, [(pos, 0)]) : Nat × List (Nat × Nat)).2 i = buf i) := by
    intro pos outlen len h
    refine ⟨0, Nat.zero_le _, rfl, ?_, fun buf => ⟨?_, ?_, ?_⟩⟩
    · intro x hx
      rw [List.mem_singleton.mp hx]
      exact ⟨Nat.le_refl _, by simp; omega⟩
    · simp [store]
    · intro i h1 h2; omega
    · intro i hi
      have : i ≠ pos := by omega
      simp [store, this]
  intro inp
  induction inp with
  | nil => intro pos outlen len h; exact hstop pos outlen len h
  | cons c rest ih =>
    intro pos outlen len h
    rw [sql_escape_func]
    by_cases hc : c % 256 = 0
    · rw [if_pos hc]; exact hstop pos outlen len h
    rw [if_neg hc]
    by_cases hesc : (char_lt_32 char_signed (c % 256) || strchr_null allowed (c % 256)) = true
    · rw [if_pos hesc]
      by_cases h3 : outlen ≤ 3
      · rw [if_pos h3]; exact hstop pos outlen len h
      rw [if_neg h3]
      obtain ⟨k, hk, hlen, hw, hbuf⟩ := ih (pos + 3) (outlen - 3) (len + 3) (by omega)
      dsimp only
      rw [snprintf_hex_fits pos outlen _ (by omega)]
      refine ⟨k + 3, by omega, by rw [hlen]; omega, ?_, fun buf => ?_⟩
      · intro x hx
        rcases List.mem_append.mp hx with hx | hx
        · simp only [List.mem_cons, List.mem_singleton, List.not_mem_nil, or_false] at hx
          rcases hx with rfl | rfl | rfl | rfl <;> dsimp only <;> omega
        · have := hw x hx
          omega
      · rw [store_append]
        obtain ⟨hb0, hb1, hb2⟩ := hbuf (store buf [(pos, 61), (pos + 1, hex_digit (c % 256 / 16 % 16)),
          (pos + 2, hex_digit (c % 256 % 16)), (pos + 3, 0)])
        refine ⟨?_, ?_, ?_⟩
        · rw [show pos + (k + 3) = pos + 3 + k by omega]; exact hb0
        · intro i h1 h2
          by_cases hi : pos + 3 ≤ i
          · exact hb1 i hi (by omega)
          · rw [hb2 i (by omega)]
            have hcase : i = pos ∨ i = pos + 1 ∨ i = pos + 2 := by omega
            rcases hcase with rfl | rfl | rfl
            · simp [store]
            · simp [store, hex_digit_ne_zero]
            · simp [store, hex_digit_ne_zero]
        · intro i hi
          rw [hb2 i (by omega)]
          have e0 : i ≠ pos := by omega
          have e1 : i ≠ pos + 1 := by omega
          have e2 : i ≠ pos + 2 := by omega
          have e3 : i ≠ pos + 3 := by omega
          simp [store, e0, e1, e2, e3]
    · rw [if_neg hesc]
      by_cases h1 : outlen ≤ 1
      · rw [if_pos h1]; exact hstop pos outlen len h
      rw [if_neg h1]
      obtain ⟨k, hk, hlen, hw, hbuf⟩ := ih (pos + 1) (outlen - 1) (len + 1) (by omega)
      dsimp only
      refine ⟨k + 1, by omega, by rw [hlen]; omega, ?_, fun buf => ?_⟩
      · intro x hx
        rcases List.mem_cons.mp hx with rfl | hx
        · dsimp only; omega
        · have := hw x hx
          omega
      · rw [store]
        obtain ⟨hb0, hb1, hb2⟩ := hbuf (fun j => if j = pos then c % 256 else buf j)
        refine ⟨?_, ?_, ?_⟩
        · rw [show pos + (k + 1) = pos + 1 + k by omega]; exact hb0
        · intro i h1 h2
          by_cases hi : pos + 1 ≤ i
          · exact hb1 i hi (by omega)
          · rw [hb2 i (by omega)]
            have hcase : i = pos := by omega
            rw [hcase, if_pos rfl]
            exact hc
        · intro i hi
          rw [hb2 i (by omega)]
          have e0 : i ≠ pos := by omega
          rw [if_neg e0]

/-- C40. For every input, allowed-character string, signedness of `char` and `outlen ≥ 1`,
`sql_escape_func` writes only to the first `outlen` bytes of `out`, returns a length
`len ≤ outlen - 1`, and leaves `out` with `len` bytes other than NUL followed by a NUL at
index `len`. -/
theorem sql_escape_func_in_bounds (char_signed : Bool) (allowed inp : List Nat) (outlen : Nat)
    (buf : Nat → Nat) (h : 1 ≤ outlen) :
    (∀ x ∈ (sql_escape_func char_signed allowed inp 0 outlen 0).2, x.1 < outlen) ∧
      (sql_escape_func char_signed allowed inp 0 outlen 0).1 ≤ outlen - 1 ∧
      store buf (sql_escape_func char_signed allowed inp 0 outlen 0).2
        (sql_escape_func char_signed allowed inp 0 outlen 0).1 = 0 ∧
      ∀ i, i < (sql_escape_func char_signed allowed inp 0 outlen 0).1 →
        store buf (sql_escape_func char_signed allowed inp 0 outlen 0).2 i ≠ 0 := by
  obtain ⟨k, hk, hlen, hw, hbuf⟩ := sql_escape_func_loop char_signed allowed inp 0 outlen 0 h
  obtain ⟨hb0, hb1, _⟩ := hbuf buf
  rw [hlen]
  refine ⟨fun x hx => ?_, by omega, hb0, fun i hi => hb1 i (Nat.zero_le _) hi⟩
  have := hw x hx
  omega

theorem sql_escape_func_in_bounds_witness :
    sql_escape_func true [97, 98, 99, 0] [97, 59, 98, 99] 0 6 0
        = (5, [(0, 97), (1, 61), (2, 51), (3, 66), (4, 0), (4, 98), (5, 0)]) ∧
      1 ≤ 6 ∧
      (∀ x ∈ (sql_escape_func true [97, 98, 99, 0] [97, 59, 98, 99] 0 6 0).2, x.1 < 6) ∧
      (sql_escape_func true [97, 98, 99, 0] [97, 59, 98, 99] 0 6 0).1 ≤ 6 - 1 ∧
      store (fun _ => 255) (sql_escape_func true [97, 98, 99, 0] [97, 59, 98, 99] 0 6 0).2
        (sql_escape_func true [97, 98, 99, 0] [97, 59, 98, 99] 0 6 0).1 = 0 ∧
      ∀ i, i < (sql_escape_func true [97, 98, 99, 0] [97, 59, 98, 99] 0 6 0).1 →
        store (fun _ => 255) (sql_escape_func true [97, 98, 99, 0] [97, 59, 98, 99] 0 6 0).2 i
          ≠ 0 :=
  ⟨by decide, by decide,
    sql_escape_func_in_bounds true [97, 98, 99, 0] [97, 59, 98, 99] 6 (fun _ => 255) (by decide)⟩

/-! ## C7 -/

theorem seen_locals_stages (E : Env) (R : Request) (D : fr_dict_attr_t) (m : List Nat)
    (start attrlen : Nat) (l : Locals) (h : seen_locals E R D m start attrlen = some l) :
    ∃ l0, tag_stage E D m start attrlen = some l0 ∧ decrypt_stage E R D attrlen l0 = Step.go l := by
  unfold seen_locals at h
  cases ht : tag_stage E D m start attrlen with
  | none => rw [ht] at h; exact Option.noConfusion h
  | some l0 =>
    rw [ht] at h
    dsimp only at h
    cases hd : decrypt_stage E R D attrlen l0 with
    | go l2 =>
      rw [hd] at h
      have e : l2 = l := Option.some.inj h
      exact ⟨l0, rfl, by rw [hd, e]⟩
    | raw l2 => rw [hd] at h; exact Option.noConfusion h
    | fail => rw [hd] at h; exact Option.noConfusion h

/-- The first `switch` jumps to `raw` for a fixed-width type when the length is not the width. -/
theorem shape_fixed_other_length (E : Env) (dec : Decoder) (D : fr_dict_attr_t) (m : List Nat)
    (start attrlen packetlen : Nat) (l : Locals) (w : Nat)
    (hw : fixed_width D.type = some w) (hne : l.datalen ≠ w) :
    shape_stage E dec D m start attrlen packetlen l = Shape.raw := by
  cases hT : D.type <;> rw [hT] at hw <;> simp only [fixed_width, Option.some.injEq] at hw
  all_goals first
    | exact Option.noConfusion hw
    | (subst hw; simp [shape_stage, hT, hne])

/-- C7 (as amended). Every pair produced by `fr_radius_decode_pair_value` whose descriptor has
a fixed-width leaf type (byte 1, short 2, integer, date, signed and ipv4-addr 4, ethernet 6,
integer64 and ifid 8, ipv6-addr 16, ipv4-prefix 6) has a value of that width; and when the
descriptor passed in has such a type, each pair produced either is of that descriptor, with
that width, or has an octets descriptor. A value that is not empty and reaches the first
`switch` with a length other than the width, the tag block and the decryption block having
fallen through, is emitted as one pair of the unknown octets descriptor that holds its bytes;
for an untagged, unencrypted descriptor that is every value of another length that is not
empty, with the bytes of the wire. An empty value produces no pair: the function returns 0,
the Chargeable-User-Identity attribute apart. When the tag block is entered for a descriptor
of a type other than string and integer, the function returns an error. The dictionary is
taken to keep its contracts: an unknown attribute is octets, `fr_dict_attr_by_type` finds a
descriptor of the type asked for. -/
theorem fixed_width_pairs_have_their_width (E : Env) (R : Request) (hby : by_type_ok E)
    (hunk : unknown_octets E) (fuel : Nat) (D : fr_dict_attr_t) (m : List Nat)
    (start attrlen packetlen : Nat) :
    (∀ n vps,
        fr_radius_decode_pair_value E R fuel D m start attrlen packetlen = Decoded.ok n vps →
        (∀ vp ∈ vps, width_ok vp)
          ∧ (∀ w, fixed_width D.type = some w →
              ∀ vp ∈ vps, (vp.da = D ∧ vp.vp_length = w) ∨ vp.da.type = PW_TYPE.OCTETS))
      ∧ (∀ w l U, fixed_width D.type = some w → attrlen ≠ 0 → args_ok attrlen packetlen →
          seen_locals E R D m start attrlen = some l → l.datalen ≠ w →
          E.fr_dict_unknown_afrom_fields D.parent D.vendor D.attr = some U →
          E.fr_pair_afrom_da U = true →
          U.type = PW_TYPE.OCTETS
            ∧ fr_radius_decode_pair_value E R (fuel + 1) D m start attrlen packetlen
              = Decoded.ok attrlen
                [⟨U, none, l.datalen, value_data.vp_octets (memrd l.dmem l.data l.datalen)⟩])
      ∧ (∀ w U, fixed_width D.type = some w → D.flags.has_tag = false →
          D.flags.encrypt = FLAG_ENCRYPT.NONE → attrlen ≠ 0 → args_ok attrlen packetlen →
          attrlen ≠ w →
          E.fr_dict_unknown_afrom_fields D.parent D.vendor D.attr = some U →
          E.fr_pair_afrom_da U = true →
          U.type = PW_TYPE.OCTETS
            ∧ fr_radius_decode_pair_value E R (fuel + 1) D m start attrlen packetlen
              = Decoded.ok attrlen
                [⟨U, none, attrlen, value_data.vp_octets (memrd m start attrlen)⟩])
      ∧ (attrlen = 0 → ¬ (D.vendor = 0 ∧ D.attr = E.PW_CHARGEABLE_USER_IDENTITY) →
          fr_radius_decode_pair_value E R (fuel + 1) D m start attrlen packetlen
            = Decoded.ok 0 [])
      ∧ (D.flags.has_tag = true → 1 < attrlen → args_ok attrlen packetlen →
          rd m start < 0x20 ∨ D.flags.encrypt = FLAG_ENCRYPT.TUNNEL_PASSWORD →
          D.type ≠ PW_TYPE.STRING → D.type ≠ PW_TYPE.INTEGER →
          fr_radius_decode_pair_value E R (fuel + 1) D m start attrlen packetlen
            = Decoded.error) := by
  have hprod : ∀ w l U, fixed_width D.type = some w → attrlen ≠ 0 → args_ok attrlen packetlen →
      seen_locals E R D m start attrlen = some l → l.datalen ≠ w →
      E.fr_dict_unknown_afrom_fields D.parent D.vendor D.attr = some U →
      E.fr_pair_afrom_da U = true →
      U.type = PW_TYPE.OCTETS
        ∧ fr_radius_decode_pair_value E R (fuel + 1) D m start attrlen packetlen
          = Decoded.ok attrlen
            [⟨U, none, l.datalen, value_data.vp_octets (memrd l.dmem l.data l.datalen)⟩] := by
    intro w l U hw hne hargs hl hlen hU halloc
    have hUt : U.type = PW_TYPE.OCTETS := hunk _ _ _ _ hU
    obtain ⟨l0, ht, hd⟩ := seen_locals_stages E R D m start attrlen l hl
    refine ⟨hUt, ?_⟩
    rw [fr_radius_decode_pair_value,
      body_from_type_switch E R _ D m start attrlen packetlen l0 l hargs hne ht hd,
      from_type_switch, shape_fixed_other_length E _ D m start attrlen packetlen l w hw hlen]
    exact raw_stage_pair E D U l attrlen hU hUt halloc
  refine ⟨fun n vps h => ⟨?_, ?_⟩, hprod, ?_, ?_, ?_⟩
  · have hall := decode_all_width_ok E R hby hunk fuel D m start attrlen packetlen
    rw [h] at hall
    exact hall
  · intro w hw vp hvp
    cases fuel with
    | zero => exact Decoded.noConfusion h
    | succ fuel =>
      rw [fr_radius_decode_pair_value] at h
      rcases body_cases E R _ D m start attrlen packetlen _ h with
        h1 | ⟨_, ⟨_, h1⟩ | ⟨_, hT, _⟩ | ⟨_, l, h1⟩ | ⟨_, l, _, h1⟩ | ⟨_, l, da, l2, _, hs, h1⟩⟩
      · exact Decoded.noConfusion h1
      · simp only [Decoded.ok.injEq] at h1
        rw [h1.2] at hvp
        exact absurd hvp (List.not_mem_nil _)
      · rw [hT] at hw
        exact Option.noConfusion hw
      · have hall := raw_stage_all_octets E D l attrlen
        rw [← h1] at hall
        exact Or.inr (hall vp hvp)
      · exact absurd h1 (shape_fixed_not_done E _ D m start attrlen packetlen l _ w hw)
      · have hall := alloc_width_ok E hby hunk _ D m start attrlen packetlen l da l2 hs
        rw [← h1] at hall
        obtain ⟨_, len, data, _, hvps⟩ := alloc_stage_ok E da l2 attrlen n vps h1.symm
        rw [hvps, List.mem_singleton] at hvp
        rcases shape_alloc_cases E _ D m start attrlen packetlen l da l2 hs with
          ⟨e1, _, _, _⟩ | ⟨hT, _⟩ | ⟨hT, _⟩ | ⟨hT, _⟩
        · refine Or.inl ⟨by rw [hvp, e1], ?_⟩
          have hwok := hall vp (by rw [hvps, hvp]; exact List.mem_singleton.mpr rfl)
          apply hwok
          rw [hvp]
          show fixed_width da.type = some w
          rw [e1]
          exact hw
        · rw [hT] at hw
          exact Option.noConfusion hw
        · rw [hT] at hw
          exact Option.noConfusion hw
        · rw [hT] at hw
          exact Option.noConfusion hw

  · intro w U hw htag henc hne hargs hlen hU halloc
    exact hprod w (entry_locals E m start attrlen) U hw hne hargs
      (seen_locals_plain E R D m start attrlen htag henc) hlen hU halloc
  · intro h0 hcui
    subst h0
    rw [fr_radius_decode_pair_value]
    simp [decode_pair_value_body, hcui]
  · intro htag h1 hargs hc hS hI
    obtain ⟨a1, a2, a3⟩ := hargs
    have hc2 : ¬ (attrlen > packetlen ∨ (attrlen > 253 ∧ attrlen ≠ packetlen) ∨
        attrlen > 128 * 1024) := by omega
    have hne : attrlen ≠ 0 := by omega
    have ht : tag_stage E D m start attrlen = none := by
      unfold tag_stage
      dsimp only
      rw [if_pos ⟨htag, h1, hc⟩]
      simp only [hS, hI, if_false]
      split <;> rfl
    rw [fr_radius_decode_pair_value]
    simp only [decode_pair_value_body, hc2, if_false, hne, ht]

theorem fixed_width_pairs_have_their_width_witness :
    ((∀ vp ∈ [(⟨demo_attr 5 PW_TYPE.INTEGER no_flags, none, 4, value_data.vp_integer 5⟩ :
          VALUE_PAIR)], width_ok vp)
      ∧ (∀ w, fixed_width (demo_attr 5 PW_TYPE.INTEGER no_flags).type = some w →
          ∀ vp ∈ [(⟨demo_attr 5 PW_TYPE.INTEGER no_flags, none, 4, value_data.vp_integer 5⟩ :
              VALUE_PAIR)],
            (vp.da = demo_attr 5 PW_TYPE.INTEGER no_flags ∧ vp.vp_length = w)
              ∨ vp.da.type = PW_TYPE.OCTETS))
      ∧ ((demo_unknown (some demo_root) 0 5).type = PW_TYPE.OCTETS
        ∧ fr_radius_decode_pair_value (demo_env 0) no_request 1
            (demo_attr 5 PW_TYPE.INTEGER no_flags) [0, 0, 5] 0 3 3
          = Decoded.ok 3 [⟨demo_unknown (some demo_root) 0 5, none, 3,
              value_data.vp_octets (memrd [0, 0, 5] 0 3)⟩])
      ∧ ((demo_unknown (some demo_root) 0 3).type = PW_TYPE.OCTETS
        ∧ fr_radius_decode_pair_value (demo_env 0) no_request 1
            (demo_attr 3 PW_TYPE.IPV6_ADDR no_flags) [1, 2, 3, 4, 5, 6, 7, 8, 9, 10, 11, 12, 13, 14, 15, 16, 17] 0 17 17
          = Decoded.ok 17 [⟨demo_unknown (some demo_root) 0 3, none, 17,
              value_data.vp_octets
                (memrd [1, 2, 3, 4, 5, 6, 7, 8, 9, 10, 11, 12, 13, 14, 15, 16, 17] 0 17)⟩]) :=
  ⟨(fixed_width_pairs_have_their_width (demo_env 0) no_request (demo_by_type_ok 0)
      (demo_unknown_octets 0) 1 (demo_attr 5 PW_TYPE.INTEGER no_flags) [0, 0, 0, 5] 0 4 4).1 4
      [⟨demo_attr 5 PW_TYPE.INTEGER no_flags, none, 4, value_data.vp_integer 5⟩] (by decide),
    (fixed_width_pairs_have_their_width (demo_env 0) no_request (demo_by_type_ok 0)
      (demo_unknown_octets 0) 0 (demo_attr 5 PW_TYPE.INTEGER no_flags) [0, 0, 5] 0 3 3).2.2.1 4
      (demo_unknown (some demo_root) 0 5) rfl rfl rfl (by decide) (by decide) (by decide) rfl rfl,
    (fixed_width_pairs_have_their_width (demo_env 0) no_request (demo_by_type_ok 0)
      (demo_unknown_octets 0) 0 (demo_attr 3 PW_TYPE.IPV6_ADDR no_flags)
      [1, 2, 3, 4, 5, 6, 7, 8, 9, 10, 11, 12, 13, 14, 15, 16, 17] 0 17 17).2.2.1 16
      (demo_unknown (some demo_root) 0 3) rfl rfl rfl (by decide) (by decide) (by decide) rfl
      rfl⟩

/-- C7, counterexample. An empty value under the integer descriptor 5 (the attribute `05 02`)
produces no pair at all: the function returns 0 before the first `switch`. A value of 3 bytes
whose first byte is below `0x20`, under a descriptor of type short that can carry a tag, ends
in an error: the tag block returns -1 for a type other than string and integer. Neither value
is emitted under an octets descriptor. -/
theorem other_length_without_octets_pair :
    fr_radius_decode_pair_value (demo_env 0) no_request 1 (demo_attr 5 PW_TYPE.INTEGER no_flags)
        [5, 2] 2 0 0 = Decoded.ok 0 []
      ∧ fr_radius_decode_pair (demo_env 0) no_request 1 demo_root [5, 2] 0 2 = Decoded.ok 2 []
      ∧ fr_radius_decode_pair_value (demo_env 0) no_request 1
          (demo_attr 9 PW_TYPE.SHORT ⟨true, false, FLAG_ENCRYPT.NONE, 0⟩) [1, 2, 3] 0 3 3
        = Decoded.error := by
  decide


end RadiusDecode
